import Mathlib

/-!
# A turn-based dungeon simulation: binary heaps, path fields, level generation, scheduler, saved files

Shallow embedding of `Dungeon.cpp` (and of the procedural variant `DungeonGeneration.c`
where the two share their code, or where its own code is the subject, as for the monster
turn `do_monster_movement`, the input of the PC `handle_pc_input`, the path field on its
heap of fixed capacity and the event loop of `main`), followed by theorems about it.

* `int` values are integers; 32-bit arithmetic that can leave the `int` range is wrapped
  (`wrapInt32`) or, in the scheduler, ends the run.
* A `T grid[HEIGHT][WIDTH]` array is a function of the row and the column; an index
  outside the array addresses a cell of its own, never another object.
* A file is the list of its bytes.  A variable whose `fread` fails keeps its contents,
  which the open file supplies as a stream of unknown values.
* A `std::vector` is a list; a `Character*` is a position in the roster.
* `rand()` reads a stream of draws; `getch()` reads a list of key codes.
* A loop without a bound of its own takes an iteration budget; the theorems show the
  budget is not what stops the loops they speak about.

The definitions come first, the theorems after them.
-/

set_option autoImplicit false

/-- Index of the parent slot in the implicit binary tree (`parentIdx`). -/
def parentIdx (i : Nat) : Nat := (i - 1) / 2
/-- Index of the left child (`leftIdx`). -/
def leftIdx (i : Nat) : Nat := 2 * i + 1
/-- Index of the right child (`rightIdx`). -/
def rightIdx (i : Nat) : Nat := 2 * i + 2

/-- The `std::swap(heap[i], heap[j])` of two slots of the backing vector. -/
def swapAt {α : Type} [Inhabited α] (heap : List α) (i j : Nat) : List α :=
  (heap.set i (heap.getD j default)).set j (heap.getD i default)

/-- Loop of `heapifyUp`: `while (i > 0)`, compare slot `i` with its parent, swap and
climb, or `break`.  The first argument bounds the number of iterations. -/
def heapifyUpLoop {α : Type} [Inhabited α] (key : α → Int) : Nat → List α → Nat → List α
  | 0, heap, _ => heap
  | fuel + 1, heap, i =>
    if 0 < i then
      let p := parentIdx i
      if key (heap.getD i default) < key (heap.getD p default) then
        heapifyUpLoop key fuel (swapAt heap i p) p
      else heap
    else heap

/-- `heapifyUp(i)`; the index strictly decreases, so `i` iterations are enough. -/
def heapifyUp {α : Type} [Inhabited α] (key : α → Int) (heap : List α) (i : Nat) : List α :=
  heapifyUpLoop key i heap i

/-- Loop of `heapifyDown`: pick the smallest of slot `i` and its two children, stop when
it is `i`, otherwise swap and descend. -/
def heapifyDownLoop {α : Type} [Inhabited α] (key : α → Int) : Nat → List α → Nat → List α
  | 0, heap, _ => heap
  | fuel + 1, heap, i =>
    let l := leftIdx i
    let r := rightIdx i
    let min_i := i
    let min_i := if l < heap.length ∧ key (heap.getD l default) < key (heap.getD min_i default)
      then l else min_i
    let min_i := if r < heap.length ∧ key (heap.getD r default) < key (heap.getD min_i default)
      then r else min_i
    if min_i = i then heap
    else heapifyDownLoop key fuel (swapAt heap i min_i) min_i

/-- `heapifyDown(i)`; the index strictly increases below the size, so `size` iterations
are enough. -/
def heapifyDown {α : Type} [Inhabited α] (key : α → Int) (heap : List α) (i : Nat) : List α :=
  heapifyDownLoop key heap.length heap i

/-- The `push` / `insert` of both heap classes: `push_back` then `heapifyUp(size - 1)`. -/
def heapPush {α : Type} [Inhabited α] (key : α → Int) (heap : List α) (e : α) : List α :=
  heapifyUp key (heap ++ [e]) ((heap ++ [e]).length - 1)

/-- The `pop` of both heap classes: take slot 0, move the last slot to the front,
`pop_back`, `heapifyDown(0)`.  Popping an empty vector is undefined in the source and
yields `none` here. -/
def heapPop {α : Type} [Inhabited α] (key : α → Int) (heap : List α) : Option (α × List α) :=
  match heap with
  | [] => none
  | top :: _ =>
    let heap1 := heap.set 0 (heap.getD (heap.length - 1) default)
    let heap2 := heap1.dropLast
    some (top, heapifyDown key heap2 0)

/-- Event of the scheduler: `(time, c)`; `c` is the roster index standing for the
`Character*`. -/
structure Event where
  time : Int
  c : Nat
deriving DecidableEq, Repr, Inhabited

/-- The `Node` of the path-field heap. -/
structure Node where
  x : Int
  y : Int
  dist : Int
deriving DecidableEq, Repr, Inhabited

namespace EventQueue
def empty (heap : List Event) : Bool := heap.isEmpty
def push (heap : List Event) (e : Event) : List Event := heapPush Event.time heap e
def pop (heap : List Event) : Option (Event × List Event) := heapPop Event.time heap
end EventQueue

namespace NodeHeap
def empty (array : List Node) : Bool := array.isEmpty
def insert (array : List Node) (n : Node) : List Node := heapPush Node.dist array n
def pop (array : List Node) : Option (Node × List Node) := heapPop Node.dist array
end NodeHeap


namespace EventQueue
/-- Push the events of `es`, in that order, onto an empty queue. -/
def pushAll (es : List Event) : List Event := es.foldl push []

/-- Driver `while (!eq.empty()) out.push_back(eq.pop())`, at most `fuel` iterations. -/
def popAllLoop : Nat → List Event → List Event
  | 0, _ => []
  | fuel + 1, heap =>
    if empty heap then []
    else match pop heap with
      | none => []
      | some (e, rest) => e :: popAllLoop fuel rest

/-- Pop until the queue is empty; a queue of `n` events needs `n` iterations. -/
def popAll (heap : List Event) : List Event := popAllLoop heap.length heap
end EventQueue

/-- Min-heap order on the backing vector: every slot is at least its parent. -/
def IsHeap {α : Type} [Inhabited α] (key : α → Int) (l : List α) : Prop :=
  ∀ j, 0 < j → j < l.length →
    key (l.getD (parentIdx j) default) ≤ key (l.getD j default)

/-- Heap order everywhere except between slot `i` and its parent; the children of `i`
already dominate the parent of `i`. -/
def UpInv {α : Type} [Inhabited α] (key : α → Int) (l : List α) (i : Nat) : Prop :=
  (∀ j, 0 < j → j < l.length → j ≠ i →
      key (l.getD (parentIdx j) default) ≤ key (l.getD j default)) ∧
  (∀ j, 0 < j → j < l.length → parentIdx j = i → 0 < i →
      key (l.getD (parentIdx i) default) ≤ key (l.getD j default))

/-- Heap order everywhere except between slot `i` and its children; the children of `i`
already dominate the parent of `i`. -/
def DownInv {α : Type} [Inhabited α] (key : α → Int) (l : List α) (i : Nat) : Prop :=
  (∀ j, 0 < j → j < l.length → parentIdx j ≠ i →
      key (l.getD (parentIdx j) default) ≤ key (l.getD j default)) ∧
  (∀ j, 0 < j → j < l.length → parentIdx j = i → 0 < i →
      key (l.getD (parentIdx i) default) ≤ key (l.getD j default))

/-- The index selected by one pass of the `heapifyDown` loop body. -/
def minChild {α : Type} [Inhabited α] (key : α → Int) (heap : List α) (i : Nat) : Nat :=
  let l := leftIdx i
  let r := rightIdx i
  let min_i := i
  let min_i := if l < heap.length ∧ key (heap.getD l default) < key (heap.getD min_i default)
    then l else min_i
  if r < heap.length ∧ key (heap.getD r default) < key (heap.getD min_i default)
    then r else min_i

/-! ## Grids and the path field -/

def WIDTH : Int := 80
def HEIGHT : Int := 21
def INT32_MAX : Int := 2147483647

/-- A `T grid[HEIGHT][WIDTH]` array, read as `grid y x`.  Only cells inside the array
bounds are meaningful. -/
abbrev Grid (α : Type) := Int → Int → α

/-- The assignment `grid[y][x] = v`. -/
def Grid.set {α : Type} (g : Grid α) (y x : Int) (v : α) : Grid α :=
  fun r c => if r = y ∧ c = x then v else g r c

/-- The values `lo, lo + 1, ..., hi - 1` taken by the counter of
`for (i = lo; i < hi; i++)`. -/
def intRange (lo hi : Int) : List Int :=
  (List.range (hi - lo).toNat).map fun (k : Nat) => lo + (k : Int)

/-- The nested loops `for (r < HEIGHT) for (c < WIDTH) grid[r][c] = v`. -/
def Grid.fill {α : Type} (g : Grid α) (v : α) : Grid α :=
  (intRange 0 HEIGHT).foldl
    (fun g r => (intRange 0 WIDTH).foldl (fun g c => g.set r c v) g) g

/-- `Dungeon::inBounds`. -/
def inBounds (x y : Int) : Bool :=
  decide (x ≥ 0 ∧ x < WIDTH ∧ y ≥ 0 ∧ y < HEIGHT)

/-- Two's-complement result of 32-bit `int` arithmetic. -/
def wrapInt32 (v : Int) : Int := (v + 2147483648) % 4294967296 - 2147483648

/-- The `dirs[8][2]` table of both Dijkstra routines, as `(dx, dy)`. -/
def dirs : List (Int × Int) :=
  [(-1, 0), (1, 0), (0, -1), (0, 1), (-1, -1), (-1, 1), (1, -1), (1, 1)]

/-- Body of the `for (i < 8)` loop of `djikstraForTunnel` for one direction. -/
def relaxTunnel (hardness : Grid Int) (u : Node) (st : Grid Int × List Node)
    (dir : Int × Int) : Grid Int × List Node :=
  let nx := u.x + dir.1
  let ny := u.y + dir.2
  if !inBounds nx ny then st
  else if hardness ny nx ≠ 255 then
    let cost : Int := 1
    let cost := if hardness ny nx > 0 ∧ hardness ny nx < 255
      then wrapInt32 (cost + Int.tdiv (hardness ny nx) 85) else cost
    let alt := wrapInt32 (u.dist + cost)
    if alt < st.1 ny nx then (st.1.set ny nx alt, NodeHeap.insert st.2 ⟨nx, ny, alt⟩)
    else st
  else st

/-- The `while (!h.empty())` loop of `djikstraForTunnel`, at most `fuel` iterations. -/
def tunnelLoop (hardness : Grid Int) : Nat → Grid Int × List Node → Grid Int × List Node
  | 0, st => st
  | fuel + 1, st =>
    if NodeHeap.empty st.2 then st
    else match NodeHeap.pop st.2 with
      | none => st
      | some (u, h) =>
        if u.dist > st.1 u.y u.x then tunnelLoop hardness fuel (st.1, h)
        else tunnelLoop hardness fuel (dirs.foldl (relaxTunnel hardness u) (st.1, h))

/-- Iteration budget of the Dijkstra loops.  Every iteration lowers
`2 * Σ (dist + 2^31) + heap size`, which starts below this number. -/
def DIJKSTRA_FUEL : Nat := 2 * (80 * 21) * 4294967296 + 2

/-- State of `djikstraForTunnel` when its loop stops: field and heap. -/
def djikstraForTunnelRun (hardness : Grid Int) (disTunneling : Grid Int) (x y : Int) :
    Grid Int × List Node :=
  let dist := disTunneling.fill INT32_MAX
  let dist := dist.set y x 0
  let h := NodeHeap.insert [] ⟨x, y, 0⟩
  tunnelLoop hardness DIJKSTRA_FUEL (dist, h)

/-- `Dungeon::djikstraForTunnel(x, y)`: the new contents of `disTunneling`. -/
def djikstraForTunnel (hardness : Grid Int) (disTunneling : Grid Int) (x y : Int) : Grid Int :=
  (djikstraForTunnelRun hardness disTunneling x y).1

/-- Body of the `for (i < 8)` loop of `djikstraForNonTunnel` for one direction. -/
def relaxNonTunnel (hardness : Grid Int) (u : Node) (st : Grid Int × List Node)
    (dir : Int × Int) : Grid Int × List Node :=
  let nx := u.x + dir.1
  let ny := u.y + dir.2
  if !inBounds nx ny then st
  else if hardness ny nx = 0 then
    let alt := wrapInt32 (u.dist + 1)
    if alt < st.1 ny nx then (st.1.set ny nx alt, NodeHeap.insert st.2 ⟨nx, ny, alt⟩)
    else st
  else st

/-- The `while (!h.empty())` loop of `djikstraForNonTunnel`, at most `fuel` iterations. -/
def nonTunnelLoop (hardness : Grid Int) : Nat → Grid Int × List Node → Grid Int × List Node
  | 0, st => st
  | fuel + 1, st =>
    if NodeHeap.empty st.2 then st
    else match NodeHeap.pop st.2 with
      | none => st
      | some (u, h) =>
        if u.dist > st.1 u.y u.x then nonTunnelLoop hardness fuel (st.1, h)
        else nonTunnelLoop hardness fuel (dirs.foldl (relaxNonTunnel hardness u) (st.1, h))

/-- State of `djikstraForNonTunnel` when its loop stops: field and heap. -/
def djikstraForNonTunnelRun (hardness : Grid Int) (disNonTunneling : Grid Int) (x y : Int) :
    Grid Int × List Node :=
  let dist := disNonTunneling.fill INT32_MAX
  let dist := dist.set y x 0
  let h := NodeHeap.insert [] ⟨x, y, 0⟩
  nonTunnelLoop hardness DIJKSTRA_FUEL (dist, h)

/-- `Dungeon::djikstraForNonTunnel(x, y)`: the new contents of `disNonTunneling`. -/
def djikstraForNonTunnel (hardness : Grid Int) (disNonTunneling : Grid Int) (x y : Int) :
    Grid Int :=
  (djikstraForNonTunnelRun hardness disNonTunneling x y).1


/-! ### Specification side: weighted walks on the 8-connected grid -/

/-- Both loop bodies as one function of the mode's edge rule: `pass h` says whether a cell
of hardness `h` may be entered, `cost h` is the computed edge weight. -/
def relaxWith (pass : Int → Bool) (cost : Int → Int) (hardness : Grid Int) (u : Node)
    (st : Grid Int × List Node) (dir : Int × Int) : Grid Int × List Node :=
  let nx := u.x + dir.1
  let ny := u.y + dir.2
  if !inBounds nx ny then st
  else if pass (hardness ny nx) then
    let alt := wrapInt32 (u.dist + cost (hardness ny nx))
    if alt < st.1 ny nx then (st.1.set ny nx alt, NodeHeap.insert st.2 ⟨nx, ny, alt⟩)
    else st
  else st

/-- Both `while` loops as one function of the mode's edge rule. -/
def loopWith (pass : Int → Bool) (cost : Int → Int) (hardness : Grid Int) :
    Nat → Grid Int × List Node → Grid Int × List Node
  | 0, st => st
  | fuel + 1, st =>
    if NodeHeap.empty st.2 then st
    else match NodeHeap.pop st.2 with
      | none => st
      | some (u, h) =>
        if u.dist > st.1 u.y u.x then loopWith pass cost hardness fuel (st.1, h)
        else loopWith pass cost hardness fuel
          (dirs.foldl (relaxWith pass cost hardness u) (st.1, h))

/-- Edge rule of `djikstraForTunnel`: the test `hardness != 255`. -/
def tunnelPass (h : Int) : Bool := decide (h ≠ 255)
/-- Edge weight computed by `djikstraForTunnel`. -/
def tunnelCost (h : Int) : Int :=
  if h > 0 ∧ h < 255 then wrapInt32 (1 + Int.tdiv h 85) else 1
/-- Edge rule of `djikstraForNonTunnel`: the test `hardness == 0`. -/
def nonTunnelPass (h : Int) : Bool := decide (h = 0)
/-- Edge weight of `djikstraForNonTunnel`. -/
def nonTunnelCost (_ : Int) : Int := 1

/-- A cell `(x, y)` of the grid. -/
abbrev Cell := Int × Int

/-- 8-connected adjacency: the cells differ, by at most one in each coordinate. -/
def adjacent8 (a b : Cell) : Prop :=
  a ≠ b ∧ (b.1 - a.1).natAbs ≤ 1 ∧ (b.2 - a.2).natAbs ≤ 1

instance (a b : Cell) : Decidable (adjacent8 a b) := by
  unfold adjacent8; infer_instance

/-- `Walk enter a p`: starting from `a`, the cells of `p` are entered one after the other,
each 8-adjacent to the one before, inside the grid and allowed by `enter`. -/
def Walk (enter : Cell → Bool) : Cell → List Cell → Prop
  | _, [] => True
  | a, b :: rest =>
    (adjacent8 a b ∧ inBounds b.1 b.2 = true ∧ enter b = true) ∧ Walk enter b rest

/-- Total weight of a walk: the sum of the weights of the entered cells. -/
def walkCost (w : Cell → Int) (p : List Cell) : Int := (p.map w).sum

/-- Last cell of a walk that starts at `a`. -/
def walkEnd (a : Cell) (p : List Cell) : Cell := p.getLastD a

/-- All cells of the grid. -/
def allCells : List Cell :=
  (List.range 1680).map fun i => (((i % 80 : Nat) : Int), ((i / 80 : Nat) : Int))

/-- The `enter` predicate of a mode on a hardness grid. -/
def enterOf (pass : Int → Bool) (hardness : Grid Int) : Cell → Bool :=
  fun c => pass (hardness c.2 c.1)

/-- The weight of entering a cell in a mode on a hardness grid. -/
def weightOf (cost : Int → Int) (hardness : Grid Int) : Cell → Int :=
  fun c => cost (hardness c.2 c.1)

/-- Loop invariant of the Dijkstra loops, first part.  `L` lists the cells reached so
far (those whose field value is not the sentinel). -/
structure DCore (pass : Int → Bool) (cost : Int → Int) (hardness : Grid Int) (s : Cell)
    (L : List Cell) (dist : Grid Int) (heap : List Node) : Prop where
  src0 : dist s.2 s.1 = 0
  nodup : L.Nodup
  inb : ∀ c ∈ L, inBounds c.1 c.2 = true
  fin : ∀ c : Cell, inBounds c.1 c.2 = true → (dist c.2 c.1 ≠ INT32_MAX ↔ c ∈ L)
  bound : ∀ c ∈ L, 0 ≤ dist c.2 c.1 ∧ dist c.2 c.1 ≤ 3 * ((L.length : Int) - 1)
  path : ∀ c ∈ L, ∃ p, Walk (enterOf pass hardness) s p ∧ walkEnd s p = c ∧
    walkCost (weightOf cost hardness) p = dist c.2 c.1
  heapOK : ∀ n ∈ heap, inBounds n.x n.y = true ∧ dist n.y n.x ≤ n.dist ∧
    n.dist ≤ 3 * ((L.length : Int) - 1)

/-- The edge from `c` in direction `dir` is relaxed in `dist`. -/
def RelaxedEdge (pass : Int → Bool) (cost : Int → Int) (hardness : Grid Int)
    (dist : Grid Int) (c : Cell) (dir : Int × Int) : Prop :=
  inBounds (c.1 + dir.1) (c.2 + dir.2) = true →
    pass (hardness (c.2 + dir.2) (c.1 + dir.1)) = true →
      dist (c.2 + dir.2) (c.1 + dir.1) ≤
        dist c.2 c.1 + cost (hardness (c.2 + dir.2) (c.1 + dir.1))

/-- A reached cell is settled when its current value is still queued, or all its
outgoing edges are relaxed. -/
def Settled (pass : Int → Bool) (cost : Int → Int) (hardness : Grid Int)
    (dist : Grid Int) (heap : List Node) (c : Cell) : Prop :=
  (⟨c.1, c.2, dist c.2 c.1⟩ : Node) ∈ heap ∨
    ∀ dir ∈ dirs, RelaxedEdge pass cost hardness dist c dir

/-- Loop invariant at the head of the `while` loop. -/
structure DFull (pass : Int → Bool) (cost : Int → Int) (hardness : Grid Int) (s : Cell)
    (L : List Cell) (dist : Grid Int) (heap : List Node) : Prop where
  core : DCore pass cost hardness s L dist heap
  settled : ∀ c ∈ L, Settled pass cost hardness dist heap c

/-- Invariant inside the `for` loop that expands the popped node `u`, after the
directions in `done`. -/
structure DPart (pass : Int → Bool) (cost : Int → Int) (hardness : Grid Int) (s : Cell)
    (L : List Cell) (dist : Grid Int) (heap : List Node) (u : Node)
    (done : List (Int × Int)) : Prop where
  core : DCore pass cost hardness s L dist heap
  uin : (u.x, u.y) ∈ L
  udist : dist u.y u.x = u.dist
  settled : ∀ c ∈ L, c ≠ (u.x, u.y) → Settled pass cost hardness dist heap c
  doneOK : ∀ dir ∈ done, RelaxedEdge pass cost hardness dist (u.x, u.y) dir

/-- Termination measure of the Dijkstra loops, field part: the field values of all cells,
each shifted to be non-negative. -/
def fieldSum (dist : Grid Int) : Nat :=
  (allCells.map fun c => (dist c.2 c.1 + 2147483648).toNat).sum

/-- Termination measure of the Dijkstra loops. -/
def dijkstraMeasure (st : Grid Int × List Node) : Nat := 2 * fieldSum st.1 + st.2.length

/-- Both Dijkstra routines as one function of the mode's edge rule: reset the field, set
the source to 0, insert the source node, run the loop. -/
def runWith (pass : Int → Bool) (cost : Int → Int) (hardness : Grid Int) (old : Grid Int)
    (x y : Int) : Grid Int × List Node :=
  loopWith pass cost hardness DIJKSTRA_FUEL
    ((old.fill INT32_MAX).set y x 0, NodeHeap.insert [] ⟨x, y, 0⟩)

/-- Tunneling mode, in the words of the specification: a step into a cell is allowed iff
the cell's hardness is not 255. -/
def specTunnelEnter (hardness : Grid Int) (c : Cell) : Bool := decide (hardness c.2 c.1 ≠ 255)

/-- Tunneling mode, in the words of the specification: entering a cell of hardness `h`
costs `1` when `h = 0` and `1 + floor(h / 85)` otherwise. -/
def specTunnelWeight (hardness : Grid Int) (c : Cell) : Int :=
  if hardness c.2 c.1 = 0 then 1 else 1 + hardness c.2 c.1 / 85

/-- Non-tunneling mode, in the words of the specification: a step into a cell is allowed
iff the cell's hardness is exactly 0. -/
def specNonTunnelEnter (hardness : Grid Int) (c : Cell) : Bool := decide (hardness c.2 c.1 = 0)

/-- Non-tunneling mode: every step has weight 1. -/
def specNonTunnelWeight (_ : Cell) : Int := 1

/-! ## Dungeon state -/

def MAX_ROOMS : Int := 10
def DEFAULT_NUMMON : Int := 10
def PC_LIGHT_RADIUS : Int := 3
/-- Largest value returned by the C library `rand()`. -/
def RAND_MAX : Nat := 2147483647

/-- State of the C library random generator: the sequence of values the successive calls
to `rand()` return, and the number of calls made so far. -/
structure Rng where
  stream : Nat → Nat
  pos : Nat

/-- One call of `rand()`: a value in `0 .. RAND_MAX` and the advanced generator. -/
def rand (rng : Rng) : Int × Rng :=
  (((rng.stream rng.pos % (RAND_MAX + 1) : Nat) : Int), { rng with pos := rng.pos + 1 })

inductive CharType where
  | PC_TYPE
  | NPC_TYPE
deriving DecidableEq, Repr

/-- A `Character`.  The members that only the `PC` subclass has (`remembered_map`,
`noFog`, `teleporting`, the teleport cursor) are carried by every record and only used
when `type = PC_TYPE`. -/
structure Character where
  type : CharType
  alive : Bool
  x : Int
  y : Int
  speed : Int
  turn : Int
  hp : Int
  btype : Nat
  symbol : Char
  remembered_map : Grid Char
  noFog : Bool
  teleporting : Bool
  teleportXCoordinates : Int
  teleportYCoordinates : Int

structure Room where
  x : Int
  y : Int
  w : Int
  h : Int
deriving DecidableEq, Repr

/-- The `Dungeon` object.  `rooms` holds the entries `rooms[0 .. room_count - 1]`; an
`Event` refers to a character by its position in `characters`. -/
structure Dungeon where
  hardness : Grid Int
  base_map : Grid Char
  dungeon : Grid Char
  disTunneling : Grid Int
  disNonTunneling : Grid Int
  pc_x : Int
  pc_y : Int
  rooms : List Room
  upCount : Int
  downCount : Int
  up_xCoord : Int
  up_yCoord : Int
  down_xCoord : Int
  down_yCoord : Int
  global_num_monsters : Int
  characters : List Character
  pc_is_alive : Bool
  changedFloor : Bool

/-- The member `room_count`. -/
def Dungeon.room_count (d : Dungeon) : Int := d.rooms.length

/-- The `Dungeon()` constructor. -/
def Dungeon.new : Dungeon :=
  { hardness := fun _ _ => 0
    base_map := fun _ _ => ' '
    dungeon := fun _ _ => ' '
    disTunneling := fun _ _ => INT32_MAX
    disNonTunneling := fun _ _ => INT32_MAX
    pc_x := 0
    pc_y := 0
    rooms := []
    upCount := 0
    downCount := 0
    up_xCoord := 0
    up_yCoord := 0
    down_xCoord := 0
    down_yCoord := 0
    global_num_monsters := DEFAULT_NUMMON
    characters := []
    pc_is_alive := true
    changedFloor := false }

/-- `Dungeon::isImmutableRock`. -/
def Dungeon.isImmutableRock (d : Dungeon) (x y : Int) : Bool := d.hardness y x == 255

/-- `Dungeon::pcCanWalkOn`. -/
def pcCanWalkOn (cell : Char) : Bool :=
  cell == '.' || cell == '#' || cell == '<' || cell == '>'

/-- `Dungeon::isFloor`. -/
def Dungeon.isFloor (d : Dungeon) (x y : Int) : Bool := pcCanWalkOn (d.base_map y x)

/-! ## Level generation -/

/-- Body of the grid initialisation loops of `main` and `newLevel` for the cell `(x, y)`:
the border gets hardness 255, every other cell a random hardness in `1 .. 254`. -/
def initCell (st : Dungeon × Rng) (c : Cell) : Dungeon × Rng :=
  let d := st.1
  let x := c.1
  let y := c.2
  if x = 0 ∨ x = WIDTH - 1 ∨ y = 0 ∨ y = HEIGHT - 1 then
    ({ d with hardness := d.hardness.set y x 255, base_map := d.base_map.set y x ' ' }, st.2)
  else
    let r := rand st.2
    ({ d with hardness := d.hardness.set y x (r.1 % 254 + 1),
              base_map := d.base_map.set y x ' ' }, r.2)

/-- The grid initialisation of `main` and `newLevel` (`initializeDungeon` in the
procedural variant): rows from 0 to 20, in each row the columns from 0 to 79. -/
def initializeDungeon (d : Dungeon) (rng : Rng) : Dungeon × Rng :=
  allCells.foldl initCell (d, rng)

/-- `fillRoom`. -/
def fillRoom (d : Dungeon) (w h x y : Int) : Dungeon :=
  (intRange y (y + h)).foldl
    (fun d row => (intRange x (x + w)).foldl
      (fun d col => { d with base_map := d.base_map.set row col '.',
                             hardness := d.hardness.set row col 0 }) d) d

/-- `isValidRoom`. -/
def isValidRoom (d : Dungeon) (w h x y : Int) : Bool :=
  if w < 1 ∨ h < 1 ∨ w + x ≥ WIDTH - 1 ∨ h + y ≥ HEIGHT - 1 then false
  else (intRange y (y + h)).all fun row =>
    (intRange x (x + w)).all fun col => d.base_map row col == ' '

/-- The `while (attempts > 0 && c < 6)` loop of `generateRooms`; `c` is the number of
rooms recorded so far. -/
def generateRoomsLoop : Nat → Dungeon → Rng → Dungeon × Rng
  | 0, d, rng => (d, rng)
  | attempts + 1, d, rng =>
    if d.room_count < 6 then
      let r1 := rand rng
      let rw := r1.1 % 6 + 4
      let r2 := rand r1.2
      let rh := r2.1 % 4 + 3
      let r3 := rand r2.2
      let rx := r3.1 % (WIDTH - rw - 2) + 1
      let r4 := rand r3.2
      let ry := r4.1 % (HEIGHT - rh - 2) + 1
      if isValidRoom d rw rh rx ry then
        let d1 := fillRoom d rw rh rx ry
        generateRoomsLoop attempts { d1 with rooms := d1.rooms ++ [⟨rx, ry, rw, rh⟩] } r4.2
      else generateRoomsLoop attempts d r4.2
    else (d, rng)

/-- `generateRooms`: 2000 attempts, at most 6 rooms, recorded from slot 0. -/
def generateRooms (d : Dungeon) (rng : Rng) : Dungeon × Rng :=
  generateRoomsLoop 2000 { d with rooms := [] } rng

/-- Body of both corridor loops: carve the cell `(x1, y1)` unless it is room floor. -/
def carveCell (d : Dungeon) (x1 y1 : Int) : Dungeon :=
  if inBounds x1 y1 then
    if d.base_map y1 x1 ≠ '.' then
      { d with base_map := d.base_map.set y1 x1 '#', hardness := d.hardness.set y1 x1 0 }
    else d
  else d

/-- The loop `while (x1 != x2)` of `connectRoomsViaCorridor`; returns the dungeon and the
final `x1`. -/
def carveX : Nat → Dungeon → Int → Int → Int → Dungeon × Int
  | 0, d, x1, _, _ => (d, x1)
  | fuel + 1, d, x1, y1, x2 =>
    if x1 ≠ x2 then carveX fuel (carveCell d x1 y1) (x1 + if x2 > x1 then 1 else -1) y1 x2
    else (d, x1)

/-- The loop `while (y1 != y2)` of `connectRoomsViaCorridor`. -/
def carveY : Nat → Dungeon → Int → Int → Int → Dungeon × Int
  | 0, d, _, y1, _ => (d, y1)
  | fuel + 1, d, x1, y1, y2 =>
    if y1 ≠ y2 then carveY fuel (carveCell d x1 y1) x1 (y1 + if y2 > y1 then 1 else -1) y2
    else (d, y1)

/-- Body of the `for (i = 1; i < room_count; i++)` loop of `connectRoomsViaCorridor` for
the rooms `a = rooms[i-1]` and `b = rooms[i]`.  Each `while` loop moves its coordinate one
step towards the target, so the distance bounds its iterations. -/
def connectPair (d : Dungeon) (a b : Room) : Dungeon :=
  let x1 := a.x + Int.tdiv a.w 2
  let y1 := a.y + Int.tdiv a.h 2
  let x2 := b.x + Int.tdiv b.w 2
  let y2 := b.y + Int.tdiv b.h 2
  let s1 := carveX (x2 - x1).natAbs d x1 y1 x2
  (carveY (y2 - y1).natAbs s1.1 s1.2 y1 y2).1

/-- `connectRoomsViaCorridor`. -/
def connectRoomsViaCorridor (d : Dungeon) : Dungeon :=
  if d.room_count < 2 then d
  else (d.rooms.zip d.rooms.tail).foldl (fun d p => connectPair d p.1 p.2) d

/-- The `while (!upFlag || !downFlag)` loop of `placeStairs`, at most `fuel` iterations;
`none` when the budget ends before both stairs are placed. -/
def placeStairsLoop : Nat → Bool → Bool → Dungeon → Rng → Option (Dungeon × Rng)
  | 0, upFlag, downFlag, d, rng => if !upFlag || !downFlag then none else some (d, rng)
  | fuel + 1, upFlag, downFlag, d, rng =>
    if !upFlag || !downFlag then
      let r1 := rand rng
      let up_x := r1.1 % WIDTH
      let r2 := rand r1.2
      let up_y := r2.1 % HEIGHT
      let r3 := rand r2.2
      let down_x := r3.1 % WIDTH
      let r4 := rand r3.2
      let down_y := r4.1 % HEIGHT
      let s1 : Dungeon × Bool :=
        if !upFlag then
          if d.base_map up_y up_x = '.' ∨ d.base_map up_y up_x = '#' then
            ({ d with base_map := d.base_map.set up_y up_x '<', up_xCoord := up_x,
                      up_yCoord := up_y, upCount := 1 }, true)
          else (d, upFlag)
        else (d, upFlag)
      let s2 : Dungeon × Bool :=
        if !downFlag then
          if (s1.1.base_map down_y down_x = '.' ∨ s1.1.base_map down_y down_x = '#')
              ∧ ¬ (up_x = down_x ∧ up_y = down_y) then
            ({ s1.1 with base_map := s1.1.base_map.set down_y down_x '>',
                         down_xCoord := down_x, down_yCoord := down_y, downCount := 1 }, true)
          else (s1.1, downFlag)
        else (s1.1, downFlag)
      placeStairsLoop fuel s1.2 s2.2 s2.1 r4.2
    else some (d, rng)

/-- `placeStairs`, with a budget for its rejection-sampling loop. -/
def placeStairs (fuel : Nat) (d : Dungeon) (rng : Rng) : Option (Dungeon × Rng) :=
  placeStairsLoop fuel false false d rng


/-! ### Specification side: rooms -/

/-- The cell `(x, y)` is covered by the room's rectangle. -/
def Room.covers (r : Room) (x y : Int) : Prop :=
  r.x ≤ x ∧ x < r.x + r.w ∧ r.y ≤ y ∧ y < r.y + r.h

/-- The room lies strictly inside the border of the grid. -/
def Room.interior (r : Room) : Prop :=
  1 ≤ r.x ∧ r.x + r.w - 1 ≤ 78 ∧ 1 ≤ r.y ∧ r.y + r.h - 1 ≤ 19

/-- The centre `(x + w/2, y + h/2)` used by `connectRoomsViaCorridor`. -/
def Room.centre (r : Room) : Cell := (r.x + Int.tdiv r.w 2, r.y + Int.tdiv r.h 2)

/-- Invariant of `generateRooms`: the recorded rooms have the drawn sizes, lie inside
the border, are floor (`'.'`) on all their cells, and are pairwise disjoint. -/
structure RoomsInv (d : Dungeon) : Prop where
  size : ∀ r ∈ d.rooms, 4 ≤ r.w ∧ r.w ≤ 9 ∧ 3 ≤ r.h ∧ r.h ≤ 6
  inside : ∀ r ∈ d.rooms, r.interior
  floor : ∀ r ∈ d.rooms, ∀ x y, r.covers x y → d.base_map y x = '.'
  disjoint : d.rooms.Pairwise fun a b => ¬ ∃ x y, a.covers x y ∧ b.covers x y

/-- Two 8-adjacent cells inside the grid, both of hardness 0. -/
def ZeroAdj (hardness : Grid Int) (u v : Cell) : Prop :=
  adjacent8 u v ∧ (inBounds u.1 u.2 = true ∧ hardness u.2 u.1 = 0) ∧
    (inBounds v.1 v.2 = true ∧ hardness v.2 v.1 = 0)

/-- Connected through cells of hardness 0. -/
def Conn (hardness : Grid Int) : Cell → Cell → Prop := Relation.ReflTransGen (ZeroAdj hardness)

/-- Every room-floor cell (`'.'`) inside the grid has hardness 0. -/
def FloorZero (d : Dungeon) : Prop :=
  ∀ x y, inBounds x y = true → d.base_map y x = '.' → d.hardness y x = 0

/-- What corridor carving keeps: cells of hardness 0 stay so, the room-floor cells and
the recorded rooms are the same. -/
structure Carved (d d1 : Dungeon) : Prop where
  mono : ∀ x y, d.hardness y x = 0 → d1.hardness y x = 0
  dots : ∀ x y, d1.base_map y x = '.' ↔ d.base_map y x = '.'
  rooms : d1.rooms = d.rooms

/-- The cell is on the border of the grid: `x = 0`, `x = 79`, `y = 0` or `y = 20`. -/
def onBorder (x y : Int) : Prop := x = 0 ∨ x = 79 ∨ y = 0 ∨ y = 20

/-- Perimeter invariant: every border cell of the grid has hardness 255. -/
def Perimeter (hardness : Grid Int) : Prop :=
  ∀ x y, inBounds x y = true → onBorder x y → hardness y x = 255

/-- State of one cell after grid initialisation: unmodified floor kind, hardness 255 on
the border and `1 .. 254` elsewhere. -/
def FreshCell (d : Dungeon) (c : Cell) : Prop :=
  d.base_map c.2 c.1 = ' ' ∧ (onBorder c.1 c.2 → d.hardness c.2 c.1 = 255) ∧
    (¬ onBorder c.1 c.2 → 1 ≤ d.hardness c.2 c.1 ∧ d.hardness c.2 c.1 ≤ 254)

/-- The centre of the room is inside the grid and is room floor. -/
def GoodRoom (d : Dungeon) (r : Room) : Prop :=
  inBounds r.centre.1 r.centre.2 = true ∧ d.base_map r.centre.2 r.centre.1 = '.'

/-- The centre of the room is off the border. -/
def Room.centreInside (r : Room) : Prop :=
  (1 ≤ r.centre.1 ∧ r.centre.1 ≤ 78) ∧ (1 ≤ r.centre.2 ∧ r.centre.2 ≤ 19)

/-- The room that the first attempt of `generateRooms` draws. -/
def firstRoom (rng : Rng) : Room :=
  let r1 := rand rng
  let rw := r1.1 % 6 + 4
  let r2 := rand r1.2
  let rh := r2.1 % 4 + 3
  let r3 := rand r2.2
  let rx := r3.1 % (WIDTH - rw - 2) + 1
  let r4 := rand r3.2
  let ry := r4.1 % (HEIGHT - rh - 2) + 1
  ⟨rx, ry, rw, rh⟩

/-! ## Characters -/

/-- The `Character()` base constructor. -/
def Character.new : Character :=
  { type := CharType.NPC_TYPE
    alive := true
    x := 0
    y := 0
    speed := 10
    turn := 0
    hp := 10
    btype := 0
    symbol := '?'
    remembered_map := fun _ _ => ' '
    noFog := false
    teleporting := false
    teleportXCoordinates := 0
    teleportYCoordinates := 0 }

/-- The `PC()` constructor. -/
def PC.new : Character :=
  { Character.new with
    type := CharType.PC_TYPE
    alive := true
    speed := 10
    hp := 50
    symbol := '@'
    btype := 0
    noFog := false
    teleporting := false
    remembered_map := (Character.new.remembered_map).fill ' ' }

/-- The table `hex_map` of the `NPC` constructor. -/
def hex_map : List Char := "0123456789abcdef".toList

/-- The constructor `NPC(behavior_flags, start_x, start_y, spd, health)`; the flags are a
`uint8_t`. -/
def NPC.new (behavior_flags : Nat) (start_x start_y spd health : Int) : Character :=
  { Character.new with
    type := CharType.NPC_TYPE
    alive := true
    x := start_x
    y := start_y
    btype := behavior_flags % 256
    speed := spd
    turn := 0
    hp := health
    symbol := hex_map.getD ((behavior_flags % 256) &&& 0x0F) '?' }

/-- `Dungeon::countMonsters`. -/
def Dungeon.countMonsters (d : Dungeon) : Int :=
  ((d.characters.filter fun c => c.type == CharType.NPC_TYPE && c.alive).length : Int)

/-- `Dungeon::createPC`. -/
def Dungeon.createPC (d : Dungeon) (px py : Int) : Dungeon :=
  { d with characters := d.characters ++ [{ PC.new with x := px, y := py }] }

/-- The `do { rx = rand() % WIDTH; ry = rand() % HEIGHT; } while (base_map[ry][rx] != '.')`
loop of `createMonster`, at most `fuel` iterations. -/
def pickMonsterCell : Nat → Dungeon → Rng → Option (Int × Int × Rng)
  | 0, _, _ => none
  | fuel + 1, d, rng =>
    let r1 := rand rng
    let rx := r1.1 % WIDTH
    let r2 := rand r1.2
    let ry := r2.1 % HEIGHT
    if d.base_map ry rx ≠ '.' then pickMonsterCell fuel d r2.2
    else some (rx, ry, r2.2)

/-- `Dungeon::createMonster`, with a budget for its rejection-sampling loop. -/
def Dungeon.createMonster (fuel : Nat) (d : Dungeon) (rng : Rng) : Option (Dungeon × Rng) :=
  match pickMonsterCell fuel d rng with
  | none => none
  | some (rx, ry, rng1) =>
    let r3 := rand rng1
    let flags := r3.1.toNat &&& 0x0F
    let r4 := rand r3.2
    let spd := r4.1 % 16 + 5
    let mhp : Int := 10
    some ({ d with characters := d.characters ++ [NPC.new flags rx ry spd mhp] }, r4.2)

/-- `Dungeon::rebuildDisplay`. -/
def Dungeon.rebuildDisplay (d : Dungeon) : Dungeon :=
  let overlay : Grid Char := d.characters.foldl
    (fun g c => if c.alive then g.set c.y c.x c.symbol else g) d.base_map
  { d with dungeon := overlay }

/-! ## The NPC turn -/

/-- The tables `ddx` and `ddy` of the erratic move. -/
def ddx : List Int := [0, -1, 1, 0, 0, -1, -1, 1, 1]
def ddy : List Int := [0, 0, 0, -1, 1, -1, 1, -1, 1]

/-- Body of the scan of the intelligent move for the offset `(j, i)`; the state is
`(bestDist, bestx, besty)`. -/
def scanNeighbour (d : Dungeon) (tunneling : Bool) (x y : Int) (i j : Int)
    (st : Int × Int × Int) : Int × Int × Int :=
  if ¬ (i = 0 ∧ j = 0) then
    let nx := x + j
    let ny := y + i
    if inBounds nx ny then
      let dval := if tunneling then d.disTunneling ny nx else d.disNonTunneling ny nx
      if dval < st.1 then (dval, nx, ny) else st
    else st
  else st

/-- First part of `NPC::doTurn`: the choice of the destination `(bestx, besty)` of the
monster `me`, with the random generator after the draws made. -/
def NPC.chooseTarget (me : Character) (d : Dungeon) (rng : Rng) : Int × Int × Rng :=
  let intelligence : Bool := me.btype &&& 0x1 != 0
  let tunneling : Bool := me.btype &&& 0x4 != 0
  let erratic : Bool := me.btype &&& 0x8 != 0
  let s1 : Bool × Rng :=
    if erratic then
      let r := rand rng
      (r.1 % 2 == 0, r.2)
    else (false, rng)
  let do_random := s1.1
  if do_random then
    let r := rand s1.2
    let rr := (r.1 % 9).toNat
    (me.x + ddx.getD rr 0, me.y + ddy.getD rr 0, r.2)
  else if !intelligence then
    let dx : Int := if d.pc_x > me.x then 1 else (if d.pc_x < me.x then -1 else 0)
    let dy : Int := if d.pc_y > me.y then 1 else (if d.pc_y < me.y then -1 else 0)
    (me.x + dx, me.y + dy, s1.2)
  else
    let best := (intRange (-1) 2).foldl
      (fun st i => (intRange (-1) 2).foldl
        (fun st j => scanNeighbour d tunneling me.x me.y i j st) st)
      (INT32_MAX, me.x, me.y)
    (best.2.1, best.2.2, s1.2)

/-- Second part of `NPC::doTurn`: a tunneling monster erodes a destination of hardness
`1 .. 254` and stays; otherwise the monster moves, and the PC dies when the destination
is `(pc_x, pc_y)`. -/
def NPC.act (i : Nat) (me : Character) (d : Dungeon) (bestx besty : Int) : Dungeon :=
  let tunneling : Bool := me.btype &&& 0x4 != 0
  if tunneling ∧ d.hardness besty bestx > 0 ∧ d.hardness besty bestx < 255 then
    let h1 := d.hardness besty bestx - 85
    let h2 := if h1 < 0 then 0 else h1
    let hardness := d.hardness.set besty bestx h2
    let base_map := if h2 = 0 then d.base_map.set besty bestx '#' else d.base_map
    { d with hardness := hardness, base_map := base_map }
  else
    let pc_is_alive := if d.pc_x = bestx ∧ d.pc_y = besty then false else d.pc_is_alive
    { d with pc_is_alive := pc_is_alive,
             characters := d.characters.set i { me with x := bestx, y := besty } }

/-- `NPC::doTurn` for the character in slot `i` of the roster. -/
def NPC.doTurn (i : Nat) (d : Dungeon) (rng : Rng) : Dungeon × Rng :=
  match d.characters[i]? with
  | none => (d, rng)
  | some me =>
    if !me.alive then (d, rng)
    else
      let t := NPC.chooseTarget me d rng
      (NPC.act i me d t.1 t.2.1, t.2.2)

/-! ## The PC turn -/

/-- Code of a key as `getch()` returns it. -/
def key (c : Char) : Int := (c.toNat : Int)
/-- The escape key. -/
def KEY_ESC : Int := 27
def KEY_DOWN : Int := 258
def KEY_UP : Int := 259

/-- `PC::isVisible` for the PC at `(x, y)`. -/
def isVisible (x y x2 y2 : Int) : Bool :=
  let dx := x2 - x
  let dy := y2 - y
  decide (dx * dx + dy * dy ≤ PC_LIGHT_RADIUS * PC_LIGHT_RADIUS)

/-- `PC::updateRemembered` for the character in slot `i`. -/
def PC.updateRemembered (i : Nat) (d : Dungeon) : Dungeon :=
  match d.characters[i]? with
  | none => d
  | some me =>
    let rem := (intRange (me.y - PC_LIGHT_RADIUS) (me.y + PC_LIGHT_RADIUS + 1)).foldl
      (fun g ry => (intRange (me.x - PC_LIGHT_RADIUS) (me.x + PC_LIGHT_RADIUS + 1)).foldl
        (fun g rx =>
          if inBounds rx ry then
            if isVisible me.x me.y rx ry then g.set ry rx (d.base_map ry rx) else g
          else g) g)
      me.remembered_map
    { d with characters := d.characters.set i { me with remembered_map := rem } }

/-- The attack loop `for (auto &c : d.characters)` of a PC step onto `(nx, ny)`: every
other live character on that cell dies.  Four of the eight move cases also clear
`pc_is_alive` when such a character is of type `PC_TYPE`; `checksPc` tells which. -/
def PC.attack (i : Nat) (d : Dungeon) (nx ny : Int) (checksPc : Bool) : Dungeon :=
  let hit : Nat × Character → Bool := fun p =>
    p.2.alive && p.2.x == nx && p.2.y == ny && p.1 != i
  let chars := d.characters.enum.map fun p =>
    if hit p then { p.2 with alive := false } else p.2
  let killsPc : Bool :=
    checksPc && d.characters.enum.any (fun p => hit p && p.2.type == CharType.PC_TYPE)
  { d with characters := chars, pc_is_alive := if killsPc then false else d.pc_is_alive }

/-- One of the eight move cases of the normal mode, towards `(x + dx, y + dy)`. -/
def PC.step (i : Nat) (d : Dungeon) (dx dy : Int) (checksPc : Bool) : Dungeon :=
  match d.characters[i]? with
  | none => d
  | some me =>
    let nx := me.x + dx
    let ny := me.y + dy
    if inBounds nx ny ∧ pcCanWalkOn (d.base_map ny nx) then
      let d1 := PC.attack i d nx ny checksPc
      match d1.characters[i]? with
      | none => d1
      | some me1 => { d1 with characters := d1.characters.set i { me1 with x := nx, y := ny } }
    else d

/-- A cursor move of the teleport mode by `(dx, dy)`, refused outside the grid. -/
def PC.moveCursor (i : Nat) (d : Dungeon) (dx dy : Int) : Dungeon :=
  match d.characters[i]? with
  | none => d
  | some me =>
    if inBounds (me.teleportXCoordinates + dx) (me.teleportYCoordinates + dy) then
      let me1 := { me with teleportXCoordinates := me.teleportXCoordinates + dx,
                           teleportYCoordinates := me.teleportYCoordinates + dy }
      { d with characters := d.characters.set i me1 }
    else d

/-- The loop `while (true)` of the random teleport: draw cells until one is not
immutable rock; at most `fuel` iterations. -/
def PC.randomCell : Nat → Dungeon → Rng → Option (Int × Int × Rng)
  | 0, _, _ => none
  | fuel + 1, d, rng =>
    let r1 := rand rng
    let rx := r1.1 % WIDTH
    let r2 := rand r1.2
    let ry := r2.1 % HEIGHT
    if !d.isImmutableRock rx ry then some (rx, ry, r2.2)
    else PC.randomCell fuel d r2.2

/-- The scroll loop of the monster list: keys are read until the escape key. -/
def monsterListLoop : List Int → Option (List Int)
  | [] => none
  | k :: keys => if k = KEY_ESC then some keys else monsterListLoop keys

/-- Update of the character in slot `i`. -/
def Dungeon.modifyChar (d : Dungeon) (i : Nat) (f : Character → Character) : Dungeon :=
  match d.characters[i]? with
  | none => d
  | some me => { d with characters := d.characters.set i (f me) }

/-- How the `switch` on one key ends: with `break` (the loop reads the next key), with
`return` (the turn is over), or never (input or budget exhausted). -/
inductive KeyOutcome where
  | again (d : Dungeon)
  | done (d : Dungeon) (rng : Rng) (keys : List Int)
  | stuck

/-- The `case` labels of the `switch (ch)` of the teleport mode. -/
inductive TeleportCase where
  | cursor (dx dy : Int)
  | nothing
  | confirm
  | random
  | fog
  | quit
  | other

/-- Which `case` of the teleport-mode `switch` a key selects. -/
def teleportCase (ch : Int) : TeleportCase :=
  if ch = key '7' ∨ ch = key 'y' then TeleportCase.cursor (-1) (-1)
  else if ch = key '9' ∨ ch = key 'u' then TeleportCase.cursor 1 (-1)
  else if ch = key '1' ∨ ch = key 'b' then TeleportCase.cursor (-1) 1
  else if ch = key '3' ∨ ch = key 'n' then TeleportCase.cursor 1 1
  else if ch = key '4' ∨ ch = key 'h' then TeleportCase.cursor (-1) 0
  else if ch = key '6' ∨ ch = key 'l' then TeleportCase.cursor 1 0
  else if ch = key '8' ∨ ch = key 'k' then TeleportCase.cursor 0 (-1)
  else if ch = key '2' ∨ ch = key 'j' then TeleportCase.cursor 0 1
  else if ch = key '5' ∨ ch = key ' ' ∨ ch = key '.' then TeleportCase.nothing
  else if ch = key 'g' then TeleportCase.confirm
  else if ch = key 'r' then TeleportCase.random
  else if ch = key 'f' then TeleportCase.fog
  else if ch = key 'Q' then TeleportCase.quit
  else TeleportCase.other

/-- The `switch (ch)` of the teleport mode, followed by the redraw
(`d.rebuildDisplay()`) that every `break` reaches.  `me` is the PC, `keys` the keys
not yet read. -/
def PC.teleportKey (fuel : Nat) (i : Nat) (me : Character) (ch : Int) (keys : List Int)
    (d : Dungeon) (rng : Rng) : KeyOutcome :=
  match teleportCase ch with
  | TeleportCase.cursor dx dy => KeyOutcome.again (PC.moveCursor i d dx dy).rebuildDisplay
  | TeleportCase.nothing => KeyOutcome.again d.rebuildDisplay
  | TeleportCase.confirm =>
    let d1 :=
      if !d.isImmutableRock me.teleportXCoordinates me.teleportYCoordinates then
        d.modifyChar i fun c =>
          { c with x := me.teleportXCoordinates, y := me.teleportYCoordinates }
      else d
    KeyOutcome.done (d1.modifyChar i fun c => { c with teleporting := false }) rng keys
  | TeleportCase.random =>
    match PC.randomCell fuel d rng with
    | none => KeyOutcome.stuck
    | some (rx, ry, rng1) =>
      KeyOutcome.done ((d.modifyChar i fun c => { c with x := rx, y := ry }).modifyChar i
        fun c => { c with teleporting := false }) rng1 keys
  | TeleportCase.fog =>
    KeyOutcome.again (d.modifyChar i fun c => { c with noFog := !c.noFog }).rebuildDisplay
  | TeleportCase.quit =>
    KeyOutcome.done
      { d.modifyChar i fun c => { c with alive := false } with pc_is_alive := false } rng keys
  | TeleportCase.other => KeyOutcome.again d.rebuildDisplay

/-- The `case` labels of the `switch (ch)` of the normal mode; `checksPc` tells the move
cases whose attack loop also tests `c->type == PC_TYPE`. -/
inductive NormalCase where
  | move (dx dy : Int) (checksPc : Bool)
  | rest
  | stairsDown
  | stairsUp
  | monsterList
  | fog
  | teleport
  | quit
  | other

/-- Which `case` of the normal-mode `switch` a key selects. -/
def normalCase (ch : Int) : NormalCase :=
  if ch = key '7' ∨ ch = key 'y' then NormalCase.move (-1) (-1) true
  else if ch = key '8' ∨ ch = key 'k' then NormalCase.move 0 (-1) true
  else if ch = key '9' ∨ ch = key 'u' then NormalCase.move 1 (-1) true
  else if ch = key '6' ∨ ch = key 'l' then NormalCase.move 1 0 true
  else if ch = key '3' ∨ ch = key 'n' then NormalCase.move 1 1 false
  else if ch = key '2' ∨ ch = key 'j' then NormalCase.move 0 1 false
  else if ch = key '1' ∨ ch = key 'b' then NormalCase.move (-1) 1 false
  else if ch = key '4' ∨ ch = key 'h' then NormalCase.move (-1) 0 false
  else if ch = key '5' ∨ ch = key ' ' ∨ ch = key '.' then NormalCase.rest
  else if ch = key '>' then NormalCase.stairsDown
  else if ch = key '<' then NormalCase.stairsUp
  else if ch = key 'm' then NormalCase.monsterList
  else if ch = key 'f' then NormalCase.fog
  else if ch = key 'g' then NormalCase.teleport
  else if ch = key 'Q' then NormalCase.quit
  else NormalCase.other

/-- The `switch (ch)` of the normal mode. -/
def PC.normalKey (i : Nat) (me : Character) (ch : Int) (keys : List Int)
    (d : Dungeon) (rng : Rng) : KeyOutcome :=
  match normalCase ch with
  | NormalCase.move dx dy checksPc => KeyOutcome.done (PC.step i d dx dy checksPc) rng keys
  | NormalCase.rest => KeyOutcome.done d rng keys
  | NormalCase.stairsDown =>
    KeyOutcome.done
      (if d.base_map me.y me.x = '>' then { d with changedFloor := true } else d) rng keys
  | NormalCase.stairsUp =>
    KeyOutcome.done
      (if d.base_map me.y me.x = '<' then { d with changedFloor := true } else d) rng keys
  | NormalCase.monsterList =>
    match monsterListLoop keys with
    | none => KeyOutcome.stuck
    | some keys1 => KeyOutcome.done d.rebuildDisplay rng keys1
  | NormalCase.fog =>
    KeyOutcome.done (d.modifyChar i fun c => { c with noFog := !c.noFog }) rng keys
  | NormalCase.teleport =>
    KeyOutcome.done (d.modifyChar i fun c =>
      { c with teleporting := true, teleportXCoordinates := c.x,
               teleportYCoordinates := c.y }) rng keys
  | NormalCase.quit =>
    KeyOutcome.done
      { d.modifyChar i fun c => { c with alive := false } with pc_is_alive := false } rng keys
  | NormalCase.other => KeyOutcome.again d

/-- The input loop `while (true) { int ch = getch(); ... }` of `PC::doTurn`.  Each
iteration consumes one key of `keys`; the result is `none` when the keys run out before
a command ends the turn (the program then waits for input), or when the budget of the
random teleport ends. -/
def PC.inputLoop (fuel : Nat) (i : Nat) :
    List Int → Dungeon → Rng → Option (Dungeon × Rng × List Int)
  | [], _, _ => none
  | ch :: keys, d, rng =>
    match d.characters[i]? with
    | none => none
    | some me =>
      match (if me.teleporting then PC.teleportKey fuel i me ch keys d rng
             else PC.normalKey i me ch keys d rng) with
      | KeyOutcome.again d1 => PC.inputLoop fuel i keys d1 rng
      | KeyOutcome.done d1 rng1 keys1 => some (d1, rng1, keys1)
      | KeyOutcome.stuck => none

/-- `PC::doTurn` for the character in slot `i`: recompute both fields from the PC's
position, rebuild the display, update the remembered map, then read commands.  The
drawing calls have no effect on the state and are left out. -/
def PC.doTurn (fuel : Nat) (i : Nat) (d : Dungeon) (rng : Rng) (keys : List Int) :
    Option (Dungeon × Rng × List Int) :=
  match d.characters[i]? with
  | none => none
  | some me =>
    let d1 := { d with disNonTunneling :=
      djikstraForNonTunnel d.hardness d.disNonTunneling me.x me.y }
    let d2 := { d1 with disTunneling := djikstraForTunnel d1.hardness d1.disTunneling me.x me.y }
    let d3 := d2.rebuildDisplay
    let d4 := PC.updateRemembered i d3
    PC.inputLoop fuel i keys d4 rng

/-- The virtual call `chr->doTurn(*this)`. -/
def doTurn (fuel : Nat) (i : Nat) (d : Dungeon) (rng : Rng) (keys : List Int) :
    Option (Dungeon × Rng × List Int) :=
  match d.characters[i]? with
  | none => none
  | some chr =>
    match chr.type with
    | CharType.PC_TYPE => PC.doTurn fuel i d rng keys
    | CharType.NPC_TYPE => some ((NPC.doTurn i d rng).1, (NPC.doTurn i d rng).2, keys)

/-! ## The scheduler loop -/

/-- The local variables of `gameLoop` together with the state they act on: the event
queue, the dungeon, the random generator, the pending key strokes, `aliveMonsters` and
`current_time`. -/
structure LoopState where
  eq : List Event
  d : Dungeon
  rng : Rng
  keys : List Int
  aliveMonsters : Int
  current_time : Int

/-- Condition of the `while` loop of `gameLoop`. -/
def LoopState.running (s : LoopState) : Bool :=
  !EventQueue.empty s.eq && s.d.pc_is_alive && decide (s.aliveMonsters > 0) &&
    !s.d.changedFloor

/-- How one pass through the body of the `while` loop ends: at its end or at `continue`
(the condition is evaluated again), or at `break`. -/
inductive LoopFlow where
  | next
  | stop
deriving DecidableEq, Repr

/-- Body of the `while` loop of `gameLoop` after `Event e = eq.pop()`; `s.eq` is the
queue after the pop.  The result is `none` where the program has no defined behaviour
(division by a zero speed, overflow of the `int` time) or waits for input for ever. -/
def gameLoopBody (fuel : Nat) (e : Event) (s : LoopState) : Option (LoopState × LoopFlow) :=
  let s := { s with current_time := e.time }
  match s.d.characters[e.c]? with
  | none => none
  | some chr =>
    if !chr.alive then some (s, LoopFlow.next)
    else
      match doTurn fuel e.c s.d s.rng s.keys with
      | none => none
      | some (d1, rng1, keys1) =>
        let s1 := { s with d := d1, rng := rng1, keys := keys1 }
        if !d1.pc_is_alive then some (s1, LoopFlow.stop)
        else
          match d1.characters[e.c]? with
          | none => none
          | some chr1 =>
            if chr1.alive ∧ !d1.changedFloor then
              if chr1.speed = 0 then none
              else
                let next_time := s.current_time + Int.tdiv 1000 chr1.speed
                if next_time > INT32_MAX ∨ next_time < -INT32_MAX - 1 then none
                else
                  some ({ s1 with eq := EventQueue.push s1.eq ⟨next_time, e.c⟩,
                                  aliveMonsters := d1.countMonsters }, LoopFlow.next)
            else some ({ s1 with aliveMonsters := d1.countMonsters }, LoopFlow.next)

/-- The `while` loop of `gameLoop`, at most `fuel` iterations.  The first component lists
the events popped, in order; the second is the state when the loop ends, `none` when the
budget ends first or the body has no result. -/
def gameLoopRun (fuel : Nat) : Nat → LoopState → List Event × Option LoopState
  | 0, _ => ([], none)
  | n + 1, s =>
    if s.running then
      match EventQueue.pop s.eq with
      | none => ([], none)
      | some (e, rest) =>
        match gameLoopBody fuel e { s with eq := rest } with
        | none => ([e], none)
        | some (s1, LoopFlow.stop) => ([e], some s1)
        | some (s1, LoopFlow.next) =>
          let r := gameLoopRun fuel n s1
          (e :: r.1, r.2)
    else ([], some s)

/-- The entry of `gameLoop`: one event at time 0 for every live character, in roster
order. -/
def gameLoopInit (d : Dungeon) (rng : Rng) (keys : List Int) : LoopState :=
  { eq := d.characters.enum.foldl
      (fun q p => if p.2.alive then EventQueue.push q ⟨0, p.1⟩ else q) []
    d := { d with changedFloor := false }
    rng := rng
    keys := keys
    aliveMonsters := d.countMonsters
    current_time := 0 }

/-- `Dungeon::gameLoop`: the events processed and the final state.  `fuel` bounds the
rejection-sampling loops inside a turn, `steps` the iterations of the scheduler loop. -/
def gameLoop (fuel steps : Nat) (d : Dungeon) (rng : Rng) (keys : List Int) :
    List Event × Option LoopState :=
  gameLoopRun fuel steps (gameLoopInit d rng keys)

/-- What a PC turn leaves untouched: the hardness grid and the speed of every character of
the roster. -/
structure TurnFrame (d d1 : Dungeon) : Prop where
  hardness : d1.hardness = d.hardness
  speeds : d1.characters.map Character.speed = d.characters.map Character.speed

/-- Every character of the roster has a positive speed. -/
def SpeedsPos (d : Dungeon) : Prop := ∀ c ∈ d.characters, 0 < c.speed

/-- The outcome of a key keeps the frame of the turn. -/
def KeyOutcome.Framed (d : Dungeon) : KeyOutcome → Prop
  | KeyOutcome.again d1 => TurnFrame d d1
  | KeyOutcome.done d1 _ _ => TurnFrame d d1
  | KeyOutcome.stuck => True


/-- A 3-character roster used to exercise the scheduler: the PC and two monsters. -/
def sampleDungeon : Dungeon :=
  { Dungeon.new with
    hardness := fun _ _ => 255
    pc_x := 5
    pc_y := 5
    characters := [{ PC.new with x := 5, y := 5 }, NPC.new 0 1 1 10 10, NPC.new 0 9 9 0 10] }

/-- The random generator whose calls return 0, 1, 2, ... -/
def countingRng : Rng := ⟨fun i => i, 0⟩

/-! ## Stairs and the start of a level -/

/-- No cell of the grid is classified as a stair. -/
def NoStairs (d : Dungeon) : Prop :=
  ∀ x y, inBounds x y = true → d.base_map y x ≠ '<' ∧ d.base_map y x ≠ '>'

/-- The floor kinds on which `placeStairs` accepts a stair: room floor and corridor. -/
def stairGround (c : Char) : Prop := c = '.' ∨ c = '#'

/-- Invariant of the loop of `placeStairs`, relative to the map `d0` at entry: a stair
already placed is inside the grid, on a cell that was room floor or corridor, and the
classification differs from the one at entry exactly at the stairs placed. -/
structure StairsInv (d0 d : Dungeon) (upFlag downFlag : Bool) : Prop where
  up : upFlag = true → inBounds d.up_xCoord d.up_yCoord = true ∧
    stairGround (d0.base_map d.up_yCoord d.up_xCoord) ∧ d.upCount = 1
  down : downFlag = true → inBounds d.down_xCoord d.down_yCoord = true ∧
    stairGround (d0.base_map d.down_yCoord d.down_xCoord) ∧ d.downCount = 1
  apart : upFlag = true → downFlag = true →
    ¬ (d.up_xCoord = d.down_xCoord ∧ d.up_yCoord = d.down_yCoord)
  map : ∀ x y, d.base_map y x =
    if upFlag = true ∧ x = d.up_xCoord ∧ y = d.up_yCoord then '<'
    else if downFlag = true ∧ x = d.down_xCoord ∧ y = d.down_yCoord then '>'
    else d0.base_map y x
  rest : d.hardness = d0.hardness ∧ d.rooms = d0.rooms

/-- The choice of the PC start position in `main` and `newLevel`: the corner of
`rooms[0]` when `room_count > 0`, the fallback `(1, 1)` otherwise. -/
def startPosition (d : Dungeon) : Dungeon :=
  if d.room_count > 0 then
    match d.rooms[0]? with
    | some r => { d with pc_x := r.x, pc_y := r.y }
    | none => d
  else { d with pc_x := 1, pc_y := 1 }

/-- The generation branch of `main`: grid initialisation, `generateRooms`,
`connectRoomsViaCorridor`, `placeStairs` and the choice of the PC start position. -/
def generateLevel (fuel : Nat) (d : Dungeon) (rng : Rng) : Option (Dungeon × Rng) :=
  let s1 := initializeDungeon d rng
  let s2 := generateRooms s1.1 s1.2
  let d3 := connectRoomsViaCorridor s2.1
  match placeStairs fuel d3 s2.2 with
  | none => none
  | some (d4, rng4) => some (startPosition d4, rng4)

/-- A freshly initialised bordered grid: every cell of the grid is unmodified, with
hardness 255 on the border and `1 .. 254` inside. -/
def Fresh (d : Dungeon) : Prop := ∀ x y, inBounds x y = true → FreshCell d (x, y)

/-- A level whose whole grid is room floor, used to exercise `placeStairs`. -/
def openDungeon : Dungeon := { Dungeon.new with base_map := fun _ _ => '.' }

/-! ## The saved file

A file is the list of its bytes.  `save_dungeon` appends to the list with `fwrite`;
`load_dungeon` consumes it with `fread`. -/

/-- The bytes of `FILE_MARKER`. -/
def FILE_MARKER : List Nat := "RLG327-S2025".toList.map Char.toNat
def MARKER_LEN : Nat := 12
def FILE_VERSION : Nat := 0

/-- The conversion `(uint8_t) v`. -/
def toUInt8 (v : Int) : Nat := (v % 256).toNat
/-- The conversion of `v` to `uint16_t`. -/
def toUInt16 (v : Int) : Nat := (v % 65536).toNat
/-- The conversion of `v` to `uint32_t`. -/
def toUInt32 (v : Int) : Nat := (v % 4294967296).toNat

/-- The two bytes, in memory order, of the `uint16_t` that `htobe16 (v)` returns. -/
def htobe16 (v : Nat) : List Nat := [v / 256 % 256, v % 256]
/-- The four bytes, in memory order, of the `uint32_t` that `htobe32 (v)` returns. -/
def htobe32 (v : Nat) : List Nat :=
  [v / 16777216 % 256, v / 65536 % 256, v / 256 % 256, v % 256]

/-- `fwrite`: the bytes are appended to the file. -/
def fwrite (f : List Nat) (bytes : List Nat) : List Nat := f ++ bytes

/-- The counting loop of `save_dungeon`; `alive_monsters` is a `uint16_t`. -/
def countAlive (cs : List Character) : Nat :=
  cs.foldl (fun n c => if c.type = CharType.NPC_TYPE ∧ c.alive then (n + 1) % 65536 else n) 0

/-- The four `fwrite` calls for one room. -/
def writeRoom (f : List Nat) (r : Room) : List Nat :=
  let f := fwrite f [toUInt8 r.x]
  let f := fwrite f [toUInt8 r.y]
  let f := fwrite f [toUInt8 r.w]
  fwrite f [toUInt8 r.h]

/-- Body of the monster loop of `save_dungeon`: five bytes for a live NPC, nothing for
any other character. -/
def writeMonster (f : List Nat) (c : Character) : List Nat :=
  if c.type = CharType.NPC_TYPE ∧ c.alive then
    let f := fwrite f [toUInt8 c.x]
    let f := fwrite f [toUInt8 c.y]
    let f := fwrite f [toUInt8 c.speed]
    let f := fwrite f [toUInt8 c.hp]
    fwrite f [c.btype % 256]
  else f

/-- A stair section: the 2-byte count, then `(x, y)` when the count is 1. -/
def writeStair (f : List Nat) (count : Nat) (x y : Int) : List Nat :=
  let f := fwrite f (htobe16 count)
  if count = 1 then
    let f := fwrite f [toUInt8 x]
    fwrite f [toUInt8 y]
  else f

/-- The part of `save_dungeon` from the marker to the down-stair section, for the value
`file_size` of the size field. -/
def writeLevel (d : Dungeon) (file_size : Nat) : List Nat :=
  let f := fwrite [] FILE_MARKER
  let f := fwrite f (htobe32 FILE_VERSION)
  let up_stairs_count : Nat := if d.upCount > 0 then 1 else 0
  let down_stairs_count : Nat := if d.downCount > 0 then 1 else 0
  let f := fwrite f (htobe32 file_size)
  let f := fwrite f [toUInt8 d.pc_x]
  let f := fwrite f [toUInt8 d.pc_y]
  let f := allCells.foldl (fun f c => fwrite f [toUInt8 (d.hardness c.2 c.1)]) f
  let f := fwrite f (htobe16 (toUInt16 d.room_count))
  let f := d.rooms.foldl writeRoom f
  let f := writeStair f up_stairs_count d.up_xCoord d.up_yCoord
  writeStair f down_stairs_count d.down_xCoord d.down_yCoord

/-- The value `save_dungeon` computes for the size field. -/
def saveFileSize (d : Dungeon) : Nat :=
  let up_stairs_count : Int := if d.upCount > 0 then 1 else 0
  let down_stairs_count : Int := if d.downCount > 0 then 1 else 0
  let alive_monsters : Int := countAlive d.characters
  let file_size := toUInt32
    (1702 + d.room_count * 4 + 2 + up_stairs_count * 2 + 2 + down_stairs_count * 2)
  toUInt32 (file_size + (2 + alive_monsters * 5))

/-- `save_dungeon` of the class variant: the bytes of the file written. -/
def save_dungeon (d : Dungeon) : List Nat :=
  let f := writeLevel d (saveFileSize d)
  let f := fwrite f (htobe16 (countAlive d.characters))
  d.characters.foldl writeMonster f

/-- The value the procedural `save_dungeon` computes for the size field. -/
def Proc.saveFileSize (d : Dungeon) : Nat :=
  let up_stairs_count : Int := if d.upCount > 0 then 1 else 0
  let down_stairs_count : Int := if d.downCount > 0 then 1 else 0
  toUInt32 (1702 + d.room_count * 4 + 2 + up_stairs_count * 2 + 2 + down_stairs_count * 2)

/-- `save_dungeon` of the procedural variant, whose globals are held in a `Dungeon`
record: it writes no monster section. -/
def Proc.save_dungeon (d : Dungeon) : List Nat := writeLevel d (Proc.saveFileSize d)

/-- A file open for reading: `data` are the bytes not yet read.  A variable passed to
`fread` keeps its contents when the read fails; `stale` gives those contents, call by
call, and `reads` counts the calls. -/
structure FileIn where
  data : List Nat
  stale : Nat → Nat
  reads : Nat

/-- `fread (&v, 1, 1, f)` into a `uint8_t`: the value of `v` after the call. -/
def fread8 (f : FileIn) : Nat × FileIn :=
  match f.data with
  | b :: rest => (b % 256, { f with data := rest, reads := f.reads + 1 })
  | [] => (f.stale f.reads % 256, { f with reads := f.reads + 1 })

/-- `fread (&v, 2, 1, f)` into a `uint16_t` followed by `be16toh`: the value, whether the
call returned 1, and the file.  A failed read leaves the file at its end. -/
def fread16 (f : FileIn) : Nat × Bool × FileIn :=
  match f.data with
  | b0 :: b1 :: rest =>
    (b0 % 256 * 256 + b1 % 256, true, { f with data := rest, reads := f.reads + 1 })
  | _ => (f.stale f.reads % 65536, false, { f with data := [], reads := f.reads + 1 })

/-- `fread (&v, 4, 1, f)` into a `uint32_t` followed by `be32toh`. -/
def fread32 (f : FileIn) : Nat × Bool × FileIn :=
  match f.data with
  | b0 :: b1 :: b2 :: b3 :: rest =>
    (b0 % 256 * 16777216 + b1 % 256 * 65536 + b2 % 256 * 256 + b3 % 256, true,
      { f with data := rest, reads := f.reads + 1 })
  | _ => (f.stale f.reads % 4294967296, false, { f with data := [], reads := f.reads + 1 })

/-- `fread (marker, 1, MARKER_LEN, f)`: the 12 bytes of `marker` after the call; those
the file does not provide keep their former contents. -/
def freadMarker (f : FileIn) : List Nat × FileIn :=
  let got := (f.data.take MARKER_LEN).map (· % 256)
  let kept := (List.range (MARKER_LEN - got.length)).map fun k => f.stale (f.reads + k) % 256
  (got ++ kept, { f with data := f.data.drop MARKER_LEN, reads := f.reads + 1 })

/-- `strcmp (a, b) == 0` for the strings that end at the first zero byte of `a` and
of `b`. -/
def strcmpEq (a b : List Nat) : Bool :=
  a.takeWhile (· != 0) == b.takeWhile (· != 0)

/-- The hardness loops of `load_dungeon`: one byte per cell, row by row. -/
def loadHardness (hardness : Grid Int) (f : FileIn) : Grid Int × FileIn :=
  allCells.foldl
    (fun st c =>
      let h := fread8 st.2
      (st.1.set c.2 c.1 (h.1 : Int), h.2))
    (hardness, f)

/-- The room loop `for (i = 0; i < r_count && i < MAX_ROOMS; i++)` of `load_dungeon`,
with `n` iterations to go: the rooms stored, in order. -/
def loadRooms : Nat → FileIn → List Room × FileIn
  | 0, f => ([], f)
  | n + 1, f =>
    let rx := fread8 f
    let ry := fread8 rx.2
    let rw := fread8 ry.2
    let rh := fread8 rw.2
    let rest := loadRooms n rh.2
    (⟨rx.1, ry.1, rw.1, rh.1⟩ :: rest.1, rest.2)

/-- A stair section of `load_dungeon`: the count, then the coordinates when the count
is positive.  The result is the new count and the coordinates (the old ones when none are
read). -/
def loadStair (x y : Int) (f : FileIn) : (Int × Int × Int) × FileIn :=
  let c := fread16 f
  if c.1 > 0 then
    let sx := fread8 c.2.2
    let sy := fread8 sx.2
    ((1, sx.1, sy.1), sy.2)
  else ((0, x, y), c.2.2)

/-- Body of the classification loops of `load_dungeon` for one cell. -/
def classifyCell (hardness : Grid Int) (g : Grid Char) (c : Cell) : Grid Char :=
  if hardness c.2 c.1 = 255 then g.set c.2 c.1 ' '
  else if hardness c.2 c.1 > 0 then g.set c.2 c.1 ' '
  else g.set c.2 c.1 '#'

/-- The loop of `load_dungeon` that marks the cells of one room as room floor. -/
def markRoom (g : Grid Char) (r : Room) : Grid Char :=
  (intRange r.y (r.y + r.h)).foldl
    (fun g row => (intRange r.x (r.x + r.w)).foldl (fun g col => g.set row col '.') g) g

/-- The floor classification that `load_dungeon` derives from the hardness grid, the
rooms and the stairs of `d`, written over the grid `g`. -/
def deriveMap (d : Dungeon) (g : Grid Char) : Grid Char :=
  let g := allCells.foldl (classifyCell d.hardness) g
  let g := d.rooms.foldl markRoom g
  let g := if d.upCount > 0 then g.set d.up_yCoord d.up_xCoord '<' else g
  if d.downCount > 0 then g.set d.down_yCoord d.down_xCoord '>' else g

/-- The part of `load_dungeon` from the size field to the down-stair section: the
fields read are stored in `d`. -/
def loadLevel (d : Dungeon) (f : FileIn) : Dungeon × FileIn :=
  let file_size := fread32 f
  let pcx := fread8 file_size.2.2
  let pcy := fread8 pcx.2
  let d := { d with pc_x := pcx.1, pc_y := pcy.1 }
  let hs := loadHardness d.hardness pcy.2
  let d := { d with hardness := hs.1 }
  let r_count := fread16 hs.2
  let rs := loadRooms (min r_count.1 MAX_ROOMS.toNat) r_count.2.2
  let d := { d with rooms := rs.1 }
  let up := loadStair d.up_xCoord d.up_yCoord rs.2
  let d := { d with upCount := up.1.1, up_xCoord := up.1.2.1, up_yCoord := up.1.2.2 }
  let down := loadStair d.down_xCoord d.down_yCoord up.2
  ({ d with downCount := down.1.1, down_xCoord := down.1.2.1, down_yCoord := down.1.2.2 },
    down.2)

/-- The monster loop of `load_dungeon`, with `n` iterations to go.  No call of `fread`
is checked: each iteration creates an `NPC` from the five variables, whatever they
hold. -/
def loadRoster : Nat → FileIn → List Character × FileIn
  | 0, f => ([], f)
  | n + 1, f =>
    let mx := fread8 f
    let my := fread8 mx.2
    let mspeed := fread8 my.2
    let mhp := fread8 mspeed.2
    let mbtype := fread8 mhp.2
    let rest := loadRoster n mbtype.2
    (NPC.new mbtype.1 mx.1 my.1 mspeed.1 mhp.1 :: rest.1, rest.2)

/-- `load_dungeon` of the class variant on the open file `f`. -/
def load_dungeon (d : Dungeon) (f : FileIn) : Dungeon :=
  let marker := freadMarker f
  if !strcmpEq (marker.1 ++ [0]) (FILE_MARKER ++ [0]) then d
  else
    let version := fread32 marker.2
    if version.1 ≠ FILE_VERSION then d
    else
      let lv := loadLevel d version.2.2
      let d := { lv.1 with base_map := deriveMap lv.1 lv.1.base_map }
      let mc := fread16 lv.2
      let monster_count := if mc.2.1 then mc.1 else 0
      let roster := loadRoster monster_count mc.2.2
      { d with characters := roster.1 }

/-- `load_dungeon` of the procedural variant, whose globals are held in a `Dungeon`
record; `none` when it stops the program with `exit (1)`.  The classification is written
to the display grid `dungeon`. -/
def Proc.load_dungeon (d : Dungeon) (f : FileIn) : Option Dungeon :=
  let marker := freadMarker f
  if !strcmpEq (marker.1 ++ [0]) (FILE_MARKER ++ [0]) then none
  else
    let version := fread32 marker.2
    if version.1 ≠ FILE_VERSION then none
    else
      let lv := loadLevel d version.2.2
      some { lv.1 with dungeon := deriveMap lv.1 lv.1.dungeon }

/-- A file just opened for reading. -/
def FileIn.open (bytes : List Nat) (stale : Nat → Nat) : FileIn := ⟨bytes, stale, 0⟩

/-! ### Specification side: the layout of the file -/

/-- Four bytes `(x, y, w, h)` per room, in order. -/
def roomBytes : List Room → List Nat
  | [] => []
  | r :: rs => toUInt8 r.x :: toUInt8 r.y :: toUInt8 r.w :: toUInt8 r.h :: roomBytes rs

/-- The characters that `save_dungeon` writes: the live NPCs, in roster order. -/
def liveNPCs (cs : List Character) : List Character :=
  cs.filter fun c => c.type == CharType.NPC_TYPE && c.alive

/-- Five bytes `(x, y, speed, hp, behavior flags)` per monster, in order. -/
def monsterBytes : List Character → List Nat
  | [] => []
  | c :: cs =>
    toUInt8 c.x :: toUInt8 c.y :: toUInt8 c.speed :: toUInt8 c.hp :: c.btype % 256 ::
      monsterBytes cs

/-- A stair section: the flag as two big-endian bytes, followed by `(x, y)` iff the
flag is 1. -/
def stairBytes (count x y : Int) : List Nat :=
  if count > 0 then [0, 1, toUInt8 x, toUInt8 y] else [0, 0]

/-- The hardness grid, row by row, one byte per cell. -/
def hardnessBytes (hardness : Grid Int) : List Nat :=
  allCells.map fun c => toUInt8 (hardness c.2 c.1)

instance (r : Room) (x y : Int) : Decidable (r.covers x y) := by
  unfold Room.covers
  infer_instance

/-- The floor kind that `load_dungeon` derives from a hardness alone: corridor for 0,
rock otherwise. -/
def kindOfHardness (h : Int) : Char :=
  if h = 255 then ' ' else if h > 0 then ' ' else '#'

/-- What `save_dungeon` stores without loss: hardness values in `0 .. 255` on the grid,
at most 10 rooms, and all stored coordinates and sizes in `0 .. 255`. -/
structure Storable (d : Dungeon) : Prop where
  hardness : ∀ x y, inBounds x y = true → 0 ≤ d.hardness y x ∧ d.hardness y x ≤ 255
  count : d.rooms.length ≤ 10
  rooms : ∀ r ∈ d.rooms, (0 ≤ r.x ∧ r.x ≤ 255) ∧ (0 ≤ r.y ∧ r.y ≤ 255) ∧
    (0 ≤ r.w ∧ r.w ≤ 255) ∧ (0 ≤ r.h ∧ r.h ≤ 255)
  pc : (0 ≤ d.pc_x ∧ d.pc_x ≤ 255) ∧ (0 ≤ d.pc_y ∧ d.pc_y ≤ 255)
  up : d.upCount > 0 → (0 ≤ d.up_xCoord ∧ d.up_xCoord ≤ 255) ∧
    (0 ≤ d.up_yCoord ∧ d.up_yCoord ≤ 255)
  down : d.downCount > 0 → (0 ≤ d.down_xCoord ∧ d.down_xCoord ≤ 255) ∧
    (0 ≤ d.down_yCoord ∧ d.down_yCoord ≤ 255)

/-- State of a level under generation, before the stairs are placed: on the grid, a cell
is room floor iff a recorded room covers it, and is otherwise corridor or rock according
to its hardness, which lies in `0 .. 255`. -/
structure Classified (d : Dungeon) : Prop where
  map : ∀ x y, inBounds x y = true → d.base_map y x =
    if ∃ r ∈ d.rooms, r.covers x y then '.' else kindOfHardness (d.hardness y x)
  range : ∀ x y, inBounds x y = true → 0 ≤ d.hardness y x ∧ d.hardness y x ≤ 255

/-- The level `d5` has the terrain of `d4`: the same classification, hardness, rooms and
stairs. -/
structure SameTerrain (d4 d5 : Dungeon) : Prop where
  base_map : d5.base_map = d4.base_map
  hardness : d5.hardness = d4.hardness
  rooms : d5.rooms = d4.rooms
  up : d5.upCount = d4.upCount ∧ d5.up_xCoord = d4.up_xCoord ∧ d5.up_yCoord = d4.up_yCoord
  down : d5.downCount = d4.downCount ∧ d5.down_xCoord = d4.down_xCoord ∧
    d5.down_yCoord = d4.down_yCoord

/-- The random generator whose calls all return 0. -/
def zeroRng : Rng := ⟨fun _ => 0, 0⟩

/-- A random generator whose first four calls return 1, 1, 2, 1: the stair draws
`(1, 1)` and `(2, 1)`. -/
def stairRng : Rng := ⟨fun i => if i = 2 then 2 else 1, 0⟩

/-- A level whose roster holds 65536 live monsters, as `--nummon 65536` creates. -/
def crowdedDungeon : Dungeon :=
  { Dungeon.new with characters := List.replicate 65536 (NPC.new 0 1 1 10 10) }

/-- A level of soft rock (hardness 100 everywhere) with the PC at `(5, 5)` and one tunneling
monster at `(1, 1)`. -/
def softRockDungeon : Dungeon :=
  { Dungeon.new with
    hardness := fun _ _ => 100
    pc_x := 5
    pc_y := 5
    characters := [{ PC.new with x := 5, y := 5 }, NPC.new 4 1 1 10 10] }

/-! ## Runs of turns -/

/-- The calls of `NPC::doTurn` for the slots listed in `vs`, one after the other; each
entry pairs the slot with the random generator its call starts from. -/
def NPC.turns (d : Dungeon) : List (Nat × Rng) → Dungeon
  | [] => d
  | v :: vs => NPC.turns (NPC.doTurn v.1 d v.2).1 vs

/-- The turn `v` is a tunneling visit of the cell `(x, y)`: the character in the slot is
alive, has the tunneling bit, and `(x, y)` is the destination it chooses. -/
def tunnelVisit (d : Dungeon) (x y : Int) (v : Nat × Rng) : Bool :=
  match d.characters[v.1]? with
  | none => false
  | some me =>
    me.alive && (me.btype &&& 0x4 != 0) &&
      decide ((NPC.chooseTarget me d v.2).1 = x ∧ (NPC.chooseTarget me d v.2).2.1 = y)

/-- Every turn of `vs`, taken in the state the turns before it leave, is a tunneling visit
of the cell `(x, y)`. -/
def tunnelVisits (x y : Int) : Dungeon → List (Nat × Rng) → Bool
  | _, [] => true
  | d, v :: vs => tunnelVisit d x y v && tunnelVisits x y (NPC.doTurn v.1 d v.2).1 vs

/-- The turns `chr->doTurn(*this)` of the characters in the slots `slots`, one after the
other, in any order. -/
def runTurns (fuel : Nat) :
    List Nat → Dungeon → Rng → List Int → Option (Dungeon × Rng × List Int)
  | [], d, rng, keys => some (d, rng, keys)
  | i :: slots, d, rng, keys =>
    match doTurn fuel i d rng keys with
    | none => none
    | some (d1, rng1, keys1) => runTurns fuel slots d1 rng1 keys1

/-! ## The monster turn of the procedural variant -/

/-- The end of `do_monster_movement`, from `if(dungeon[besty][bestx]=='@')` on: the PC
dies when the display shows it on the destination, the display of the old cell is
restored from `base_map`, and the monster `m` (slot `i`) moves. -/
def Proc.moveMonster (i : Nat) (m : Character) (d : Dungeon) (bestx besty : Int) : Dungeon :=
  let pc_is_alive := if d.dungeon besty bestx = '@' then false else d.pc_is_alive
  let dungeon := d.dungeon.set m.y m.x (d.base_map m.y m.x)
  let dungeon := if m.alive then dungeon.set besty bestx m.symbol else dungeon
  { d with pc_is_alive := pc_is_alive, dungeon := dungeon,
           characters := d.characters.set i { m with x := bestx, y := besty } }

/-- The function `do_monster_movement(m)` of the procedural variant for the monster in slot
`i`.  The choice of `(bestx, besty)` is, statement for statement, the one of `NPC::doTurn`.
The hardness grid holds `int`s: the erosion subtracts 85 and returns while the result is
positive; otherwise the display shows a corridor and the move follows. -/
def Proc.do_monster_movement (i : Nat) (d : Dungeon) (rng : Rng) : Dungeon × Rng :=
  match d.characters[i]? with
  | none => (d, rng)
  | some m =>
    if !m.alive then (d, rng)
    else
      let tunneling : Bool := m.btype &&& 0x4 != 0
      let t := NPC.chooseTarget m d rng
      let bestx := t.1
      let besty := t.2.1
      if tunneling ∧ d.hardness besty bestx > 0 ∧ d.hardness besty bestx < 255 then
        let d1 := { d with hardness := d.hardness.set besty bestx (d.hardness besty bestx - 85) }
        if d1.hardness besty bestx > 0 then (d1, t.2.2)
        else
          (Proc.moveMonster i m { d1 with dungeon := d1.dungeon.set besty bestx '#' }
            bestx besty, t.2.2)
      else (Proc.moveMonster i m d bestx besty, t.2.2)

/-! ## Vocabulary of the statements about turns -/

/-- The offsets `(dx, dy)` of the eight neighbours, in the order in which the scan of the
intelligent move reads them: rows from `dy = -1` to `1`, in each row from `dx = -1` to `1`. -/
def scanOffsets : List (Int × Int) :=
  [(-1, -1), (0, -1), (1, -1), (-1, 0), (1, 0), (-1, 1), (0, 1), (1, 1)]

/-- The neighbours of `(x, y)` inside the grid, in scan order. -/
def scanNeighbours (x y : Int) : List Cell :=
  (scanOffsets.map fun o => (x + o.1, y + o.2)).filter fun c => inBounds c.1 c.2

/-- The value `tunneling ? disTunneling[ny][nx] : disNonTunneling[ny][nx]` the scan of the
intelligent move reads for the cell `c`. -/
def NPC.fieldAt (d : Dungeon) (tunneling : Bool) (c : Cell) : Int :=
  if tunneling then d.disTunneling c.2 c.1 else d.disNonTunneling c.2 c.1

/-- Where a command of the PC may leave a character `c1`, relative to the state `d` before
the command: on a cell whose hardness is not 255, on a cell of the grid the PC can walk on,
or where a character of the same type stood. -/
def Landed (d : Dungeon) (c1 : Character) : Prop :=
  d.hardness c1.y c1.x ≠ 255 ∨
  (inBounds c1.x c1.y = true ∧ pcCanWalkOn (d.base_map c1.y c1.x) = true) ∨
  ∃ c ∈ d.characters, c.type = c1.type ∧ c.x = c1.x ∧ c.y = c1.y

/-- What the commands of a PC turn leave untouched: the terrain, both distance fields and
the recorded PC position `(pc_x, pc_y)`; and where they leave the characters. -/
structure InputFrame (d d1 : Dungeon) : Prop where
  hardness : d1.hardness = d.hardness
  base_map : d1.base_map = d.base_map
  pc_x : d1.pc_x = d.pc_x
  pc_y : d1.pc_y = d.pc_y
  disTunneling : d1.disTunneling = d.disTunneling
  disNonTunneling : d1.disNonTunneling = d.disNonTunneling
  chars : ∀ c1 ∈ d1.characters, Landed d c1

/-- The outcome of a key keeps the frame of the commands. -/
def KeyOutcome.InFrame (d : Dungeon) : KeyOutcome → Prop
  | KeyOutcome.again d1 => InputFrame d d1
  | KeyOutcome.done d1 _ _ => InputFrame d d1
  | KeyOutcome.stuck => True

/-- No cell of the grid the PC can walk on has hardness 255. -/
def WalkableSoft (d : Dungeon) : Prop :=
  ∀ x y, inBounds x y = true → pcCanWalkOn (d.base_map y x) = true → d.hardness y x ≠ 255

/-- Every character of type PC stands on a cell whose hardness is not 255. -/
def PcSafe (d : Dungeon) : Prop :=
  ∀ c ∈ d.characters, c.type = CharType.PC_TYPE → d.hardness c.y c.x ≠ 255

/-- An open level with the PC at `(5, 5)`, recorded in `(pc_x, pc_y)` as at the start of a
level, and a monster without behaviour bits at `(7, 5)`. -/
def chaseDungeon : Dungeon :=
  { openDungeon with
    pc_x := 5
    pc_y := 5
    characters := [{ PC.new with x := 5, y := 5 }, NPC.new 0 7 5 10 10] }

/-- A level of crumbly rock (hardness 50 everywhere) with the PC at `(5, 5)` and one
tunneling monster at `(1, 1)`. -/
def crumblyDungeon : Dungeon :=
  { Dungeon.new with
    hardness := fun _ _ => 50
    pc_x := 5
    pc_y := 5
    characters := [{ PC.new with x := 5, y := 5 }, NPC.new 4 1 1 10 10] }

/-- A level whose non-tunneling field holds the squared distance to `(3, 3)`, used to
exercise the scan of the intelligent move. -/
def bowlDungeon : Dungeon :=
  { sampleDungeon with disNonTunneling := fun y x => (x - 3) * (x - 3) + (y - 3) * (y - 3) }

/-! ## Vocabulary of the last statements -/

/-- A level record whose one room `(x, y, w, h) = (0, 200, 1, 1)` and whose up stair
`(100, 5)` lie outside the grid; its saved file has a valid marker and version. -/
def strayDungeon : Dungeon :=
  { Dungeon.new with
    rooms := [⟨0, 200, 1, 1⟩]
    upCount := 1
    up_xCoord := 100
    up_yCoord := 5 }

/-! ## The PC turn of the procedural variant -/

/-- The `case` labels of the `switch (ch)` of `handle_pc_input`. -/
inductive Proc.KeyCase where
  | move (dx dy : Int)
  | stairsDown
  | stairsUp
  | rest
  | monsterList
  | quit
  | other

/-- Which `case` of the `switch` of `handle_pc_input` a key selects. -/
def Proc.keyCase (ch : Int) : Proc.KeyCase :=
  if ch = key '7' ∨ ch = key 'y' then Proc.KeyCase.move (-1) (-1)
  else if ch = key '8' ∨ ch = key 'k' then Proc.KeyCase.move 0 (-1)
  else if ch = key '9' ∨ ch = key 'u' then Proc.KeyCase.move 1 (-1)
  else if ch = key '6' ∨ ch = key 'l' then Proc.KeyCase.move 1 0
  else if ch = key '3' ∨ ch = key 'n' then Proc.KeyCase.move 1 1
  else if ch = key '2' ∨ ch = key 'j' then Proc.KeyCase.move 0 1
  else if ch = key '1' ∨ ch = key 'b' then Proc.KeyCase.move (-1) 1
  else if ch = key '4' ∨ ch = key 'h' then Proc.KeyCase.move (-1) 0
  else if ch = key '>' then Proc.KeyCase.stairsDown
  else if ch = key '<' then Proc.KeyCase.stairsUp
  else if ch = key '5' ∨ ch = key ' ' ∨ ch = key '.' then Proc.KeyCase.rest
  else if ch = key 'm' then Proc.KeyCase.monsterList
  else if ch = key 'Q' then Proc.KeyCase.quit
  else Proc.KeyCase.other

/-- One of the eight move cases of `handle_pc_input`, towards `(x + dx, y + dy)`.  The
walkability test reads the display grid `dungeon`; the attack loop is the one of the class
variant, with the test of `char_pc` in every case. -/
def Proc.step (i : Nat) (d : Dungeon) (dx dy : Int) : Dungeon :=
  match d.characters[i]? with
  | none => d
  | some pc =>
    let nx := pc.x + dx
    let ny := pc.y + dy
    if inBounds nx ny ∧ pcCanWalkOn (d.dungeon ny nx) then
      let d1 := PC.attack i d nx ny true
      let dungeon := (d1.dungeon.set pc.y pc.x (d1.base_map pc.y pc.x)).set ny nx '@'
      { d1 with dungeon := dungeon,
                characters := d1.characters.set i { pc with x := nx, y := ny } }
    else d

/-- The function `handle_pc_input(pc)` for the PC in slot `i`, at most `fuel` iterations
of its `while (1)` loop.  `new_level` stands for the function of that name, which builds
the next level; the result is `none` when the keys or the budget run out, or when
`new_level` has no result. -/
def Proc.handle_pc_input (new_level : Dungeon → Rng → Option (Dungeon × Rng)) (i : Nat) :
    Nat → List Int → Dungeon → Rng → Option (Dungeon × Rng × List Int)
  | 0, _, _, _ => none
  | _ + 1, [], _, _ => none
  | fuel + 1, ch :: keys, d, rng =>
    match Proc.keyCase ch with
    | Proc.KeyCase.move dx dy => some (Proc.step i d dx dy, rng, keys)
    | Proc.KeyCase.stairsDown =>
      match d.characters[i]? with
      | none => none
      | some pc =>
        if d.base_map pc.y pc.x = '>' then
          match new_level d rng with
          | none => none
          | some (d1, rng1) => some (d1, rng1, keys)
        else some (d, rng, keys)
    | Proc.KeyCase.stairsUp =>
      match d.characters[i]? with
      | none => none
      | some pc =>
        if d.base_map pc.y pc.x = '<' then
          match new_level d rng with
          | none => none
          | some (d1, rng1) => some (d1, rng1, keys)
        else some (d, rng, keys)
    | Proc.KeyCase.rest => some (d, rng, keys)
    | Proc.KeyCase.monsterList =>
      match monsterListLoop keys with
      | none => none
      | some keys1 => Proc.handle_pc_input new_level i fuel keys1 d rng
    | Proc.KeyCase.quit => some ({ d with pc_is_alive := false }, rng, keys)
    | Proc.KeyCase.other => Proc.handle_pc_input new_level i fuel keys d rng

/-- An open level of the procedural variant: the display shows the PC on `(5, 5)` and the
glyph `0` of a monster on `(6, 5)`. -/
def blockedDungeon : Dungeon :=
  { openDungeon with
    dungeon := fun y x => if y = 5 ∧ x = 5 then '@' else if y = 5 ∧ x = 6 then '0' else '.'
    pc_x := 5
    pc_y := 5
    characters := [{ PC.new with x := 5, y := 5 }, NPC.new 0 6 5 10 10] }

/-! ## The node heap during a path-field computation -/

/-- What a run of a Dijkstra routine did to its heap: the cells of the nodes inserted, in
order of insertion; the number of popped nodes the `continue` test discarded; the largest
size the heap had after an insertion. -/
structure HeapLog where
  inserted : List Cell
  stale : Nat
  peak : Nat

/-- The body `relaxWith` of the `for (i < 8)` loop, keeping the log: an insertion adds its
cell and the new size of the heap. -/
def relaxLog (pass : Int → Bool) (cost : Int → Int) (hardness : Grid Int) (u : Node)
    (sl : (Grid Int × List Node) × HeapLog) (dir : Int × Int) :
    (Grid Int × List Node) × HeapLog :=
  let st := sl.1
  let nx := u.x + dir.1
  let ny := u.y + dir.2
  if !inBounds nx ny then sl
  else if pass (hardness ny nx) then
    let alt := wrapInt32 (u.dist + cost (hardness ny nx))
    if alt < st.1 ny nx then
      let h := NodeHeap.insert st.2 ⟨nx, ny, alt⟩
      ((st.1.set ny nx alt, h),
        { sl.2 with inserted := sl.2.inserted ++ [(nx, ny)], peak := max sl.2.peak h.length })
    else sl
  else sl

/-- The `while` loop `loopWith`, keeping the log: a popped node that fails the test
`u.dist > dist[u.y][u.x]` is counted as stale. -/
def loopLog (pass : Int → Bool) (cost : Int → Int) (hardness : Grid Int) :
    Nat → (Grid Int × List Node) × HeapLog → (Grid Int × List Node) × HeapLog
  | 0, sl => sl
  | fuel + 1, sl =>
    if NodeHeap.empty sl.1.2 then sl
    else match NodeHeap.pop sl.1.2 with
      | none => sl
      | some (u, h) =>
        if u.dist > sl.1.1 u.y u.x then
          loopLog pass cost hardness fuel ((sl.1.1, h), { sl.2 with stale := sl.2.stale + 1 })
        else loopLog pass cost hardness fuel
          (dirs.foldl (relaxLog pass cost hardness u) ((sl.1.1, h), sl.2))

/-- The routine `runWith`, keeping the log; the insertion of the source node opens the
log. -/
def runLog (pass : Int → Bool) (cost : Int → Int) (hardness : Grid Int) (old : Grid Int)
    (x y : Int) : (Grid Int × List Node) × HeapLog :=
  loopLog pass cost hardness DIJKSTRA_FUEL
    (((old.fill INT32_MAX).set y x 0, NodeHeap.insert [] ⟨x, y, 0⟩),
      { inserted := [(x, y)], stale := 0, peak := (NodeHeap.insert [] ⟨x, y, 0⟩).length })

/-- The cells of the nodes of a heap. -/
def heapCells (heap : List Node) : List Cell := heap.map fun n => (n.x, n.y)

/-- Invariant of the Dijkstra loops, ordering part, with `m` the key of the node popped
last: the heap is ordered, holds at most one node per cell, every node carries the field
value of its cell, no node lies below `m`, and every reached cell other than the source
is within one edge of `m`. -/
structure DOrder (cost : Int → Int) (hardness : Grid Int) (s : Cell) (m : Int)
    (dist : Grid Int) (heap : List Node) : Prop where
  isHeap : IsHeap Node.dist heap
  cells : (heapCells heap).Nodup
  fresh : ∀ n ∈ heap, dist n.y n.x = n.dist ∧ m ≤ n.dist
  near : ∀ c : Cell, inBounds c.1 c.2 = true → dist c.2 c.1 ≠ INT32_MAX → c ≠ s →
    dist c.2 c.1 ≤ m + cost (hardness c.2 c.1)

/-- What the invariant says about the log: no cell was inserted twice, every inserted cell
has a field value, no popped node was stale, and the heap never exceeded 1680 nodes. -/
structure LogOK (dist : Grid Int) (log : HeapLog) : Prop where
  nodup : log.inserted.Nodup
  fin : ∀ c ∈ log.inserted, dist c.2 c.1 ≠ INT32_MAX
  stale : log.stale = 0
  peak : log.peak ≤ 1680

/-! ## The path field of the procedural variant -/

/-- Number of nodes `initializeHeap(&h, WIDTH*HEIGHT)` allocates. -/
def Proc.HEAP_CAPACITY : Nat := (WIDTH * HEIGHT).toNat

/-- `insertNode` of the procedural variant: the node is written to slot `size` of the
array allocated by `initializeHeap`, then sifted up as in `NodeHeap::insert`.  A write
past the allocated slots is undefined and yields `none`. -/
def Proc.insertNode (h : List Node) (n : Node) : Option (List Node) :=
  if h.length < Proc.HEAP_CAPACITY then some (NodeHeap.insert h n) else none

/-- `deleteFromHeap` of the procedural variant, statement for statement `NodeHeap::pop`. -/
def Proc.deleteFromHeap (h : List Node) : Option (Node × List Node) := NodeHeap.pop h

/-- Body of the `for (i < 8)` loop of the procedural `djikstraForTunnel`. -/
def Proc.relaxTunnel (hardness : Grid Int) (u : Node) (st : Option (Grid Int × List Node))
    (dir : Int × Int) : Option (Grid Int × List Node) :=
  match st with
  | none => none
  | some st =>
    let nx := u.x + dir.1
    let ny := u.y + dir.2
    if !inBounds nx ny then some st
    else if hardness ny nx ≠ 255 then
      let cost : Int := 1
      let cost := if hardness ny nx > 0 ∧ hardness ny nx < 255
        then wrapInt32 (cost + Int.tdiv (hardness ny nx) 85) else cost
      let alt := wrapInt32 (u.dist + cost)
      if alt < st.1 ny nx then
        match Proc.insertNode st.2 ⟨nx, ny, alt⟩ with
        | none => none
        | some h => some (st.1.set ny nx alt, h)
      else some st
    else some st

/-- The `while (h.size > 0)` loop of the procedural `djikstraForTunnel`, at most `fuel`
iterations; `none` also when the budget ends first. -/
def Proc.tunnelLoop (hardness : Grid Int) :
    Nat → Grid Int × List Node → Option (Grid Int × List Node)
  | 0, _ => none
  | fuel + 1, st =>
    if st.2.length > 0 then
      match Proc.deleteFromHeap st.2 with
      | none => none
      | some (u, h) =>
        if u.dist > st.1 u.y u.x then Proc.tunnelLoop hardness fuel (st.1, h)
        else
          match dirs.foldl (Proc.relaxTunnel hardness u) (some (st.1, h)) with
          | none => none
          | some st1 => Proc.tunnelLoop hardness fuel st1
    else some st

/-- The procedural `djikstraForTunnel(sx, sy)`: the new contents of `disTunneling`, or
`none` when an insertion leaves the allocated array. -/
def Proc.djikstraForTunnel (hardness : Grid Int) (disTunneling : Grid Int) (sx sy : Int) :
    Option (Grid Int) :=
  let dist := disTunneling.fill INT32_MAX
  let dist := dist.set sy sx 0
  match Proc.insertNode [] ⟨sx, sy, 0⟩ with
  | none => none
  | some h => (Proc.tunnelLoop hardness DIJKSTRA_FUEL (dist, h)).map Prod.fst

/-- Body of the `for (i < 8)` loop of the procedural `djikstraForNonTunnel`. -/
def Proc.relaxNonTunnel (hardness : Grid Int) (u : Node)
    (st : Option (Grid Int × List Node)) (dir : Int × Int) :
    Option (Grid Int × List Node) :=
  match st with
  | none => none
  | some st =>
    let nx := u.x + dir.1
    let ny := u.y + dir.2
    if !inBounds nx ny then some st
    else if hardness ny nx = 0 then
      let alt := wrapInt32 (u.dist + 1)
      if alt < st.1 ny nx then
        match Proc.insertNode st.2 ⟨nx, ny, alt⟩ with
        | none => none
        | some h => some (st.1.set ny nx alt, h)
      else some st
    else some st

/-- The `while (h.size > 0)` loop of the procedural `djikstraForNonTunnel`, at most `fuel`
iterations; `none` also when the budget ends first. -/
def Proc.nonTunnelLoop (hardness : Grid Int) :
    Nat → Grid Int × List Node → Option (Grid Int × List Node)
  | 0, _ => none
  | fuel + 1, st =>
    if st.2.length > 0 then
      match Proc.deleteFromHeap st.2 with
      | none => none
      | some (u, h) =>
        if u.dist > st.1 u.y u.x then Proc.nonTunnelLoop hardness fuel (st.1, h)
        else
          match dirs.foldl (Proc.relaxNonTunnel hardness u) (some (st.1, h)) with
          | none => none
          | some st1 => Proc.nonTunnelLoop hardness fuel st1
    else some st

/-- The procedural `djikstraForNonTunnel(sx, sy)`: the new contents of `disNonTunneling`,
or `none` when an insertion leaves the allocated array. -/
def Proc.djikstraForNonTunnel (hardness : Grid Int) (disNonTunneling : Grid Int)
    (sx sy : Int) : Option (Grid Int) :=
  let dist := disNonTunneling.fill INT32_MAX
  let dist := dist.set sy sx 0
  match Proc.insertNode [] ⟨sx, sy, 0⟩ with
  | none => none
  | some h => (Proc.nonTunnelLoop hardness DIJKSTRA_FUEL (dist, h)).map Prod.fst

/-- Both procedural loop bodies as one function of the mode's edge rule. -/
def Proc.relaxWith (pass : Int → Bool) (cost : Int → Int) (hardness : Grid Int) (u : Node)
    (st : Option (Grid Int × List Node)) (dir : Int × Int) :
    Option (Grid Int × List Node) :=
  match st with
  | none => none
  | some st =>
    let nx := u.x + dir.1
    let ny := u.y + dir.2
    if !inBounds nx ny then some st
    else if pass (hardness ny nx) then
      let alt := wrapInt32 (u.dist + cost (hardness ny nx))
      if alt < st.1 ny nx then
        match Proc.insertNode st.2 ⟨nx, ny, alt⟩ with
        | none => none
        | some h => some (st.1.set ny nx alt, h)
      else some st
    else some st

/-- Both procedural `while` loops as one function of the mode's edge rule. -/
def Proc.loopWith (pass : Int → Bool) (cost : Int → Int) (hardness : Grid Int) :
    Nat → Grid Int × List Node → Option (Grid Int × List Node)
  | 0, _ => none
  | fuel + 1, st =>
    if st.2.length > 0 then
      match Proc.deleteFromHeap st.2 with
      | none => none
      | some (u, h) =>
        if u.dist > st.1 u.y u.x then Proc.loopWith pass cost hardness fuel (st.1, h)
        else
          match dirs.foldl (Proc.relaxWith pass cost hardness u) (some (st.1, h)) with
          | none => none
          | some st1 => Proc.loopWith pass cost hardness fuel st1
    else some st

/-! ## Vocabulary of the statements about the scheduler -/

/-- The states at which the condition of the `while` loop of `gameLoop` is evaluated, in
order, for at most `n` iterations from the state `s`. -/
def gameLoopHeads (fuel : Nat) : Nat → LoopState → List LoopState
  | 0, s => [s]
  | n + 1, s =>
    if s.running then
      match EventQueue.pop s.eq with
      | none => [s]
      | some (e, rest) =>
        match gameLoopBody fuel e { s with eq := rest } with
        | some (s1, LoopFlow.next) => s :: gameLoopHeads fuel n s1
        | _ => [s]
    else [s]

/-- Every queued event refers to a slot of the roster, and no two refer to the same. -/
def QueueOK (s : LoopState) : Prop :=
  (s.eq.map Event.c).Nodup ∧ ∀ e ∈ s.eq, e.c < s.d.characters.length

/-- What the turn of the character in slot `i` can do to the roster `l`: no slot is added
or removed, a dead character stays dead, and only slot `i` changes its position. -/
def Fate (i : Nat) (l l1 : List Character) : Prop :=
  l1.length = l.length ∧
  ∀ (j : Nat) (c c1 : Character), l[j]? = some c → l1[j]? = some c1 →
    (c.alive = false → c1.alive = false) ∧ (j ≠ i → c1.x = c.x ∧ c1.y = c.y)

/-- The outcome of a key respects `Fate`. -/
def KeyOutcome.Fated (i : Nat) (d : Dungeon) : KeyOutcome → Prop
  | KeyOutcome.again d1 => Fate i d.characters d1.characters
  | KeyOutcome.done d1 _ _ => Fate i d.characters d1.characters
  | KeyOutcome.stuck => True

/-! ## The event loop of the procedural variant -/

/-- `eq_push` of the procedural variant: the event is written to slot `size` of the
`capacity` slots allocated by `init_event_queue`, then sifted up as in
`EventQueue::push`.  A write past the allocated slots is undefined and yields `none`. -/
def Proc.eq_push (capacity : Nat) (eq : List Event) (e : Event) : Option (List Event) :=
  if eq.length < capacity then some (EventQueue.push eq e) else none

/-- Size of the array `characters`. -/
def Proc.MAX_CHARACTERS : Nat := 1000

/-- `create_pc` of the procedural variant; a write past the array `characters` is
undefined and yields `none`. -/
def Proc.create_pc (d : Dungeon) : Option Dungeon :=
  if d.characters.length < Proc.MAX_CHARACTERS then
    let pc : Character :=
      { Character.new with
        type := CharType.PC_TYPE
        alive := true
        x := d.pc_x
        y := d.pc_y
        speed := 10
        turn := 0
        hp := 50
        btype := 0
        symbol := '@' }
    some { d with characters := d.characters ++ [pc],
                  dungeon := d.dungeon.set d.pc_y d.pc_x '@' }
  else none

/-- The `do { rx=rand()%WIDTH; ry=rand()%HEIGHT; } while(dungeon[ry][rx] != '.')` loop of
the procedural `create_monster`, at most `fuel` iterations. -/
def Proc.pickMonsterCell : Nat → Dungeon → Rng → Option (Int × Int × Rng)
  | 0, _, _ => none
  | fuel + 1, d, rng =>
    let r1 := rand rng
    let rx := r1.1 % WIDTH
    let r2 := rand r1.2
    let ry := r2.1 % HEIGHT
    if d.dungeon ry rx ≠ '.' then Proc.pickMonsterCell fuel d r2.2
    else some (rx, ry, r2.2)

/-- `create_monster` of the procedural variant, with a budget for its sampling loop. -/
def Proc.create_monster (fuel : Nat) (d : Dungeon) (rng : Rng) : Option (Dungeon × Rng) :=
  match Proc.pickMonsterCell fuel d rng with
  | none => none
  | some (rx, ry, rng1) =>
    let r3 := rand rng1
    let flags := r3.1.toNat &&& 0x0F
    let r4 := rand r3.2
    let spd := r4.1 % 16 + 5
    if d.characters.length < Proc.MAX_CHARACTERS then
      let m : Character :=
        { Character.new with
          type := CharType.NPC_TYPE
          alive := true
          x := rx
          y := ry
          speed := spd
          turn := 0
          hp := 10
          btype := flags
          symbol := hex_map.getD flags '?' }
      some ({ d with characters := d.characters ++ [m],
                     dungeon := d.dungeon.set ry rx m.symbol }, r4.2)
    else none

/-- The loop `for(int i=0; i<nummon; i++) create_monster();`. -/
def Proc.create_monsters (fuel : Nat) : Nat → Dungeon → Rng → Option (Dungeon × Rng)
  | 0, d, rng => some (d, rng)
  | n + 1, d, rng =>
    match Proc.create_monster fuel d rng with
    | none => none
    | some (d1, rng1) => Proc.create_monsters fuel n d1 rng1

/-- `new_level(nummon)` of the procedural variant.  `terrain` stands for its statements
from `initializeDungeon()` to `djikstraForTunnel(pc_x, pc_y)`, which build the level and
the path fields and leave the array `characters` and `num_characters` alone: the roster
is emptied before them (`num_characters=0`) and filled after them by `create_pc` and
`create_monster`. -/
def Proc.new_level (terrain : Dungeon → Rng → Option (Dungeon × Rng)) (fuel : Nat)
    (nummon : Int) (d : Dungeon) (rng : Rng) : Option (Dungeon × Rng) :=
  match terrain { d with characters := [] } rng with
  | none => none
  | some (d1, rng1) =>
    match Proc.create_pc { d1 with characters := [] } with
    | none => none
    | some d2 => Proc.create_monsters fuel nummon.toNat d2 rng1

/-- What the branch of the loop body for the popped character leaves: the state, and
whether `break` was taken. -/
def Proc.mainLoopTurn (terrain : Dungeon → Rng → Option (Dungeon × Rng)) (fuel : Nat)
    (nummon : Int) (i : Nat) (c : Character) (s : LoopState) : Option (LoopState × Bool) :=
  match c.type with
  | CharType.PC_TYPE =>
    match Proc.handle_pc_input (Proc.new_level terrain fuel nummon) i fuel s.keys s.d s.rng with
    | none => none
    | some (d1, rng1, keys1) =>
      if d1.pc_is_alive then
        match d1.characters[i]? with
        | none => none
        | some c1 =>
          let d2 := { d1 with pc_x := c1.x, pc_y := c1.y }
          match Proc.djikstraForNonTunnel d2.hardness d2.disNonTunneling d2.pc_x d2.pc_y with
          | none => none
          | some f1 =>
            match Proc.djikstraForTunnel d2.hardness d2.disTunneling d2.pc_x d2.pc_y with
            | none => none
            | some f2 =>
              some ({ s with d := { d2 with disNonTunneling := f1, disTunneling := f2 },
                             rng := rng1, keys := keys1 }, false)
      else some ({ s with d := d1, rng := rng1, keys := keys1 }, false)
  | CharType.NPC_TYPE =>
    let r := Proc.do_monster_movement i s.d s.rng
    let s1 := { s with d := r.1, rng := r.2 }
    if !r.1.pc_is_alive then some (s1, true)
    else
      match r.1.characters[i]? with
      | none => none
      | some c1 =>
        if !c1.alive then
          if s1.aliveMonsters - 1 < -INT32_MAX - 1 then none
          else some ({ s1 with aliveMonsters := s1.aliveMonsters - 1 }, false)
        else some (s1, false)

/-- Body of the `while` loop of `main` after `event_t e=eq_pop(&eq)`; `s.eq` is the queue
after the pop, `capacity` the number of slots of the queue, `nummon` the value of
`global_num_monsters`, which `main` sets before the loop.  The result is `none` where the
program has no defined behaviour or waits for input for ever. -/
def Proc.mainLoopBody (terrain : Dungeon → Rng → Option (Dungeon × Rng)) (fuel : Nat)
    (capacity : Nat) (nummon : Int) (e : Event) (s : LoopState) :
    Option (LoopState × LoopFlow) :=
  let s := { s with current_time := e.time }
  match s.d.characters[e.c]? with
  | none => none
  | some c =>
    if !c.alive then some (s, LoopFlow.next)
    else
      match Proc.mainLoopTurn terrain fuel nummon e.c c s with
      | none => none
      | some (s1, true) => some (s1, LoopFlow.stop)
      | some (s1, false) =>
        match s1.d.characters[e.c]? with
        | none => none
        | some c1 =>
          if c1.alive then
            if c1.speed = 0 then none
            else
              let next_time := s1.current_time + Int.tdiv 1000 c1.speed
              if next_time > INT32_MAX ∨ next_time < -INT32_MAX - 1 then none
              else
                match Proc.eq_push capacity s1.eq ⟨next_time, e.c⟩ with
                | none => none
                | some q => some ({ s1 with eq := q }, LoopFlow.next)
          else some (s1, LoopFlow.next)

/-- Condition of the `while` loop of `main`. -/
def Proc.running (s : LoopState) : Bool :=
  !EventQueue.empty s.eq && s.d.pc_is_alive && decide (s.aliveMonsters > 0)

/-- The `while` loop of `main`, at most `n` iterations: the events popped and the state
when the loop ends, `none` when the budget ends first or the body has no result. -/
def Proc.mainLoopRun (terrain : Dungeon → Rng → Option (Dungeon × Rng)) (fuel : Nat)
    (capacity : Nat) (nummon : Int) : Nat → LoopState → List Event × Option LoopState
  | 0, _ => ([], none)
  | n + 1, s =>
    if Proc.running s then
      match EventQueue.pop s.eq with
      | none => ([], none)
      | some (e, rest) =>
        match Proc.mainLoopBody terrain fuel capacity nummon e { s with eq := rest } with
        | none => ([e], none)
        | some (s1, LoopFlow.stop) => ([e], some s1)
        | some (s1, LoopFlow.next) =>
          let r := Proc.mainLoopRun terrain fuel capacity nummon n s1
          (e :: r.1, r.2)
    else ([], some s)

/-- The states at which the condition of the `while` loop of `main` is evaluated. -/
def Proc.mainLoopHeads (terrain : Dungeon → Rng → Option (Dungeon × Rng)) (fuel : Nat)
    (capacity : Nat) (nummon : Int) : Nat → LoopState → List LoopState
  | 0, s => [s]
  | n + 1, s =>
    if Proc.running s then
      match EventQueue.pop s.eq with
      | none => [s]
      | some (e, rest) =>
        match Proc.mainLoopBody terrain fuel capacity nummon e { s with eq := rest } with
        | some (s1, LoopFlow.next) => s :: Proc.mainLoopHeads terrain fuel capacity nummon n s1
        | _ => [s]
    else [s]

/-- Number of slots `init_event_queue(&eq,(local_num_mon+1)*10)` allocates. -/
def Proc.queueCapacity (local_num_mon : Int) : Nat := ((local_num_mon + 1) * 10).toNat

/-- The loop `for(int i=0;i<num_characters;i++)` of `main` that queues one event at time
0 for every character of the roster. -/
def Proc.pushAll (capacity : Nat) : List Nat → List Event → Option (List Event)
  | [], q => some q
  | i :: is, q =>
    match Proc.eq_push capacity q ⟨0, i⟩ with
    | none => none
    | some q1 => Proc.pushAll capacity is q1

/-- The entry of the loop of `main`: the queue, `aliveMonsters=local_num_mon` and
`current_time=0`. -/
def Proc.mainInit (local_num_mon : Int) (d : Dungeon) (rng : Rng) (keys : List Int) :
    Option LoopState :=
  match Proc.pushAll (Proc.queueCapacity local_num_mon) (List.range d.characters.length) [] with
  | none => none
  | some q =>
    some { eq := q, d := d, rng := rng, keys := keys, aliveMonsters := local_num_mon,
           current_time := 0 }

/-- What the scheduler leaves of the dead: no slot of the roster is added or removed, and
a character that is dead stays dead on its cell. -/
def Graves (l l1 : List Character) : Prop :=
  l1.length = l.length ∧
  ∀ (j : Nat) (c c1 : Character), l[j]? = some c → l1[j]? = some c1 → c.alive = false →
    c1.alive = false ∧ c1.x = c.x ∧ c1.y = c.y

/-- A state of the scheduler loop in which the monster of slot 1 is dead: the PC on
`(5, 5)`, the dead monster on `(7, 5)`, an empty queue. -/
def graveState : LoopState :=
  { eq := []
    d := { chaseDungeon with
      characters := [{ PC.new with x := 5, y := 5 },
        { NPC.new 0 7 5 10 10 with alive := false }] }
    rng := zeroRng
    keys := []
    aliveMonsters := 0
    current_time := 0 }

/-! ## Sample runs -/

/-- A level with the PC alone on it: the roster of a game started without monsters. -/
def loneDungeon : Dungeon :=
  { openDungeon with
    pc_x := 5
    pc_y := 5
    characters := [{ PC.new with x := 5, y := 5 }] }


/-- The room that the second attempt of `generateRooms` draws. -/
def secondRoom (rng : Rng) : Room := firstRoom (rand (rand (rand (rand rng).2).2).2).2

/-- A random generator whose calls return 0, except the seventh, which returns 10: the
first attempt of `generateRooms` draws the room `(1, 1, 4, 3)`, the second the room
`(11, 1, 4, 3)`, and every later attempt the first room again. -/
def twoRoomRng : Rng := ⟨fun i => if i = 6 then 10 else 0, 0⟩

/-- The state after a turn of the PC that rests (key `5`). -/
def restState (s : LoopState) (c : Character) (ks : List Int) : LoopState :=
  { s with
    d := { s.d with
           pc_x := c.x
           pc_y := c.y
           disNonTunneling := djikstraForNonTunnel s.d.hardness s.d.disNonTunneling c.x c.y
           disTunneling := djikstraForTunnel s.d.hardness s.d.disTunneling c.x c.y }
    keys := ks }

/-! # Theorems -/

/-! ## Theorems: binary heap -/

theorem length_swapAt {α : Type} [Inhabited α] (l : List α) (i j : Nat) :
    (swapAt l i j).length = l.length := by
  simp [swapAt]

theorem getD_swapAt {α : Type} [Inhabited α] (l : List α) (i j k : Nat)
    (hi : i < l.length) (hj : j < l.length) :
    (swapAt l i j).getD k default =
      if k = j then l.getD i default else if k = i then l.getD j default
      else l.getD k default := by
  unfold swapAt
  simp only [List.getD_eq_getElem?_getD, List.getElem?_set, List.length_set]
  by_cases h1 : k = j
  · subst h1; simp [hj]
  · by_cases h2 : k = i
    · subst h2
      have : ¬ j = k := fun h => h1 h.symm
      simp [this, hi, h1]
    · have a : ¬ j = k := fun h => h1 h.symm
      have b : ¬ i = k := fun h => h2 h.symm
      simp [a, b, h1, h2]

theorem swapAt_perm {α : Type} [Inhabited α] (l : List α) (i j : Nat)
    (hi : i < l.length) (hj : j < l.length) : (swapAt l i j).Perm l := by
  classical
  rw [List.perm_iff_count]
  intro a
  unfold swapAt
  rw [List.count_set _ _ _ _ (by simpa using hj), List.count_set _ _ _ _ hi]
  simp only [List.getD_eq_getElem?_getD, List.getElem?_eq_getElem hi,
    List.getElem?_eq_getElem hj, Option.getD_some, List.getElem_set]
  have h1 : l[i] = a → 0 < List.count a l := fun h =>
    h ▸ List.count_pos_iff.mpr (List.getElem_mem hi)
  have h2 : l[j] = a → 0 < List.count a l := fun h =>
    h ▸ List.count_pos_iff.mpr (List.getElem_mem hj)
  by_cases e1 : l[i] = a <;> by_cases e2 : l[j] = a <;> by_cases hij : i = j <;>
    simp [e1, e2, hij, beq_iff_eq] <;>
    first
    | omega
    | (have hc1 := h1 e1; omega)
    | (have hc2 := h2 e2; omega)

theorem heapifyUpLoop_spec {α : Type} [Inhabited α] (key : α → Int) :
    ∀ (fuel : Nat) (l : List α) (i : Nat), i ≤ fuel → i < l.length → UpInv key l i →
      IsHeap key (heapifyUpLoop key fuel l i) ∧ (heapifyUpLoop key fuel l i).Perm l := by
  intro fuel
  induction fuel with
  | zero =>
    intro l i hf hi hinv
    have i0 : i = 0 := by omega
    subst i0
    refine ⟨?_, List.Perm.refl _⟩
    intro j hj hjl
    exact hinv.1 j hj hjl (by omega)
  | succ fuel ih =>
    intro l i hf hi hinv
    unfold heapifyUpLoop
    by_cases hpos : 0 < i
    · simp only [hpos, if_true]
      have hp : parentIdx i < i := by unfold parentIdx; omega
      by_cases hlt : key (l.getD i default) < key (l.getD (parentIdx i) default)
      · simp only [hlt, if_true]
        have hpl : parentIdx i < l.length := by omega
        have hsw := swapAt_perm l i (parentIdx i) hi hpl
        have hlen := length_swapAt l i (parentIdx i)
        have key' : ∀ k, (swapAt l i (parentIdx i)).getD k default =
            if k = parentIdx i then l.getD i default else if k = i then
              l.getD (parentIdx i) default else l.getD k default :=
          fun k => getD_swapAt l i (parentIdx i) k hi hpl
        have := ih (swapAt l i (parentIdx i)) (parentIdx i) (by omega) (by omega) ?_
        · exact ⟨this.1, this.2.trans hsw⟩
        · constructor
          · intro j hj hjl hne
            rw [hlen] at hjl
            rw [key', key']
            by_cases hji : j = i
            · subst hji
              simp only [if_true, if_neg (Nat.ne_of_gt hp)]
              omega
            · simp only [if_neg hne, if_neg hji]
              have hpj : parentIdx j < j := by unfold parentIdx; omega
              by_cases e1 : parentIdx j = parentIdx i
              · simp only [e1, if_true]
                have := hinv.1 j hj hjl hji
                rw [e1] at this
                omega
              · simp only [if_neg e1]
                by_cases e2 : parentIdx j = i
                · simp only [e2, if_true]
                  exact hinv.2 j hj hjl e2 hpos
                · simp only [if_neg e2]
                  exact hinv.1 j hj hjl hji
          · intro j hj hjl hpar hppos
            rw [hlen] at hjl
            rw [key', key']
            have hpp : parentIdx (parentIdx i) < parentIdx i := by
              unfold parentIdx at hppos ⊢; omega
            have hjne : j ≠ parentIdx i := by
              intro h; rw [h] at hpar; omega
            simp only [if_neg (Nat.ne_of_lt hpp), if_neg hjne]
            have e3 : parentIdx (parentIdx i) ≠ i := by omega
            simp only [if_neg e3]
            have hP := hinv.1 (parentIdx i) hppos hpl (by omega)
            by_cases hji : j = i
            · simp only [hji, if_true]; exact hP
            · simp only [if_neg hji]
              have := hinv.1 j hj hjl hji
              rw [hpar] at this
              omega
      · simp only [hlt, if_false]
        refine ⟨?_, List.Perm.refl _⟩
        intro j hj hjl
        by_cases hji : j = i
        · subst hji; omega
        · exact hinv.1 j hj hjl hji
    · simp only [hpos, if_false]
      refine ⟨?_, List.Perm.refl _⟩
      intro j hj hjl
      exact hinv.1 j hj hjl (by omega)

theorem heapifyDownLoop_succ {α : Type} [Inhabited α] (key : α → Int) (fuel : Nat)
    (heap : List α) (i : Nat) :
    heapifyDownLoop key (fuel + 1) heap i =
      if minChild key heap i = i then heap
      else heapifyDownLoop key fuel (swapAt heap i (minChild key heap i))
        (minChild key heap i) := by
  simp only [heapifyDownLoop, minChild]

theorem minChild_spec {α : Type} [Inhabited α] (key : α → Int) (l : List α) (i : Nat) :
    (minChild key l i = i ∧
      ∀ j, 0 < j → j < l.length → parentIdx j = i →
        key (l.getD i default) ≤ key (l.getD j default)) ∨
    (minChild key l i ≠ i ∧ minChild key l i < l.length ∧
      parentIdx (minChild key l i) = i ∧ 0 < minChild key l i ∧
      key (l.getD (minChild key l i) default) < key (l.getD i default) ∧
      ∀ j, 0 < j → j < l.length → parentIdx j = i →
        key (l.getD (minChild key l i) default) ≤ key (l.getD j default)) := by
  have hch : ∀ j, 0 < j → parentIdx j = i → j = 2 * i + 1 ∨ j = 2 * i + 2 := by
    intro j hj hp; unfold parentIdx at hp; omega
  unfold minChild leftIdx rightIdx
  simp only
  by_cases hA : 2 * i + 1 < l.length ∧
      key (l.getD (2 * i + 1) default) < key (l.getD i default)
  · rw [if_pos hA]
    by_cases hB : 2 * i + 2 < l.length ∧
        key (l.getD (2 * i + 2) default) < key (l.getD (2 * i + 1) default)
    · rw [if_pos hB]
      right
      refine ⟨by omega, hB.1, by unfold parentIdx; omega, by omega, by omega, ?_⟩
      intro j hj hjl hp
      rcases hch j hj hp with h | h <;> subst h <;> omega
    · rw [if_neg hB]
      right
      refine ⟨by omega, hA.1, by unfold parentIdx; omega, by omega, hA.2, ?_⟩
      intro j hj hjl hp
      rcases hch j hj hp with h | h
      · subst h; omega
      · subst h
        have : ¬ key (l.getD (2 * i + 2) default) < key (l.getD (2 * i + 1) default) :=
          fun h => hB ⟨hjl, h⟩
        omega
  · rw [if_neg hA]
    by_cases hB : 2 * i + 2 < l.length ∧
        key (l.getD (2 * i + 2) default) < key (l.getD i default)
    · rw [if_pos hB]
      right
      refine ⟨by omega, hB.1, by unfold parentIdx; omega, by omega, hB.2, ?_⟩
      intro j hj hjl hp
      rcases hch j hj hp with h | h
      · subst h
        have : ¬ key (l.getD (2 * i + 1) default) < key (l.getD i default) :=
          fun h => hA ⟨hjl, h⟩
        omega
      · subst h; omega
    · rw [if_neg hB]
      left
      refine ⟨rfl, ?_⟩
      intro j hj hjl hp
      rcases hch j hj hp with h | h
      · subst h
        have : ¬ key (l.getD (2 * i + 1) default) < key (l.getD i default) :=
          fun h => hA ⟨hjl, h⟩
        omega
      · subst h
        have : ¬ key (l.getD (2 * i + 2) default) < key (l.getD i default) :=
          fun h => hB ⟨hjl, h⟩
        omega

theorem heapifyDownLoop_spec {α : Type} [Inhabited α] (key : α → Int) :
    ∀ (fuel : Nat) (l : List α) (i : Nat), l.length ≤ i + fuel → DownInv key l i →
      IsHeap key (heapifyDownLoop key fuel l i) ∧ (heapifyDownLoop key fuel l i).Perm l := by
  intro fuel
  induction fuel with
  | zero =>
    intro l i hf hinv
    refine ⟨?_, List.Perm.refl _⟩
    intro j hj hjl
    have hpj : parentIdx j < j := by unfold parentIdx; omega
    exact hinv.1 j hj hjl (by simp only [heapifyDownLoop] at hjl; omega)
  | succ fuel ih =>
    intro l i hf hinv
    rw [heapifyDownLoop_succ]
    rcases minChild_spec key l i with ⟨hm, hmin⟩ | ⟨hne, hml, hpar, hmpos, hlt, hmin⟩
    · rw [if_pos hm]
      refine ⟨?_, List.Perm.refl _⟩
      intro j hj hjl
      by_cases hp : parentIdx j = i
      · rw [hp]; exact hmin j hj hjl hp
      · exact hinv.1 j hj hjl hp
    · rw [if_neg hne]
      generalize minChild key l i = m at hne hml hpar hmpos hlt hmin
      have him : i < m := by unfold parentIdx at hpar; omega
      have hi : i < l.length := by omega
      have hsw := swapAt_perm l i m hi hml
      have hlen := length_swapAt l i m
      have key' : ∀ k, (swapAt l i m).getD k default =
          if k = m then l.getD i default else if k = i then
            l.getD m default else l.getD k default :=
        fun k => getD_swapAt l i m k hi hml
      have := ih (swapAt l i m) m (by omega) ?_
      · exact ⟨this.1, this.2.trans hsw⟩
      · constructor
        · intro j hj hjl hp
          rw [hlen] at hjl
          rw [key', key']
          have hpj : parentIdx j < j := by unfold parentIdx; omega
          by_cases hjm : j = m
          · subst hjm
            simp only [if_true, hpar, if_neg (Nat.ne_of_lt him)]
            omega
          · simp only [if_neg hjm, if_neg hp]
            by_cases hji : j = i
            · subst hji
              have hpos : 0 < j := hj
              simp only [if_true, if_neg (Nat.ne_of_lt hpj)]
              exact hinv.2 m hmpos hml hpar hpos
            · simp only [if_neg hji]
              by_cases e2 : parentIdx j = i
              · simp only [e2, if_true]
                exact hmin j hj hjl e2
              · simp only [if_neg e2]
                exact hinv.1 j hj hjl e2
        · intro j hj hjl hp _
          rw [hlen] at hjl
          rw [key', key']
          have hpj : parentIdx j < j := by unfold parentIdx; omega
          have e1 : j ≠ m := by omega
          have e2 : j ≠ i := by omega
          simp only [hpar, if_neg (Nat.ne_of_lt him), if_neg e1, if_neg e2, if_true]
          have := hinv.1 j hj hjl (by omega)
          rw [hp] at this
          exact this

theorem isHeap_root_le {α : Type} [Inhabited α] (key : α → Int) (l : List α)
    (h : IsHeap key l) : ∀ j, j < l.length →
      key (l.getD 0 default) ≤ key (l.getD j default) := by
  intro j
  induction j using Nat.strong_induction_on with
  | _ j ih =>
    intro hj
    by_cases h0 : j = 0
    · subst h0; exact le_refl _
    · have hp : parentIdx j < j := by unfold parentIdx; omega
      have h1 := ih (parentIdx j) hp (by omega)
      have h2 := h j (by omega) hj
      omega

theorem isHeap_nil {α : Type} [Inhabited α] (key : α → Int) : IsHeap key ([] : List α) := by
  intro j _ hj
  simp at hj

theorem heapPush_spec {α : Type} [Inhabited α] (key : α → Int) (l : List α) (e : α)
    (h : IsHeap key l) :
    IsHeap key (heapPush key l e) ∧ (heapPush key l e).Perm (e :: l) := by
  unfold heapPush heapifyUp
  have hlen : (l ++ [e]).length - 1 = l.length := by simp
  rw [hlen]
  have := heapifyUpLoop_spec key l.length (l ++ [e]) l.length (le_refl _) (by simp) ?_
  · exact ⟨this.1, this.2.trans (List.perm_append_singleton e l)⟩
  · constructor
    · intro j hj hjl hne
      have hjl' : j < l.length := by
        simp at hjl; omega
      have hp : parentIdx j < l.length := by unfold parentIdx; omega
      rw [List.getD_append _ _ _ _ hp, List.getD_append _ _ _ _ hjl']
      exact h j hj hjl'
    · intro j hj hjl hp _
      have : parentIdx j < j := by unfold parentIdx; omega
      simp at hjl
      omega

theorem heapPop_none {α : Type} [Inhabited α] (key : α → Int) (l : List α) :
    heapPop key l = none ↔ l = [] := by
  cases l <;> simp [heapPop]

theorem getD_popPrep {α : Type} [Inhabited α] (a : α) (tl : List α) :
    ∀ k, 0 < k → k < tl.length →
      (((a :: tl).set 0 ((a :: tl).getD ((a :: tl).length - 1) default)).dropLast).getD
        k default = (a :: tl).getD k default := by
  intro k hk hkl
  have h1 : k < (((a :: tl).set 0
      ((a :: tl).getD ((a :: tl).length - 1) default)).dropLast).length := by
    simp; omega
  have h2 : k < (a :: tl).length := by simp; omega
  rw [List.getD_eq_getElem _ _ h1, List.getD_eq_getElem _ _ h2, List.getElem_dropLast,
    List.getElem_set_ne (by omega)]

theorem heapPop_spec {α : Type} [Inhabited α] (key : α → Int) (l : List α)
    (top : α) (rest : List α) (h : IsHeap key l) (hp : heapPop key l = some (top, rest)) :
    IsHeap key rest ∧ (top :: rest).Perm l ∧ (∀ x ∈ l, key top ≤ key x) := by
  cases l with
  | nil => simp [heapPop] at hp
  | cons a tl =>
    simp only [heapPop, Option.some.injEq, Prod.mk.injEq] at hp
    obtain ⟨h1, h2⟩ := hp
    subst h1
    have hmin : ∀ x ∈ a :: tl, key a ≤ key x := by
      intro x hx
      obtain ⟨n, hn, rfl⟩ := List.getElem_of_mem hx
      have := isHeap_root_le key (a :: tl) h n hn
      rw [List.getD_eq_getElem _ _ hn] at this
      simpa using this
    refine ⟨?_, ?_, hmin⟩
    · rw [← h2]
      unfold heapifyDown
      refine (heapifyDownLoop_spec key _ _ 0 (by omega) ?_).1
      constructor
      · intro j hj hjl hpj
        have hpj' : 0 < parentIdx j := Nat.pos_of_ne_zero hpj
        have hpl : parentIdx j < j := by unfold parentIdx; omega
        simp only [List.length_dropLast, List.length_set, List.length_cons] at hjl
        have hj2 : j < (a :: tl).length := by simp; omega
        have e := getD_popPrep a tl
        rw [e j hj (by omega), e _ hpj' (by omega)]
        exact h j hj hj2
      · intro j _ _ _ h0
        omega
    · rw [← h2]
      unfold heapifyDown
      refine ((heapifyDownLoop_spec key _ _ 0 (by omega) ?_).2.cons a).trans ?_
      · constructor
        · intro j hj hjl hpj
          have hpj' : 0 < parentIdx j := Nat.pos_of_ne_zero hpj
          have hpl : parentIdx j < j := by unfold parentIdx; omega
          simp only [List.length_dropLast, List.length_set, List.length_cons] at hjl
          have hj2 : j < (a :: tl).length := by simp; omega
          have e := getD_popPrep a tl
          rw [e j hj (by omega), e _ hpj' (by omega)]
          exact h j hj hj2
        · intro j _ _ _ h0
          omega
      · refine List.Perm.cons a ?_
        cases tl using List.reverseRecOn with
        | nil => simp
        | append_singleton tl' b =>
          have : (a :: (tl' ++ [b])).getD ((a :: (tl' ++ [b])).length - 1) default = b := by
            simp [List.getD_eq_getElem?_getD]
          rw [this]
          simp only [List.set_cons_zero]
          rw [show b :: (tl' ++ [b]) = (b :: tl') ++ [b] from rfl, List.dropLast_concat]
          exact (List.perm_append_singleton b tl').symm

theorem EventQueue.pushAll_spec (es : List Event) :
    IsHeap Event.time (EventQueue.pushAll es) ∧ (EventQueue.pushAll es).Perm es := by
  unfold EventQueue.pushAll
  have gen : ∀ (es : List Event) (h : List Event), IsHeap Event.time h →
      IsHeap Event.time (es.foldl EventQueue.push h) ∧
        (es.foldl EventQueue.push h).Perm (es.reverse ++ h) := by
    intro es
    induction es with
    | nil => intro h hh; exact ⟨hh, by simp⟩
    | cons e es ih =>
      intro h hh
      have hp := heapPush_spec Event.time h e hh
      have := ih (EventQueue.push h e) hp.1
      refine ⟨this.1, this.2.trans ?_⟩
      simp only [List.reverse_cons, List.append_assoc, List.singleton_append]
      exact List.Perm.append_left _ hp.2
  have := gen es [] (isHeap_nil _)
  refine ⟨this.1, this.2.trans ?_⟩
  simp only [List.append_nil]
  exact List.reverse_perm es

theorem EventQueue.popAllLoop_spec : ∀ (fuel : Nat) (heap : List Event),
    IsHeap Event.time heap → heap.length ≤ fuel →
      (EventQueue.popAllLoop fuel heap).Perm heap ∧
      (EventQueue.popAllLoop fuel heap).Pairwise (fun a b => a.time ≤ b.time) := by
  intro fuel
  induction fuel with
  | zero =>
    intro heap _ hl
    have : heap = [] := List.length_eq_zero.mp (by omega)
    subst this
    simp [EventQueue.popAllLoop]
  | succ fuel ih =>
    intro heap hh hl
    unfold EventQueue.popAllLoop
    cases hpop : EventQueue.pop heap with
    | none =>
      have : heap = [] := (heapPop_none Event.time heap).mp hpop
      subst this
      simp [EventQueue.empty]
    | some p =>
      obtain ⟨e, rest⟩ := p
      have hne : heap ≠ [] := by
        intro h; subst h; simp [EventQueue.pop, heapPop] at hpop
      have hemp : EventQueue.empty heap = false := by
        cases heap with
        | nil => exact absurd rfl hne
        | cons a t => rfl
      simp only [hemp, Bool.false_eq_true, if_false]
      obtain ⟨h1, h2, h3⟩ := heapPop_spec Event.time heap e rest hh hpop
      have hlen : rest.length ≤ fuel := by
        have := h2.length_eq
        simp at this
        omega
      obtain ⟨i1, i2⟩ := ih rest h1 hlen
      refine ⟨(i1.cons e).trans h2, ?_⟩
      rw [List.pairwise_cons]
      refine ⟨?_, i2⟩
      intro x hx
      exact h3 x (h2.subset (List.mem_cons_of_mem _ (i1.subset hx)))

/-- C4: events pushed onto an empty `EventQueue` in any order come back, when the queue
is popped until empty, as a permutation of the pushed events in non-decreasing order of
`time`; hence an event with a smaller time (5) is never popped after one with a larger
time (7). -/
theorem EventQueue.pop_order (es : List Event) :
    (EventQueue.popAll (EventQueue.pushAll es)).Perm es ∧
    (EventQueue.popAll (EventQueue.pushAll es)).Pairwise (fun a b => a.time ≤ b.time) ∧
    (∀ (i j : Nat) (hi : i < (EventQueue.popAll (EventQueue.pushAll es)).length)
      (hj : j < (EventQueue.popAll (EventQueue.pushAll es)).length),
      ((EventQueue.popAll (EventQueue.pushAll es)).get ⟨i, hi⟩).time <
        ((EventQueue.popAll (EventQueue.pushAll es)).get ⟨j, hj⟩).time → i < j) := by
  obtain ⟨h1, h2⟩ := EventQueue.pushAll_spec es
  have hspec := EventQueue.popAllLoop_spec _ _ h1 (le_refl _)
  change (EventQueue.popAll (EventQueue.pushAll es)).Perm _ ∧
    (EventQueue.popAll (EventQueue.pushAll es)).Pairwise _ at hspec
  obtain ⟨p1, p2⟩ := hspec
  refine ⟨p1.trans h2, p2, ?_⟩
  intro i j hi hj hlt
  by_contra hcon
  have hji : j ≤ i := by omega
  rcases Nat.lt_or_eq_of_le hji with h | h
  · have := List.pairwise_iff_get.mp p2 ⟨j, hj⟩ ⟨i, hi⟩ h
    omega
  · subst h; omega

theorem EventQueue.pop_order_witness :
    (EventQueue.popAll (EventQueue.pushAll [⟨7, 0⟩, ⟨5, 1⟩])).Perm [⟨7, 0⟩, ⟨5, 1⟩] ∧
    (EventQueue.popAll (EventQueue.pushAll [⟨7, 0⟩, ⟨5, 1⟩])) = [⟨5, 1⟩, ⟨7, 0⟩] ∧
    (0 : Nat) < 1 :=
  ⟨(EventQueue.pop_order [⟨7, 0⟩, ⟨5, 1⟩]).1, by decide,
    (EventQueue.pop_order [⟨7, 0⟩, ⟨5, 1⟩]).2.2 0 1 (by decide) (by decide) (by decide)⟩

/-- The iteration budget of `heapifyUp` is never the reason the loop stops: any larger
budget gives the same vector. -/
theorem heapifyUpLoop_fuel {α : Type} [Inhabited α] (key : α → Int) :
    ∀ (fuel k : Nat) (l : List α) (i : Nat), i ≤ fuel →
      heapifyUpLoop key (fuel + k) l i = heapifyUpLoop key fuel l i := by
  intro fuel
  induction fuel with
  | zero =>
    intro k l i hi
    have i0 : i = 0 := by omega
    subst i0
    cases k with
    | zero => rfl
    | succ k => simp [heapifyUpLoop]
  | succ fuel ih =>
    intro k l i hi
    rw [show fuel + 1 + k = (fuel + k) + 1 by omega]
    simp only [heapifyUpLoop]
    split_ifs with h1 h2
    · exact ih k _ _ (by unfold parentIdx; omega)
    · rfl
    · rfl

/-- The iteration budget of `heapifyDown` is never the reason the loop stops. -/
theorem heapifyDownLoop_fuel {α : Type} [Inhabited α] (key : α → Int) :
    ∀ (fuel k : Nat) (l : List α) (i : Nat), l.length ≤ i + fuel →
      heapifyDownLoop key (fuel + k) l i = heapifyDownLoop key fuel l i := by
  intro fuel
  induction fuel with
  | zero =>
    intro k l i hi
    cases k with
    | zero => rfl
    | succ k =>
      rw [show 0 + (k + 1) = k + 1 by omega, heapifyDownLoop_succ]
      rcases minChild_spec key l i with ⟨hm, _⟩ | ⟨_, hml, hpar, hpos, _, _⟩
      · rw [if_pos hm]; rfl
      · exfalso
        unfold parentIdx at hpar
        omega
  | succ fuel ih =>
    intro k l i hi
    rw [show fuel + 1 + k = (fuel + k) + 1 by omega, heapifyDownLoop_succ,
      heapifyDownLoop_succ]
    rcases minChild_spec key l i with ⟨hm, _⟩ | ⟨hne, hml, hpar, hpos, _, _⟩
    · rw [if_pos hm, if_pos hm]
    · rw [if_neg hne, if_neg hne]
      apply ih
      rw [length_swapAt]
      unfold parentIdx at hpar
      omega

/-! ## Theorems: path field -/

theorem relaxTunnel_eq (hardness : Grid Int) :
    relaxTunnel hardness = relaxWith tunnelPass tunnelCost hardness := by
  funext u st dir
  simp only [relaxTunnel, relaxWith, tunnelPass, tunnelCost, decide_eq_true_eq]

theorem relaxNonTunnel_eq (hardness : Grid Int) :
    relaxNonTunnel hardness = relaxWith nonTunnelPass nonTunnelCost hardness := by
  funext u st dir
  simp only [relaxNonTunnel, relaxWith, nonTunnelPass, nonTunnelCost, decide_eq_true_eq]

theorem tunnelLoop_eq (hardness : Grid Int) (fuel : Nat) (st : Grid Int × List Node) :
    tunnelLoop hardness fuel st = loopWith tunnelPass tunnelCost hardness fuel st := by
  induction fuel generalizing st with
  | zero => rfl
  | succ n ih =>
    simp only [tunnelLoop, loopWith, relaxTunnel_eq, ih]

theorem nonTunnelLoop_eq (hardness : Grid Int) (fuel : Nat) (st : Grid Int × List Node) :
    nonTunnelLoop hardness fuel st = loopWith nonTunnelPass nonTunnelCost hardness fuel st := by
  induction fuel generalizing st with
  | zero => rfl
  | succ n ih =>
    simp only [nonTunnelLoop, loopWith, relaxNonTunnel_eq, ih]

theorem tunnelCost_range (h : Int) : 1 ≤ tunnelCost h ∧ tunnelCost h ≤ 3 := by
  unfold tunnelCost wrapInt32
  split_ifs with hh
  · have : Int.tdiv h 85 = h / 85 := by
      rw [Int.tdiv_eq_ediv] <;> omega
    rw [this]
    omega
  · omega

theorem nonTunnelCost_range (h : Int) : 1 ≤ nonTunnelCost h ∧ nonTunnelCost h ≤ 3 := by
  unfold nonTunnelCost; omega

theorem mem_dirs_iff (d : Int × Int) :
    d ∈ dirs ↔ d ≠ (0, 0) ∧ d.1.natAbs ≤ 1 ∧ d.2.natAbs ≤ 1 := by
  obtain ⟨dx, dy⟩ := d
  simp only [dirs, List.mem_cons, Prod.mk.injEq, List.mem_singleton, ne_eq, List.mem_nil_iff,
    or_false]
  omega

theorem walk_append (enter : Cell → Bool) : ∀ (p : List Cell) (a n : Cell),
    Walk enter a p → adjacent8 (walkEnd a p) n → inBounds n.1 n.2 = true → enter n = true →
      Walk enter a (p ++ [n]) := by
  intro p
  induction p with
  | nil =>
    intro a n _ h1 h2 h3
    exact ⟨⟨h1, h2, h3⟩, trivial⟩
  | cons b rest ih =>
    intro a n hw h1 h2 h3
    refine ⟨hw.1, ih b n hw.2 ?_ h2 h3⟩
    have : walkEnd a (b :: rest) = walkEnd b rest := by
      cases rest <;> simp [walkEnd, List.getLastD]
    rw [← this]; exact h1

theorem walkEnd_append (a n : Cell) (p : List Cell) : walkEnd a (p ++ [n]) = n := by
  simp [walkEnd, List.getLastD_eq_getLast?]

theorem walkCost_append (w : Cell → Int) (p : List Cell) (n : Cell) :
    walkCost w (p ++ [n]) = walkCost w p + w n := by
  simp [walkCost]

theorem length_allCells : allCells.length = 1680 := by
  simp [allCells]

theorem mem_allCells (c : Cell) (h : inBounds c.1 c.2 = true) : c ∈ allCells := by
  obtain ⟨x, y⟩ := c
  simp only [inBounds, WIDTH, HEIGHT, decide_eq_true_eq] at h
  simp only [allCells, List.mem_range, List.mem_map, Prod.mk.injEq]
  refine ⟨(y * 80 + x).toNat, by omega, ?_, ?_⟩ <;> omega

theorem inBounds_of_mem_allCells (c : Cell) (h : c ∈ allCells) : inBounds c.1 c.2 = true := by
  obtain ⟨x, y⟩ := c
  simp only [allCells, List.mem_range, List.mem_map, Prod.mk.injEq] at h
  obtain ⟨a, ha, h1, h2⟩ := h
  simp only [inBounds, WIDTH, HEIGHT, decide_eq_true_eq]
  omega

theorem wrapInt32_id (v : Int) (h1 : -2147483648 ≤ v) (h2 : v ≤ 2147483647) :
    wrapInt32 v = v := by
  unfold wrapInt32; omega

theorem dcore_length_le {pass : Int → Bool} {cost : Int → Int} {hardness : Grid Int}
    {s : Cell} {L : List Cell} {dist : Grid Int} {heap : List Node}
    (h : DCore pass cost hardness s L dist heap) : L.length ≤ 1680 := by
  have := (List.subperm_of_subset h.nodup (fun c hc => mem_allCells c (h.inb c hc))).length_le
  rw [length_allCells] at this
  exact this

theorem nodeInsert_perm (heap : List Node) (n : Node) :
    (NodeHeap.insert heap n).Perm (n :: heap) := by
  unfold NodeHeap.insert heapPush heapifyUp
  have hlen : (heap ++ [n]).length - 1 = heap.length := by simp
  rw [hlen]
  -- the sift-up only swaps slots
  have gen : ∀ (fuel : Nat) (l : List Node) (i : Nat), i < l.length →
      (heapifyUpLoop Node.dist fuel l i).Perm l := by
    intro fuel
    induction fuel with
    | zero => intro l i _; exact List.Perm.refl _
    | succ fuel ih =>
      intro l i hi
      simp only [heapifyUpLoop]
      split_ifs with h1 h2
      · have hp : parentIdx i < l.length := by unfold parentIdx; omega
        exact (ih _ _ (by rw [length_swapAt]; exact hp)).trans (swapAt_perm l i _ hi hp)
      · exact List.Perm.refl _
      · exact List.Perm.refl _
  exact (gen _ _ _ (by simp)).trans (List.perm_append_singleton n heap)

theorem nodePop_perm (heap : List Node) (u : Node) (rest : List Node)
    (h : NodeHeap.pop heap = some (u, rest)) : (u :: rest).Perm heap := by
  have gen : ∀ (fuel : Nat) (l : List Node) (i : Nat),
      (heapifyDownLoop Node.dist fuel l i).Perm l := by
    intro fuel
    induction fuel with
    | zero => intro l i; exact List.Perm.refl _
    | succ fuel ih =>
      intro l i
      rw [heapifyDownLoop_succ]
      rcases minChild_spec Node.dist l i with ⟨hm, _⟩ | ⟨hne, hml, hpar, hmpos, _, _⟩
      · rw [if_pos hm]
      · rw [if_neg hne]
        have him : i < minChild Node.dist l i := by unfold parentIdx at hpar; omega
        exact (ih _ _).trans (swapAt_perm l i _ (by omega) hml)
  cases heap with
  | nil => simp [NodeHeap.pop, heapPop] at h
  | cons a tl =>
    simp only [NodeHeap.pop, heapPop, Option.some.injEq, Prod.mk.injEq] at h
    obtain ⟨h1, h2⟩ := h
    subst h1
    rw [← h2]
    unfold heapifyDown
    refine ((gen _ _ 0).cons a).trans (List.Perm.cons a ?_)
    cases tl using List.reverseRecOn with
    | nil => simp
    | append_singleton tl' b =>
      have : (a :: (tl' ++ [b])).getD ((a :: (tl' ++ [b])).length - 1) default = b := by
        simp [List.getD_eq_getElem?_getD]
      rw [this]
      simp only [List.set_cons_zero]
      rw [show b :: (tl' ++ [b]) = (b :: tl') ++ [b] from rfl, List.dropLast_concat]
      exact (List.perm_append_singleton b tl').symm

theorem grid_set_apply {α : Type} (g : Grid α) (y x : Int) (v : α) (r c : Int) :
    (g.set y x v) r c = if r = y ∧ c = x then v else g r c := rfl

theorem relaxWith_part (pass : Int → Bool) (cost : Int → Int) (hardness : Grid Int)
    (s : Cell) (hc : ∀ h, 1 ≤ cost h ∧ cost h ≤ 3)
    (L : List Cell) (dist : Grid Int) (heap : List Node) (u : Node) (done : List (Int × Int))
    (dir : Int × Int) (hP : DPart pass cost hardness s L dist heap u done)
    (hd : dir ∈ dirs) :
    ∃ L', DPart pass cost hardness s L'
      (relaxWith pass cost hardness u (dist, heap) dir).1
      (relaxWith pass cost hardness u (dist, heap) dir).2 u (dir :: done) := by
  have hlen := dcore_length_le hP.core
  have hub := hP.core.bound _ hP.uin
  simp only [hP.udist] at hub
  have hLpos : 1 ≤ L.length := List.length_pos_of_mem hP.uin
  have hcost := hc (hardness (u.y + dir.2) (u.x + dir.1))
  have halt : wrapInt32 (u.dist + cost (hardness (u.y + dir.2) (u.x + dir.1))) =
      u.dist + cost (hardness (u.y + dir.2) (u.x + dir.1)) :=
    wrapInt32_id _ (by omega) (by omega)
  have hdir0 : dir ≠ (0, 0) := ((mem_dirs_iff dir).mp hd).1
  have hnu : ¬ (u.y + dir.2 = u.y ∧ u.x + dir.1 = u.x) := by
    intro h
    apply hdir0
    ext <;> simp <;> omega
  unfold relaxWith
  simp only [halt]
  by_cases hin : inBounds (u.x + dir.1) (u.y + dir.2) = true
  · simp only [hin, Bool.not_true, Bool.false_eq_true, if_false]
    by_cases hpass : pass (hardness (u.y + dir.2) (u.x + dir.1)) = true
    · simp only [hpass, if_true]
      by_cases hlt : u.dist + cost (hardness (u.y + dir.2) (u.x + dir.1)) <
          dist (u.y + dir.2) (u.x + dir.1)
      · simp only [hlt, if_true]
        -- the neighbour is improved
        generalize hA : u.dist + cost (hardness (u.y + dir.2) (u.x + dir.1)) = alt at hlt
        have hA1 : 1 ≤ alt := by omega
        have hA2 : alt ≤ 3 * ((L.length : Int) - 1) + 3 := by omega
        have hperm := nodeInsert_perm heap ⟨u.x + dir.1, u.y + dir.2, alt⟩
        have hmono : ∀ r c, (dist.set (u.y + dir.2) (u.x + dir.1) alt) r c ≤ dist r c := by
          intro r c
          rw [grid_set_apply]
          split_ifs with h
          · rw [h.1, h.2]; omega
          · exact le_refl _
        have hother : ∀ r c, ¬ (r = u.y + dir.2 ∧ c = u.x + dir.1) →
            (dist.set (u.y + dir.2) (u.x + dir.1) alt) r c = dist r c := by
          intro r c h
          rw [grid_set_apply, if_neg h]
        have hself : (dist.set (u.y + dir.2) (u.x + dir.1) alt) (u.y + dir.2) (u.x + dir.1)
            = alt := by
          rw [grid_set_apply, if_pos ⟨rfl, rfl⟩]
        have hu' : (dist.set (u.y + dir.2) (u.x + dir.1) alt) u.y u.x = dist u.y u.x :=
          hother _ _ (fun h => hnu ⟨h.1.symm, h.2.symm⟩)
        have hnsrc : ¬ (s.2 = u.y + dir.2 ∧ s.1 = u.x + dir.1) := by
          intro h
          have := hP.core.src0
          rw [h.1, h.2] at this
          omega
        by_cases hmem : (u.x + dir.1, u.y + dir.2) ∈ L
        · -- already reached: same list
          have hnb := hP.core.bound _ hmem
          simp only at hnb
          refine ⟨L, ?_⟩
          refine ⟨⟨?_, hP.core.nodup, hP.core.inb, ?_, ?_, ?_, ?_⟩, hP.uin, ?_, ?_, ?_⟩
          · rw [hother _ _ hnsrc]; exact hP.core.src0
          · intro c hcin
            by_cases hcn : c.2 = u.y + dir.2 ∧ c.1 = u.x + dir.1
            · have : c = (u.x + dir.1, u.y + dir.2) := by ext <;> simp [hcn.1, hcn.2]
              rw [hcn.1, hcn.2, hself, this]
              simp only [hmem, iff_true, ne_eq, INT32_MAX]
              omega
            · rw [hother _ _ hcn]; exact hP.core.fin c hcin
          · intro c hcL
            by_cases hcn : c.2 = u.y + dir.2 ∧ c.1 = u.x + dir.1
            · rw [hcn.1, hcn.2, hself]; omega
            · rw [hother _ _ hcn]; exact hP.core.bound c hcL
          · intro c hcL
            by_cases hcn : c.2 = u.y + dir.2 ∧ c.1 = u.x + dir.1
            · have hceq : c = (u.x + dir.1, u.y + dir.2) := by ext <;> simp [hcn.1, hcn.2]
              obtain ⟨p, hw, he, hcst⟩ := hP.core.path _ hP.uin
              refine ⟨p ++ [c], walk_append _ p s c hw ?_ ?_ ?_, walkEnd_append _ _ _, ?_⟩
              · rw [he, hceq]
                have := (mem_dirs_iff dir).mp hd
                refine ⟨?_, ?_, ?_⟩
                · intro h
                  apply hnu
                  simp only [Prod.mk.injEq] at h
                  exact ⟨h.2.symm, h.1.symm⟩
                · simp only [add_sub_cancel_left]; exact this.2.1
                · simp only [add_sub_cancel_left]; exact this.2.2
              · rw [hceq]; exact hin
              · rw [hceq]; exact hpass
              · rw [walkCost_append, hcst, hcn.1, hcn.2, hself, hceq]
                simp only [weightOf, hP.udist]
                exact hA
            · rw [hother _ _ hcn]; exact hP.core.path c hcL
          · intro n hn
            rcases (List.mem_cons.mp (hperm.subset hn)) with h | h
            · subst h
              simp only [hself, hin, true_and]
              omega
            · obtain ⟨a, b, c⟩ := hP.core.heapOK n h
              exact ⟨a, le_trans (hmono _ _) b, c⟩
          · rw [hu']; exact hP.udist
          · intro c hcL hcu
            by_cases hcn : c.2 = u.y + dir.2 ∧ c.1 = u.x + dir.1
            · left
              rw [hcn.1, hcn.2, hself]
              exact hperm.symm.subset (List.mem_cons_self _ _)
            · rcases hP.settled c hcL hcu with h | h
              · left
                rw [hother _ _ hcn]
                exact hperm.symm.subset (List.mem_cons_of_mem _ h)
              · right
                intro d hdd hin' hpass'
                have := h d hdd hin' hpass'
                rw [hother _ _ hcn]
                exact le_trans (hmono _ _) this
          · intro d hdd hin' hpass'
            simp only at hin' hpass' ⊢
            rw [hu']
            rcases List.mem_cons.mp hdd with h | h
            · subst h
              rw [hself, hP.udist]; omega
            · exact le_trans (hmono _ _) (hP.doneOK d h hin' hpass')
        · -- first time the neighbour is reached
          have hLfin := (hP.core.fin (u.x + dir.1, u.y + dir.2) hin)
          have hlen' : (((u.x + dir.1, u.y + dir.2) :: L).length : Int) = L.length + 1 := by
            simp
          refine ⟨(u.x + dir.1, u.y + dir.2) :: L, ?_⟩
          refine ⟨⟨?_, List.nodup_cons.mpr ⟨hmem, hP.core.nodup⟩, ?_, ?_, ?_, ?_, ?_⟩,
            List.mem_cons_of_mem _ hP.uin, ?_, ?_, ?_⟩
          · rw [hother _ _ hnsrc]; exact hP.core.src0
          · intro c hcL
            rcases List.mem_cons.mp hcL with h | h
            · rw [h]; exact hin
            · exact hP.core.inb c h
          · intro c hcin
            by_cases hcn : c.2 = u.y + dir.2 ∧ c.1 = u.x + dir.1
            · have : c = (u.x + dir.1, u.y + dir.2) := by ext <;> simp [hcn.1, hcn.2]
              rw [hcn.1, hcn.2, hself, this]
              simp only [List.mem_cons, true_or, iff_true, ne_eq, INT32_MAX]
              omega
            · rw [hother _ _ hcn]
              have hne : c ≠ (u.x + dir.1, u.y + dir.2) := by
                intro h; apply hcn; rw [h]; exact ⟨rfl, rfl⟩
              simp only [List.mem_cons, hne, false_or]
              exact hP.core.fin c hcin
          · intro c hcL
            rw [hlen']
            by_cases hcn : c.2 = u.y + dir.2 ∧ c.1 = u.x + dir.1
            · rw [hcn.1, hcn.2, hself]; omega
            · rw [hother _ _ hcn]
              have hne : c ≠ (u.x + dir.1, u.y + dir.2) := by
                intro h; apply hcn; rw [h]; exact ⟨rfl, rfl⟩
              have := hP.core.bound c ((List.mem_cons.mp hcL).resolve_left hne)
              omega
          · intro c hcL
            by_cases hcn : c.2 = u.y + dir.2 ∧ c.1 = u.x + dir.1
            · have hceq : c = (u.x + dir.1, u.y + dir.2) := by ext <;> simp [hcn.1, hcn.2]
              obtain ⟨p, hw, he, hcst⟩ := hP.core.path _ hP.uin
              refine ⟨p ++ [c], walk_append _ p s c hw ?_ ?_ ?_, walkEnd_append _ _ _, ?_⟩
              · rw [he, hceq]
                have := (mem_dirs_iff dir).mp hd
                refine ⟨?_, ?_, ?_⟩
                · intro h
                  apply hnu
                  simp only [Prod.mk.injEq] at h
                  exact ⟨h.2.symm, h.1.symm⟩
                · simp only [add_sub_cancel_left]; exact this.2.1
                · simp only [add_sub_cancel_left]; exact this.2.2
              · rw [hceq]; exact hin
              · rw [hceq]; exact hpass
              · rw [walkCost_append, hcst, hcn.1, hcn.2, hself, hceq]
                simp only [weightOf, hP.udist]
                exact hA
            · rw [hother _ _ hcn]
              have hne : c ≠ (u.x + dir.1, u.y + dir.2) := by
                intro h; apply hcn; rw [h]; exact ⟨rfl, rfl⟩
              exact hP.core.path c ((List.mem_cons.mp hcL).resolve_left hne)
          · intro n hn
            rw [hlen']
            rcases (List.mem_cons.mp (hperm.subset hn)) with h | h
            · subst h
              simp only [hself, hin, true_and]
              omega
            · obtain ⟨a, b, c⟩ := hP.core.heapOK n h
              exact ⟨a, le_trans (hmono _ _) b, by omega⟩
          · rw [hu']; exact hP.udist
          · intro c hcL hcu
            by_cases hcn : c.2 = u.y + dir.2 ∧ c.1 = u.x + dir.1
            · left
              rw [hcn.1, hcn.2, hself]
              exact hperm.symm.subset (List.mem_cons_self _ _)
            · have hne : c ≠ (u.x + dir.1, u.y + dir.2) := by
                intro h; apply hcn; rw [h]; exact ⟨rfl, rfl⟩
              rcases hP.settled c ((List.mem_cons.mp hcL).resolve_left hne) hcu with h | h
              · left
                rw [hother _ _ hcn]
                exact hperm.symm.subset (List.mem_cons_of_mem _ h)
              · right
                intro d hdd hin' hpass'
                have := h d hdd hin' hpass'
                rw [hother _ _ hcn]
                exact le_trans (hmono _ _) this
          · intro d hdd hin' hpass'
            simp only at hin' hpass' ⊢
            rw [hu']
            rcases List.mem_cons.mp hdd with h | h
            · subst h
              rw [hself, hP.udist]; omega
            · exact le_trans (hmono _ _) (hP.doneOK d h hin' hpass')
      · simp only [hlt, if_false]
        refine ⟨L, hP.core, hP.uin, hP.udist, hP.settled, ?_⟩
        intro d hdd hin' hpass'
        rcases List.mem_cons.mp hdd with h | h
        · subst h
          simp only at hin' hpass' ⊢
          rw [hP.udist]; omega
        · exact hP.doneOK d h hin' hpass'
    · simp only [hpass, Bool.false_eq_true, if_false]
      refine ⟨L, hP.core, hP.uin, hP.udist, hP.settled, ?_⟩
      intro d hdd hin' hpass'
      rcases List.mem_cons.mp hdd with h | h
      · subst h; exact absurd hpass' hpass
      · exact hP.doneOK d h hin' hpass'
  · simp only [hin, Bool.not_false, if_true]
    refine ⟨L, hP.core, hP.uin, hP.udist, hP.settled, ?_⟩
    intro d hdd hin' hpass'
    rcases List.mem_cons.mp hdd with h | h
    · subst h; exact absurd hin' hin
    · exact hP.doneOK d h hin' hpass'

theorem foldl_relaxWith_part (pass : Int → Bool) (cost : Int → Int) (hardness : Grid Int)
    (s : Cell) (hc : ∀ h, 1 ≤ cost h ∧ cost h ≤ 3) (u : Node) :
    ∀ (ds : List (Int × Int)) (L : List Cell) (st : Grid Int × List Node)
      (done : List (Int × Int)), (∀ d ∈ ds, d ∈ dirs) →
      DPart pass cost hardness s L st.1 st.2 u done →
      ∃ L', DPart pass cost hardness s L'
        (ds.foldl (relaxWith pass cost hardness u) st).1
        (ds.foldl (relaxWith pass cost hardness u) st).2 u (ds.reverse ++ done) := by
  intro ds
  induction ds with
  | nil => intro L st done _ h; exact ⟨L, by simpa using h⟩
  | cons d ds ih =>
    intro L st done hds h
    obtain ⟨L1, h1⟩ := relaxWith_part pass cost hardness s hc L st.1 st.2 u done d h
      (hds d (List.mem_cons_self _ _))
    obtain ⟨L2, h2⟩ := ih L1 (relaxWith pass cost hardness u st d) (d :: done)
      (fun x hx => hds x (List.mem_cons_of_mem _ hx)) h1
    refine ⟨L2, ?_⟩
    simp only [List.foldl_cons, List.reverse_cons, List.append_assoc, List.singleton_append]
    exact h2

theorem fieldSum_set_lt (dist : Grid Int) (x y alt : Int) (hin : inBounds x y = true)
    (h1 : -2147483648 ≤ alt) (h2 : alt < dist y x) :
    fieldSum (dist.set y x alt) + 1 ≤ fieldSum dist := by
  unfold fieldSum
  apply Nat.succ_le_of_lt
  apply List.sum_lt_sum
  · intro c _
    simp only [grid_set_apply]
    split_ifs with h
    · rw [h.1, h.2]; omega
    · exact le_refl _
  · refine ⟨(x, y), mem_allCells (x, y) hin, ?_⟩
    simp only [grid_set_apply, and_self, if_true]
    omega

theorem wrapInt32_ge (v : Int) : -2147483648 ≤ wrapInt32 v := by
  unfold wrapInt32; omega

theorem relaxWith_measure (pass : Int → Bool) (cost : Int → Int) (hardness : Grid Int)
    (u : Node) (st : Grid Int × List Node) (dir : Int × Int) :
    dijkstraMeasure (relaxWith pass cost hardness u st dir) ≤ dijkstraMeasure st := by
  unfold relaxWith
  simp only
  split_ifs with h1 h2 h3
  · exact le_refl _
  · have hin : inBounds (u.x + dir.1) (u.y + dir.2) = true := by
      simpa using h1
    have := fieldSum_set_lt st.1 _ _ _ hin (wrapInt32_ge _) h3
    have hl := (nodeInsert_perm st.2 ⟨u.x + dir.1, u.y + dir.2,
      wrapInt32 (u.dist + cost (hardness (u.y + dir.2) (u.x + dir.1)))⟩).length_eq
    simp only [dijkstraMeasure, hl, List.length_cons]
    omega
  · exact le_refl _
  · exact le_refl _

theorem foldl_relaxWith_measure (pass : Int → Bool) (cost : Int → Int) (hardness : Grid Int)
    (u : Node) : ∀ (ds : List (Int × Int)) (st : Grid Int × List Node),
    dijkstraMeasure (ds.foldl (relaxWith pass cost hardness u) st) ≤ dijkstraMeasure st := by
  intro ds
  induction ds with
  | nil => intro st; exact le_refl _
  | cons d ds ih =>
    intro st
    exact le_trans (ih _) (relaxWith_measure pass cost hardness u st d)

theorem loopWith_stale (pass : Int → Bool) (cost : Int → Int) (hardness : Grid Int)
    (fuel : Nat) (st : Grid Int × List Node) (u : Node) (h' : List Node)
    (hpop : NodeHeap.pop st.2 = some (u, h')) (hs : u.dist > st.1 u.y u.x) :
    loopWith pass cost hardness (fuel + 1) st = loopWith pass cost hardness fuel (st.1, h') := by
  have hne : NodeHeap.empty st.2 = false := by
    cases hh : st.2 with
    | nil => rw [hh] at hpop; simp [NodeHeap.pop, heapPop] at hpop
    | cons a t => rfl
  rw [loopWith]
  simp only [hne, Bool.false_eq_true, if_false, hpop, if_pos hs]

theorem loopWith_fresh (pass : Int → Bool) (cost : Int → Int) (hardness : Grid Int)
    (fuel : Nat) (st : Grid Int × List Node) (u : Node) (h' : List Node)
    (hpop : NodeHeap.pop st.2 = some (u, h')) (hs : ¬ u.dist > st.1 u.y u.x) :
    loopWith pass cost hardness (fuel + 1) st =
      loopWith pass cost hardness fuel
        (dirs.foldl (relaxWith pass cost hardness u) (st.1, h')) := by
  have hne : NodeHeap.empty st.2 = false := by
    cases hh : st.2 with
    | nil => rw [hh] at hpop; simp [NodeHeap.pop, heapPop] at hpop
    | cons a t => rfl
  rw [loopWith]
  simp only [hne, Bool.false_eq_true, if_false, hpop, if_neg hs]

theorem loopWith_done (pass : Int → Bool) (cost : Int → Int) (hardness : Grid Int)
    (fuel : Nat) (st : Grid Int × List Node) (h : st.2 = []) :
    loopWith pass cost hardness fuel st = st := by
  cases fuel with
  | zero => rfl
  | succ n =>
    rw [loopWith]
    simp [NodeHeap.empty, h]

theorem loopWith_terminates (pass : Int → Bool) (cost : Int → Int) (hardness : Grid Int) :
    ∀ (fuel : Nat) (st : Grid Int × List Node), dijkstraMeasure st ≤ fuel →
      (loopWith pass cost hardness fuel st).2 = [] := by
  intro fuel
  induction fuel with
  | zero =>
    intro st h
    simp only [loopWith]
    apply List.length_eq_zero.mp
    unfold dijkstraMeasure at h
    omega
  | succ fuel ih =>
    intro st h
    cases hpop : NodeHeap.pop st.2 with
    | none =>
      have := (heapPop_none _ _).mp hpop
      rw [loopWith_done _ _ _ _ _ this]; exact this
    | some p =>
      obtain ⟨u, h'⟩ := p
      have hl := (nodePop_perm _ _ _ hpop).length_eq
      simp only [List.length_cons] at hl
      have hm : dijkstraMeasure (st.1, h') + 1 = dijkstraMeasure st := by
        simp only [dijkstraMeasure]; omega
      by_cases hs : u.dist > st.1 u.y u.x
      · rw [loopWith_stale _ _ _ _ _ _ _ hpop hs]
        exact ih _ (by omega)
      · rw [loopWith_fresh _ _ _ _ _ _ _ hpop hs]
        have := foldl_relaxWith_measure pass cost hardness u dirs (st.1, h')
        exact ih _ (by omega)

theorem loopWith_full (pass : Int → Bool) (cost : Int → Int) (hardness : Grid Int)
    (s : Cell) (hc : ∀ h, 1 ≤ cost h ∧ cost h ≤ 3) :
    ∀ (fuel : Nat) (st : Grid Int × List Node) (L : List Cell),
      DFull pass cost hardness s L st.1 st.2 →
      ∃ L', DFull pass cost hardness s L' (loopWith pass cost hardness fuel st).1
        (loopWith pass cost hardness fuel st).2 := by
  intro fuel
  induction fuel with
  | zero => intro st L h; exact ⟨L, h⟩
  | succ fuel ih =>
    intro st L h
    cases hpop : NodeHeap.pop st.2 with
    | none =>
      have := (heapPop_none _ _).mp hpop
      rw [loopWith_done _ _ _ _ _ this]; exact ⟨L, h⟩
    | some p =>
      obtain ⟨u, h'⟩ := p
      have hperm := nodePop_perm _ _ _ hpop
      have hsub : ∀ n ∈ h', n ∈ st.2 := fun n hn =>
        hperm.subset (List.mem_cons_of_mem _ hn)
      have hu := h.core.heapOK u (hperm.subset (List.mem_cons_self _ _))
      have hcore : DCore pass cost hardness s L st.1 h' :=
        ⟨h.core.src0, h.core.nodup, h.core.inb, h.core.fin, h.core.bound, h.core.path,
          fun n hn => h.core.heapOK n (hsub n hn)⟩
      by_cases hstale : u.dist > st.1 u.y u.x
      · -- stale entry: discarded
        rw [loopWith_stale _ _ _ _ _ _ _ hpop hstale]
        refine ih (st.1, h') L ⟨hcore, ?_⟩
        intro c hcL
        rcases h.settled c hcL with hq | hq
        · left
          rcases List.mem_cons.mp (hperm.symm.subset hq) with e | e
          · exfalso
            rw [← e] at hstale
            simp only at hstale
            omega
          · exact e
        · right; exact hq
      · -- current entry: expand
        rw [loopWith_fresh _ _ _ _ _ _ _ hpop hstale]
        have hud : st.1 u.y u.x = u.dist := by omega
        have hlen := dcore_length_le h.core
        have huL : (u.x, u.y) ∈ L := by
          apply (h.core.fin (u.x, u.y) hu.1).mp
          simp only [INT32_MAX]
          omega
        have hpart : DPart pass cost hardness s L st.1 h' u [] := by
          refine ⟨hcore, huL, hud, ?_, by simp⟩
          intro c hcL hcu
          rcases h.settled c hcL with hq | hq
          · left
            rcases List.mem_cons.mp (hperm.symm.subset hq) with e | e
            · exfalso
              apply hcu
              rw [← e]
            · exact e
          · right; exact hq
        obtain ⟨L1, h1⟩ := foldl_relaxWith_part pass cost hardness s hc u dirs L (st.1, h') []
          (fun d hd => hd) hpart
        refine ih _ L1 ⟨h1.core, ?_⟩
        intro c hcL
        by_cases hcu : c = (u.x, u.y)
        · right
          intro d hd
          rw [hcu]
          exact h1.doneOK d (by simp [hd])
        · exact h1.settled c hcL hcu

theorem djikstraForTunnelRun_eq (hardness old : Grid Int) (x y : Int) :
    djikstraForTunnelRun hardness old x y = runWith tunnelPass tunnelCost hardness old x y := by
  simp only [djikstraForTunnelRun, runWith, tunnelLoop_eq]

theorem djikstraForNonTunnelRun_eq (hardness old : Grid Int) (x y : Int) :
    djikstraForNonTunnelRun hardness old x y =
      runWith nonTunnelPass nonTunnelCost hardness old x y := by
  simp only [djikstraForNonTunnelRun, runWith, nonTunnelLoop_eq]

theorem nodeInsert_nil (n : Node) : NodeHeap.insert [] n = [n] := by
  have := (nodeInsert_perm [] n)
  exact List.perm_singleton.mp this

theorem mem_intRange (lo hi i : Int) : i ∈ intRange lo hi ↔ lo ≤ i ∧ i < hi := by
  simp only [intRange, List.mem_map, List.mem_range]
  constructor
  · rintro ⟨k, hk, rfl⟩; omega
  · intro h; exact ⟨(i - lo).toNat, by omega, by omega⟩

theorem foldl_set_row {α : Type} (v : α) (r : Int) : ∀ (cs : List Int) (g : Grid α)
    (y x : Int), (cs.foldl (fun g c => g.set r c v) g) y x =
      if y = r ∧ x ∈ cs then v else g y x := by
  intro cs
  induction cs with
  | nil => intro g y x; simp
  | cons c cs ih =>
    intro g y x
    rw [List.foldl_cons, ih, grid_set_apply]
    by_cases h1 : y = r <;> by_cases h2 : x ∈ cs <;> by_cases h3 : x = c <;>
      simp [h1, h2, h3]

theorem foldl_set_rect {α : Type} (v : α) (cs : List Int) : ∀ (rs : List Int) (g : Grid α)
    (y x : Int), (rs.foldl (fun g r => cs.foldl (fun g c => g.set r c v) g) g) y x =
      if y ∈ rs ∧ x ∈ cs then v else g y x := by
  intro rs
  induction rs with
  | nil => intro g y x; simp
  | cons r rs ih =>
    intro g y x
    rw [List.foldl_cons, ih, foldl_set_row]
    by_cases h1 : y ∈ rs <;> by_cases h2 : x ∈ cs <;> by_cases h3 : y = r <;>
      simp [h1, h2, h3]

theorem fill_apply {α : Type} (g : Grid α) (v : α) (r c : Int) :
    (g.fill v) r c = if 0 ≤ c ∧ c < WIDTH ∧ 0 ≤ r ∧ r < HEIGHT then v else g r c := by
  unfold Grid.fill
  rw [foldl_set_rect]
  simp only [mem_intRange]
  by_cases h : 0 ≤ c ∧ c < WIDTH ∧ 0 ≤ r ∧ r < HEIGHT
  · rw [if_pos h, if_pos ⟨⟨h.2.2.1, h.2.2.2⟩, h.1, h.2.1⟩]
  · rw [if_neg h, if_neg (fun h' => h ⟨h'.2.1, h'.2.2, h'.1.1, h'.1.2⟩)]

theorem init_fill_apply (old : Grid Int) (sx sy : Int) (c : Cell)
    (hc : inBounds c.1 c.2 = true) :
    ((old.fill INT32_MAX).set sy sx 0) c.2 c.1 =
      if c.2 = sy ∧ c.1 = sx then 0 else INT32_MAX := by
  simp only [inBounds, decide_eq_true_eq] at hc
  rw [grid_set_apply]
  split_ifs with h
  · rfl
  · rw [fill_apply, if_pos ⟨hc.1, hc.2.1, hc.2.2.1, hc.2.2.2⟩]

theorem init_full (pass : Int → Bool) (cost : Int → Int) (hardness old : Grid Int)
    (sx sy : Int) (hs : inBounds sx sy = true) :
    DFull pass cost hardness (sx, sy) [(sx, sy)] ((old.fill INT32_MAX).set sy sx 0)
      (NodeHeap.insert [] ⟨sx, sy, 0⟩) := by
  rw [nodeInsert_nil]
  have h0 : ((old.fill INT32_MAX).set sy sx 0) sy sx = 0 := by
    rw [grid_set_apply, if_pos ⟨rfl, rfl⟩]
  refine ⟨⟨h0, List.nodup_singleton _, ?_, ?_, ?_, ?_, ?_⟩, ?_⟩
  · intro c hc
    rw [List.mem_singleton.mp hc]; exact hs
  · intro c hc
    rw [init_fill_apply old sx sy c hc]
    simp only [List.mem_singleton]
    constructor
    · intro h
      split_ifs at h with h1
      · ext <;> simp [h1.1, h1.2]
      · exact absurd rfl h
    · intro h
      rw [h]; simp [INT32_MAX]
  · intro c hc
    rw [List.mem_singleton.mp hc]
    simp only [h0, List.length_singleton]
    omega
  · intro c hc
    rw [List.mem_singleton.mp hc]
    exact ⟨[], trivial, rfl, by simp [walkCost, h0]⟩
  · intro n hn
    rw [List.mem_singleton.mp hn]
    refine ⟨hs, ?_, ?_⟩
    · simp only [h0]; exact le_refl _
    · simp
  · intro c hc
    rw [List.mem_singleton.mp hc]
    left
    simp only [h0]
    exact List.mem_singleton_self _

theorem init_measure (old : Grid Int) (sx sy : Int) :
    dijkstraMeasure ((old.fill INT32_MAX).set sy sx 0, NodeHeap.insert [] ⟨sx, sy, 0⟩)
      ≤ DIJKSTRA_FUEL := by
  rw [nodeInsert_nil]
  have : fieldSum ((old.fill INT32_MAX).set sy sx 0) ≤ 1680 * 4294967295 := by
    unfold fieldSum
    have := List.sum_le_card_nsmul
      (allCells.map fun c => (((old.fill INT32_MAX).set sy sx 0) c.2 c.1 + 2147483648).toNat)
      4294967295 ?_
    · simpa [length_allCells] using this
    · intro v hv
      obtain ⟨c, hc, rfl⟩ := List.mem_map.mp hv
      rw [init_fill_apply old sx sy c (inBounds_of_mem_allCells c hc)]
      split_ifs <;> simp [INT32_MAX]
  simp only [dijkstraMeasure, DIJKSTRA_FUEL, List.length_singleton]
  omega

theorem relaxed_walk (pass : Int → Bool) (cost : Int → Int) (hardness : Grid Int)
    (s : Cell) (hc : ∀ h, 1 ≤ cost h ∧ cost h ≤ 3) (L : List Cell) (dist : Grid Int)
    (hF : DFull pass cost hardness s L dist []) :
    ∀ (p : List Cell) (a : Cell), a ∈ L → Walk (enterOf pass hardness) a p →
      walkEnd a p ∈ L ∧
      dist (walkEnd a p).2 (walkEnd a p).1 ≤ dist a.2 a.1 + walkCost (weightOf cost hardness) p := by
  have hlen := dcore_length_le hF.core
  intro p
  induction p with
  | nil =>
    intro a ha _
    simp [walkEnd, walkCost, ha]
  | cons b rest ih =>
    intro a ha hw
    obtain ⟨⟨hadj, hin, hen⟩, hrest⟩ := hw
    have hrel : RelaxedEdge pass cost hardness dist a (b.1 - a.1, b.2 - a.2) := by
      rcases hF.settled a ha with h | h
      · simp at h
      · apply h
        rw [mem_dirs_iff]
        refine ⟨?_, hadj.2.1, hadj.2.2⟩
        intro h0
        apply hadj.1
        simp only [Prod.mk.injEq] at h0
        ext <;> omega
    unfold RelaxedEdge at hrel
    simp only [add_sub_cancel] at hrel
    have hb := hrel hin hen
    have hab := hF.core.bound a ha
    have hcb := hc (hardness b.2 b.1)
    have hbL : b ∈ L := by
      apply (hF.core.fin b hin).mp
      simp only [INT32_MAX]
      omega
    obtain ⟨i1, i2⟩ := ih b hbL hrest
    have hend : walkEnd a (b :: rest) = walkEnd b rest := by
      cases rest <;> simp [walkEnd, List.getLastD]
    rw [hend]
    refine ⟨i1, ?_⟩
    simp only [walkCost, List.map_cons, List.sum_cons] at i2 ⊢
    simp only [weightOf] at i2 ⊢
    omega

/-- Correctness of both Dijkstra routines, stated for the mode's edge rule. -/
theorem runWith_correct (pass : Int → Bool) (cost : Int → Int) (hardness old : Grid Int)
    (hc : ∀ h, 1 ≤ cost h ∧ cost h ≤ 3) (sx sy : Int) (hs : inBounds sx sy = true) :
    (runWith pass cost hardness old sx sy).2 = [] ∧
    (runWith pass cost hardness old sx sy).1 sy sx = 0 ∧
    (∀ c : Cell, inBounds c.1 c.2 = true →
      (runWith pass cost hardness old sx sy).1 c.2 c.1 ≠ INT32_MAX →
      ∃ p, Walk (enterOf pass hardness) (sx, sy) p ∧ walkEnd (sx, sy) p = c ∧
        walkCost (weightOf cost hardness) p = (runWith pass cost hardness old sx sy).1 c.2 c.1) ∧
    (∀ p, Walk (enterOf pass hardness) (sx, sy) p →
      (runWith pass cost hardness old sx sy).1 (walkEnd (sx, sy) p).2 (walkEnd (sx, sy) p).1
        ≠ INT32_MAX ∧
      (runWith pass cost hardness old sx sy).1 (walkEnd (sx, sy) p).2 (walkEnd (sx, sy) p).1
        ≤ walkCost (weightOf cost hardness) p) ∧
    (∀ c : Cell, inBounds c.1 c.2 = true →
      0 ≤ (runWith pass cost hardness old sx sy).1 c.2 c.1 ∧
      (runWith pass cost hardness old sx sy).1 c.2 c.1 ≤ INT32_MAX) := by
  have hterm := loopWith_terminates pass cost hardness DIJKSTRA_FUEL _
    (init_measure old sx sy)
  obtain ⟨L, hF⟩ := loopWith_full pass cost hardness (sx, sy) hc DIJKSTRA_FUEL
    ((old.fill INT32_MAX).set sy sx 0, NodeHeap.insert [] ⟨sx, sy, 0⟩) _
    (init_full pass cost hardness old sx sy hs)
  change DFull pass cost hardness (sx, sy) L (runWith pass cost hardness old sx sy).1
    (runWith pass cost hardness old sx sy).2 at hF
  change (runWith pass cost hardness old sx sy).2 = [] at hterm
  rw [hterm] at hF
  have hlen := dcore_length_le hF.core
  have hsL : (sx, sy) ∈ L := by
    apply (hF.core.fin (sx, sy) hs).mp
    have := hF.core.src0
    simp only at this
    simp [this, INT32_MAX]
  refine ⟨hterm, hF.core.src0, ?_, ?_, ?_⟩
  · intro c hcin hfin
    exact hF.core.path c ((hF.core.fin c hcin).mp hfin)
  rotate_left
  · intro c hcin
    by_cases hcL : c ∈ L
    · have := hF.core.bound c hcL
      simp only [INT32_MAX]
      omega
    · have := (not_iff_not.mpr (hF.core.fin c hcin)).mpr hcL
      simp only [ne_eq, not_not] at this
      rw [this]
      simp [INT32_MAX]
  · intro p hw
    obtain ⟨h1, h2⟩ := relaxed_walk pass cost hardness (sx, sy) hc L _ hF p (sx, sy) hsL hw
    have h0 := hF.core.src0
    simp only at h0
    rw [h0] at h2
    have hb := hF.core.bound _ h1
    refine ⟨?_, by omega⟩
    simp only [INT32_MAX]
    omega

theorem runWith_min (pass : Int → Bool) (cost : Int → Int) (hardness old : Grid Int)
    (hc : ∀ h, 1 ≤ cost h ∧ cost h ≤ 3) (sx sy : Int) (hs : inBounds sx sy = true)
    (c : Cell) (hcin : inBounds c.1 c.2 = true) :
    ((∃ p, Walk (enterOf pass hardness) (sx, sy) p ∧ walkEnd (sx, sy) p = c) →
      (∃ p, Walk (enterOf pass hardness) (sx, sy) p ∧ walkEnd (sx, sy) p = c ∧
        walkCost (weightOf cost hardness) p = (runWith pass cost hardness old sx sy).1 c.2 c.1) ∧
      (∀ p, Walk (enterOf pass hardness) (sx, sy) p → walkEnd (sx, sy) p = c →
        (runWith pass cost hardness old sx sy).1 c.2 c.1 ≤ walkCost (weightOf cost hardness) p)) ∧
    ((¬ ∃ p, Walk (enterOf pass hardness) (sx, sy) p ∧ walkEnd (sx, sy) p = c) →
      (runWith pass cost hardness old sx sy).1 c.2 c.1 = INT32_MAX) := by
  obtain ⟨_, _, h3, h4, _⟩ := runWith_correct pass cost hardness old hc sx sy hs
  constructor
  · rintro ⟨p, hw, he⟩
    have := h4 p hw
    rw [he] at this
    refine ⟨h3 c hcin this.1, ?_⟩
    intro q hq heq
    have := (h4 q hq).2
    rw [heq] at this
    exact this
  · intro hno
    by_contra hne
    obtain ⟨p, hw, he, _⟩ := h3 c hcin hne
    exact hno ⟨p, hw, he⟩

theorem specTunnelWeight_eq (hardness : Grid Int)
    (hh : ∀ x y, inBounds x y = true → 0 ≤ hardness y x ∧ hardness y x ≤ 255) :
    ∀ (p : List Cell) (a : Cell), Walk (specTunnelEnter hardness) a p →
      walkCost (specTunnelWeight hardness) p = walkCost (weightOf tunnelCost hardness) p := by
  intro p
  induction p with
  | nil => intro a _; rfl
  | cons b rest ih =>
    intro a hw
    obtain ⟨⟨_, hin, hen⟩, hrest⟩ := hw
    have := ih b hrest
    simp only [walkCost, List.map_cons, List.sum_cons] at this ⊢
    rw [this]
    congr 1
    have hb := hh b.1 b.2 hin
    simp only [specTunnelEnter, decide_eq_true_eq] at hen
    simp only [specTunnelWeight, weightOf, tunnelCost]
    by_cases h0 : hardness b.2 b.1 = 0
    · simp [h0]
    · have hpos : hardness b.2 b.1 > 0 ∧ hardness b.2 b.1 < 255 := by omega
      have ht : Int.tdiv (hardness b.2 b.1) 85 = hardness b.2 b.1 / 85 := by
        rw [Int.tdiv_eq_ediv] <;> omega
      rw [if_neg h0, if_pos hpos, ht, wrapInt32_id _ (by omega) (by omega)]

theorem specNonTunnelWeight_eq (hardness : Grid Int) (p : List Cell) :
    walkCost (weightOf nonTunnelCost hardness) p = (p.length : Int) := by
  induction p with
  | nil => rfl
  | cons b rest ih =>
    simp only [walkCost, List.map_cons, List.sum_cons, List.length_cons] at ih ⊢
    rw [ih]
    simp only [weightOf, nonTunnelCost]
    push_cast
    omega

/-- C1: for an 80x21 hardness grid with values in 0..255 and an in-bounds source, the
loop of `djikstraForTunnel` ends with an empty heap, the source holds 0, and every other
cell holds the minimum total weight over the 8-connected walks from the source that only
enter cells of hardness other than 255 (entering hardness `h` costs 1 for `h = 0` and
`1 + h / 85` otherwise); a cell without such a walk holds `INT32_MAX`. -/
theorem djikstraForTunnel_shortest (hardness old : Grid Int) (sx sy : Int)
    (hs : inBounds sx sy = true)
    (hh : ∀ x y, inBounds x y = true → 0 ≤ hardness y x ∧ hardness y x ≤ 255) :
    (djikstraForTunnelRun hardness old sx sy).2 = [] ∧
    djikstraForTunnel hardness old sx sy sy sx = 0 ∧
    ∀ x y, inBounds x y = true → (x, y) ≠ (sx, sy) →
      ((∃ p, Walk (specTunnelEnter hardness) (sx, sy) p ∧ walkEnd (sx, sy) p = (x, y)) →
        (∃ p, Walk (specTunnelEnter hardness) (sx, sy) p ∧ walkEnd (sx, sy) p = (x, y) ∧
          walkCost (specTunnelWeight hardness) p = djikstraForTunnel hardness old sx sy y x) ∧
        (∀ p, Walk (specTunnelEnter hardness) (sx, sy) p → walkEnd (sx, sy) p = (x, y) →
          djikstraForTunnel hardness old sx sy y x ≤ walkCost (specTunnelWeight hardness) p)) ∧
      ((¬ ∃ p, Walk (specTunnelEnter hardness) (sx, sy) p ∧ walkEnd (sx, sy) p = (x, y)) →
        djikstraForTunnel hardness old sx sy y x = INT32_MAX) := by
  unfold djikstraForTunnel
  rw [djikstraForTunnelRun_eq]
  obtain ⟨h1, h2, _⟩ := runWith_correct tunnelPass tunnelCost hardness old
    tunnelCost_range sx sy hs
  refine ⟨h1, h2, ?_⟩
  intro x y hin _
  have hmin := runWith_min tunnelPass tunnelCost hardness old tunnelCost_range sx sy hs
    (x, y) hin
  have hE : enterOf tunnelPass hardness = specTunnelEnter hardness := rfl
  rw [hE] at hmin
  refine ⟨?_, hmin.2⟩
  intro hex
  obtain ⟨⟨p, hw, he, hcst⟩, hlow⟩ := hmin.1 hex
  refine ⟨⟨p, hw, he, ?_⟩, ?_⟩
  · rw [specTunnelWeight_eq hardness hh p _ hw]; exact hcst
  · intro q hq heq
    rw [specTunnelWeight_eq hardness hh q _ hq]
    exact hlow q hq heq

theorem djikstraForTunnel_shortest_witness :
    djikstraForTunnel (fun _ _ => 0) (fun _ _ => 0) 1 1 1 1 = 0 :=
  (djikstraForTunnel_shortest (fun _ _ => 0) (fun _ _ => 0) 1 1 (by decide)
    (fun _ _ _ => ⟨le_refl _, by norm_num⟩)).2.1

/-- C2: for an 80x21 hardness grid and an in-bounds source, the loop of
`djikstraForNonTunnel` ends with an empty heap, the source holds 0, and every other cell
holds the number of steps of a shortest 8-connected walk from the source that only enters
cells of hardness 0; a cell without such a walk, in particular every other cell of
non-zero hardness, holds `INT32_MAX`. -/
theorem djikstraForNonTunnel_shortest (hardness old : Grid Int) (sx sy : Int)
    (hs : inBounds sx sy = true) :
    (djikstraForNonTunnelRun hardness old sx sy).2 = [] ∧
    djikstraForNonTunnel hardness old sx sy sy sx = 0 ∧
    ∀ x y, inBounds x y = true → (x, y) ≠ (sx, sy) →
      ((∃ p, Walk (specNonTunnelEnter hardness) (sx, sy) p ∧ walkEnd (sx, sy) p = (x, y)) →
        (∃ p, Walk (specNonTunnelEnter hardness) (sx, sy) p ∧ walkEnd (sx, sy) p = (x, y) ∧
          (p.length : Int) = djikstraForNonTunnel hardness old sx sy y x) ∧
        (∀ p, Walk (specNonTunnelEnter hardness) (sx, sy) p → walkEnd (sx, sy) p = (x, y) →
          djikstraForNonTunnel hardness old sx sy y x ≤ (p.length : Int))) ∧
      ((¬ ∃ p, Walk (specNonTunnelEnter hardness) (sx, sy) p ∧ walkEnd (sx, sy) p = (x, y)) →
        djikstraForNonTunnel hardness old sx sy y x = INT32_MAX) ∧
      (hardness y x ≠ 0 → djikstraForNonTunnel hardness old sx sy y x = INT32_MAX) := by
  unfold djikstraForNonTunnel
  rw [djikstraForNonTunnelRun_eq]
  obtain ⟨h1, h2, _⟩ := runWith_correct nonTunnelPass nonTunnelCost hardness old
    nonTunnelCost_range sx sy hs
  refine ⟨h1, h2, ?_⟩
  intro x y hin hne
  have hmin := runWith_min nonTunnelPass nonTunnelCost hardness old nonTunnelCost_range sx sy hs
    (x, y) hin
  have hE : enterOf nonTunnelPass hardness = specNonTunnelEnter hardness := rfl
  rw [hE] at hmin
  simp only [specNonTunnelWeight_eq] at hmin
  refine ⟨hmin.1, hmin.2, ?_⟩
  intro hhard
  apply hmin.2
  rintro ⟨p, hw, he⟩
  -- the last entered cell of a walk has hardness 0
  have key : ∀ (p : List Cell) (a : Cell), Walk (specNonTunnelEnter hardness) a p →
      walkEnd a p = a ∨ hardness (walkEnd a p).2 (walkEnd a p).1 = 0 := by
    intro p
    induction p with
    | nil => intro a _; left; rfl
    | cons b rest ih =>
      intro a hw
      have hend : walkEnd a (b :: rest) = walkEnd b rest := by
        cases rest <;> simp [walkEnd, List.getLastD]
      rw [hend]
      rcases ih b hw.2 with h | h
      · right
        rw [h]
        simpa [specNonTunnelEnter] using hw.1.2.2
      · right; exact h
  rcases key p _ hw with h | h
  · rw [he] at h; exact hne h
  · rw [he] at h; exact hhard h

theorem djikstraForNonTunnel_shortest_witness :
    djikstraForNonTunnel (fun _ _ => 0) (fun _ _ => 0) 1 1 1 1 = 0 :=
  (djikstraForNonTunnel_shortest (fun _ _ => 0) (fun _ _ => 0) 1 1 (by decide)).2.1

theorem adjacent8_symm (a b : Cell) (h : adjacent8 a b) : adjacent8 b a := by
  obtain ⟨h1, h2, h3⟩ := h
  exact ⟨fun e => h1 e.symm, by omega, by omega⟩

theorem walkEnd_cons (a b : Cell) (rest : List Cell) :
    walkEnd a (b :: rest) = walkEnd b rest := by
  cases rest <;> simp [walkEnd, List.getLastD]

theorem walk_snoc_inv (enter : Cell → Bool) : ∀ (q : List Cell) (a c : Cell),
    Walk enter a (q ++ [c]) →
      Walk enter a q ∧ adjacent8 (walkEnd a q) c ∧ inBounds c.1 c.2 = true ∧ enter c = true := by
  intro q
  induction q with
  | nil =>
    intro a c h
    exact ⟨trivial, h.1.1, h.1.2.1, h.1.2.2⟩
  | cons b rest ih =>
    intro a c h
    obtain ⟨i1, i2, i3, i4⟩ := ih b c h.2
    rw [walkEnd_cons]
    exact ⟨⟨h.1, i1⟩, i2, i3, i4⟩

theorem walkEnd_inBounds (enter : Cell → Bool) : ∀ (p : List Cell) (a : Cell),
    inBounds a.1 a.2 = true → Walk enter a p →
      inBounds (walkEnd a p).1 (walkEnd a p).2 = true := by
  intro p
  induction p with
  | nil => intro a ha _; exact ha
  | cons b rest ih =>
    intro a _ hw
    rw [walkEnd_cons]
    exact ih b hw.1.2.1 hw.2

theorem runWith_local (pass : Int → Bool) (cost : Int → Int) (hardness old : Grid Int)
    (hc : ∀ h, 1 ≤ cost h ∧ cost h ≤ 3) (sx sy : Int) (hs : inBounds sx sy = true)
    (c : Cell) (hcin : inBounds c.1 c.2 = true) (hne : c ≠ (sx, sy)) :
    ((runWith pass cost hardness old sx sy).1 c.2 c.1 ≠ INT32_MAX →
      enterOf pass hardness c = true ∧
      ∃ n : Cell, adjacent8 c n ∧ inBounds n.1 n.2 = true ∧
        (runWith pass cost hardness old sx sy).1 c.2 c.1 =
          weightOf cost hardness c + (runWith pass cost hardness old sx sy).1 n.2 n.1 ∧
        ∀ m : Cell, adjacent8 c m → inBounds m.1 m.2 = true →
          (runWith pass cost hardness old sx sy).1 n.2 n.1 ≤
            (runWith pass cost hardness old sx sy).1 m.2 m.1) ∧
    ((enterOf pass hardness c = false ∨
        ∀ n : Cell, adjacent8 c n → inBounds n.1 n.2 = true →
          (runWith pass cost hardness old sx sy).1 n.2 n.1 = INT32_MAX) →
      (runWith pass cost hardness old sx sy).1 c.2 c.1 = INT32_MAX) := by
  obtain ⟨_, _, h3, h4, h5⟩ := runWith_correct pass cost hardness old hc sx sy hs
  -- a reached cell other than the source has a reached predecessor
  have pred : (runWith pass cost hardness old sx sy).1 c.2 c.1 ≠ INT32_MAX →
      enterOf pass hardness c = true ∧
      ∃ n : Cell, adjacent8 c n ∧ inBounds n.1 n.2 = true ∧
        (runWith pass cost hardness old sx sy).1 n.2 n.1 ≠ INT32_MAX ∧
        (runWith pass cost hardness old sx sy).1 n.2 n.1 + weightOf cost hardness c ≤
          (runWith pass cost hardness old sx sy).1 c.2 c.1 := by
    intro hfin
    obtain ⟨p, hw, he, hcst⟩ := h3 c hcin hfin
    cases p using List.reverseRecOn with
    | nil => exact absurd he.symm hne
    | append_singleton q c' =>
      rw [walkEnd_append] at he
      subst he
      obtain ⟨i1, i2, i3, i4⟩ := walk_snoc_inv _ q (sx, sy) c' hw
      refine ⟨i4, walkEnd (sx, sy) q, adjacent8_symm _ _ i2,
        walkEnd_inBounds _ q (sx, sy) hs i1, (h4 q i1).1, ?_⟩
      rw [walkCost_append] at hcst
      have := (h4 q i1).2
      omega
  constructor
  · intro hfin
    obtain ⟨hen, n, hadj, hnin, hnfin, hle⟩ := pred hfin
    -- every reached neighbour offers a walk into `c`
    have up : ∀ m : Cell, adjacent8 c m → inBounds m.1 m.2 = true →
        (runWith pass cost hardness old sx sy).1 m.2 m.1 ≠ INT32_MAX →
        (runWith pass cost hardness old sx sy).1 c.2 c.1 ≤
          (runWith pass cost hardness old sx sy).1 m.2 m.1 + weightOf cost hardness c := by
      intro m hm hmin hmfin
      obtain ⟨pm, hwm, hem, hcm⟩ := h3 m hmin hmfin
      have hw' := walk_append _ pm (sx, sy) c hwm (by rw [hem]; exact adjacent8_symm _ _ hm)
        hcin hen
      have := (h4 _ hw').2
      rw [walkEnd_append, walkCost_append, hcm] at this
      exact this
    have hn := up n hadj hnin hnfin
    refine ⟨hen, n, hadj, hnin, by omega, ?_⟩
    intro m hm hmin
    by_cases hmfin : (runWith pass cost hardness old sx sy).1 m.2 m.1 = INT32_MAX
    · rw [hmfin]; exact (h5 n hnin).2
    · have := up m hm hmin hmfin
      omega
  · intro hor
    by_contra hfin
    obtain ⟨hen, n, hadj, hnin, hnfin, _⟩ := pred hfin
    rcases hor with h | h
    · rw [hen] at h; exact Bool.noConfusion h
    · exact hnfin (h n hadj hnin)

/-- C3: in a field computed by `djikstraForTunnel` or `djikstraForNonTunnel` the source
holds 0; every other cell whose value is not the sentinel holds the weight of entering it
(1 in non-tunneling mode, `1 + h / 85` for its own hardness `h` in tunneling mode) plus
the minimum value among its in-bounds 8 neighbours; and a cell other than the source
that the mode's edge rule does not let enter (hardness 255, resp. hardness not 0), or
that has no reached neighbour, keeps the sentinel. -/
theorem dijkstra_bellman (hardness oldT oldN : Grid Int) (sx sy : Int)
    (hs : inBounds sx sy = true)
    (hh : ∀ x y, inBounds x y = true → 0 ≤ hardness y x ∧ hardness y x ≤ 255) :
    djikstraForTunnel hardness oldT sx sy sy sx = 0 ∧
    djikstraForNonTunnel hardness oldN sx sy sy sx = 0 ∧
    ∀ x y, inBounds x y = true → (x, y) ≠ (sx, sy) →
      (djikstraForTunnel hardness oldT sx sy y x ≠ INT32_MAX →
        ∃ n : Cell, adjacent8 (x, y) n ∧ inBounds n.1 n.2 = true ∧
          djikstraForTunnel hardness oldT sx sy y x =
            (1 + hardness y x / 85) + djikstraForTunnel hardness oldT sx sy n.2 n.1 ∧
          ∀ m : Cell, adjacent8 (x, y) m → inBounds m.1 m.2 = true →
            djikstraForTunnel hardness oldT sx sy n.2 n.1 ≤
              djikstraForTunnel hardness oldT sx sy m.2 m.1) ∧
      (djikstraForNonTunnel hardness oldN sx sy y x ≠ INT32_MAX →
        ∃ n : Cell, adjacent8 (x, y) n ∧ inBounds n.1 n.2 = true ∧
          djikstraForNonTunnel hardness oldN sx sy y x =
            1 + djikstraForNonTunnel hardness oldN sx sy n.2 n.1 ∧
          ∀ m : Cell, adjacent8 (x, y) m → inBounds m.1 m.2 = true →
            djikstraForNonTunnel hardness oldN sx sy n.2 n.1 ≤
              djikstraForNonTunnel hardness oldN sx sy m.2 m.1) ∧
      ((hardness y x = 255 ∨ ∀ n : Cell, adjacent8 (x, y) n → inBounds n.1 n.2 = true →
          djikstraForTunnel hardness oldT sx sy n.2 n.1 = INT32_MAX) →
        djikstraForTunnel hardness oldT sx sy y x = INT32_MAX) ∧
      ((hardness y x ≠ 0 ∨ ∀ n : Cell, adjacent8 (x, y) n → inBounds n.1 n.2 = true →
          djikstraForNonTunnel hardness oldN sx sy n.2 n.1 = INT32_MAX) →
        djikstraForNonTunnel hardness oldN sx sy y x = INT32_MAX) := by
  unfold djikstraForTunnel djikstraForNonTunnel
  rw [djikstraForTunnelRun_eq, djikstraForNonTunnelRun_eq]
  refine ⟨(runWith_correct tunnelPass tunnelCost hardness oldT tunnelCost_range sx sy hs).2.1,
    (runWith_correct nonTunnelPass nonTunnelCost hardness oldN nonTunnelCost_range
      sx sy hs).2.1, ?_⟩
  intro x y hin hne
  obtain ⟨t1, t2⟩ := runWith_local tunnelPass tunnelCost hardness oldT tunnelCost_range
    sx sy hs (x, y) hin hne
  obtain ⟨n1, n2⟩ := runWith_local nonTunnelPass nonTunnelCost hardness oldN
    nonTunnelCost_range sx sy hs (x, y) hin hne
  refine ⟨?_, ?_, ?_, ?_⟩
  · intro hfin
    obtain ⟨hen, n, a1, a2, a3, a4⟩ := t1 hfin
    refine ⟨n, a1, a2, ?_, a4⟩
    rw [a3]
    congr 1
    have hb := hh x y hin
    simp only [enterOf, tunnelPass, decide_eq_true_eq] at hen
    simp only [weightOf, tunnelCost]
    by_cases h0 : hardness y x = 0
    · simp [h0]
    · have hpos : hardness y x > 0 ∧ hardness y x < 255 := by omega
      have ht : Int.tdiv (hardness y x) 85 = hardness y x / 85 := by
        rw [Int.tdiv_eq_ediv] <;> omega
      rw [if_pos hpos, ht, wrapInt32_id _ (by omega) (by omega)]
  · intro hfin
    obtain ⟨_, n, a1, a2, a3, a4⟩ := n1 hfin
    exact ⟨n, a1, a2, a3, a4⟩
  · intro h
    apply t2
    rcases h with h | h
    · left; simp [enterOf, tunnelPass, h]
    · right; exact h
  · intro h
    apply n2
    rcases h with h | h
    · left; simp [enterOf, nonTunnelPass, h]
    · right; exact h

theorem dijkstra_bellman_witness :
    djikstraForTunnel (fun _ _ => 0) (fun _ _ => 0) 1 1 1 1 = 0 ∧
    djikstraForNonTunnel (fun _ _ => 0) (fun _ _ => 0) 1 1 1 1 = 0 :=
  ⟨(dijkstra_bellman (fun _ _ => 0) (fun _ _ => 0) (fun _ _ => 0) 1 1 (by decide)
      (fun _ _ _ => ⟨le_refl _, by norm_num⟩)).1,
    (dijkstra_bellman (fun _ _ => 0) (fun _ _ => 0) (fun _ _ => 0) 1 1 (by decide)
      (fun _ _ _ => ⟨le_refl _, by norm_num⟩)).2.1⟩

/-! ## Theorems: level generation -/

theorem foldl_fillRow (row : Int) : ∀ (cs : List Int) (d : Dungeon),
    cs.foldl (fun d col => { d with base_map := d.base_map.set row col '.',
                                    hardness := d.hardness.set row col 0 }) d =
      { d with base_map := cs.foldl (fun g c => g.set row c '.') d.base_map,
               hardness := cs.foldl (fun g c => g.set row c 0) d.hardness } := by
  intro cs
  induction cs with
  | nil => intro d; rfl
  | cons c cs ih => intro d; rw [List.foldl_cons, ih]; rfl

theorem foldl_fillRect (cs : List Int) : ∀ (rs : List Int) (d : Dungeon),
    rs.foldl (fun d row => cs.foldl
      (fun d col => { d with base_map := d.base_map.set row col '.',
                             hardness := d.hardness.set row col 0 }) d) d =
      { d with
        base_map := rs.foldl (fun g r => cs.foldl (fun g c => g.set r c '.') g) d.base_map,
        hardness := rs.foldl (fun g r => cs.foldl (fun g c => g.set r c 0) g) d.hardness } := by
  intro rs
  induction rs with
  | nil => intro d; rfl
  | cons r rs ih => intro d; rw [List.foldl_cons, foldl_fillRow, ih]; rfl

theorem fillRoom_base_map (d : Dungeon) (w h x y r c : Int) :
    (fillRoom d w h x y).base_map r c =
      if (y ≤ r ∧ r < y + h) ∧ (x ≤ c ∧ c < x + w) then '.' else d.base_map r c := by
  unfold fillRoom
  rw [foldl_fillRect]
  simp only [foldl_set_rect, mem_intRange]

theorem fillRoom_hardness (d : Dungeon) (w h x y r c : Int) :
    (fillRoom d w h x y).hardness r c =
      if (y ≤ r ∧ r < y + h) ∧ (x ≤ c ∧ c < x + w) then 0 else d.hardness r c := by
  unfold fillRoom
  rw [foldl_fillRect]
  simp only [foldl_set_rect, mem_intRange]

theorem fillRoom_rooms (d : Dungeon) (w h x y : Int) : (fillRoom d w h x y).rooms = d.rooms := by
  unfold fillRoom
  rw [foldl_fillRect]

theorem isValidRoom_spec (d : Dungeon) (w h x y : Int) (hv : isValidRoom d w h x y = true) :
    1 ≤ w ∧ 1 ≤ h ∧ w + x < WIDTH - 1 ∧ h + y < HEIGHT - 1 ∧
    ∀ r c, (y ≤ r ∧ r < y + h) → (x ≤ c ∧ c < x + w) → d.base_map r c = ' ' := by
  unfold isValidRoom at hv
  split_ifs at hv with h1
  refine ⟨by omega, by omega, by omega, by omega, ?_⟩
  intro r c hr hc
  rw [List.all_eq_true] at hv
  have := hv r ((mem_intRange _ _ _).mpr hr)
  rw [List.all_eq_true] at this
  have := this c ((mem_intRange _ _ _).mpr hc)
  simpa using this

theorem rand_range (rng : Rng) : 0 ≤ (rand rng).1 ∧ (rand rng).1 ≤ 2147483647 := by
  simp only [rand, RAND_MAX]
  omega

theorem addRoom_inv (d : Dungeon) (rw rh rx ry : Int) (h : RoomsInv d)
    (hsz : 4 ≤ rw ∧ rw ≤ 9 ∧ 3 ≤ rh ∧ rh ≤ 6) (hx : 1 ≤ rx) (hy : 1 ≤ ry)
    (hv : isValidRoom d rw rh rx ry = true) :
    RoomsInv { fillRoom d rw rh rx ry with
      rooms := (fillRoom d rw rh rx ry).rooms ++ [⟨rx, ry, rw, rh⟩] } := by
  obtain ⟨v1, v2, v3, v4, v5⟩ := isValidRoom_spec d _ _ _ _ hv
  simp only [WIDTH, HEIGHT] at v3 v4
  constructor
  · intro r hr
    simp only [fillRoom_rooms, List.mem_append, List.mem_singleton] at hr
    rcases hr with hr | hr
    · exact h.size r hr
    · subst hr; exact hsz
  · intro r hr
    simp only [fillRoom_rooms, List.mem_append, List.mem_singleton] at hr
    rcases hr with hr | hr
    · exact h.inside r hr
    · subst hr
      simp only [Room.interior]
      omega
  · intro r hr x y hcov
    simp only [fillRoom_rooms, List.mem_append, List.mem_singleton] at hr
    simp only [fillRoom_base_map]
    split_ifs with hin
    · rfl
    · rcases hr with hr | hr
      · exact h.floor r hr x y hcov
      · subst hr
        simp only [Room.covers] at hcov
        exact absurd ⟨⟨hcov.2.2.1, hcov.2.2.2⟩, hcov.1, hcov.2.1⟩ hin
  · simp only [fillRoom_rooms]
    rw [List.pairwise_append]
    refine ⟨h.disjoint, List.pairwise_singleton _ _, ?_⟩
    intro a ha b hb
    rw [List.mem_singleton.mp hb]
    rintro ⟨x, y, hxa, hxb⟩
    have h1 := h.floor a ha x y hxa
    simp only [Room.covers] at hxb
    have h2 := v5 y x ⟨hxb.2.2.1, hxb.2.2.2⟩ ⟨hxb.1, hxb.2.1⟩
    rw [h1] at h2
    exact absurd h2 (by decide)

theorem generateRoomsLoop_inv : ∀ (attempts : Nat) (d : Dungeon) (rng : Rng),
    RoomsInv d → RoomsInv (generateRoomsLoop attempts d rng).1 := by
  intro attempts
  induction attempts with
  | zero => intro d rng h; exact h
  | succ n ih =>
    intro d rng h
    simp only [generateRoomsLoop]
    split_ifs with hc hv
    · apply ih
      have hr1 := rand_range rng
      have hr2 := rand_range (rand rng).2
      have hr3 := rand_range (rand (rand rng).2).2
      have hr4 := rand_range (rand (rand (rand rng).2).2).2
      have hsz : 4 ≤ (rand rng).1 % 6 + 4 ∧ (rand rng).1 % 6 + 4 ≤ 9 ∧
          3 ≤ (rand (rand rng).2).1 % 4 + 3 ∧ (rand (rand rng).2).1 % 4 + 3 ≤ 6 := by
        omega
      refine addRoom_inv d _ _ _ _ h hsz ?_ ?_ hv
      · have := Int.emod_nonneg (rand (rand (rand rng).2).2).1
          (show WIDTH - ((rand rng).1 % 6 + 4) - 2 ≠ 0 by simp only [WIDTH]; omega)
        omega
      · have := Int.emod_nonneg (rand (rand (rand (rand rng).2).2).2).1
          (show HEIGHT - ((rand (rand rng).2).1 % 4 + 3) - 2 ≠ 0 by simp only [HEIGHT]; omega)
        omega
    · exact ih _ _ h
    · exact h

theorem generateRooms_inv (d : Dungeon) (rng : Rng) : RoomsInv (generateRooms d rng).1 := by
  unfold generateRooms
  apply generateRoomsLoop_inv
  exact ⟨by simp, by simp, by simp, by simp⟩

/-- C8: whatever the random draws, the rooms recorded by `generateRooms` (on a freshly
initialised grid as on any other) lie strictly inside the border, `1 <= x`,
`x + w - 1 <= 78`, `1 <= y`, `y + h - 1 <= 19`, and no two of them share a cell. -/
theorem generateRooms_rooms (d0 : Dungeon) (rng0 rng : Rng) :
    (∀ r ∈ (generateRooms (initializeDungeon d0 rng0).1 rng).1.rooms,
      1 ≤ r.x ∧ r.x + r.w - 1 ≤ 78 ∧ 1 ≤ r.y ∧ r.y + r.h - 1 ≤ 19) ∧
    (generateRooms (initializeDungeon d0 rng0).1 rng).1.rooms.Pairwise
      (fun a b => ¬ ∃ x y, a.covers x y ∧ b.covers x y) ∧
    (∀ d : Dungeon,
      (∀ r ∈ (generateRooms d rng).1.rooms,
        1 ≤ r.x ∧ r.x + r.w - 1 ≤ 78 ∧ 1 ≤ r.y ∧ r.y + r.h - 1 ≤ 19) ∧
      (generateRooms d rng).1.rooms.Pairwise
        (fun a b => ¬ ∃ x y, a.covers x y ∧ b.covers x y)) := by
  have key : ∀ d : Dungeon,
      (∀ r ∈ (generateRooms d rng).1.rooms,
        1 ≤ r.x ∧ r.x + r.w - 1 ≤ 78 ∧ 1 ≤ r.y ∧ r.y + r.h - 1 ≤ 19) ∧
      (generateRooms d rng).1.rooms.Pairwise
        (fun a b => ¬ ∃ x y, a.covers x y ∧ b.covers x y) := by
    intro d
    have h := generateRooms_inv d rng
    exact ⟨fun r hr => h.inside r hr, h.disjoint⟩
  exact ⟨(key _).1, (key _).2, key⟩

theorem carved_refl (d : Dungeon) : Carved d d := ⟨fun _ _ h => h, fun _ _ => Iff.rfl, rfl⟩

theorem carved_trans {d1 d2 d3 : Dungeon} (h1 : Carved d1 d2) (h2 : Carved d2 d3) :
    Carved d1 d3 :=
  ⟨fun x y h => h2.mono x y (h1.mono x y h),
    fun x y => (h2.dots x y).trans (h1.dots x y), h2.rooms.trans h1.rooms⟩

theorem carveCell_spec (d : Dungeon) (x y : Int) :
    Carved d (carveCell d x y) ∧ (FloorZero d → FloorZero (carveCell d x y)) ∧
    (inBounds x y = true → FloorZero d → (carveCell d x y).hardness y x = 0) := by
  unfold carveCell
  by_cases hin : inBounds x y = true
  · by_cases hdot : d.base_map y x = '.'
    · simp only [hin, if_true, hdot, ne_eq, not_true_eq_false, if_false]
      exact ⟨carved_refl d, fun h => h, fun _ hJ => hJ x y hin hdot⟩
    · simp only [hin, if_true, ne_eq, hdot, not_false_eq_true]
      refine ⟨⟨?_, ?_, rfl⟩, ?_, ?_⟩
      · intro a b h
        simp only [grid_set_apply]
        split_ifs
        · rfl
        · exact h
      · intro a b
        simp only [grid_set_apply]
        split_ifs with h
        · rw [h.1, h.2]
          simp [hdot]
        · exact Iff.rfl
      · intro hJ a b hab hd
        simp only [grid_set_apply] at hd ⊢
        split_ifs with h
        · rfl
        · rw [if_neg h] at hd
          exact hJ a b hab hd
      · intro _ _
        simp [grid_set_apply]
  · simp only [hin, Bool.false_eq_true, if_false]
    exact ⟨carved_refl d, fun h => h, fun h => h.elim⟩

theorem conn_mono {h1 h2 : Grid Int} (hm : ∀ x y, h1 y x = 0 → h2 y x = 0) (a b : Cell)
    (hc : Conn h1 a b) : Conn h2 a b := by
  refine Relation.ReflTransGen.mono ?_ hc
  intro u v huv
  exact ⟨huv.1, ⟨huv.2.1.1, hm _ _ huv.2.1.2⟩, ⟨huv.2.2.1, hm _ _ huv.2.2.2⟩⟩

theorem carveX_spec : ∀ (fuel : Nat) (d : Dungeon) (x1 y1 x2 : Int),
    fuel = (x2 - x1).natAbs → inBounds x1 y1 = true → inBounds x2 y1 = true → FloorZero d →
    (carveX fuel d x1 y1 x2).2 = x2 ∧ FloorZero (carveX fuel d x1 y1 x2).1 ∧
    Carved d (carveX fuel d x1 y1 x2).1 ∧
    ∀ df : Dungeon, (∀ x y, (carveX fuel d x1 y1 x2).1.hardness y x = 0 → df.hardness y x = 0) →
      df.hardness y1 x2 = 0 →
      df.hardness y1 x1 = 0 ∧ Conn df.hardness (x1, y1) (x2, y1) := by
  intro fuel
  induction fuel with
  | zero =>
    intro d x1 y1 x2 hf h1 h2 hJ
    have hx : x1 = x2 := by omega
    subst hx
    simp only [carveX]
    exact ⟨trivial, hJ, carved_refl d, fun df _ hz => ⟨hz, Relation.ReflTransGen.refl⟩⟩
  | succ n ih =>
    intro d x1 y1 x2 hf h1 h2 hJ
    have hne : x1 ≠ x2 := by omega
    simp only [carveX, if_pos hne]
    obtain ⟨c1, c2, c3⟩ := carveCell_spec d x1 y1
    have hin' : inBounds (x1 + if x2 > x1 then 1 else -1) y1 = true := by
      simp only [inBounds, WIDTH, HEIGHT, decide_eq_true_eq] at h1 h2 ⊢
      split_ifs <;> omega
    have hf' : n = (x2 - (x1 + if x2 > x1 then 1 else -1)).natAbs := by
      split_ifs <;> omega
    obtain ⟨i1, i2, i3, i4⟩ := ih (carveCell d x1 y1) _ y1 x2 hf' hin' h2 (c2 hJ)
    refine ⟨i1, i2, carved_trans c1 i3, ?_⟩
    intro df hdf hz
    obtain ⟨j1, j2⟩ := i4 df hdf hz
    have hz1 : df.hardness y1 x1 = 0 := hdf _ _ (i3.mono _ _ (c3 h1 hJ))
    refine ⟨hz1, Relation.ReflTransGen.head ?_ j2⟩
    refine ⟨⟨?_, ?_, ?_⟩, ⟨h1, hz1⟩, ⟨hin', j1⟩⟩
    · intro h
      simp only [Prod.mk.injEq] at h
      split_ifs at h <;> omega
    · simp only
      split_ifs <;> omega
    · simp

theorem carveY_spec : ∀ (fuel : Nat) (d : Dungeon) (x1 y1 y2 : Int),
    fuel = (y2 - y1).natAbs → inBounds x1 y1 = true → inBounds x1 y2 = true → FloorZero d →
    FloorZero (carveY fuel d x1 y1 y2).1 ∧
    Carved d (carveY fuel d x1 y1 y2).1 ∧
    ∀ df : Dungeon, (∀ x y, (carveY fuel d x1 y1 y2).1.hardness y x = 0 → df.hardness y x = 0) →
      df.hardness y2 x1 = 0 →
      df.hardness y1 x1 = 0 ∧ Conn df.hardness (x1, y1) (x1, y2) := by
  intro fuel
  induction fuel with
  | zero =>
    intro d x1 y1 y2 hf h1 h2 hJ
    have hy : y1 = y2 := by omega
    subst hy
    simp only [carveY]
    exact ⟨hJ, carved_refl d, fun df _ hz => ⟨hz, Relation.ReflTransGen.refl⟩⟩
  | succ n ih =>
    intro d x1 y1 y2 hf h1 h2 hJ
    have hne : y1 ≠ y2 := by omega
    simp only [carveY, if_pos hne]
    obtain ⟨c1, c2, c3⟩ := carveCell_spec d x1 y1
    have hin' : inBounds x1 (y1 + if y2 > y1 then 1 else -1) = true := by
      simp only [inBounds, WIDTH, HEIGHT, decide_eq_true_eq] at h1 h2 ⊢
      split_ifs <;> omega
    have hf' : n = (y2 - (y1 + if y2 > y1 then 1 else -1)).natAbs := by
      split_ifs <;> omega
    obtain ⟨i2, i3, i4⟩ := ih (carveCell d x1 y1) x1 _ y2 hf' hin' h2 (c2 hJ)
    refine ⟨i2, carved_trans c1 i3, ?_⟩
    intro df hdf hz
    obtain ⟨j1, j2⟩ := i4 df hdf hz
    have hz1 : df.hardness y1 x1 = 0 := hdf _ _ (i3.mono _ _ (c3 h1 hJ))
    refine ⟨hz1, Relation.ReflTransGen.head ?_ j2⟩
    refine ⟨⟨?_, ?_, ?_⟩, ⟨h1, hz1⟩, ⟨hin', j1⟩⟩
    · intro h
      simp only [Prod.mk.injEq] at h
      split_ifs at h <;> omega
    · simp
    · simp only
      split_ifs <;> omega

theorem initCell_self (st : Dungeon × Rng) (c : Cell) : FreshCell (initCell st c).1 c := by
  unfold initCell FreshCell onBorder
  simp only [WIDTH, HEIGHT]
  have hr := rand_range st.2
  split_ifs with h
  · simp only [grid_set_apply, and_self, if_true, true_and]
    norm_num at h
    exact ⟨fun _ => trivial, fun h' => absurd h h'⟩
  · simp only [grid_set_apply, and_self, if_true, true_and]
    norm_num at h
    refine ⟨fun h' => ?_, fun _ => by omega⟩
    exact absurd h' (by simpa [not_or] using h)

theorem initCell_other (st : Dungeon × Rng) (c : Cell) (x y : Int) (h : (x, y) ≠ c) :
    (initCell st c).1.base_map y x = st.1.base_map y x ∧
    (initCell st c).1.hardness y x = st.1.hardness y x := by
  have hne : ¬ (y = c.2 ∧ x = c.1) := by
    intro e; apply h; ext <;> simp [e.1, e.2]
  unfold initCell
  simp only
  split_ifs <;> simp [grid_set_apply, hne]

theorem init_fold : ∀ (cs : List Cell) (st : Dungeon × Rng) (c : Cell),
    (c ∈ cs ∨ FreshCell st.1 c) → FreshCell (cs.foldl initCell st).1 c := by
  intro cs
  induction cs with
  | nil =>
    intro st c h
    rcases h with h | h
    · simp at h
    · exact h
  | cons a cs ih =>
    intro st c h
    rw [List.foldl_cons]
    apply ih
    by_cases hc : c ∈ cs
    · left; exact hc
    · right
      by_cases hca : c = a
      · rw [hca]; exact initCell_self st a
      · have hfr : FreshCell st.1 c := by
          rcases h with h | h
          · rcases List.mem_cons.mp h with h | h
            · exact absurd h hca
            · exact absurd h hc
          · exact h
        obtain ⟨e1, e2⟩ := initCell_other st a c.1 c.2 hca
        unfold FreshCell at hfr ⊢
        rw [e1, e2]
        exact hfr

theorem initializeDungeon_fresh (d : Dungeon) (rng : Rng) (x y : Int)
    (h : inBounds x y = true) : FreshCell (initializeDungeon d rng).1 (x, y) :=
  init_fold allCells (d, rng) (x, y) (Or.inl (mem_allCells (x, y) h))

theorem fillRoom_floorZero (d : Dungeon) (w h x y : Int) (hJ : FloorZero d) :
    FloorZero (fillRoom d w h x y) := by
  intro a b hab hd
  rw [fillRoom_base_map] at hd
  rw [fillRoom_hardness]
  split_ifs with hin
  · rfl
  · rw [if_neg hin] at hd
    exact hJ a b hab hd

theorem generateRoomsLoop_floorZero : ∀ (attempts : Nat) (d : Dungeon) (rng : Rng),
    FloorZero d → FloorZero (generateRoomsLoop attempts d rng).1 := by
  intro attempts
  induction attempts with
  | zero => intro d rng h; exact h
  | succ n ih =>
    intro d rng h
    simp only [generateRoomsLoop]
    split_ifs with hc hv
    · apply ih
      exact fillRoom_floorZero d _ _ _ _ h
    · exact ih _ _ h
    · exact h

theorem goodRoom_of_inv (d : Dungeon) (h : RoomsInv d) (r : Room) (hr : r ∈ d.rooms) :
    GoodRoom d r := by
  have hs := h.size r hr
  have hi := h.inside r hr
  simp only [Room.interior] at hi
  have e1 : Int.tdiv r.w 2 = r.w / 2 := by rw [Int.tdiv_eq_ediv] <;> omega
  have e2 : Int.tdiv r.h 2 = r.h / 2 := by rw [Int.tdiv_eq_ediv] <;> omega
  unfold GoodRoom Room.centre
  simp only [e1, e2]
  constructor
  · simp only [inBounds, WIDTH, HEIGHT, decide_eq_true_eq]
    omega
  · apply h.floor r hr
    simp only [Room.covers]
    omega

theorem connectPair_spec (d : Dungeon) (a b : Room) (ha : GoodRoom d a) (hb : GoodRoom d b)
    (hJ : FloorZero d) :
    FloorZero (connectPair d a b) ∧ Carved d (connectPair d a b) ∧
    Conn (connectPair d a b).hardness a.centre b.centre := by
  unfold GoodRoom Room.centre at ha hb
  simp only at ha hb
  unfold connectPair Room.centre
  simp only
  generalize a.x + Int.tdiv a.w 2 = x1 at ha ⊢
  generalize a.y + Int.tdiv a.h 2 = y1 at ha ⊢
  generalize b.x + Int.tdiv b.w 2 = x2 at hb ⊢
  generalize b.y + Int.tdiv b.h 2 = y2 at hb ⊢
  have hin1 : inBounds x2 y1 = true := by
    have h1 := ha.1
    have h2 := hb.1
    simp only [inBounds, decide_eq_true_eq] at h1 h2 ⊢
    omega
  obtain ⟨p1, p2, p3, p4⟩ := carveX_spec (x2 - x1).natAbs d x1 y1 x2 rfl ha.1 hin1 hJ
  rw [p1]
  obtain ⟨q2, q3, q4⟩ := carveY_spec (y2 - y1).natAbs
    (carveX (x2 - x1).natAbs d x1 y1 x2).1 x2 y1 y2 rfl hin1 hb.1 p2
  have hc := carved_trans p3 q3
  refine ⟨q2, hc, ?_⟩
  have hz2 : (carveY (y2 - y1).natAbs (carveX (x2 - x1).natAbs d x1 y1 x2).1 x2 y1 y2).1.hardness
      y2 x2 = 0 := q2 x2 y2 hb.1 ((hc.dots x2 y2).mpr hb.2)
  obtain ⟨r1, r2⟩ := q4 _ (fun _ _ h => h) hz2
  obtain ⟨_, s2⟩ := p4 _ q3.mono r1
  exact s2.trans r2

theorem connect_chain : ∀ (rs : List Room) (a : Room) (d : Dungeon), FloorZero d →
    (∀ r ∈ a :: rs, GoodRoom d r) →
    FloorZero (((a :: rs).zip rs).foldl (fun d p => connectPair d p.1 p.2) d) ∧
    Carved d (((a :: rs).zip rs).foldl (fun d p => connectPair d p.1 p.2) d) ∧
    ∀ r ∈ rs, Conn (((a :: rs).zip rs).foldl (fun d p => connectPair d p.1 p.2) d).hardness
      a.centre r.centre := by
  intro rs
  induction rs with
  | nil =>
    intro a d hJ _
    simp only [List.zip_nil_right, List.foldl_nil]
    exact ⟨hJ, carved_refl d, by simp⟩
  | cons b rs ih =>
    intro a d hJ hg
    simp only [List.zip_cons_cons, List.foldl_cons]
    obtain ⟨c1, c2, c3⟩ := connectPair_spec d a b (hg a (by simp)) (hg b (by simp)) hJ
    have hg' : ∀ r ∈ b :: rs, GoodRoom (connectPair d a b) r := by
      intro r hr
      have := hg r (List.mem_cons_of_mem _ hr)
      exact ⟨this.1, (c2.dots _ _).mpr this.2⟩
    obtain ⟨i1, i2, i3⟩ := ih b (connectPair d a b) c1 hg'
    refine ⟨i1, carved_trans c2 i2, ?_⟩
    intro r hr
    have hab := conn_mono i2.mono _ _ c3
    rcases List.mem_cons.mp hr with h | h
    · rw [h]; exact hab
    · exact hab.trans (i3 r h)

theorem zeroAdj_symm (hardness : Grid Int) (u v : Cell) (h : ZeroAdj hardness u v) :
    ZeroAdj hardness v u :=
  ⟨adjacent8_symm _ _ h.1, h.2.2, h.2.1⟩

theorem conn_symm (hardness : Grid Int) (a b : Cell) (h : Conn hardness a b) :
    Conn hardness b a := by
  induction h with
  | refl => exact Relation.ReflTransGen.refl
  | tail _ hbc ih => exact Relation.ReflTransGen.head (zeroAdj_symm _ _ _ hbc) ih

theorem conn_walk (hardness : Grid Int) (a b : Cell) (h : Conn hardness a b) :
    ∃ p, Walk (specNonTunnelEnter hardness) a p ∧ walkEnd a p = b := by
  induction h with
  | refl => exact ⟨[], trivial, rfl⟩
  | tail _ hbc ih =>
    obtain ⟨p, hw, he⟩ := ih
    refine ⟨p ++ [_], walk_append _ p a _ hw ?_ hbc.2.2.1 ?_, walkEnd_append _ _ _⟩
    · rw [he]; exact hbc.1
    · simp [specNonTunnelEnter, hbc.2.2.2]

theorem connectRooms_spec (d : Dungeon) (hJ : FloorZero d) (hR : RoomsInv d) :
    Carved d (connectRoomsViaCorridor d) ∧ FloorZero (connectRoomsViaCorridor d) ∧
    ∀ r1 ∈ d.rooms, ∀ r2 ∈ d.rooms,
      Conn (connectRoomsViaCorridor d).hardness r1.centre r2.centre := by
  unfold connectRoomsViaCorridor
  split_ifs with hlt
  · refine ⟨carved_refl d, hJ, ?_⟩
    intro r1 h1 r2 h2
    have : d.rooms.length < 2 := by
      simp only [Dungeon.room_count] at hlt; omega
    match hrs : d.rooms, h1, h2, this with
    | [a], h1, h2, _ =>
      rw [List.mem_singleton.mp h1, List.mem_singleton.mp h2]
      exact Relation.ReflTransGen.refl
  · cases hrs : d.rooms with
    | nil => simp [Dungeon.room_count, hrs] at hlt
    | cons a rs =>
      simp only [List.tail_cons]
      have hg : ∀ r ∈ a :: rs, GoodRoom d r := by
        intro r hr
        exact goodRoom_of_inv d hR r (by rw [hrs]; exact hr)
      obtain ⟨c1, c2, c3⟩ := connect_chain rs a d hJ hg
      refine ⟨c2, c1, ?_⟩
      have toA : ∀ r ∈ a :: rs, Conn
          (((a :: rs).zip rs).foldl (fun d p => connectPair d p.1 p.2) d).hardness
          a.centre r.centre := by
        intro r hr
        rcases List.mem_cons.mp hr with h | h
        · rw [h]; exact Relation.ReflTransGen.refl
        · exact c3 r h
      intro r1 h1 r2 h2
      exact (conn_symm _ _ _ (toA r1 h1)).trans (toA r2 h2)

theorem generateRooms_floorZero (d : Dungeon) (rng : Rng) (hJ : FloorZero d) :
    FloorZero (generateRooms d rng).1 := by
  unfold generateRooms
  exact generateRoomsLoop_floorZero 2000 _ rng hJ

theorem initializeDungeon_floorZero (d : Dungeon) (rng : Rng) :
    FloorZero (initializeDungeon d rng).1 := by
  intro x y hin hd
  have := (initializeDungeon_fresh d rng x y hin).1
  simp only at this
  rw [this] at hd
  exact absurd hd (by decide)

/-- C10: after `generateRooms` and `connectRoomsViaCorridor` on a freshly initialised
grid, for every two placed rooms the centre of the first has hardness 0, there is an
8-connected walk from it to the centre of the second that only enters cells of hardness
0, and `djikstraForNonTunnel` from the first centre leaves a value other than the
sentinel at the second. -/
theorem connectRoomsViaCorridor_connected (d0 : Dungeon) (rng0 rng : Rng) (old : Grid Int) :
    ∀ r1 ∈ (connectRoomsViaCorridor (generateRooms (initializeDungeon d0 rng0).1 rng).1).rooms,
    ∀ r2 ∈ (connectRoomsViaCorridor (generateRooms (initializeDungeon d0 rng0).1 rng).1).rooms,
      inBounds r1.centre.1 r1.centre.2 = true ∧
      (connectRoomsViaCorridor (generateRooms (initializeDungeon d0 rng0).1 rng).1).hardness
        r1.centre.2 r1.centre.1 = 0 ∧
      (∃ p, Walk (specNonTunnelEnter
          (connectRoomsViaCorridor (generateRooms (initializeDungeon d0 rng0).1 rng).1).hardness)
          r1.centre p ∧ walkEnd r1.centre p = r2.centre) ∧
      djikstraForNonTunnel
        (connectRoomsViaCorridor (generateRooms (initializeDungeon d0 rng0).1 rng).1).hardness
        old r1.centre.1 r1.centre.2 r2.centre.2 r2.centre.1 ≠ INT32_MAX := by
  have hJ := generateRooms_floorZero _ rng (initializeDungeon_floorZero d0 rng0)
  have hR := generateRooms_inv (initializeDungeon d0 rng0).1 rng
  obtain ⟨c1, c2, c3⟩ := connectRooms_spec _ hJ hR
  generalize (generateRooms (initializeDungeon d0 rng0).1 rng).1 = d2 at hJ hR c1 c2 c3 ⊢
  intro r1 h1 r2 h2
  rw [c1.rooms] at h1 h2
  have hg := goodRoom_of_inv d2 hR r1 h1
  have hw := conn_walk _ _ _ (c3 r1 h1 r2 h2)
  refine ⟨hg.1, c2 _ _ hg.1 ((c1.dots _ _).mpr hg.2), hw, ?_⟩
  obtain ⟨p, hp, he⟩ := hw
  unfold djikstraForNonTunnel
  rw [djikstraForNonTunnelRun_eq]
  have := (runWith_correct nonTunnelPass nonTunnelCost (connectRoomsViaCorridor d2).hardness old
    nonTunnelCost_range r1.centre.1 r1.centre.2 hg.1).2.2.2.1 p hp
  rw [he] at this
  exact this.1

theorem initializeDungeon_perimeter (d : Dungeon) (rng : Rng) :
    Perimeter (initializeDungeon d rng).1.hardness := by
  intro x y hin hb
  have h := initializeDungeon_fresh d rng x y hin
  unfold FreshCell at h
  simp only at h
  exact h.2.1 hb

theorem fillRoom_perimeter (d : Dungeon) (w h x y : Int) (hx : 1 ≤ x) (hy : 1 ≤ y)
    (hw : w + x < 79) (hh : h + y < 20) (hp : Perimeter d.hardness) :
    Perimeter (fillRoom d w h x y).hardness := by
  intro a b hin hb
  rw [fillRoom_hardness]
  by_cases hc : (y ≤ b ∧ b < y + h) ∧ (x ≤ a ∧ a < x + w)
  · unfold onBorder at hb
    omega
  · rw [if_neg hc]
    exact hp a b hin hb

theorem generateRoomsLoop_perimeter : ∀ (attempts : Nat) (d : Dungeon) (rng : Rng),
    Perimeter d.hardness → Perimeter (generateRoomsLoop attempts d rng).1.hardness := by
  intro attempts
  induction attempts with
  | zero => intro d rng h; exact h
  | succ n ih =>
    intro d rng h
    simp only [generateRoomsLoop]
    split_ifs with hc hv
    · apply ih
      obtain ⟨_, _, v3, v4, _⟩ := isValidRoom_spec d _ _ _ _ hv
      have hW : WIDTH = 80 := rfl
      have hH : HEIGHT = 21 := rfl
      have hr1 := rand_range rng
      have hr2 := rand_range (rand rng).2
      refine fillRoom_perimeter d _ _ _ _ ?_ ?_ (by omega) (by omega) h
      · have := Int.emod_nonneg (rand (rand (rand rng).2).2).1
          (show WIDTH - ((rand rng).1 % 6 + 4) - 2 ≠ 0 by omega)
        omega
      · have := Int.emod_nonneg (rand (rand (rand (rand rng).2).2).2).1
          (show HEIGHT - ((rand (rand rng).2).1 % 4 + 3) - 2 ≠ 0 by omega)
        omega
    · exact ih _ _ h
    · exact h

theorem generateRooms_perimeter (d : Dungeon) (rng : Rng) (hp : Perimeter d.hardness) :
    Perimeter (generateRooms d rng).1.hardness := by
  unfold generateRooms
  exact generateRoomsLoop_perimeter 2000 _ rng hp

theorem carveCell_perimeter (d : Dungeon) (x y : Int) (hx : 1 ≤ x ∧ x ≤ 78)
    (hy : 1 ≤ y ∧ y ≤ 19) (hp : Perimeter d.hardness) :
    Perimeter (carveCell d x y).hardness := by
  unfold carveCell
  split_ifs
  · intro a b hin hb
    simp only [grid_set_apply]
    by_cases he : b = y ∧ a = x
    · unfold onBorder at hb
      omega
    · rw [if_neg he]
      exact hp a b hin hb
  · exact hp
  · exact hp

theorem carveX_perimeter : ∀ (fuel : Nat) (d : Dungeon) (x1 y1 x2 : Int),
    fuel = (x2 - x1).natAbs → (1 ≤ x1 ∧ x1 ≤ 78) → (1 ≤ x2 ∧ x2 ≤ 78) → (1 ≤ y1 ∧ y1 ≤ 19) →
    Perimeter d.hardness →
    (carveX fuel d x1 y1 x2).2 = x2 ∧ Perimeter (carveX fuel d x1 y1 x2).1.hardness := by
  intro fuel
  induction fuel with
  | zero =>
    intro d x1 y1 x2 hf _ _ _ hp
    simp only [carveX]
    exact ⟨by omega, hp⟩
  | succ n ih =>
    intro d x1 y1 x2 hf h1 h2 hy hp
    have hne : x1 ≠ x2 := by omega
    simp only [carveX, if_pos hne]
    refine ih _ _ y1 x2 ?_ ?_ h2 hy (carveCell_perimeter d x1 y1 h1 hy hp)
    · split_ifs <;> omega
    · split_ifs <;> omega

theorem carveY_perimeter : ∀ (fuel : Nat) (d : Dungeon) (x1 y1 y2 : Int),
    fuel = (y2 - y1).natAbs → (1 ≤ x1 ∧ x1 ≤ 78) → (1 ≤ y1 ∧ y1 ≤ 19) → (1 ≤ y2 ∧ y2 ≤ 19) →
    Perimeter d.hardness → Perimeter (carveY fuel d x1 y1 y2).1.hardness := by
  intro fuel
  induction fuel with
  | zero =>
    intro d x1 y1 y2 _ _ _ _ hp
    simp only [carveY]
    exact hp
  | succ n ih =>
    intro d x1 y1 y2 hf hx h1 h2 hp
    have hne : y1 ≠ y2 := by omega
    simp only [carveY, if_pos hne]
    refine ih _ x1 _ y2 ?_ hx ?_ h2 (carveCell_perimeter d x1 y1 hx h1 hp)
    · split_ifs <;> omega
    · split_ifs <;> omega

theorem connectPair_perimeter (d : Dungeon) (a b : Room) (ha : a.centreInside)
    (hb : b.centreInside) (hp : Perimeter d.hardness) :
    Perimeter (connectPair d a b).hardness := by
  unfold Room.centreInside Room.centre at ha hb
  simp only at ha hb
  unfold connectPair
  simp only
  obtain ⟨p1, p2⟩ := carveX_perimeter _ d _ _ _ rfl ha.1 hb.1 ha.2 hp
  rw [p1]
  exact carveY_perimeter _ _ _ _ _ rfl hb.1 ha.2 hb.2 p2

theorem connectFold_perimeter : ∀ (ps : List (Room × Room)) (d : Dungeon),
    (∀ p ∈ ps, p.1.centreInside ∧ p.2.centreInside) → Perimeter d.hardness →
    Perimeter (ps.foldl (fun d p => connectPair d p.1 p.2) d).hardness := by
  intro ps
  induction ps with
  | nil => intro d _ hp; exact hp
  | cons p ps ih =>
    intro d hps hp
    rw [List.foldl_cons]
    apply ih _ (fun q hq => hps q (List.mem_cons_of_mem _ hq))
    exact connectPair_perimeter d p.1 p.2 (hps p (List.mem_cons_self _ _)).1
      (hps p (List.mem_cons_self _ _)).2 hp

theorem centreInside_of_inv (d : Dungeon) (h : RoomsInv d) (r : Room) (hr : r ∈ d.rooms) :
    r.centreInside := by
  have hs := h.size r hr
  have hi := h.inside r hr
  simp only [Room.interior] at hi
  have e1 : Int.tdiv r.w 2 = r.w / 2 := by rw [Int.tdiv_eq_ediv] <;> omega
  have e2 : Int.tdiv r.h 2 = r.h / 2 := by rw [Int.tdiv_eq_ediv] <;> omega
  unfold Room.centreInside Room.centre
  simp only [e1, e2]
  omega

theorem connectRooms_perimeter (d : Dungeon) (hR : RoomsInv d) (hp : Perimeter d.hardness) :
    Perimeter (connectRoomsViaCorridor d).hardness := by
  unfold connectRoomsViaCorridor
  split_ifs
  · exact hp
  · apply connectFold_perimeter _ _ _ hp
    intro p hpz
    have h1 := (List.of_mem_zip hpz).1
    have h2 := List.mem_of_mem_tail (List.of_mem_zip hpz).2
    exact ⟨centreInside_of_inv d hR _ h1, centreInside_of_inv d hR _ h2⟩

theorem placeStairsLoop_hardness : ∀ (fuel : Nat) (u v : Bool) (d : Dungeon) (rng : Rng)
    (d1 : Dungeon) (rng1 : Rng), placeStairsLoop fuel u v d rng = some (d1, rng1) →
    d1.hardness = d.hardness := by
  intro fuel
  induction fuel with
  | zero =>
    intro u v d rng d1 rng1 h
    simp only [placeStairsLoop] at h
    split_ifs at h
    simp only [Option.some.injEq, Prod.mk.injEq] at h
    rw [← h.1]
  | succ n ih =>
    intro u v d rng d1 rng1 h
    rw [placeStairsLoop] at h
    split at h
    · have := ih _ _ _ _ _ _ h
      rw [this]
      simp only
      split_ifs <;> rfl
    · simp only [Option.some.injEq, Prod.mk.injEq] at h
      rw [← h.1]

theorem generateRoomsLoop_mem : ∀ (attempts : Nat) (d : Dungeon) (rng : Rng) (r : Room),
    r ∈ d.rooms → r ∈ (generateRoomsLoop attempts d rng).1.rooms := by
  intro attempts
  induction attempts with
  | zero => intro d rng r h; exact h
  | succ n ih =>
    intro d rng r h
    simp only [generateRoomsLoop]
    split_ifs
    · apply ih
      simp only [fillRoom_rooms, List.mem_append]
      exact Or.inl h
    · exact ih _ _ _ h
    · exact h

theorem isValidRoom_fresh (d : Dungeon) (w h x y : Int)
    (hfresh : ∀ a b, inBounds a b = true → d.base_map b a = ' ')
    (hw : 1 ≤ w) (hh : 1 ≤ h) (hx : 0 ≤ x) (hy : 0 ≤ y) (hwx : w + x < 79) (hhy : h + y < 20) :
    isValidRoom d w h x y = true := by
  unfold isValidRoom
  have hc : ¬ (w < 1 ∨ h < 1 ∨ w + x ≥ WIDTH - 1 ∨ h + y ≥ HEIGHT - 1) := by
    simp only [WIDTH, HEIGHT]; omega
  rw [if_neg hc, List.all_eq_true]
  intro row hrow
  rw [List.all_eq_true]
  intro col hcol
  rw [mem_intRange] at hrow hcol
  have : inBounds col row = true := by
    simp only [inBounds, WIDTH, HEIGHT, decide_eq_true_eq]; omega
  simp [hfresh col row this]

theorem generateRooms_first (d : Dungeon) (rng : Rng)
    (hfresh : ∀ a b, inBounds a b = true → d.base_map b a = ' ') :
    firstRoom rng ∈ (generateRooms d rng).1.rooms := by
  unfold generateRooms
  rw [show (2000 : Nat) = 1999 + 1 from rfl, generateRoomsLoop]
  have hcount : ({ d with rooms := [] } : Dungeon).room_count < 6 := by
    simp [Dungeon.room_count]
  have hr1 := rand_range rng
  have hr2 := rand_range (rand rng).2
  have hW : WIDTH = 80 := rfl
  have hH : HEIGHT = 21 := rfl
  have hx0 := Int.emod_nonneg (rand (rand (rand rng).2).2).1
    (show WIDTH - ((rand rng).1 % 6 + 4) - 2 ≠ 0 by omega)
  have hx1 := Int.emod_lt_of_pos (rand (rand (rand rng).2).2).1
    (show 0 < WIDTH - ((rand rng).1 % 6 + 4) - 2 by omega)
  have hy0 := Int.emod_nonneg (rand (rand (rand (rand rng).2).2).2).1
    (show HEIGHT - ((rand (rand rng).2).1 % 4 + 3) - 2 ≠ 0 by omega)
  have hy1 := Int.emod_lt_of_pos (rand (rand (rand (rand rng).2).2).2).1
    (show 0 < HEIGHT - ((rand (rand rng).2).1 % 4 + 3) - 2 by omega)
  have hv : isValidRoom { d with rooms := [] } ((rand rng).1 % 6 + 4)
      ((rand (rand rng).2).1 % 4 + 3)
      ((rand (rand (rand rng).2).2).1 % (WIDTH - ((rand rng).1 % 6 + 4) - 2) + 1)
      ((rand (rand (rand (rand rng).2).2).2).1 %
        (HEIGHT - ((rand (rand rng).2).1 % 4 + 3) - 2) + 1) = true :=
    isValidRoom_fresh _ _ _ _ _ hfresh (by omega) (by omega) (by omega) (by omega)
      (by omega) (by omega)
  simp only [hcount, if_true, hv]
  apply generateRoomsLoop_mem
  simp only [fillRoom_rooms, List.nil_append, List.mem_singleton]
  rfl

theorem initializeDungeon_unmodified (d : Dungeon) (rng : Rng) (a b : Int)
    (h : inBounds a b = true) : (initializeDungeon d rng).1.base_map b a = ' ' := by
  have := (initializeDungeon_fresh d rng a b h).1
  simp only at this
  exact this


theorem isValidRoom_blank (d : Dungeon) (w h x y : Int)
    (hblank : ∀ r c, (y ≤ r ∧ r < y + h) → (x ≤ c ∧ c < x + w) → d.base_map r c = ' ')
    (hw : 1 ≤ w) (hh : 1 ≤ h) (hwx : w + x < 79) (hhy : h + y < 20) :
    isValidRoom d w h x y = true := by
  unfold isValidRoom
  have hc : ¬ (w < 1 ∨ h < 1 ∨ w + x ≥ WIDTH - 1 ∨ h + y ≥ HEIGHT - 1) := by
    simp only [WIDTH, HEIGHT]; omega
  rw [if_neg hc, List.all_eq_true]
  intro row hrow
  rw [List.all_eq_true]
  intro col hcol
  rw [mem_intRange] at hrow hcol
  simp [hblank row col hrow hcol]

theorem generateRoomsLoop_step (n : Nat) (d : Dungeon) (rng : Rng)
    (hc : d.room_count < 6)
    (hv : isValidRoom d (firstRoom rng).w (firstRoom rng).h (firstRoom rng).x
      (firstRoom rng).y = true) :
    generateRoomsLoop (n + 1) d rng =
      generateRoomsLoop n
        { fillRoom d (firstRoom rng).w (firstRoom rng).h (firstRoom rng).x (firstRoom rng).y with
          rooms := (fillRoom d (firstRoom rng).w (firstRoom rng).h (firstRoom rng).x
            (firstRoom rng).y).rooms ++ [firstRoom rng] }
        (rand (rand (rand (rand rng).2).2).2).2 := by
  rw [generateRoomsLoop]
  simp only [firstRoom] at hv ⊢
  simp only [hc, if_true, hv]

theorem twoRooms_mem (d : Dungeon)
    (hfresh : ∀ a b, inBounds a b = true → d.base_map b a = ' ') :
    firstRoom twoRoomRng ∈ (generateRooms d twoRoomRng).1.rooms ∧
    secondRoom twoRoomRng ∈ (generateRooms d twoRoomRng).1.rooms := by
  refine ⟨generateRooms_first d twoRoomRng hfresh, ?_⟩
  have e1 : firstRoom twoRoomRng = ⟨1, 1, 4, 3⟩ := by decide
  have e2 : firstRoom (rand (rand (rand (rand twoRoomRng).2).2).2).2 = ⟨11, 1, 4, 3⟩ := by
    decide
  unfold generateRooms
  rw [show (2000 : Nat) = 1998 + 1 + 1 from rfl]
  rw [generateRoomsLoop_step (1998 + 1) _ twoRoomRng (by simp [Dungeon.room_count]) (by
    rw [e1]
    exact isValidRoom_fresh _ _ _ _ _ hfresh (by decide) (by decide) (by decide) (by decide)
      (by decide) (by decide))]
  rw [generateRoomsLoop_step 1998 _ _ (by
      simp only [Dungeon.room_count, fillRoom_rooms, List.nil_append, List.length_singleton]
      decide) (by
    rw [e1, e2]
    refine isValidRoom_blank _ _ _ _ _ ?_ (by decide) (by decide) (by decide) (by decide)
    intro r c hr hc
    simp only at hr hc
    show (fillRoom { d with rooms := [] } 4 3 1 1).base_map r c = ' '
    rw [fillRoom_base_map, if_neg (by omega)]
    exact hfresh c r (by
      simp only [inBounds, WIDTH, HEIGHT, decide_eq_true_eq]
      omega))]
  apply generateRoomsLoop_mem
  simp only [fillRoom_rooms, List.mem_append, List.mem_singleton]
  exact Or.inr rfl

theorem connectRoomsViaCorridor_connected_witness :
    (firstRoom twoRoomRng = ⟨1, 1, 4, 3⟩ ∧ secondRoom twoRoomRng = ⟨11, 1, 4, 3⟩) ∧
    (firstRoom twoRoomRng ∈ (connectRoomsViaCorridor
        (generateRooms (initializeDungeon Dungeon.new zeroRng).1 twoRoomRng).1).rooms ∧
      secondRoom twoRoomRng ∈ (connectRoomsViaCorridor
        (generateRooms (initializeDungeon Dungeon.new zeroRng).1 twoRoomRng).1).rooms) ∧
    (∃ p, Walk (specNonTunnelEnter
        (connectRoomsViaCorridor
          (generateRooms (initializeDungeon Dungeon.new zeroRng).1 twoRoomRng).1).hardness)
        (firstRoom twoRoomRng).centre p ∧
      walkEnd (firstRoom twoRoomRng).centre p = (secondRoom twoRoomRng).centre) ∧
    djikstraForNonTunnel
      (connectRoomsViaCorridor
        (generateRooms (initializeDungeon Dungeon.new zeroRng).1 twoRoomRng).1).hardness
      (fun _ _ => 0) (firstRoom twoRoomRng).centre.1 (firstRoom twoRoomRng).centre.2
      (secondRoom twoRoomRng).centre.2 (secondRoom twoRoomRng).centre.1 ≠ INT32_MAX :=
  have hmem : firstRoom twoRoomRng ∈ (connectRoomsViaCorridor
        (generateRooms (initializeDungeon Dungeon.new zeroRng).1 twoRoomRng).1).rooms ∧
      secondRoom twoRoomRng ∈ (connectRoomsViaCorridor
        (generateRooms (initializeDungeon Dungeon.new zeroRng).1 twoRoomRng).1).rooms := by
    rw [(connectRooms_spec _
      (generateRooms_floorZero _ _ (initializeDungeon_floorZero _ _))
      (generateRooms_inv _ _)).1.rooms]
    exact twoRooms_mem _ (initializeDungeon_unmodified _ _)
  ⟨⟨by decide, by decide⟩, hmem,
    (connectRoomsViaCorridor_connected Dungeon.new zeroRng twoRoomRng (fun _ _ => 0)
      _ hmem.1 _ hmem.2).2.2⟩

/-- Grid initialisation puts hardness 255 on every border cell, and `generateRooms`,
`connectRoomsViaCorridor` (for the rooms `generateRooms` recorded) and `placeStairs` keep
it there, whatever the random draws. -/
theorem generation_perimeter :
    (∀ (d : Dungeon) (rng : Rng), Perimeter (initializeDungeon d rng).1.hardness) ∧
    (∀ (d : Dungeon) (rng : Rng), Perimeter d.hardness →
      Perimeter (generateRooms d rng).1.hardness) ∧
    (∀ (d : Dungeon) (rng : Rng), Perimeter d.hardness →
      Perimeter (connectRoomsViaCorridor (generateRooms d rng).1).hardness) ∧
    (∀ (fuel : Nat) (d : Dungeon) (rng : Rng) (d1 : Dungeon) (rng1 : Rng),
      placeStairs fuel d rng = some (d1, rng1) → d1.hardness = d.hardness) := by
  refine ⟨initializeDungeon_perimeter, generateRooms_perimeter, ?_, ?_⟩
  · intro d rng hp
    exact connectRooms_perimeter _ (generateRooms_inv d rng) (generateRooms_perimeter d rng hp)
  · intro fuel d rng d1 rng1 h
    exact placeStairsLoop_hardness fuel false false d rng d1 rng1 h

theorem generateRooms_rooms_witness :
    1 ≤ (firstRoom ⟨fun i => i, 0⟩).x ∧
    (firstRoom ⟨fun i => i, 0⟩).x + (firstRoom ⟨fun i => i, 0⟩).w - 1 ≤ 78 ∧
    1 ≤ (firstRoom ⟨fun i => i, 0⟩).y ∧
    (firstRoom ⟨fun i => i, 0⟩).y + (firstRoom ⟨fun i => i, 0⟩).h - 1 ≤ 19 :=
  (generateRooms_rooms Dungeon.new ⟨fun i => i, 0⟩ ⟨fun i => i, 0⟩).1
    (firstRoom ⟨fun i => i, 0⟩)
    (generateRooms_first _ _ (initializeDungeon_unmodified _ _))

/-! ## Theorems: turns and the scheduler -/

theorem turnFrame_refl (d : Dungeon) : TurnFrame d d := ⟨rfl, rfl⟩

theorem turnFrame_trans {d1 d2 d3 : Dungeon} (h1 : TurnFrame d1 d2) (h2 : TurnFrame d2 d3) :
    TurnFrame d1 d3 :=
  ⟨h2.hardness.trans h1.hardness, h2.speeds.trans h1.speeds⟩

theorem map_speed_set (l : List Character) (i : Nat) (me c : Character)
    (h : l[i]? = some me) (hs : c.speed = me.speed) :
    (l.set i c).map Character.speed = l.map Character.speed := by
  apply List.ext_getElem?
  intro j
  simp only [List.getElem?_map, List.getElem?_set]
  by_cases hij : i = j
  · subst hij
    have : i < l.length := by
      by_contra hc
      rw [List.getElem?_eq_none (by omega)] at h
      exact Option.noConfusion h
    simp [this, h, hs]
  · simp [hij]

theorem speedsPos_of_map {d d1 : Dungeon}
    (h : d1.characters.map Character.speed = d.characters.map Character.speed)
    (hp : SpeedsPos d) : SpeedsPos d1 := by
  intro c hc
  have : c.speed ∈ d1.characters.map Character.speed := List.mem_map_of_mem _ hc
  rw [h] at this
  obtain ⟨c0, hc0, e⟩ := List.mem_map.mp this
  rw [← e]
  exact hp c0 hc0

theorem rebuildDisplay_frame (d : Dungeon) : TurnFrame d d.rebuildDisplay := ⟨rfl, rfl⟩

theorem modifyChar_frame (d : Dungeon) (i : Nat) (f : Character → Character)
    (hf : ∀ c, (f c).speed = c.speed) : TurnFrame d (d.modifyChar i f) := by
  unfold Dungeon.modifyChar
  cases h : d.characters[i]? with
  | none => exact turnFrame_refl d
  | some me => exact ⟨rfl, map_speed_set _ _ me _ h (hf me)⟩

theorem moveCursor_frame (i : Nat) (d : Dungeon) (dx dy : Int) :
    TurnFrame d (PC.moveCursor i d dx dy) := by
  unfold PC.moveCursor
  cases h : d.characters[i]? with
  | none => exact turnFrame_refl d
  | some me =>
    simp only
    split_ifs
    · exact ⟨rfl, map_speed_set _ _ me _ h rfl⟩
    · exact turnFrame_refl d

theorem attack_frame (i : Nat) (d : Dungeon) (nx ny : Int) (b : Bool) :
    TurnFrame d (PC.attack i d nx ny b) := by
  unfold PC.attack
  refine ⟨rfl, ?_⟩
  simp only [List.map_map]
  have : (Character.speed ∘ fun p : Nat × Character =>
      if (p.2.alive && p.2.x == nx && p.2.y == ny && p.1 != i) = true then
        { p.2 with alive := false } else p.2) = Character.speed ∘ Prod.snd := by
    funext p
    simp only [Function.comp]
    split_ifs <;> rfl
  rw [this, ← List.map_map, List.enum_map_snd]

theorem step_frame (i : Nat) (d : Dungeon) (dx dy : Int) (b : Bool) :
    TurnFrame d (PC.step i d dx dy b) := by
  unfold PC.step
  cases h : d.characters[i]? with
  | none => exact turnFrame_refl d
  | some me =>
    simp only
    split_ifs
    · have ha := attack_frame i d (me.x + dx) (me.y + dy) b
      cases h1 : (PC.attack i d (me.x + dx) (me.y + dy) b).characters[i]? with
      | none => exact ha
      | some me1 =>
        exact turnFrame_trans ha ⟨rfl, map_speed_set _ _ me1 _ h1 rfl⟩
    · exact turnFrame_refl d

theorem updateRemembered_frame (i : Nat) (d : Dungeon) :
    TurnFrame d (PC.updateRemembered i d) := by
  unfold PC.updateRemembered
  cases h : d.characters[i]? with
  | none => exact turnFrame_refl d
  | some me => exact ⟨rfl, map_speed_set _ _ me _ h rfl⟩

theorem teleportKey_frame (fuel : Nat) (i : Nat) (me : Character) (ch : Int)
    (keys : List Int) (d : Dungeon) (rng : Rng) :
    (PC.teleportKey fuel i me ch keys d rng).Framed d := by
  unfold PC.teleportKey
  cases teleportCase ch with
  | cursor dx dy =>
    exact turnFrame_trans (moveCursor_frame i d dx dy) (rebuildDisplay_frame _)
  | nothing => exact rebuildDisplay_frame d
  | confirm =>
    simp only [KeyOutcome.Framed]
    split_ifs
    · refine turnFrame_trans (modifyChar_frame d i _ ?_) (modifyChar_frame _ i _ ?_) <;>
        intro c <;> rfl
    · refine modifyChar_frame _ i _ ?_
      intro c; rfl
  | random =>
    simp only
    cases PC.randomCell fuel d rng with
    | none => trivial
    | some p =>
      refine turnFrame_trans (modifyChar_frame d i _ ?_) (modifyChar_frame _ i _ ?_) <;>
        intro c <;> rfl
  | fog =>
    refine turnFrame_trans (modifyChar_frame d i _ ?_) (rebuildDisplay_frame _)
    intro c; rfl
  | quit =>
    refine turnFrame_trans (modifyChar_frame d i _ ?_) ⟨rfl, rfl⟩
    intro c; rfl
  | other => exact rebuildDisplay_frame d

theorem normalKey_frame (i : Nat) (me : Character) (ch : Int)
    (keys : List Int) (d : Dungeon) (rng : Rng) :
    (PC.normalKey i me ch keys d rng).Framed d := by
  unfold PC.normalKey
  cases normalCase ch with
  | move dx dy b => exact step_frame _ _ _ _ _
  | rest => exact turnFrame_refl d
  | stairsDown =>
    simp only [KeyOutcome.Framed]
    split_ifs
    · exact ⟨rfl, rfl⟩
    · exact turnFrame_refl d
  | stairsUp =>
    simp only [KeyOutcome.Framed]
    split_ifs
    · exact ⟨rfl, rfl⟩
    · exact turnFrame_refl d
  | monsterList =>
    simp only
    cases monsterListLoop keys with
    | none => trivial
    | some k => exact rebuildDisplay_frame d
  | fog =>
    refine modifyChar_frame d i _ ?_
    intro c; rfl
  | teleport =>
    refine modifyChar_frame d i _ ?_
    intro c; rfl
  | quit =>
    refine turnFrame_trans (modifyChar_frame d i _ ?_) ⟨rfl, rfl⟩
    intro c; rfl
  | other => exact turnFrame_refl d

theorem inputLoop_frame (fuel : Nat) (i : Nat) : ∀ (keys : List Int) (d : Dungeon) (rng : Rng)
    (d1 : Dungeon) (rng1 : Rng) (keys1 : List Int),
    PC.inputLoop fuel i keys d rng = some (d1, rng1, keys1) → TurnFrame d d1 := by
  intro keys
  induction keys with
  | nil => intro d rng d1 rng1 keys1 h; simp [PC.inputLoop] at h
  | cons ch keys ih =>
    intro d rng d1 rng1 keys1 h
    rw [PC.inputLoop] at h
    cases hme : d.characters[i]? with
    | none => rw [hme] at h; exact Option.noConfusion h
    | some me =>
      rw [hme] at h
      simp only at h
      have hfr : (if me.teleporting = true then PC.teleportKey fuel i me ch keys d rng
          else PC.normalKey i me ch keys d rng).Framed d := by
        split_ifs
        · exact teleportKey_frame _ _ _ _ _ _ _
        · exact normalKey_frame _ _ _ _ _ _
      cases hout : (if me.teleporting = true then PC.teleportKey fuel i me ch keys d rng
          else PC.normalKey i me ch keys d rng) with
      | again d2 =>
        rw [hout] at h hfr
        exact turnFrame_trans hfr (ih _ _ _ _ _ h)
      | done d2 rng2 keys2 =>
        rw [hout] at h hfr
        simp only [Option.some.injEq, Prod.mk.injEq] at h
        rw [← h.1]
        exact hfr
      | stuck =>
        rw [hout] at h
        exact Option.noConfusion h

theorem PC_doTurn_frame (fuel : Nat) (i : Nat) (d : Dungeon) (rng : Rng) (keys : List Int)
    (d1 : Dungeon) (rng1 : Rng) (keys1 : List Int)
    (h : PC.doTurn fuel i d rng keys = some (d1, rng1, keys1)) : TurnFrame d d1 := by
  unfold PC.doTurn at h
  cases hme : d.characters[i]? with
  | none => rw [hme] at h; exact Option.noConfusion h
  | some me =>
    rw [hme] at h
    simp only at h
    have h1 := inputLoop_frame fuel i keys _ rng d1 rng1 keys1 h
    refine turnFrame_trans ?_ h1
    refine turnFrame_trans ?_ (updateRemembered_frame i _)
    exact ⟨rfl, rfl⟩

theorem NPC_act_speeds (i : Nat) (me : Character) (d : Dungeon) (bx by1 : Int)
    (h : d.characters[i]? = some me) :
    (NPC.act i me d bx by1).characters.map Character.speed =
      d.characters.map Character.speed := by
  unfold NPC.act
  simp only
  split
  · rfl
  · exact map_speed_set _ _ me _ h rfl

theorem NPC_act_perimeter (i : Nat) (me : Character) (d : Dungeon) (bx by1 : Int)
    (hp : Perimeter d.hardness) : Perimeter (NPC.act i me d bx by1).hardness := by
  unfold NPC.act
  simp only
  split
  · rename_i h
    intro x y hin hb
    simp only [grid_set_apply]
    by_cases he : y = by1 ∧ x = bx
    · have := hp x y hin hb
      rw [he.1, he.2] at this
      omega
    · rw [if_neg he]
      exact hp x y hin hb
  · exact hp

theorem NPC_doTurn_speeds (i : Nat) (d : Dungeon) (rng : Rng) :
    (NPC.doTurn i d rng).1.characters.map Character.speed =
      d.characters.map Character.speed := by
  unfold NPC.doTurn
  cases h : d.characters[i]? with
  | none => rfl
  | some me =>
    simp only
    split_ifs
    · rfl
    · exact NPC_act_speeds i me d _ _ h

theorem NPC_doTurn_perimeter (i : Nat) (d : Dungeon) (rng : Rng)
    (hp : Perimeter d.hardness) : Perimeter (NPC.doTurn i d rng).1.hardness := by
  unfold NPC.doTurn
  cases h : d.characters[i]? with
  | none => exact hp
  | some me =>
    simp only
    split_ifs
    · exact hp
    · exact NPC_act_perimeter i me d _ _ hp

theorem doTurn_speeds (fuel : Nat) (i : Nat) (d : Dungeon) (rng : Rng) (keys : List Int)
    (d1 : Dungeon) (rng1 : Rng) (keys1 : List Int)
    (h : doTurn fuel i d rng keys = some (d1, rng1, keys1)) :
    d1.characters.map Character.speed = d.characters.map Character.speed := by
  unfold doTurn at h
  cases hc : d.characters[i]? with
  | none => rw [hc] at h; exact Option.noConfusion h
  | some chr =>
    rw [hc] at h
    simp only at h
    cases ht : chr.type with
    | PC_TYPE =>
      rw [ht] at h
      exact (PC_doTurn_frame fuel i d rng keys d1 rng1 keys1 h).speeds
    | NPC_TYPE =>
      rw [ht] at h
      simp only [Option.some.injEq, Prod.mk.injEq] at h
      rw [← h.1]
      exact NPC_doTurn_speeds i d rng

theorem doTurn_perimeter (fuel : Nat) (i : Nat) (d : Dungeon) (rng : Rng) (keys : List Int)
    (d1 : Dungeon) (rng1 : Rng) (keys1 : List Int)
    (h : doTurn fuel i d rng keys = some (d1, rng1, keys1)) (hp : Perimeter d.hardness) :
    Perimeter d1.hardness := by
  unfold doTurn at h
  cases hc : d.characters[i]? with
  | none => rw [hc] at h; exact Option.noConfusion h
  | some chr =>
    rw [hc] at h
    simp only at h
    cases ht : chr.type with
    | PC_TYPE =>
      rw [ht] at h
      rw [(PC_doTurn_frame fuel i d rng keys d1 rng1 keys1 h).hardness]
      exact hp
    | NPC_TYPE =>
      rw [ht] at h
      simp only [Option.some.injEq, Prod.mk.injEq] at h
      rw [← h.1]
      exact NPC_doTurn_perimeter i d rng hp

theorem getElem?_of_map_speed {l l1 : List Character}
    (h : l1.map Character.speed = l.map Character.speed) (i : Nat) (c : Character)
    (hc : l[i]? = some c) : ∃ c1, l1[i]? = some c1 ∧ c1.speed = c.speed := by
  have h1 : (l1.map Character.speed)[i]? = (l.map Character.speed)[i]? := by rw [h]
  simp only [List.getElem?_map, hc, Option.map_some'] at h1
  cases h2 : l1[i]? with
  | none => rw [h2] at h1; exact Option.noConfusion h1
  | some c1 =>
    rw [h2] at h1
    simp only [Option.map_some', Option.some.injEq] at h1
    exact ⟨c1, rfl, h1⟩

/-- C5: one pass of the `gameLoop` body for the popped event `(t, a)`.  If `a` is dead
the state is unchanged (no turn, nothing pushed).  Otherwise, for `a` of positive speed
and `t + 1000 / speed` within `int`, the state is that of exactly one `doTurn` of `a`,
and the queue gets the single event `(t + floor(1000 / a.speed), a)` iff afterwards `a`
is alive, the PC is alive and no level transition was raised; else it is unchanged. -/
theorem gameLoopBody_reschedule (fuel : Nat) (e : Event) (s : LoopState) (chr : Character)
    (hchr : s.d.characters[e.c]? = some chr) :
    (chr.alive = false →
      gameLoopBody fuel e s = some ({ s with current_time := e.time }, LoopFlow.next)) ∧
    (chr.alive = true → 0 < chr.speed → -INT32_MAX - 1 ≤ e.time →
      e.time + 1000 / chr.speed ≤ INT32_MAX →
      ∀ d1 rng1 keys1, doTurn fuel e.c s.d s.rng s.keys = some (d1, rng1, keys1) →
      ∃ chr1 s1 fl, d1.characters[e.c]? = some chr1 ∧ chr1.speed = chr.speed ∧
        gameLoopBody fuel e s = some (s1, fl) ∧
        s1.d = d1 ∧ s1.rng = rng1 ∧ s1.keys = keys1 ∧
        s1.eq = if chr1.alive = true ∧ d1.pc_is_alive = true ∧ d1.changedFloor = false
          then EventQueue.push s.eq ⟨e.time + 1000 / chr.speed, e.c⟩ else s.eq) := by
  constructor
  · intro hdead
    simp only [gameLoopBody, hchr, hdead, Bool.not_false, if_true]
  · intro halive hspeed hlo hhi d1 rng1 keys1 hturn
    obtain ⟨chr1, hc1, hs1⟩ :=
      getElem?_of_map_speed (doTurn_speeds fuel e.c s.d s.rng s.keys d1 rng1 keys1 hturn)
        e.c chr hchr
    have htd : Int.tdiv 1000 chr.speed = 1000 / chr.speed := by
      rw [Int.tdiv_eq_ediv] <;> omega
    have hnn : 0 ≤ 1000 / chr.speed := Int.ediv_nonneg (by norm_num) (le_of_lt hspeed)
    simp only [gameLoopBody, hchr, halive, Bool.not_true, Bool.false_eq_true, if_false, hturn]
    by_cases hpc : d1.pc_is_alive = true
    · simp only [hpc, Bool.not_true, Bool.false_eq_true, if_false, hc1, true_and]
      by_cases hal : chr1.alive = true
      · by_cases hcf : d1.changedFloor = true
        · simp only [hal, hcf, Bool.not_true, Bool.false_eq_true, and_false, if_false]
          exact ⟨chr1, _, _, rfl, hs1, rfl, rfl, rfl, rfl, by simp⟩
        · have hcf' : d1.changedFloor = false := by simpa using hcf
          have hne : chr.speed ≠ 0 := by omega
          have hno : ¬ (e.time + 1000 / chr.speed > INT32_MAX ∨
              e.time + 1000 / chr.speed < -INT32_MAX - 1) := by
            simp only [INT32_MAX] at hlo hhi ⊢
            omega
          simp only [hal, hcf', Bool.not_false, and_self, if_true, hne, if_false, hs1, htd, hno]
          exact ⟨chr1, _, _, rfl, hs1, rfl, rfl, rfl, rfl, by simp [hal]⟩
      · simp only [hal, false_and, if_false]
        exact ⟨chr1, _, _, rfl, hs1, rfl, rfl, rfl, rfl, by simp [hal]⟩
    · have hpc' : d1.pc_is_alive = false := by simpa using hpc
      simp only [hpc', Bool.not_false, if_true]
      exact ⟨chr1, _, _, hc1, hs1, rfl, rfl, rfl, rfl, by simp⟩

theorem gameLoopBody_queue (fuel : Nat) (e : Event) (s s1 : LoopState) (fl : LoopFlow)
    (hb : gameLoopBody fuel e s = some (s1, fl)) (hsp : SpeedsPos s.d)
    (hh : IsHeap Event.time s.eq) (hge : ∀ x ∈ s.eq, e.time ≤ x.time) :
    SpeedsPos s1.d ∧ IsHeap Event.time s1.eq ∧ ∀ x ∈ s1.eq, e.time ≤ x.time := by
  unfold gameLoopBody at hb
  simp only at hb
  cases hchr : s.d.characters[e.c]? with
  | none => rw [hchr] at hb; exact Option.noConfusion hb
  | some chr =>
    rw [hchr] at hb
    simp only at hb
    by_cases hal : chr.alive = true
    · simp only [hal, Bool.not_true, Bool.false_eq_true, if_false] at hb
      cases hturn : doTurn fuel e.c s.d s.rng s.keys with
      | none => rw [hturn] at hb; exact Option.noConfusion hb
      | some r =>
        obtain ⟨d1, rng1, keys1⟩ := r
        rw [hturn] at hb
        simp only at hb
        have hsp1 : SpeedsPos d1 :=
          speedsPos_of_map (doTurn_speeds fuel e.c s.d s.rng s.keys d1 rng1 keys1 hturn) hsp
        by_cases hpc : d1.pc_is_alive = true
        · simp only [hpc, Bool.not_true, Bool.false_eq_true, if_false] at hb
          cases hc1 : d1.characters[e.c]? with
          | none => rw [hc1] at hb; exact Option.noConfusion hb
          | some chr1 =>
            rw [hc1] at hb
            simp only at hb
            have hpos : 0 < chr1.speed := hsp1 chr1 (List.getElem?_mem hc1)
            split_ifs at hb with h1 h2 h3
            · simp only [Option.some.injEq, Prod.mk.injEq] at hb
              rw [← hb.1]
              obtain ⟨p1, p2⟩ := heapPush_spec Event.time s.eq
                ⟨e.time + Int.tdiv 1000 chr1.speed, e.c⟩ hh
              refine ⟨hsp1, p1, ?_⟩
              intro x hx
              rcases List.mem_cons.mp (p2.subset hx) with h | h
              · rw [h]
                have : 0 ≤ Int.tdiv 1000 chr1.speed := by
                  rw [Int.tdiv_eq_ediv] <;> first | omega | skip
                  exact Int.ediv_nonneg (by norm_num) (le_of_lt hpos)
                simp only
                omega
              · exact hge x h
            · simp only [Option.some.injEq, Prod.mk.injEq] at hb
              rw [← hb.1]
              exact ⟨hsp1, hh, hge⟩
        · simp only [hpc, Bool.not_false, if_true, Option.some.injEq, Prod.mk.injEq] at hb
          rw [← hb.1]
          exact ⟨hsp1, hh, hge⟩
    · simp only [hal, Bool.not_false, if_true, Option.some.injEq, Prod.mk.injEq] at hb
      rw [← hb.1]
      exact ⟨hsp, hh, hge⟩

theorem gameLoopRun_sorted (fuel : Nat) : ∀ (n : Nat) (s : LoopState) (lb : Int),
    SpeedsPos s.d → IsHeap Event.time s.eq → (∀ x ∈ s.eq, lb ≤ x.time) →
    (∀ x ∈ (gameLoopRun fuel n s).1, lb ≤ x.time) ∧
    (gameLoopRun fuel n s).1.Pairwise (fun a b => a.time ≤ b.time) := by
  intro n
  induction n with
  | zero => intro s lb _ _ _; simp [gameLoopRun]
  | succ n ih =>
    intro s lb hsp hh hge
    rw [gameLoopRun]
    by_cases hr : s.running = true
    · simp only [hr, if_true]
      cases hpop : EventQueue.pop s.eq with
      | none => simp
      | some p =>
        obtain ⟨e, rest⟩ := p
        obtain ⟨q1, q2, q3⟩ := heapPop_spec Event.time s.eq e rest hh hpop
        have hlb : lb ≤ e.time := hge e (q2.subset (List.mem_cons_self _ _))
        have hrest : ∀ x ∈ rest, e.time ≤ x.time := fun x hx =>
          q3 x (q2.subset (List.mem_cons_of_mem _ hx))
        simp only
        cases hb : gameLoopBody fuel e { s with eq := rest } with
        | none => simp [hlb]
        | some r =>
          obtain ⟨s1, fl⟩ := r
          cases fl with
          | stop => simp [hlb]
          | next =>
            simp only
            obtain ⟨b1, b2, b3⟩ := gameLoopBody_queue fuel e _ s1 _ hb hsp q1 hrest
            obtain ⟨i1, i2⟩ := ih s1 e.time b1 b2 b3
            constructor
            · intro x hx
              rcases List.mem_cons.mp hx with h | h
              · rw [h]; exact hlb
              · exact le_trans hlb (i1 x h)
            · exact List.pairwise_cons.mpr ⟨i1, i2⟩
    · simp [hr]

theorem gameLoopInit_heap (d : Dungeon) (rng : Rng) (keys : List Int) :
    IsHeap Event.time (gameLoopInit d rng keys).eq := by
  unfold gameLoopInit
  simp only
  have gen : ∀ (l : List (Nat × Character)) (q : List Event), IsHeap Event.time q →
      IsHeap Event.time
        (l.foldl (fun q p => if p.2.alive then EventQueue.push q ⟨0, p.1⟩ else q) q) := by
    intro l
    induction l with
    | nil => intro q hq; exact hq
    | cons p l ih =>
      intro q hq
      rw [List.foldl_cons]
      apply ih
      split_ifs
      · exact (heapPush_spec Event.time q _ hq).1
      · exact hq
  exact gen _ _ (isHeap_nil _)

/-- C7: in a run of `gameLoop` from a roster in which every character has a positive
speed, the events are popped in non-decreasing order of time: no event is processed with
a time smaller than that of an event processed before it. -/
theorem gameLoop_times_sorted (fuel steps : Nat) (d : Dungeon) (rng : Rng) (keys : List Int)
    (hsp : ∀ c ∈ d.characters, 0 < c.speed) :
    (gameLoop fuel steps d rng keys).1.Pairwise (fun a b => a.time ≤ b.time) := by
  unfold gameLoop
  have h := gameLoopRun_sorted fuel steps (gameLoopInit d rng keys)
    ((gameLoopInit d rng keys).eq.foldl (fun m x => min m x.time) 0) hsp
    (gameLoopInit_heap d rng keys) ?_
  · exact h.2
  · have gen : ∀ (l : List Event) (m : Int) (x : Event), x ∈ l →
        l.foldl (fun m x => min m x.time) m ≤ x.time := by
      intro l
      induction l with
      | nil => intro m x hx; simp at hx
      | cons a l ih =>
        intro m x hx
        rw [List.foldl_cons]
        rcases List.mem_cons.mp hx with h | h
        · rw [h]
          have mono : ∀ (l : List Event) (m : Int),
              l.foldl (fun m x => min m x.time) m ≤ m := by
            intro l
            induction l with
            | nil => intro m; exact le_refl _
            | cons b l ih2 =>
              intro m
              rw [List.foldl_cons]
              exact le_trans (ih2 _) (min_le_left _ _)
          exact le_trans (mono l _) (min_le_right _ _)
        · exact ih _ x h
    intro x hx
    exact gen _ 0 x hx

theorem gameLoopBody_reschedule_witness :
    ∃ chr1 s1 fl, (NPC.doTurn 1 sampleDungeon countingRng).1.characters[1]? = some chr1 ∧
      chr1.speed = (NPC.new 0 1 1 10 10).speed ∧
      gameLoopBody 0 ⟨0, 1⟩ ⟨[], sampleDungeon, countingRng, [], 2, 0⟩ = some (s1, fl) ∧
      s1.d = (NPC.doTurn 1 sampleDungeon countingRng).1 ∧
      s1.rng = (NPC.doTurn 1 sampleDungeon countingRng).2 ∧ s1.keys = [] ∧
      s1.eq = if chr1.alive = true ∧
          (NPC.doTurn 1 sampleDungeon countingRng).1.pc_is_alive = true ∧
          (NPC.doTurn 1 sampleDungeon countingRng).1.changedFloor = false
        then EventQueue.push [] ⟨0 + 1000 / (NPC.new 0 1 1 10 10).speed, 1⟩ else [] :=
  (gameLoopBody_reschedule 0 ⟨0, 1⟩ ⟨[], sampleDungeon, countingRng, [], 2, 0⟩
    (NPC.new 0 1 1 10 10) rfl).2 rfl (by decide) (by decide) (by decide)
    (NPC.doTurn 1 sampleDungeon countingRng).1 (NPC.doTurn 1 sampleDungeon countingRng).2 []
    rfl

theorem gameLoop_times_sorted_witness :
    (∀ c ∈ chaseDungeon.characters, 0 < c.speed) ∧
    ((gameLoop 1 4 chaseDungeon zeroRng [key 'l', key '5']).1.map fun e => (e.time, e.c)) =
      [(0, 0), (0, 1), (100, 0), (100, 1)] ∧
    (gameLoop 1 4 chaseDungeon zeroRng [key 'l', key '5']).1.Pairwise
      (fun a b => a.time ≤ b.time) :=
  ⟨by decide, by decide,
    gameLoop_times_sorted 1 4 chaseDungeon zeroRng [key 'l', key '5'] (by decide)⟩

/-- C9: every border cell (`x = 0`, `x = 79`, `y = 0` or `y = 20`) has hardness 255 after
grid initialisation, and `generateRooms`, `connectRoomsViaCorridor` (run on the rooms that
`generateRooms` recorded), `placeStairs`, every NPC turn and every PC turn keep it so, for
all random draws and all key strokes; `placeStairs` and the PC turn do not write the
hardness grid at all. -/
theorem perimeter_invariant :
    (∀ (d : Dungeon) (rng : Rng), Perimeter (initializeDungeon d rng).1.hardness) ∧
    (∀ (d : Dungeon) (rng : Rng), Perimeter d.hardness →
      Perimeter (generateRooms d rng).1.hardness) ∧
    (∀ (d : Dungeon) (rng : Rng), Perimeter d.hardness →
      Perimeter (connectRoomsViaCorridor (generateRooms d rng).1).hardness) ∧
    (∀ (fuel : Nat) (d : Dungeon) (rng : Rng) (d1 : Dungeon) (rng1 : Rng),
      placeStairs fuel d rng = some (d1, rng1) → d1.hardness = d.hardness) ∧
    (∀ (i : Nat) (d : Dungeon) (rng : Rng), Perimeter d.hardness →
      Perimeter (NPC.doTurn i d rng).1.hardness) ∧
    (∀ (fuel i : Nat) (d : Dungeon) (rng : Rng) (keys : List Int) (d1 : Dungeon)
      (rng1 : Rng) (keys1 : List Int),
      PC.doTurn fuel i d rng keys = some (d1, rng1, keys1) → d1.hardness = d.hardness) ∧
    (∀ (fuel steps : Nat) (d : Dungeon) (rng : Rng) (keys : List Int) (s : LoopState),
      Perimeter d.hardness → (gameLoop fuel steps d rng keys).2 = some s →
      Perimeter s.d.hardness) := by
  obtain ⟨g1, g2, g3, g4⟩ := generation_perimeter
  refine ⟨g1, g2, g3, g4, NPC_doTurn_perimeter, ?_, ?_⟩
  · intro fuel i d rng keys d1 rng1 keys1 h
    exact (PC_doTurn_frame fuel i d rng keys d1 rng1 keys1 h).hardness
  · intro fuel steps d rng keys s hp hs
    have body : ∀ (e : Event) (s s1 : LoopState) (fl : LoopFlow),
        gameLoopBody fuel e s = some (s1, fl) → Perimeter s.d.hardness →
        Perimeter s1.d.hardness := by
      intro e s s1 fl hb hps
      unfold gameLoopBody at hb
      simp only at hb
      cases hchr : s.d.characters[e.c]? with
      | none => rw [hchr] at hb; exact Option.noConfusion hb
      | some chr =>
        rw [hchr] at hb
        simp only at hb
        split at hb
        · simp only [Option.some.injEq, Prod.mk.injEq] at hb
          rw [← hb.1]; exact hps
        · cases hturn : doTurn fuel e.c s.d s.rng s.keys with
          | none => rw [hturn] at hb; exact Option.noConfusion hb
          | some r =>
            obtain ⟨d1, rng1, keys1⟩ := r
            rw [hturn] at hb
            simp only at hb
            have hp1 := doTurn_perimeter fuel e.c s.d s.rng s.keys d1 rng1 keys1 hturn hps
            split at hb
            · simp only [Option.some.injEq, Prod.mk.injEq] at hb
              rw [← hb.1]; exact hp1
            · cases hc1 : d1.characters[e.c]? with
              | none => rw [hc1] at hb; exact Option.noConfusion hb
              | some chr1 =>
                rw [hc1] at hb
                simp only at hb
                split_ifs at hb <;>
                  (simp only [Option.some.injEq, Prod.mk.injEq] at hb
                   rw [← hb.1]; exact hp1)
    have run : ∀ (n : Nat) (s0 s : LoopState), Perimeter s0.d.hardness →
        (gameLoopRun fuel n s0).2 = some s → Perimeter s.d.hardness := by
      intro n
      induction n with
      | zero => intro s0 s _ h; simp [gameLoopRun] at h
      | succ n ih =>
        intro s0 s hp0 h
        rw [gameLoopRun] at h
        split_ifs at h with hr
        · cases hpop : EventQueue.pop s0.eq with
          | none => rw [hpop] at h; simp at h
          | some p =>
            obtain ⟨e, rest⟩ := p
            rw [hpop] at h
            simp only at h
            cases hb : gameLoopBody fuel e { s0 with eq := rest } with
            | none => rw [hb] at h; simp at h
            | some r =>
              obtain ⟨s1, fl⟩ := r
              have hp1 := body e _ s1 fl hb hp0
              rw [hb] at h
              cases fl with
              | stop =>
                simp only [Option.some.injEq] at h
                rw [← h]; exact hp1
              | next =>
                simp only at h
                exact ih s1 s hp1 h
        · simp only [Option.some.injEq] at h
          rw [← h]; exact hp0
    exact run steps (gameLoopInit d rng keys) s hp hs

theorem perimeter_invariant_witness :
    Perimeter (NPC.doTurn 1 sampleDungeon countingRng).1.hardness ∧
    Perimeter (generateRooms sampleDungeon countingRng).1.hardness :=
  ⟨perimeter_invariant.2.2.2.2.1 1 sampleDungeon countingRng (fun _ _ _ _ => rfl),
    perimeter_invariant.2.1 sampleDungeon countingRng (fun _ _ _ _ => rfl)⟩

theorem createPC_speeds (d : Dungeon) (px py : Int) (h : SpeedsPos d) :
    SpeedsPos (d.createPC px py) := by
  intro c hc
  simp only [Dungeon.createPC, List.mem_append, List.mem_singleton] at hc
  rcases hc with hc | hc
  · exact h c hc
  · rw [hc]
    show (0 : Int) < 10
    norm_num

theorem createMonster_speeds (fuel : Nat) (d : Dungeon) (rng : Rng) (d1 : Dungeon)
    (rng1 : Rng) (h : d.createMonster fuel rng = some (d1, rng1)) :
    ∃ m, d1.characters = d.characters ++ [m] ∧ 5 ≤ m.speed ∧ m.speed ≤ 20 := by
  unfold Dungeon.createMonster at h
  cases hp : pickMonsterCell fuel d rng with
  | none => rw [hp] at h; exact Option.noConfusion h
  | some t =>
    obtain ⟨rx, ry, rng2⟩ := t
    rw [hp] at h
    simp only [Option.some.injEq, Prod.mk.injEq] at h
    rw [← h.1]
    refine ⟨_, rfl, ?_⟩
    have := rand_range (rand rng2).2
    simp only [NPC.new]
    omega

/-! ## Stairs -/

theorem rand_mod_width (rng : Rng) : 0 ≤ (rand rng).1 % WIDTH ∧ (rand rng).1 % WIDTH < 80 := by
  have := rand_range rng
  simp only [WIDTH]
  omega

theorem rand_mod_height (rng : Rng) : 0 ≤ (rand rng).1 % HEIGHT ∧ (rand rng).1 % HEIGHT < 21 := by
  have := rand_range rng
  simp only [HEIGHT]
  omega

theorem inBounds_draw (r1 r2 : Rng) :
    inBounds ((rand r1).1 % WIDTH) ((rand r2).1 % HEIGHT) = true := by
  have h1 := rand_mod_width r1
  have h2 := rand_mod_height r2
  have hW : WIDTH = 80 := rfl
  have hH : HEIGHT = 21 := rfl
  simp only [inBounds, decide_eq_true_eq]
  omega

theorem stairs_upStep (d0 d : Dungeon) (u v : Bool) (up_x up_y : Int)
    (hin : inBounds up_x up_y = true) (hI : StairsInv d0 d u v) :
    StairsInv d0
      (if (!u) = true then
        if d.base_map up_y up_x = '.' ∨ d.base_map up_y up_x = '#' then
          (({ d with base_map := d.base_map.set up_y up_x '<', up_xCoord := up_x,
                     up_yCoord := up_y, upCount := 1 } : Dungeon), true)
        else (d, u)
      else (d, u)).1
      (if (!u) = true then
        if d.base_map up_y up_x = '.' ∨ d.base_map up_y up_x = '#' then
          (({ d with base_map := d.base_map.set up_y up_x '<', up_xCoord := up_x,
                     up_yCoord := up_y, upCount := 1 } : Dungeon), true)
        else (d, u)
      else (d, u)).2 v := by
  cases u with
  | true => simpa using hI
  | false =>
    simp only [Bool.not_false, if_true]
    split_ifs with hg
    · have hm := hI.map up_x up_y
      simp only [Bool.false_eq_true, false_and, if_false] at hm
      have hnd : ¬ (v = true ∧ up_x = d.down_xCoord ∧ up_y = d.down_yCoord) := by
        intro hc
        rw [if_pos hc] at hm
        rw [hm] at hg
        rcases hg with hg | hg <;> exact absurd hg (by decide)
      rw [if_neg hnd] at hm
      refine ⟨fun _ => ⟨hin, ?_, rfl⟩, hI.down, ?_, ?_, hI.rest⟩
      · show stairGround (d0.base_map up_y up_x)
        rw [← hm]; exact hg
      · intro _ hv hc
        exact hnd ⟨hv, hc⟩
      · intro x y
        show (d.base_map.set up_y up_x '<') y x = _
        simp only [Grid.set, true_and]
        by_cases hxy : y = up_y ∧ x = up_x
        · rw [if_pos hxy, if_pos ⟨hxy.2, hxy.1⟩]
        · rw [if_neg hxy, if_neg (fun h => hxy ⟨h.2, h.1⟩)]
          have := hI.map x y
          simpa using this
    · exact hI

theorem stairs_downStep (d0 d : Dungeon) (u v : Bool) (up_x up_y down_x down_y : Int)
    (hin : inBounds down_x down_y = true) (hI : StairsInv d0 d u v) :
    StairsInv d0
      (if (!v) = true then
        if (d.base_map down_y down_x = '.' ∨ d.base_map down_y down_x = '#')
            ∧ ¬ (up_x = down_x ∧ up_y = down_y) then
          (({ d with base_map := d.base_map.set down_y down_x '>',
                     down_xCoord := down_x, down_yCoord := down_y, downCount := 1 } : Dungeon),
            true)
        else (d, v)
      else (d, v)).1 u
      (if (!v) = true then
        if (d.base_map down_y down_x = '.' ∨ d.base_map down_y down_x = '#')
            ∧ ¬ (up_x = down_x ∧ up_y = down_y) then
          (({ d with base_map := d.base_map.set down_y down_x '>',
                     down_xCoord := down_x, down_yCoord := down_y, downCount := 1 } : Dungeon),
            true)
        else (d, v)
      else (d, v)).2 := by
  cases v with
  | true => simpa using hI
  | false =>
    simp only [Bool.not_false, if_true]
    split_ifs with hg
    · have hm := hI.map down_x down_y
      simp only [Bool.false_eq_true, false_and, if_false] at hm
      have hnd : ¬ (u = true ∧ down_x = d.up_xCoord ∧ down_y = d.up_yCoord) := by
        intro hc
        rw [if_pos hc] at hm
        rw [hm] at hg
        rcases hg.1 with hg | hg <;> exact absurd hg (by decide)
      rw [if_neg hnd] at hm
      refine ⟨hI.up, fun _ => ⟨hin, ?_, rfl⟩, ?_, ?_, hI.rest⟩
      · show stairGround (d0.base_map down_y down_x)
        rw [← hm]; exact hg.1
      · intro hu _ hc
        exact hnd ⟨hu, hc.1.symm, hc.2.symm⟩
      · intro x y
        show (d.base_map.set down_y down_x '>') y x = _
        simp only [Grid.set, true_and]
        by_cases hup : u = true ∧ x = d.up_xCoord ∧ y = d.up_yCoord
        · have hne : ¬ (y = down_y ∧ x = down_x) := by
            rintro ⟨rfl, rfl⟩
            exact hnd hup
          rw [if_neg hne, if_pos hup]
          have := hI.map x y
          rw [if_pos hup] at this
          exact this
        · rw [if_neg hup]
          by_cases hxy : y = down_y ∧ x = down_x
          · rw [if_pos hxy, if_pos ⟨hxy.2, hxy.1⟩]
          · rw [if_neg hxy, if_neg (fun h => hxy ⟨h.2, h.1⟩)]
            have := hI.map x y
            rw [if_neg hup] at this
            simpa using this
    · exact hI

theorem placeStairsLoop_inv (d0 : Dungeon) : ∀ (fuel : Nat) (u v : Bool) (d : Dungeon)
    (rng : Rng) (d1 : Dungeon) (rng1 : Rng), StairsInv d0 d u v →
    placeStairsLoop fuel u v d rng = some (d1, rng1) → StairsInv d0 d1 true true := by
  intro fuel
  induction fuel with
  | zero =>
    intro u v d rng d1 rng1 hI h
    simp only [placeStairsLoop] at h
    split_ifs at h with hc
    simp only [Option.some.injEq, Prod.mk.injEq] at h
    rw [← h.1]
    cases u <;> cases v <;> simp at hc
    exact hI
  | succ n ih =>
    intro u v d rng d1 rng1 hI h
    rw [placeStairsLoop] at h
    split at h
    · refine ih _ _ _ _ _ _ ?_ h
      apply stairs_downStep _ _ _ _ _ _ _ _ (inBounds_draw _ _)
      exact stairs_upStep _ _ _ _ _ _ (inBounds_draw _ _) hI
    · rename_i hc
      simp only [Option.some.injEq, Prod.mk.injEq] at h
      rw [← h.1]
      cases u <;> cases v <;> simp at hc
      exact hI

theorem stairsInv_start (d : Dungeon) : StairsInv d d false false :=
  ⟨fun h => absurd h (by decide), fun h => absurd h (by decide),
   fun h => absurd h (by decide), fun _ _ => by simp, rfl, rfl⟩

/-- C11: whenever `placeStairs` returns on a map without stairs, the cells of the grid
classified stair-up are exactly the recorded cell `(up_xCoord, up_yCoord)`, those
classified stair-down exactly `(down_xCoord, down_yCoord)`; both cells are inside the grid,
were room floor or corridor before the call, and are different cells; both counts are 1.
This holds for every sequence of random draws. -/
theorem placeStairs_stairs (fuel : Nat) (d : Dungeon) (rng : Rng) (d1 : Dungeon) (rng1 : Rng)
    (hno : NoStairs d) (h : placeStairs fuel d rng = some (d1, rng1)) :
    (∀ x y, inBounds x y = true →
      (d1.base_map y x = '<' ↔ x = d1.up_xCoord ∧ y = d1.up_yCoord)) ∧
    (∀ x y, inBounds x y = true →
      (d1.base_map y x = '>' ↔ x = d1.down_xCoord ∧ y = d1.down_yCoord)) ∧
    inBounds d1.up_xCoord d1.up_yCoord = true ∧
    inBounds d1.down_xCoord d1.down_yCoord = true ∧
    (d.base_map d1.up_yCoord d1.up_xCoord = '.' ∨ d.base_map d1.up_yCoord d1.up_xCoord = '#') ∧
    (d.base_map d1.down_yCoord d1.down_xCoord = '.' ∨
      d.base_map d1.down_yCoord d1.down_xCoord = '#') ∧
    (d1.up_xCoord, d1.up_yCoord) ≠ (d1.down_xCoord, d1.down_yCoord) ∧
    d1.upCount = 1 ∧ d1.downCount = 1 := by
  have hI := placeStairsLoop_inv d fuel false false d rng d1 rng1 (stairsInv_start d) h
  have hu := hI.up rfl
  have hd := hI.down rfl
  have ha := hI.apart rfl rfl
  refine ⟨?_, ?_, hu.1, hd.1, hu.2.1, hd.2.1, ?_, hu.2.2, hd.2.2⟩
  · intro x y hin
    rw [hI.map x y]
    simp only [true_and]
    constructor
    · intro hc
      by_contra hne
      rw [if_neg hne] at hc
      split_ifs at hc
      · exact absurd hc (by decide)
      · exact (hno x y hin).1 hc
    · intro hc
      rw [if_pos hc]
  · intro x y hin
    rw [hI.map x y]
    simp only [true_and]
    constructor
    · intro hc
      split_ifs at hc with h1 h2
      · exact absurd hc (by decide)
      · exact h2
      · exact absurd hc (hno x y hin).2
    · intro hc
      have hne : ¬ (x = d1.up_xCoord ∧ y = d1.up_yCoord) := by
        intro hup
        exact ha ⟨hup.1.symm.trans hc.1, hup.2.symm.trans hc.2⟩
      rw [if_neg hne, if_pos hc]
  · intro hc
    simp only [Prod.mk.injEq] at hc
    exact ha hc

theorem placeStairs_stairs_witness :
    ∃ d1 rng1, placeStairs 1 openDungeon countingRng = some (d1, rng1) ∧
      (d1.up_xCoord, d1.up_yCoord) = (0, 1) ∧ (d1.down_xCoord, d1.down_yCoord) = (2, 3) ∧
      (d1.up_xCoord, d1.up_yCoord) ≠ (d1.down_xCoord, d1.down_yCoord) :=
  ⟨_, _, rfl, rfl, rfl,
    (placeStairs_stairs 1 openDungeon countingRng _ _
      (fun _ _ _ => ⟨by show ('.' : Char) ≠ '<'; decide, by show ('.' : Char) ≠ '>'; decide⟩)
      rfl).2.2.2.2.2.2.1⟩

/-! ## The number of rooms -/

theorem generateRoomsLoop_prefix : ∀ (attempts : Nat) (d : Dungeon) (rng : Rng),
    ∃ l, (generateRoomsLoop attempts d rng).1.rooms = d.rooms ++ l := by
  intro attempts
  induction attempts with
  | zero => intro d rng; exact ⟨[], by simp [generateRoomsLoop]⟩
  | succ n ih =>
    intro d rng
    simp only [generateRoomsLoop]
    split_ifs
    · obtain ⟨l, hl⟩ := ih
        { fillRoom d ((rand rng).1 % 6 + 4) ((rand (rand rng).2).1 % 4 + 3)
            ((rand (rand (rand rng).2).2).1 % (WIDTH - ((rand rng).1 % 6 + 4) - 2) + 1)
            ((rand (rand (rand (rand rng).2).2).2).1 %
              (HEIGHT - ((rand (rand rng).2).1 % 4 + 3) - 2) + 1) with
          rooms := (fillRoom d ((rand rng).1 % 6 + 4) ((rand (rand rng).2).1 % 4 + 3)
            ((rand (rand (rand rng).2).2).1 % (WIDTH - ((rand rng).1 % 6 + 4) - 2) + 1)
            ((rand (rand (rand (rand rng).2).2).2).1 %
              (HEIGHT - ((rand (rand rng).2).1 % 4 + 3) - 2) + 1)).rooms ++
            [⟨(rand (rand (rand rng).2).2).1 % (WIDTH - ((rand rng).1 % 6 + 4) - 2) + 1,
              (rand (rand (rand (rand rng).2).2).2).1 %
                (HEIGHT - ((rand (rand rng).2).1 % 4 + 3) - 2) + 1,
              (rand rng).1 % 6 + 4, (rand (rand rng).2).1 % 4 + 3⟩] }
        (rand (rand (rand (rand rng).2).2).2).2
      rw [hl]
      simp only [fillRoom_rooms, List.append_assoc]
      exact ⟨_, rfl⟩
    · exact ih _ _
    · exact ⟨[], by simp⟩

theorem generateRoomsLoop_count : ∀ (attempts : Nat) (d : Dungeon) (rng : Rng),
    d.room_count ≤ 6 → (generateRoomsLoop attempts d rng).1.room_count ≤ 6 := by
  intro attempts
  induction attempts with
  | zero => intro d rng h; exact h
  | succ n ih =>
    intro d rng h
    simp only [generateRoomsLoop]
    split_ifs with hlt
    · apply ih
      simp only [Dungeon.room_count, fillRoom_rooms, List.length_append, List.length_singleton,
        Nat.cast_add, Nat.cast_one] at hlt ⊢
      omega
    · exact ih _ _ h
    · exact h

theorem generateRooms_head (d : Dungeon) (rng : Rng)
    (hfresh : ∀ a b, inBounds a b = true → d.base_map b a = ' ') :
    (generateRooms d rng).1.rooms[0]? = some (firstRoom rng) := by
  unfold generateRooms
  rw [show (2000 : Nat) = 1999 + 1 from rfl, generateRoomsLoop]
  have hcount : ({ d with rooms := [] } : Dungeon).room_count < 6 := by
    simp [Dungeon.room_count]
  have hr1 := rand_range rng
  have hr2 := rand_range (rand rng).2
  have hW : WIDTH = 80 := rfl
  have hH : HEIGHT = 21 := rfl
  have hx0 := Int.emod_nonneg (rand (rand (rand rng).2).2).1
    (show WIDTH - ((rand rng).1 % 6 + 4) - 2 ≠ 0 by omega)
  have hx1 := Int.emod_lt_of_pos (rand (rand (rand rng).2).2).1
    (show 0 < WIDTH - ((rand rng).1 % 6 + 4) - 2 by omega)
  have hy0 := Int.emod_nonneg (rand (rand (rand (rand rng).2).2).2).1
    (show HEIGHT - ((rand (rand rng).2).1 % 4 + 3) - 2 ≠ 0 by omega)
  have hy1 := Int.emod_lt_of_pos (rand (rand (rand (rand rng).2).2).2).1
    (show 0 < HEIGHT - ((rand (rand rng).2).1 % 4 + 3) - 2 by omega)
  have hv : isValidRoom { d with rooms := [] } ((rand rng).1 % 6 + 4)
      ((rand (rand rng).2).1 % 4 + 3)
      ((rand (rand (rand rng).2).2).1 % (WIDTH - ((rand rng).1 % 6 + 4) - 2) + 1)
      ((rand (rand (rand (rand rng).2).2).2).1 %
        (HEIGHT - ((rand (rand rng).2).1 % 4 + 3) - 2) + 1) = true :=
    isValidRoom_fresh _ _ _ _ _ hfresh (by omega) (by omega) (by omega) (by omega)
      (by omega) (by omega)
  simp only [hcount, if_true, hv]
  obtain ⟨l, hl⟩ := generateRoomsLoop_prefix 1999
    { fillRoom { d with rooms := [] } ((rand rng).1 % 6 + 4) ((rand (rand rng).2).1 % 4 + 3)
        ((rand (rand (rand rng).2).2).1 % (WIDTH - ((rand rng).1 % 6 + 4) - 2) + 1)
        ((rand (rand (rand (rand rng).2).2).2).1 %
          (HEIGHT - ((rand (rand rng).2).1 % 4 + 3) - 2) + 1) with
      rooms := (fillRoom { d with rooms := [] } ((rand rng).1 % 6 + 4)
        ((rand (rand rng).2).1 % 4 + 3)
        ((rand (rand (rand rng).2).2).1 % (WIDTH - ((rand rng).1 % 6 + 4) - 2) + 1)
        ((rand (rand (rand (rand rng).2).2).2).1 %
          (HEIGHT - ((rand (rand rng).2).1 % 4 + 3) - 2) + 1)).rooms ++
        [⟨(rand (rand (rand rng).2).2).1 % (WIDTH - ((rand rng).1 % 6 + 4) - 2) + 1,
          (rand (rand (rand (rand rng).2).2).2).1 %
            (HEIGHT - ((rand (rand rng).2).1 % 4 + 3) - 2) + 1,
          (rand rng).1 % 6 + 4, (rand (rand rng).2).1 % 4 + 3⟩] }
    (rand (rand (rand (rand rng).2).2).2).2
  rw [hl]
  simp only [fillRoom_rooms, List.nil_append, List.singleton_append, List.getElem?_cons_zero]
  rfl

theorem generateRooms_count (d : Dungeon) (rng : Rng) :
    (generateRooms d rng).1.room_count ≤ 6 := by
  unfold generateRooms
  apply generateRoomsLoop_count
  simp [Dungeon.room_count]

theorem startPosition_rooms (d : Dungeon) : (startPosition d).rooms = d.rooms := by
  unfold startPosition
  split_ifs
  · split <;> rfl
  · rfl

theorem startPosition_first (d : Dungeon) (r : Room) (h : d.rooms[0]? = some r) :
    (startPosition d).pc_x = r.x ∧ (startPosition d).pc_y = r.y := by
  unfold startPosition
  have hpos : d.room_count > 0 := by
    cases hrs : d.rooms with
    | nil => rw [hrs] at h; simp at h
    | cons a l => simp [Dungeon.room_count, hrs]
  rw [if_pos hpos, h]
  exact ⟨rfl, rfl⟩

theorem generateLevel_start (fuel : Nat) (d : Dungeon) (rng : Rng) (d5 : Dungeon) (rng5 : Rng)
    (h : generateLevel fuel d rng = some (d5, rng5)) :
    d5.pc_x = (firstRoom (initializeDungeon d rng).2).x ∧
    d5.pc_y = (firstRoom (initializeDungeon d rng).2).y := by
  unfold generateLevel at h
  simp only at h
  split at h
  · exact absurd h (by simp)
  · rename_i d4 rng4 hst
    simp only [Option.some.injEq, Prod.mk.injEq] at h
    rw [← h.1]
    apply startPosition_first
    have hI := placeStairsLoop_inv _ fuel false false _ _ d4 rng4 (stairsInv_start _) hst
    rw [hI.rest.2]
    rw [(connectRooms_spec _
      (generateRooms_floorZero _ _ (initializeDungeon_floorZero _ _))
      (generateRooms_inv _ _)).1.rooms]
    exact generateRooms_head _ _ (initializeDungeon_unmodified _ _)

/-- C12, the claim as stated fails: on a freshly initialised bordered grid no sequence of
random draws makes `generateRooms` place no room, whether the grid is any fresh grid or
the one grid initialisation produced. -/
theorem generateRooms_never_empty :
    (¬ ∃ (d : Dungeon) (rng : Rng), Fresh d ∧ (generateRooms d rng).1.room_count = 0) ∧
    (¬ ∃ (d0 : Dungeon) (rng0 rng : Rng),
      (generateRooms (initializeDungeon d0 rng0).1 rng).1.room_count = 0) := by
  have key : ∀ (d : Dungeon) (rng : Rng), Fresh d →
      (generateRooms d rng).1.room_count ≠ 0 := by
    intro d rng hf h0
    have hh := generateRooms_head d rng (fun a b hin => (hf a b hin).1)
    cases hrs : (generateRooms d rng).1.rooms with
    | nil => rw [hrs] at hh; simp at hh
    | cons a l => simp [Dungeon.room_count, hrs] at h0; omega
  constructor
  · rintro ⟨d, rng, hf, h0⟩
    exact key d rng hf h0
  · rintro ⟨d0, rng0, rng, h0⟩
    exact key _ rng (fun x y hin => initializeDungeon_fresh d0 rng0 x y hin) h0

/-- C12 as amended: on a freshly initialised bordered grid `generateRooms` places between
one and six rooms, the first of them the room of its first attempt; the PC start position
is then the corner `(rooms[0].x, rooms[0].y)` of that room, also at the end of the whole
generation branch.  The fallback `(1, 1)` is what a level with `room_count = 0` gets. -/
theorem generateRooms_room_count (d : Dungeon) (rng : Rng) (hf : Fresh d) :
    1 ≤ (generateRooms d rng).1.room_count ∧ (generateRooms d rng).1.room_count ≤ 6 ∧
    (generateRooms d rng).1.rooms[0]? = some (firstRoom rng) ∧
    (startPosition (generateRooms d rng).1).pc_x = (firstRoom rng).x ∧
    (startPosition (generateRooms d rng).1).pc_y = (firstRoom rng).y ∧
    (∀ (fuel : Nat) (d0 : Dungeon) (rng0 : Rng) (d5 : Dungeon) (rng5 : Rng),
      generateLevel fuel d0 rng0 = some (d5, rng5) →
      d5.pc_x = (firstRoom (initializeDungeon d0 rng0).2).x ∧
      d5.pc_y = (firstRoom (initializeDungeon d0 rng0).2).y) ∧
    (∀ e : Dungeon, e.room_count = 0 →
      (startPosition e).pc_x = 1 ∧ (startPosition e).pc_y = 1) := by
  have hh := generateRooms_head d rng (fun a b hin => (hf a b hin).1)
  refine ⟨?_, generateRooms_count d rng, hh, (startPosition_first _ _ hh).1,
    (startPosition_first _ _ hh).2, generateLevel_start, ?_⟩
  · cases hrs : (generateRooms d rng).1.rooms with
    | nil => rw [hrs] at hh; simp at hh
    | cons a l => simp [Dungeon.room_count, hrs]
  · intro e he
    unfold startPosition
    rw [if_neg (by omega)]
    exact ⟨rfl, rfl⟩

theorem generateRooms_room_count_witness :
    1 ≤ (generateRooms (initializeDungeon Dungeon.new countingRng).1 countingRng).1.room_count :=
  (generateRooms_room_count (initializeDungeon Dungeon.new countingRng).1 countingRng
    (fun x y hin => initializeDungeon_fresh Dungeon.new countingRng x y hin)).1

/-! ## The saved file -/

theorem foldl_fwrite_map {α : Type} (g : α → Nat) : ∀ (l : List α) (f : List Nat),
    l.foldl (fun f c => fwrite f [g c]) f = f ++ l.map g := by
  intro l
  induction l with
  | nil => intro f; simp
  | cons a l ih =>
    intro f
    rw [List.foldl_cons, ih]
    simp [fwrite]

theorem foldl_writeRoom : ∀ (rs : List Room) (f : List Nat),
    rs.foldl writeRoom f = f ++ roomBytes rs := by
  intro rs
  induction rs with
  | nil => intro f; simp [roomBytes]
  | cons r rs ih =>
    intro f
    rw [List.foldl_cons, ih]
    simp [writeRoom, fwrite, roomBytes]

theorem foldl_writeMonster : ∀ (cs : List Character) (f : List Nat),
    cs.foldl writeMonster f = f ++ monsterBytes (liveNPCs cs) := by
  intro cs
  induction cs with
  | nil => intro f; simp [monsterBytes, liveNPCs]
  | cons c cs ih =>
    intro f
    rw [List.foldl_cons, ih]
    unfold writeMonster liveNPCs
    by_cases h : c.type = CharType.NPC_TYPE ∧ c.alive = true
    · rw [if_pos h]
      have hf : (c.type == CharType.NPC_TYPE && c.alive) = true := by simp [h.1, h.2]
      simp only [List.filter_cons, hf, if_true]
      simp [fwrite, monsterBytes]
    · rw [if_neg h]
      have hf : ¬ (c.type == CharType.NPC_TYPE && c.alive) = true := by
        simpa using h
      simp [List.filter_cons, hf]

theorem writeStair_eq (f : List Nat) (count x y : Int) :
    writeStair f (if count > 0 then 1 else 0) x y = f ++ stairBytes count x y := by
  unfold writeStair stairBytes
  by_cases h : count > 0
  · simp [h, fwrite, htobe16]
  · simp [h, fwrite, htobe16]

theorem writeLevel_eq (d : Dungeon) (file_size : Nat) :
    writeLevel d file_size =
      FILE_MARKER ++ (htobe32 FILE_VERSION ++ (htobe32 file_size ++
        (toUInt8 d.pc_x :: toUInt8 d.pc_y :: (hardnessBytes d.hardness ++
          (htobe16 (toUInt16 d.room_count) ++ (roomBytes d.rooms ++
            (stairBytes d.upCount d.up_xCoord d.up_yCoord ++
              stairBytes d.downCount d.down_xCoord d.down_yCoord))))))) := by
  unfold writeLevel
  simp only [writeStair_eq, foldl_writeRoom, foldl_fwrite_map]
  simp only [fwrite, hardnessBytes, List.nil_append, List.append_assoc, List.singleton_append,
    List.cons_append]

theorem save_dungeon_eq (d : Dungeon) :
    save_dungeon d =
      FILE_MARKER ++ (htobe32 FILE_VERSION ++ (htobe32 (saveFileSize d) ++
        (toUInt8 d.pc_x :: toUInt8 d.pc_y :: (hardnessBytes d.hardness ++
          (htobe16 (toUInt16 d.room_count) ++ (roomBytes d.rooms ++
            (stairBytes d.upCount d.up_xCoord d.up_yCoord ++
              (stairBytes d.downCount d.down_xCoord d.down_yCoord ++
                (htobe16 (countAlive d.characters) ++
                  monsterBytes (liveNPCs d.characters)))))))))) := by
  unfold save_dungeon
  simp only [writeLevel_eq, foldl_writeMonster, fwrite, List.append_assoc, List.cons_append]

theorem countAlive_fold : ∀ (cs : List Character) (n : Nat), n < 65536 →
    cs.foldl (fun n c => if c.type = CharType.NPC_TYPE ∧ c.alive then (n + 1) % 65536 else n) n =
      (n + (liveNPCs cs).length) % 65536 := by
  intro cs
  induction cs with
  | nil =>
    intro n hn
    simp only [List.foldl_nil, liveNPCs, List.filter_nil, List.length_nil, Nat.add_zero]
    omega
  | cons c cs ih =>
    intro n hn
    rw [List.foldl_cons]
    unfold liveNPCs at ih ⊢
    by_cases h : c.type = CharType.NPC_TYPE ∧ c.alive = true
    · have hf : (c.type == CharType.NPC_TYPE && c.alive) = true := by simp [h.1, h.2]
      rw [if_pos h, ih _ (Nat.mod_lt _ (by norm_num))]
      simp only [List.filter_cons, hf, if_true, List.length_cons]
      omega
    · have hf : ¬ (c.type == CharType.NPC_TYPE && c.alive) = true := by simpa using h
      rw [if_neg h, ih _ hn]
      simp [List.filter_cons, hf]

theorem countAlive_eq (cs : List Character) :
    countAlive cs = (liveNPCs cs).length % 65536 := by
  unfold countAlive
  rw [countAlive_fold cs 0 (by norm_num), Nat.zero_add]

theorem FILE_MARKER_eq : FILE_MARKER = [82, 76, 71, 51, 50, 55, 45, 83, 50, 48, 50, 53] := by
  decide

theorem allCells_length : allCells.length = 1680 := by
  simp [allCells]

theorem hardnessBytes_length (hardness : Grid Int) : (hardnessBytes hardness).length = 1680 := by
  simp [hardnessBytes, allCells_length]

theorem allCells_getElem? (r c : Nat) (hr : r < 21) (hc : c < 80) :
    allCells[80 * r + c]? = some ((c : Int), (r : Int)) := by
  unfold allCells
  rw [List.getElem?_map, List.getElem?_range (by omega)]
  simp only [Option.map_some', Option.some.injEq, Prod.mk.injEq]
  constructor
  · congr 1; omega
  · congr 1; omega

theorem htobe16_value (v : Nat) (h : v < 65536) :
    ∃ b0 b1, htobe16 v = [b0, b1] ∧ b0 < 256 ∧ b1 < 256 ∧ v = b0 * 256 + b1 :=
  ⟨v / 256 % 256, v % 256, rfl, by omega, by omega, by omega⟩

theorem htobe32_value (v : Nat) (h : v < 4294967296) :
    ∃ b0 b1 b2 b3, htobe32 v = [b0, b1, b2, b3] ∧ b0 < 256 ∧ b1 < 256 ∧ b2 < 256 ∧ b3 < 256 ∧
      v = b0 * 16777216 + b1 * 65536 + b2 * 256 + b3 :=
  ⟨v / 16777216 % 256, v / 65536 % 256, v / 256 % 256, v % 256, rfl, by omega, by omega,
    by omega, by omega, by omega⟩

theorem save_dungeon_head (d : Dungeon) :
    ∃ R, save_dungeon d =
      (FILE_MARKER ++ htobe32 FILE_VERSION ++ htobe32 (saveFileSize d) ++
        [toUInt8 d.pc_x, toUInt8 d.pc_y]) ++ (hardnessBytes d.hardness ++
          (htobe16 (toUInt16 d.room_count) ++ R)) ∧
      (FILE_MARKER ++ htobe32 FILE_VERSION ++ htobe32 (saveFileSize d) ++
        [toUInt8 d.pc_x, toUInt8 d.pc_y]).length = 22 := by
  refine ⟨roomBytes d.rooms ++ (stairBytes d.upCount d.up_xCoord d.up_yCoord ++
    (stairBytes d.downCount d.down_xCoord d.down_yCoord ++
      (htobe16 (countAlive d.characters) ++ monsterBytes (liveNPCs d.characters)))), ?_, ?_⟩
  · rw [save_dungeon_eq]
    simp only [List.append_assoc, List.cons_append, List.nil_append]
  · simp [FILE_MARKER_eq, htobe32]

/-- C15: the bytes `save_dungeon` writes are, in this order: the 12 ASCII bytes of
"RLG327-S2025", the version 0 as four bytes, the size field as four big-endian bytes, the
PC's x and y (at offsets 20 and 21), the hardness of cell `(r, c)` at offset
`22 + 80 * r + c`, the room count as two big-endian bytes (at offset 1702) and four bytes
per room, the up-stair flag (0 or 1) as two big-endian bytes with `(x, y)` iff it is 1,
the same for the down-stair, and the monster count as two big-endian bytes with five
bytes per live NPC.  Both counts are the numbers of rooms and of live NPCs, reduced modulo
65536. -/
theorem save_dungeon_layout (d : Dungeon) :
    save_dungeon d =
      "RLG327-S2025".toList.map Char.toNat ++ [0, 0, 0, 0] ++ htobe32 (saveFileSize d) ++
        [toUInt8 d.pc_x, toUInt8 d.pc_y] ++ hardnessBytes d.hardness ++
        htobe16 (toUInt16 d.room_count) ++ roomBytes d.rooms ++
        stairBytes d.upCount d.up_xCoord d.up_yCoord ++
        stairBytes d.downCount d.down_xCoord d.down_yCoord ++
        htobe16 (countAlive d.characters) ++ monsterBytes (liveNPCs d.characters) ∧
    (save_dungeon d).take 12 = [82, 76, 71, 51, 50, 55, 45, 83, 50, 48, 50, 53] ∧
    (save_dungeon d)[20]? = some (toUInt8 d.pc_x) ∧
    (save_dungeon d)[21]? = some (toUInt8 d.pc_y) ∧
    (∀ r c : Nat, r < 21 → c < 80 →
      (save_dungeon d)[22 + 80 * r + c]? = some (toUInt8 (d.hardness r c))) ∧
    ((save_dungeon d).drop 1702).take 2 = htobe16 (toUInt16 d.room_count) ∧
    toUInt16 d.room_count = d.rooms.length % 65536 ∧
    countAlive d.characters = (liveNPCs d.characters).length % 65536 ∧
    (∀ v : Nat, v < 65536 →
      ∃ b0 b1, htobe16 v = [b0, b1] ∧ b0 < 256 ∧ b1 < 256 ∧ v = b0 * 256 + b1) ∧
    (∀ v : Nat, v < 4294967296 →
      ∃ b0 b1 b2 b3, htobe32 v = [b0, b1, b2, b3] ∧ b0 < 256 ∧ b1 < 256 ∧ b2 < 256 ∧
        b3 < 256 ∧ v = b0 * 16777216 + b1 * 65536 + b2 * 256 + b3) := by
  obtain ⟨R, hR, hlen⟩ := save_dungeon_head d
  refine ⟨?_, ?_, ?_, ?_, ?_, ?_, ?_, countAlive_eq d.characters, htobe16_value,
    htobe32_value⟩
  rotate_left 6
  · unfold toUInt16 Dungeon.room_count
    omega
  · rw [save_dungeon_eq]
    simp only [List.append_assoc, List.cons_append, List.nil_append]
    rfl
  · rw [save_dungeon_eq, FILE_MARKER_eq]
    rfl
  · rw [hR, List.getElem?_append_left (by omega)]
    simp [FILE_MARKER_eq, htobe32]
  · rw [hR, List.getElem?_append_left (by omega)]
    simp [FILE_MARKER_eq, htobe32]
  · intro r c hr hc
    rw [hR, List.getElem?_append_right (by omega), hlen,
      List.getElem?_append_left (by rw [hardnessBytes_length]; omega)]
    unfold hardnessBytes
    rw [List.getElem?_map, show 22 + 80 * r + c - 22 = 80 * r + c by omega,
      allCells_getElem? r c hr hc]
    rfl
  · rw [hR, List.drop_append_eq_append_drop, List.drop_of_length_le (by omega), hlen,
      List.nil_append, List.drop_append_eq_append_drop, hardnessBytes_length,
      List.drop_of_length_le (by rw [hardnessBytes_length]), List.nil_append]
    rfl

theorem save_dungeon_layout_witness :
    (save_dungeon Dungeon.new)[22 + 80 * 3 + 5]? =
      some (toUInt8 (Dungeon.new.hardness (3 : Nat) (5 : Nat))) :=
  (save_dungeon_layout Dungeon.new).2.2.2.2.1 3 5 (by decide) (by decide)

/-! ### Reading what was written -/

theorem toUInt8_lt (v : Int) : toUInt8 v < 256 := by
  unfold toUInt8; omega

theorem toUInt8_mod (v : Int) : toUInt8 v % 256 = toUInt8 v :=
  Nat.mod_eq_of_lt (toUInt8_lt v)

theorem toUInt8_cast (v : Int) (h0 : 0 ≤ v) (h1 : v ≤ 255) : ((toUInt8 v : Nat) : Int) = v := by
  unfold toUInt8; omega

theorem fread8_spec (f : FileIn) (b : Nat) (rest : List Nat) (h : f.data = b :: rest) :
    ∃ f1, fread8 f = (b % 256, f1) ∧ f1.data = rest := by
  unfold fread8
  rw [h]
  exact ⟨_, rfl, rfl⟩

theorem fread16_spec (f : FileIn) (v : Nat) (rest : List Nat) (h : f.data = htobe16 v ++ rest) :
    ∃ f1, fread16 f = (v % 65536, true, f1) ∧ f1.data = rest := by
  unfold fread16
  rw [h]
  simp only [htobe16, List.cons_append, List.nil_append]
  refine ⟨{ f with data := rest, reads := f.reads + 1 }, ?_, rfl⟩
  congr 1
  omega

theorem fread32_spec (f : FileIn) (v : Nat) (rest : List Nat) (h : f.data = htobe32 v ++ rest) :
    ∃ f1, fread32 f = (v % 4294967296, true, f1) ∧ f1.data = rest := by
  unfold fread32
  rw [h]
  simp only [htobe32, List.cons_append, List.nil_append]
  refine ⟨{ f with data := rest, reads := f.reads + 1 }, ?_, rfl⟩
  congr 1
  omega

theorem freadMarker_spec (f : FileIn) (rest : List Nat) (h : f.data = FILE_MARKER ++ rest) :
    ∃ f1, freadMarker f = (FILE_MARKER, f1) ∧ f1.data = rest := by
  unfold freadMarker
  rw [h]
  have hl : FILE_MARKER.length = MARKER_LEN := by decide
  have ht : List.take MARKER_LEN (FILE_MARKER ++ rest) = FILE_MARKER := by
    rw [List.take_append_of_le_length (by rw [hl]), ← hl, List.take_length]
  have hd : List.drop MARKER_LEN (FILE_MARKER ++ rest) = rest := by
    rw [← hl, List.drop_left]
  refine ⟨{ f with data := rest, reads := f.reads + 1 }, ?_, rfl⟩
  have hm : FILE_MARKER.map (· % 256) = FILE_MARKER := by decide
  simp [ht, hd, hm, hl]

theorem strcmpEq_marker : strcmpEq (FILE_MARKER ++ [0]) (FILE_MARKER ++ [0]) = true := by
  decide

theorem loadHardness_fold (g : Cell → Nat) (rest : List Nat) : ∀ (cs : List Cell)
    (h0 : Grid Int) (f : FileIn), f.data = cs.map g ++ rest →
    ∃ H f1, cs.foldl
        (fun (st : Grid Int × FileIn) c => ((st.1.set c.2 c.1 ((fread8 st.2).1 : Int)),
          (fread8 st.2).2)) (h0, f) = (H, f1) ∧
      f1.data = rest ∧
      ∀ y x, H y x = if (x, y) ∈ cs then ((g (x, y) % 256 : Nat) : Int) else h0 y x := by
  intro cs
  induction cs with
  | nil =>
    intro h0 f hf
    exact ⟨h0, f, rfl, by simpa using hf, fun y x => by simp⟩
  | cons c cs ih =>
    intro h0 f hf
    obtain ⟨f1, e1, d1⟩ := fread8_spec f (g c) (cs.map g ++ rest) (by simpa using hf)
    obtain ⟨H, f2, e2, d2, hH⟩ := ih (h0.set c.2 c.1 ((g c % 256 : Nat) : Int)) f1 d1
    refine ⟨H, f2, ?_, d2, ?_⟩
    · rw [List.foldl_cons, e1]
      exact e2
    · intro y x
      rw [hH y x]
      by_cases hm : (x, y) ∈ cs
      · rw [if_pos hm, if_pos (List.mem_cons_of_mem _ hm)]
      · rw [if_neg hm]
        unfold Grid.set
        by_cases hc : y = c.2 ∧ x = c.1
        · have hxy : (x, y) = c := by
            obtain ⟨c1, c2⟩ := c
            simp only at hc
            rw [hc.1, hc.2]
          rw [if_pos hc, if_pos (by rw [hxy]; exact List.mem_cons_self _ _), hxy]
        · have hxy : (x, y) ≠ c := by
            intro h
            apply hc
            rw [← h]
            exact ⟨rfl, rfl⟩
          rw [if_neg hc, if_neg]
          intro h
          rcases List.mem_cons.mp h with h | h
          · exact hxy h
          · exact hm h

theorem loadHardness_spec (hardness h0 : Grid Int) (f : FileIn) (rest : List Nat)
    (hf : f.data = hardnessBytes hardness ++ rest) :
    ∃ H f1, loadHardness h0 f = (H, f1) ∧ f1.data = rest ∧
      (∀ x y, inBounds x y = true → H y x = ((toUInt8 (hardness y x) : Nat) : Int)) ∧
      (∀ x y, inBounds x y = false → H y x = h0 y x) := by
  obtain ⟨H, f1, e, d, hH⟩ := loadHardness_fold (fun c => toUInt8 (hardness c.2 c.1)) rest
    allCells h0 f hf
  refine ⟨H, f1, e, d, ?_, ?_⟩
  · intro x y hin
    rw [hH y x, if_pos (mem_allCells (x, y) hin), toUInt8_mod]
  · intro x y hout
    rw [hH y x, if_neg]
    intro hm
    rw [inBounds_of_mem_allCells (x, y) hm] at hout
    exact absurd hout (by decide)

theorem loadRooms_spec : ∀ (rs : List Room) (f : FileIn) (rest : List Nat),
    f.data = roomBytes rs ++ rest →
    ∃ f1, loadRooms rs.length f =
        (rs.map fun r => ⟨(toUInt8 r.x : Nat), (toUInt8 r.y : Nat), (toUInt8 r.w : Nat),
          (toUInt8 r.h : Nat)⟩, f1) ∧ f1.data = rest := by
  intro rs
  induction rs with
  | nil =>
    intro f rest hf
    exact ⟨f, rfl, by simpa [roomBytes] using hf⟩
  | cons r rs ih =>
    intro f rest hf
    simp only [roomBytes, List.cons_append] at hf
    obtain ⟨f1, e1, d1⟩ := fread8_spec f _ _ hf
    obtain ⟨f2, e2, d2⟩ := fread8_spec f1 _ _ d1
    obtain ⟨f3, e3, d3⟩ := fread8_spec f2 _ _ d2
    obtain ⟨f4, e4, d4⟩ := fread8_spec f3 _ _ d3
    obtain ⟨f5, e5, d5⟩ := ih f4 rest d4
    refine ⟨f5, ?_, d5⟩
    simp only [List.length_cons, loadRooms, e1, e2, e3, e4, e5, List.map_cons, toUInt8_mod]

theorem loadStair_spec (count x y x0 y0 : Int) (f : FileIn) (rest : List Nat)
    (hf : f.data = stairBytes count x y ++ rest) :
    ∃ f1, loadStair x0 y0 f =
        (if count > 0 then ((1 : Int), ((toUInt8 x : Nat) : Int), ((toUInt8 y : Nat) : Int))
          else (0, x0, y0), f1) ∧ f1.data = rest := by
  unfold stairBytes at hf
  unfold loadStair
  by_cases hc : count > 0
  · rw [if_pos hc] at hf
    obtain ⟨f1, e1, d1⟩ := fread16_spec f 1 (toUInt8 x :: toUInt8 y :: rest) hf
    obtain ⟨f2, e2, d2⟩ := fread8_spec f1 _ _ d1
    obtain ⟨f3, e3, d3⟩ := fread8_spec f2 _ _ d2
    refine ⟨f3, ?_, d3⟩
    simp [e1, e2, e3, hc, toUInt8_mod]
  · rw [if_neg hc] at hf
    obtain ⟨f1, e1, d1⟩ := fread16_spec f 0 rest hf
    refine ⟨f1, ?_, d1⟩
    simp [e1, hc]

theorem loadRoster_spec : ∀ (cs : List Character) (f : FileIn) (rest : List Nat),
    f.data = monsterBytes cs ++ rest →
    ∃ f1, loadRoster cs.length f =
        (cs.map fun c => NPC.new (c.btype % 256) (toUInt8 c.x : Nat) (toUInt8 c.y : Nat)
          (toUInt8 c.speed : Nat) (toUInt8 c.hp : Nat), f1) ∧ f1.data = rest := by
  intro cs
  induction cs with
  | nil =>
    intro f rest hf
    exact ⟨f, rfl, by simpa [monsterBytes] using hf⟩
  | cons c cs ih =>
    intro f rest hf
    simp only [monsterBytes, List.cons_append] at hf
    obtain ⟨f1, e1, d1⟩ := fread8_spec f _ _ hf
    obtain ⟨f2, e2, d2⟩ := fread8_spec f1 _ _ d1
    obtain ⟨f3, e3, d3⟩ := fread8_spec f2 _ _ d2
    obtain ⟨f4, e4, d4⟩ := fread8_spec f3 _ _ d3
    obtain ⟨f5, e5, d5⟩ := fread8_spec f4 _ _ d4
    obtain ⟨f6, e6, d6⟩ := ih f5 rest d5
    refine ⟨f6, ?_, d6⟩
    simp only [List.length_cons, loadRoster, e1, e2, e3, e4, e5, e6, List.map_cons,
      toUInt8_mod, Nat.mod_mod]

theorem room_count_bytes (d : Dungeon) (hr : d.rooms.length ≤ 10) :
    min (toUInt16 d.room_count % 65536) MAX_ROOMS.toNat = d.rooms.length := by
  have h10 : MAX_ROOMS.toNat = 10 := by decide
  rw [h10]
  unfold toUInt16 Dungeon.room_count
  omega

theorem loadLevel_spec (d t : Dungeon) (sz : Nat) (f : FileIn) (rest : List Nat)
    (hr : d.rooms.length ≤ 10)
    (hf : f.data = htobe32 sz ++ (toUInt8 d.pc_x :: toUInt8 d.pc_y ::
      (hardnessBytes d.hardness ++ (htobe16 (toUInt16 d.room_count) ++ (roomBytes d.rooms ++
        (stairBytes d.upCount d.up_xCoord d.up_yCoord ++
          (stairBytes d.downCount d.down_xCoord d.down_yCoord ++ rest))))))) :
    (loadLevel t f).2.data = rest ∧
    (loadLevel t f).1.pc_x = ((toUInt8 d.pc_x : Nat) : Int) ∧
    (loadLevel t f).1.pc_y = ((toUInt8 d.pc_y : Nat) : Int) ∧
    (∀ x y, inBounds x y = true →
      (loadLevel t f).1.hardness y x = ((toUInt8 (d.hardness y x) : Nat) : Int)) ∧
    (∀ x y, inBounds x y = false → (loadLevel t f).1.hardness y x = t.hardness y x) ∧
    (loadLevel t f).1.rooms = (d.rooms.map fun r =>
      ⟨(toUInt8 r.x : Nat), (toUInt8 r.y : Nat), (toUInt8 r.w : Nat), (toUInt8 r.h : Nat)⟩) ∧
    ((loadLevel t f).1.upCount, (loadLevel t f).1.up_xCoord, (loadLevel t f).1.up_yCoord) =
      (if d.upCount > 0 then
        ((1 : Int), ((toUInt8 d.up_xCoord : Nat) : Int), ((toUInt8 d.up_yCoord : Nat) : Int))
      else (0, t.up_xCoord, t.up_yCoord)) ∧
    ((loadLevel t f).1.downCount, (loadLevel t f).1.down_xCoord,
        (loadLevel t f).1.down_yCoord) =
      (if d.downCount > 0 then
        ((1 : Int), ((toUInt8 d.down_xCoord : Nat) : Int),
          ((toUInt8 d.down_yCoord : Nat) : Int))
      else (0, t.down_xCoord, t.down_yCoord)) ∧
    (loadLevel t f).1.base_map = t.base_map ∧ (loadLevel t f).1.dungeon = t.dungeon ∧
    (loadLevel t f).1.characters = t.characters := by
  obtain ⟨f1, e1, d1⟩ := fread32_spec f sz _ hf
  obtain ⟨f2, e2, d2⟩ := fread8_spec f1 _ _ d1
  obtain ⟨f3, e3, d3⟩ := fread8_spec f2 _ _ d2
  obtain ⟨H, f4, e4, d4, hH1, hH2⟩ := loadHardness_spec d.hardness t.hardness f3 _ d3
  obtain ⟨f5, e5, d5⟩ := fread16_spec f4 _ _ d4
  obtain ⟨f6, e6, d6⟩ := loadRooms_spec d.rooms f5 _ d5
  obtain ⟨f7, e7, d7⟩ := loadStair_spec d.upCount d.up_xCoord d.up_yCoord
    t.up_xCoord t.up_yCoord f6 _ d6
  obtain ⟨f8, e8, d8⟩ := loadStair_spec d.downCount d.down_xCoord d.down_yCoord
    t.down_xCoord t.down_yCoord f7 _ d7
  unfold loadLevel
  simp only [e1, e2, e3, e4, e5, room_count_bytes d hr, e6, e7, e8, toUInt8_mod]
  exact ⟨d8, trivial, trivial, hH1, hH2, trivial, trivial, trivial, trivial, trivial, trivial⟩

/-! ### The derived classification -/

theorem classify_fold (hardness : Grid Int) : ∀ (cs : List Cell) (g : Grid Char) (y x : Int),
    (cs.foldl (classifyCell hardness) g) y x =
      if (x, y) ∈ cs then kindOfHardness (hardness y x) else g y x := by
  intro cs
  induction cs with
  | nil => intro g y x; simp
  | cons c cs ih =>
    intro g y x
    rw [List.foldl_cons, ih]
    by_cases hm : (x, y) ∈ cs
    · rw [if_pos hm, if_pos (List.mem_cons_of_mem _ hm)]
    · rw [if_neg hm]
      by_cases hc : (x, y) = c
      · rw [if_pos (by rw [hc]; exact List.mem_cons_self _ _)]
        subst hc
        unfold classifyCell kindOfHardness
        split_ifs <;> simp [Grid.set]
      · rw [if_neg (by
          intro h
          rcases List.mem_cons.mp h with h | h
          · exact hc h
          · exact hm h)]
        have hne : ¬ (y = c.2 ∧ x = c.1) := by
          intro h
          apply hc
          obtain ⟨c1, c2⟩ := c
          simp only at h
          rw [h.1, h.2]
        unfold classifyCell
        split_ifs <;> simp [Grid.set, hne]

theorem markRoom_apply (g : Grid Char) (r : Room) (y x : Int) :
    markRoom g r y x = if r.covers x y then '.' else g y x := by
  unfold markRoom
  rw [foldl_set_rect]
  simp only [mem_intRange, Room.covers]
  by_cases h : (r.y ≤ y ∧ y < r.y + r.h) ∧ r.x ≤ x ∧ x < r.x + r.w
  · rw [if_pos h, if_pos ⟨h.2.1, h.2.2, h.1.1, h.1.2⟩]
  · rw [if_neg h, if_neg (fun h1 => h ⟨⟨h1.2.2.1, h1.2.2.2⟩, h1.1, h1.2.1⟩)]

theorem markRooms_apply : ∀ (rs : List Room) (g : Grid Char) (y x : Int),
    (rs.foldl markRoom g) y x = if ∃ r ∈ rs, r.covers x y then '.' else g y x := by
  intro rs
  induction rs with
  | nil => intro g y x; simp
  | cons r rs ih =>
    intro g y x
    rw [List.foldl_cons, ih, markRoom_apply]
    by_cases h1 : ∃ r1 ∈ rs, r1.covers x y
    · obtain ⟨r1, hr1, hc1⟩ := h1
      rw [if_pos ⟨r1, hr1, hc1⟩, if_pos ⟨r1, List.mem_cons_of_mem _ hr1, hc1⟩]
    · rw [if_neg h1]
      by_cases h2 : r.covers x y
      · rw [if_pos h2, if_pos ⟨r, List.mem_cons_self _ _, h2⟩]
      · rw [if_neg h2, if_neg]
        rintro ⟨r1, hr1, hc1⟩
        rcases List.mem_cons.mp hr1 with h | h
        · exact h2 (h ▸ hc1)
        · exact h1 ⟨r1, h, hc1⟩

theorem deriveMap_apply (d : Dungeon) (g : Grid Char) (x y : Int) (hin : inBounds x y = true) :
    deriveMap d g y x =
      if d.downCount > 0 ∧ y = d.down_yCoord ∧ x = d.down_xCoord then '>'
      else if d.upCount > 0 ∧ y = d.up_yCoord ∧ x = d.up_xCoord then '<'
      else if ∃ r ∈ d.rooms, r.covers x y then '.'
      else kindOfHardness (d.hardness y x) := by
  have base : (d.rooms.foldl markRoom (allCells.foldl (classifyCell d.hardness) g)) y x =
      if ∃ r ∈ d.rooms, r.covers x y then '.' else kindOfHardness (d.hardness y x) := by
    rw [markRooms_apply, classify_fold, if_pos (mem_allCells (x, y) hin)]
  unfold deriveMap
  by_cases hd : d.downCount > 0 <;> by_cases hu : d.upCount > 0 <;>
    simp only [hd, hu, if_true, if_false, true_and, false_and, Grid.set, base]

theorem load_dungeon_checked (t : Dungeon) (f : FileIn)
    (h1 : strcmpEq ((freadMarker f).1 ++ [0]) (FILE_MARKER ++ [0]) = true)
    (h2 : (fread32 (freadMarker f).2).1 = FILE_VERSION) :
    load_dungeon t f =
      { (loadLevel t (fread32 (freadMarker f).2).2.2).1 with
        base_map := deriveMap (loadLevel t (fread32 (freadMarker f).2).2.2).1
          (loadLevel t (fread32 (freadMarker f).2).2.2).1.base_map
        characters := (loadRoster
          (if (fread16 (loadLevel t (fread32 (freadMarker f).2).2.2).2).2.1 then
            (fread16 (loadLevel t (fread32 (freadMarker f).2).2.2).2).1 else 0)
          (fread16 (loadLevel t (fread32 (freadMarker f).2).2.2).2).2.2).1 } ∧
    Proc.load_dungeon t f =
      some { (loadLevel t (fread32 (freadMarker f).2).2.2).1 with
        dungeon := deriveMap (loadLevel t (fread32 (freadMarker f).2).2.2).1
          (loadLevel t (fread32 (freadMarker f).2).2.2).1.dungeon } := by
  have hn : ¬ ((!true) = true) := by decide
  constructor
  · unfold load_dungeon
    dsimp only
    rw [h1, if_neg hn, if_neg (not_not.mpr h2)]
  · unfold Proc.load_dungeon
    dsimp only
    rw [h1, if_neg hn, if_neg (not_not.mpr h2)]

theorem load_dungeon_accept (t : Dungeon) (f : FileIn) (rest : List Nat)
    (hf : f.data = FILE_MARKER ++ (htobe32 FILE_VERSION ++ rest)) :
    ∃ f2, f2.data = rest ∧
      load_dungeon t f =
        { (loadLevel t f2).1 with
          base_map := deriveMap (loadLevel t f2).1 (loadLevel t f2).1.base_map
          characters := (loadRoster
            (if (fread16 (loadLevel t f2).2).2.1 then (fread16 (loadLevel t f2).2).1 else 0)
            (fread16 (loadLevel t f2).2).2.2).1 } ∧
      Proc.load_dungeon t f =
        some { (loadLevel t f2).1 with
          dungeon := deriveMap (loadLevel t f2).1 (loadLevel t f2).1.dungeon } := by
  obtain ⟨f1, e1, d1⟩ := freadMarker_spec f _ hf
  obtain ⟨f2, e2, d2⟩ := fread32_spec f1 _ _ d1
  have h1 : strcmpEq ((freadMarker f).1 ++ [0]) (FILE_MARKER ++ [0]) = true := by
    rw [e1]; exact strcmpEq_marker
  have h2 : (fread32 (freadMarker f).2).1 = FILE_VERSION := by
    rw [e1]
    show (fread32 f1).1 = FILE_VERSION
    rw [e2]
    rfl
  have h3 : (fread32 (freadMarker f).2).2.2 = f2 := by
    rw [e1]
    show (fread32 f1).2.2 = f2
    rw [e2]
  obtain ⟨c1, c2⟩ := load_dungeon_checked t f h1 h2
  rw [h3] at c1 c2
  exact ⟨f2, d2, c1, c2⟩

theorem rooms_read_back (rs : List Room)
    (h : ∀ r ∈ rs, (0 ≤ r.x ∧ r.x ≤ 255) ∧ (0 ≤ r.y ∧ r.y ≤ 255) ∧
      (0 ≤ r.w ∧ r.w ≤ 255) ∧ (0 ≤ r.h ∧ r.h ≤ 255)) :
    (rs.map fun r => (⟨(toUInt8 r.x : Nat), (toUInt8 r.y : Nat), (toUInt8 r.w : Nat),
      (toUInt8 r.h : Nat)⟩ : Room)) = rs := by
  induction rs with
  | nil => rfl
  | cons r rs ih =>
    have hr := h r (List.mem_cons_self _ _)
    rw [List.map_cons, ih (fun r1 h1 => h r1 (List.mem_cons_of_mem _ h1)),
      toUInt8_cast _ hr.1.1 hr.1.2, toUInt8_cast _ hr.2.1.1 hr.2.1.2,
      toUInt8_cast _ hr.2.2.1.1 hr.2.2.1.2, toUInt8_cast _ hr.2.2.2.1 hr.2.2.2.2]

/-- What loading the file `save_dungeon d` gives, field by field, for a level `d` with at
most 10 rooms. -/
theorem load_save_fields (d t : Dungeon) (f : FileIn) (hr : d.rooms.length ≤ 10)
    (hf : f.data = save_dungeon d) :
    (load_dungeon t f).pc_x = ((toUInt8 d.pc_x : Nat) : Int) ∧
    (load_dungeon t f).pc_y = ((toUInt8 d.pc_y : Nat) : Int) ∧
    (∀ x y, inBounds x y = true →
      (load_dungeon t f).hardness y x = ((toUInt8 (d.hardness y x) : Nat) : Int)) ∧
    (load_dungeon t f).rooms = (d.rooms.map fun r =>
      ⟨(toUInt8 r.x : Nat), (toUInt8 r.y : Nat), (toUInt8 r.w : Nat), (toUInt8 r.h : Nat)⟩) ∧
    ((load_dungeon t f).upCount, (load_dungeon t f).up_xCoord, (load_dungeon t f).up_yCoord) =
      (if d.upCount > 0 then
        ((1 : Int), ((toUInt8 d.up_xCoord : Nat) : Int), ((toUInt8 d.up_yCoord : Nat) : Int))
      else (0, t.up_xCoord, t.up_yCoord)) ∧
    ((load_dungeon t f).downCount, (load_dungeon t f).down_xCoord,
        (load_dungeon t f).down_yCoord) =
      (if d.downCount > 0 then
        ((1 : Int), ((toUInt8 d.down_xCoord : Nat) : Int),
          ((toUInt8 d.down_yCoord : Nat) : Int))
      else (0, t.down_xCoord, t.down_yCoord)) ∧
    (∀ x y, inBounds x y = true →
      (load_dungeon t f).base_map y x =
        if (load_dungeon t f).downCount > 0 ∧ y = (load_dungeon t f).down_yCoord ∧
            x = (load_dungeon t f).down_xCoord then '>'
        else if (load_dungeon t f).upCount > 0 ∧ y = (load_dungeon t f).up_yCoord ∧
            x = (load_dungeon t f).up_xCoord then '<'
        else if ∃ r ∈ (load_dungeon t f).rooms, r.covers x y then '.'
        else kindOfHardness ((load_dungeon t f).hardness y x)) ∧
    (countAlive d.characters = (liveNPCs d.characters).length →
      (load_dungeon t f).characters = (liveNPCs d.characters).map fun c =>
        NPC.new (c.btype % 256) (toUInt8 c.x : Nat) (toUInt8 c.y : Nat)
          (toUInt8 c.speed : Nat) (toUInt8 c.hp : Nat)) := by
  rw [save_dungeon_eq] at hf
  obtain ⟨f2, d2, e, -⟩ := load_dungeon_accept t f _ hf
  obtain ⟨h1, h2, h3, h4, -, h6, h7, h8, -, -, -⟩ := loadLevel_spec d t _ f2 _ hr d2
  have hros : countAlive d.characters = (liveNPCs d.characters).length →
      (loadRoster (if (fread16 (loadLevel t f2).2).2.1 then (fread16 (loadLevel t f2).2).1
        else 0) (fread16 (loadLevel t f2).2).2.2).1 = (liveNPCs d.characters).map fun c =>
        NPC.new (c.btype % 256) (toUInt8 c.x : Nat) (toUInt8 c.y : Nat)
          (toUInt8 c.speed : Nat) (toUInt8 c.hp : Nat) := by
    intro hc
    obtain ⟨f3, e3, d3⟩ := fread16_spec (loadLevel t f2).2 _ _ h1
    obtain ⟨f4, e4, d4⟩ := loadRoster_spec (liveNPCs d.characters) f3 []
      (by rw [d3, List.append_nil])
    have hlt : countAlive d.characters % 65536 = (liveNPCs d.characters).length := by
      have := countAlive_eq d.characters
      omega
    simp only [e3, if_true, hlt, e4]
  have hmap := fun x y hin =>
    deriveMap_apply (loadLevel t f2).1 (loadLevel t f2).1.base_map x y hin
  generalize loadLevel t f2 = lv at e h2 h3 h4 h6 h7 h8 hros hmap
  rw [e]
  exact ⟨h2, h3, h4, h6, h7, h8, hmap, hros⟩

/-- C13: for every level `d` with hardness values in `0 .. 255`, at most 10 rooms and all
coordinates and sizes in `0 .. 255`, loading the bytes `save_dungeon d` wrote (into any
dungeon `t`) recovers the hardness of every cell of the grid, the room list (same rooms,
same order, same count), the presence of the up-stair and of the down-stair with their
coordinates, and the PC position. -/
theorem save_load_roundtrip (d t : Dungeon) (stale : Nat → Nat) (hS : Storable d) :
    (∀ x y, inBounds x y = true →
      (load_dungeon t (FileIn.open (save_dungeon d) stale)).hardness y x = d.hardness y x) ∧
    (load_dungeon t (FileIn.open (save_dungeon d) stale)).rooms = d.rooms ∧
    (load_dungeon t (FileIn.open (save_dungeon d) stale)).room_count = d.room_count ∧
    ((load_dungeon t (FileIn.open (save_dungeon d) stale)).upCount > 0 ↔ d.upCount > 0) ∧
    (d.upCount > 0 →
      (load_dungeon t (FileIn.open (save_dungeon d) stale)).up_xCoord = d.up_xCoord ∧
      (load_dungeon t (FileIn.open (save_dungeon d) stale)).up_yCoord = d.up_yCoord) ∧
    ((load_dungeon t (FileIn.open (save_dungeon d) stale)).downCount > 0 ↔ d.downCount > 0) ∧
    (d.downCount > 0 →
      (load_dungeon t (FileIn.open (save_dungeon d) stale)).down_xCoord = d.down_xCoord ∧
      (load_dungeon t (FileIn.open (save_dungeon d) stale)).down_yCoord = d.down_yCoord) ∧
    (load_dungeon t (FileIn.open (save_dungeon d) stale)).pc_x = d.pc_x ∧
    (load_dungeon t (FileIn.open (save_dungeon d) stale)).pc_y = d.pc_y := by
  obtain ⟨h1, h2, h3, h4, h5, h6, -, -⟩ :=
    load_save_fields d t (FileIn.open (save_dungeon d) stale) hS.count rfl
  have hrooms := rooms_read_back d.rooms hS.rooms
  simp only [Prod.ext_iff] at h5 h6
  refine ⟨?_, ?_, ?_, ?_, ?_, ?_, ?_, ?_, ?_⟩
  · intro x y hin
    rw [h3 x y hin]
    exact toUInt8_cast _ (hS.hardness x y hin).1 (hS.hardness x y hin).2
  · rw [h4, hrooms]
  · unfold Dungeon.room_count
    rw [h4, hrooms]
  · rw [h5.1]
    by_cases hu : d.upCount > 0 <;> simp [hu]
  · intro hu
    have hc := hS.up hu
    rw [h5.2.1, h5.2.2]
    simp only [hu, if_true]
    exact ⟨toUInt8_cast _ hc.1.1 hc.1.2, toUInt8_cast _ hc.2.1 hc.2.2⟩
  · rw [h6.1]
    by_cases hu : d.downCount > 0 <;> simp [hu]
  · intro hu
    have hc := hS.down hu
    rw [h6.2.1, h6.2.2]
    simp only [hu, if_true]
    exact ⟨toUInt8_cast _ hc.1.1 hc.1.2, toUInt8_cast _ hc.2.1 hc.2.2⟩
  · rw [h1]
    exact toUInt8_cast _ hS.pc.1.1 hS.pc.1.2
  · rw [h2]
    exact toUInt8_cast _ hS.pc.2.1 hS.pc.2.2

theorem storable_sample : Storable sampleDungeon :=
  ⟨fun _ _ _ => ⟨by show (0 : Int) ≤ 255; decide, by show (255 : Int) ≤ 255; decide⟩,
   by decide, fun r hr => absurd hr (List.not_mem_nil r),
   ⟨⟨by decide, by decide⟩, by decide, by decide⟩,
   fun h => absurd h (by decide), fun h => absurd h (by decide)⟩

theorem save_load_roundtrip_witness :
    (load_dungeon Dungeon.new (FileIn.open (save_dungeon sampleDungeon) fun _ => 0)).pc_x = 5 ∧
    (load_dungeon Dungeon.new (FileIn.open (save_dungeon sampleDungeon) fun _ => 0)).pc_y = 5 :=
  (save_load_roundtrip sampleDungeon Dungeon.new (fun _ => 0) storable_sample).2.2.2.2.2.2.2

/-! ### The classification of a generated level -/

theorem classified_fresh (d : Dungeon) (hf : Fresh d) : Classified { d with rooms := [] } := by
  constructor
  · intro x y hin
    have h := hf x y hin
    unfold FreshCell at h
    simp only at h
    show d.base_map y x =
      if ∃ r ∈ ([] : List Room), r.covers x y then '.' else kindOfHardness (d.hardness y x)
    rw [if_neg (by simp), h.1]
    unfold kindOfHardness
    by_cases hb : onBorder x y
    · rw [h.2.1 hb]; rfl
    · have := h.2.2 hb
      rw [if_neg (by omega), if_pos (by omega)]
  · intro x y hin
    have h := hf x y hin
    unfold FreshCell at h
    simp only at h
    show 0 ≤ d.hardness y x ∧ d.hardness y x ≤ 255
    by_cases hb : onBorder x y
    · rw [h.2.1 hb]; omega
    · have := h.2.2 hb
      omega

theorem classified_addRoom (d : Dungeon) (w h x y : Int) (hC : Classified d) :
    Classified { fillRoom d w h x y with rooms := (fillRoom d w h x y).rooms ++ [⟨x, y, w, h⟩] } := by
  constructor
  · intro a b hin
    show (fillRoom d w h x y).base_map b a =
      if ∃ r ∈ (fillRoom d w h x y).rooms ++ [⟨x, y, w, h⟩], r.covers a b then '.'
      else kindOfHardness ((fillRoom d w h x y).hardness b a)
    rw [fillRoom_base_map, fillRoom_hardness, fillRoom_rooms]
    by_cases hc : (y ≤ b ∧ b < y + h) ∧ (x ≤ a ∧ a < x + w)
    · rw [if_pos hc, if_pos]
      exact ⟨⟨x, y, w, h⟩, by simp, ⟨hc.2.1, hc.2.2, hc.1.1, hc.1.2⟩⟩
    · rw [if_neg hc, if_neg hc, hC.map a b hin]
      by_cases he : ∃ r ∈ d.rooms, r.covers a b
      · obtain ⟨r, hr, hcov⟩ := he
        rw [if_pos ⟨r, hr, hcov⟩, if_pos ⟨r, List.mem_append_left _ hr, hcov⟩]
      · rw [if_neg he, if_neg]
        rintro ⟨r, hr, hcov⟩
        rcases List.mem_append.mp hr with h1 | h1
        · exact he ⟨r, h1, hcov⟩
        · rw [List.mem_singleton.mp h1] at hcov
          exact hc ⟨⟨hcov.2.2.1, hcov.2.2.2⟩, hcov.1, hcov.2.1⟩
  · intro a b hin
    show 0 ≤ (fillRoom d w h x y).hardness b a ∧ (fillRoom d w h x y).hardness b a ≤ 255
    rw [fillRoom_hardness]
    split_ifs
    · omega
    · exact hC.range a b hin

theorem generateRoomsLoop_classified : ∀ (attempts : Nat) (d : Dungeon) (rng : Rng),
    Classified d → Classified (generateRoomsLoop attempts d rng).1 := by
  intro attempts
  induction attempts with
  | zero => intro d rng h; exact h
  | succ n ih =>
    intro d rng h
    simp only [generateRoomsLoop]
    split_ifs
    · exact ih _ _ (classified_addRoom d _ _ _ _ h)
    · exact ih _ _ h
    · exact h

theorem carveCell_classified (d : Dungeon) (x y : Int) (hC : Classified d) :
    Classified (carveCell d x y) ∧ (carveCell d x y).rooms = d.rooms := by
  unfold carveCell
  split_ifs with hin hne
  · refine ⟨⟨?_, ?_⟩, rfl⟩
    · intro a b hab
      show (d.base_map.set y x '#') b a =
        if ∃ r ∈ d.rooms, r.covers a b then '.' else kindOfHardness ((d.hardness.set y x 0) b a)
      simp only [grid_set_apply]
      by_cases he : b = y ∧ a = x
      · rw [if_pos he, if_pos he, if_neg]
        · rfl
        · intro hcov
          have := hC.map x y hin
          rw [← he.1, ← he.2, if_pos hcov] at this
          rw [← he.1, ← he.2] at hne
          exact hne this
      · rw [if_neg he, if_neg he]
        exact hC.map a b hab
    · intro a b hab
      show 0 ≤ (d.hardness.set y x 0) b a ∧ (d.hardness.set y x 0) b a ≤ 255
      simp only [grid_set_apply]
      split_ifs
      · omega
      · exact hC.range a b hab
  · exact ⟨hC, rfl⟩
  · exact ⟨hC, rfl⟩

theorem carveX_classified : ∀ (fuel : Nat) (d : Dungeon) (x1 y1 x2 : Int), Classified d →
    Classified (carveX fuel d x1 y1 x2).1 ∧ (carveX fuel d x1 y1 x2).1.rooms = d.rooms := by
  intro fuel
  induction fuel with
  | zero => intro d x1 y1 x2 h; exact ⟨h, rfl⟩
  | succ n ih =>
    intro d x1 y1 x2 h
    rw [carveX]
    by_cases hne : x1 ≠ x2
    · rw [if_pos hne]
      obtain ⟨c1, c2⟩ := carveCell_classified d x1 y1 h
      obtain ⟨i1, i2⟩ := ih (carveCell d x1 y1) (x1 + if x2 > x1 then 1 else -1) y1 x2 c1
      exact ⟨i1, i2.trans c2⟩
    · rw [if_neg hne]
      exact ⟨h, rfl⟩

theorem carveY_classified : ∀ (fuel : Nat) (d : Dungeon) (x1 y1 y2 : Int), Classified d →
    Classified (carveY fuel d x1 y1 y2).1 ∧ (carveY fuel d x1 y1 y2).1.rooms = d.rooms := by
  intro fuel
  induction fuel with
  | zero => intro d x1 y1 y2 h; exact ⟨h, rfl⟩
  | succ n ih =>
    intro d x1 y1 y2 h
    rw [carveY]
    by_cases hne : y1 ≠ y2
    · rw [if_pos hne]
      obtain ⟨c1, c2⟩ := carveCell_classified d x1 y1 h
      obtain ⟨i1, i2⟩ := ih (carveCell d x1 y1) x1 (y1 + if y2 > y1 then 1 else -1) y2 c1
      exact ⟨i1, i2.trans c2⟩
    · rw [if_neg hne]
      exact ⟨h, rfl⟩

theorem connectPair_classified (d : Dungeon) (a b : Room) (hC : Classified d) :
    Classified (connectPair d a b) ∧ (connectPair d a b).rooms = d.rooms := by
  unfold connectPair
  simp only
  obtain ⟨c1, c2⟩ := carveX_classified
    (b.x + Int.tdiv b.w 2 - (a.x + Int.tdiv a.w 2)).natAbs d (a.x + Int.tdiv a.w 2)
    (a.y + Int.tdiv a.h 2) (b.x + Int.tdiv b.w 2) hC
  obtain ⟨e1, e2⟩ := carveY_classified
    (b.y + Int.tdiv b.h 2 - (a.y + Int.tdiv a.h 2)).natAbs _
    (carveX (b.x + Int.tdiv b.w 2 - (a.x + Int.tdiv a.w 2)).natAbs d (a.x + Int.tdiv a.w 2)
      (a.y + Int.tdiv a.h 2) (b.x + Int.tdiv b.w 2)).2
    (a.y + Int.tdiv a.h 2) (b.y + Int.tdiv b.h 2) c1
  exact ⟨e1, e2.trans c2⟩

theorem connectFold_classified : ∀ (ps : List (Room × Room)) (d : Dungeon), Classified d →
    Classified (ps.foldl (fun d p => connectPair d p.1 p.2) d) ∧
      (ps.foldl (fun d p => connectPair d p.1 p.2) d).rooms = d.rooms := by
  intro ps
  induction ps with
  | nil => intro d h; exact ⟨h, rfl⟩
  | cons p ps ih =>
    intro d h
    rw [List.foldl_cons]
    obtain ⟨c1, c2⟩ := connectPair_classified d p.1 p.2 h
    obtain ⟨i1, i2⟩ := ih _ c1
    exact ⟨i1, i2.trans c2⟩

theorem connectRooms_classified (d : Dungeon) (hC : Classified d) :
    Classified (connectRoomsViaCorridor d) ∧ (connectRoomsViaCorridor d).rooms = d.rooms := by
  unfold connectRoomsViaCorridor
  split_ifs
  · exact ⟨hC, rfl⟩
  · exact connectFold_classified _ d hC

theorem startPosition_frame (d : Dungeon) :
    (startPosition d).base_map = d.base_map ∧ (startPosition d).hardness = d.hardness ∧
    (startPosition d).rooms = d.rooms ∧ (startPosition d).upCount = d.upCount ∧
    (startPosition d).downCount = d.downCount ∧ (startPosition d).up_xCoord = d.up_xCoord ∧
    (startPosition d).up_yCoord = d.up_yCoord ∧ (startPosition d).down_xCoord = d.down_xCoord ∧
    (startPosition d).down_yCoord = d.down_yCoord := by
  unfold startPosition
  split_ifs
  · split <;> exact ⟨rfl, rfl, rfl, rfl, rfl, rfl, rfl, rfl, rfl⟩
  · exact ⟨rfl, rfl, rfl, rfl, rfl, rfl, rfl, rfl, rfl⟩

/-- What level generation establishes, whatever the random draws of each phase: the level
`d3` before the stairs is classified by its rooms and hardness, the rooms are at most six
and lie inside the border, and the level with stairs differs from `d3` on the grid exactly
at the two stairs. -/
theorem generation_summary (fuel : Nat) (d0 : Dungeon) (rng0 rng1 rng2 : Rng) (d4 : Dungeon)
    (rng4 : Rng)
    (h : placeStairs fuel (connectRoomsViaCorridor
      (generateRooms (initializeDungeon d0 rng0).1 rng1).1) rng2 = some (d4, rng4)) :
    ∃ d3 : Dungeon, Classified d3 ∧ d4.rooms = d3.rooms ∧ d4.hardness = d3.hardness ∧
      (∀ r ∈ d3.rooms, r.interior ∧ 4 ≤ r.w ∧ r.w ≤ 9 ∧ 3 ≤ r.h ∧ r.h ≤ 6) ∧
      d3.rooms.length ≤ 6 ∧ StairsInv d3 d4 true true := by
  have hI := placeStairsLoop_inv _ fuel false false _ _ d4 rng4 (stairsInv_start _) h
  have hfresh : Fresh (initializeDungeon d0 rng0).1 :=
    fun x y hin => initializeDungeon_fresh d0 rng0 x y hin
  have hC2 : Classified (generateRooms (initializeDungeon d0 rng0).1 rng1).1 := by
    unfold generateRooms
    exact generateRoomsLoop_classified 2000 _ _ (classified_fresh _ hfresh)
  obtain ⟨hC3, hr3⟩ := connectRooms_classified _ hC2
  have hR := generateRooms_inv (initializeDungeon d0 rng0).1 rng1
  have hcount := generateRooms_count (initializeDungeon d0 rng0).1 rng1
  refine ⟨_, hC3, hI.rest.2, hI.rest.1, ?_, ?_, hI⟩
  · intro r hr
    rw [hr3] at hr
    exact ⟨hR.inside r hr, hR.size r hr⟩
  · rw [hr3]
    unfold Dungeon.room_count at hcount
    omega

theorem inBounds_byte (x y : Int) (h : inBounds x y = true) :
    ((toUInt8 x : Nat) : Int) = x ∧ ((toUInt8 y : Nat) : Int) = y := by
  simp only [inBounds, WIDTH, HEIGHT, decide_eq_true_eq] at h
  exact ⟨toUInt8_cast x (by omega) (by omega), toUInt8_cast y (by omega) (by omega)⟩

theorem ite_swap {α : Type} (A B : Prop) [Decidable A] [Decidable B] (a b c : α)
    (h : ¬ (A ∧ B)) :
    (if A then a else if B then b else c) = (if B then b else if A then a else c) := by
  by_cases hA : A <;> by_cases hB : B <;> simp [hA, hB]
  exact absurd ⟨hA, hB⟩ h

/-- C14: for every level that generation produces (grid initialisation, `generateRooms`,
`connectRoomsViaCorridor`, `placeStairs`, whatever the random draws of each of them), and
every later state `d5` with the same terrain (such as the one `main` saves, after the PC
and the monsters are created), the classification `load_dungeon` derives from the saved
hardness, rooms and stairs equals, on every cell of the grid, the classification the level
had when it was saved. -/
theorem generated_classification (fuel : Nat) (d0 : Dungeon) (rng0 rng1 rng2 : Rng)
    (d4 : Dungeon) (rng4 : Rng) (d5 t : Dungeon) (stale : Nat → Nat)
    (h : placeStairs fuel (connectRoomsViaCorridor
      (generateRooms (initializeDungeon d0 rng0).1 rng1).1) rng2 = some (d4, rng4))
    (hT : SameTerrain d4 d5) :
    ∀ x y, inBounds x y = true →
      (load_dungeon t (FileIn.open (save_dungeon d5) stale)).base_map y x = d5.base_map y x := by
  obtain ⟨d3, hC, hrooms4, hhard4, hfit, hlen, hI4⟩ :=
    generation_summary fuel d0 rng0 rng1 rng2 d4 rng4 h
  have hrooms : d5.rooms = d3.rooms := hT.rooms.trans hrooms4
  have hhard : d5.hardness = d3.hardness := hT.hardness.trans hhard4
  have hI : StairsInv d3 d5 true true := by
    obtain ⟨u1, u2, u3⟩ := hT.up
    obtain ⟨w1, w2, w3⟩ := hT.down
    exact ⟨fun hu => by rw [u1, u2, u3]; exact hI4.up hu,
      fun hd => by rw [w1, w2, w3]; exact hI4.down hd,
      fun hu hd => by rw [u2, u3, w2, w3]; exact hI4.apart hu hd,
      fun x y => by rw [hT.base_map, u2, u3, w2, w3]; exact hI4.map x y,
      by rw [hhard, hrooms]; exact ⟨rfl, rfl⟩⟩
  obtain ⟨-, -, h3, h4, h5, h6, h7, -⟩ :=
    load_save_fields d5 t (FileIn.open (save_dungeon d5) stale) (by rw [hrooms]; omega) rfl
  have hu := hI.up rfl
  have hd := hI.down rfl
  have ha := hI.apart rfl rfl
  have hrb : (d5.rooms.map fun r => (⟨(toUInt8 r.x : Nat), (toUInt8 r.y : Nat),
      (toUInt8 r.w : Nat), (toUInt8 r.h : Nat)⟩ : Room)) = d5.rooms := by
    apply rooms_read_back
    intro r hr
    rw [hrooms] at hr
    have := hfit r hr
    unfold Room.interior at this
    omega
  rw [hrb] at h4
  rw [if_pos (by rw [hu.2.2]; decide)] at h5
  rw [if_pos (by rw [hd.2.2]; decide)] at h6
  simp only [Prod.ext_iff] at h5 h6
  rw [(inBounds_byte _ _ hu.1).1, (inBounds_byte _ _ hu.1).2] at h5
  rw [(inBounds_byte _ _ hd.1).1, (inBounds_byte _ _ hd.1).2] at h6
  intro x y hin
  have hh : (load_dungeon t (FileIn.open (save_dungeon d5) stale)).hardness y x =
      d3.hardness y x := by
    rw [h3 x y hin, hhard]
    exact toUInt8_cast _ (hC.range x y hin).1 (hC.range x y hin).2
  have hL := h7 x y hin
  rw [h5.1, h5.2.1, h5.2.2, h6.1, h6.2.1, h6.2.2, h4, hh, hrooms, ← hC.map x y hin] at hL
  rw [hL, hI.map x y]
  have e1 : ((1 : Int) > 0 ∧ y = d5.down_yCoord ∧ x = d5.down_xCoord) ↔
      (true = true ∧ x = d5.down_xCoord ∧ y = d5.down_yCoord) :=
    ⟨fun hc => ⟨rfl, hc.2.2, hc.2.1⟩, fun hc => ⟨by decide, hc.2.2, hc.2.1⟩⟩
  have e2 : ((1 : Int) > 0 ∧ y = d5.up_yCoord ∧ x = d5.up_xCoord) ↔
      (true = true ∧ x = d5.up_xCoord ∧ y = d5.up_yCoord) :=
    ⟨fun hc => ⟨rfl, hc.2.2, hc.2.1⟩, fun hc => ⟨by decide, hc.2.2, hc.2.1⟩⟩
  simp only [e1, e2]
  apply ite_swap
  intro hc
  exact ha ⟨hc.2.2.1.symm.trans hc.1.2.1, hc.2.2.2.symm.trans hc.1.2.2⟩

theorem sameTerrain_refl (d : Dungeon) : SameTerrain d d :=
  ⟨rfl, rfl, rfl, ⟨rfl, rfl, rfl⟩, ⟨rfl, rfl, rfl⟩⟩

theorem sameTerrain_startPosition (d : Dungeon) : SameTerrain d (startPosition d) := by
  obtain ⟨s1, s2, s3, s4, s5, s6, s7, s8, s9⟩ := startPosition_frame d
  exact ⟨s1, s2, s3, ⟨s4, s6, s7⟩, ⟨s5, s8, s9⟩⟩

theorem sameTerrain_createPC (d : Dungeon) (px py : Int) : SameTerrain d (d.createPC px py) :=
  ⟨rfl, rfl, rfl, ⟨rfl, rfl, rfl⟩, ⟨rfl, rfl, rfl⟩⟩

theorem sameTerrain_createMonster (fuel : Nat) (d : Dungeon) (rng : Rng) (d1 : Dungeon)
    (rng1 : Rng) (h : d.createMonster fuel rng = some (d1, rng1)) : SameTerrain d d1 := by
  unfold Dungeon.createMonster at h
  split at h
  · exact absurd h (by simp)
  · simp only [Option.some.injEq, Prod.mk.injEq] at h
    rw [← h.1]
    exact ⟨rfl, rfl, rfl, ⟨rfl, rfl, rfl⟩, ⟨rfl, rfl, rfl⟩⟩

theorem placeStairs_first (d : Dungeon) (rng : Rng)
    (hu : stairGround
      (d.base_map ((rand (rand rng).2).1 % HEIGHT) ((rand rng).1 % WIDTH)))
    (hd : stairGround
      (d.base_map ((rand (rand (rand (rand rng).2).2).2).1 % HEIGHT)
        ((rand (rand (rand rng).2).2).1 % WIDTH)))
    (hne : ¬ ((rand rng).1 % WIDTH = (rand (rand (rand rng).2).2).1 % WIDTH ∧
      (rand (rand rng).2).1 % HEIGHT = (rand (rand (rand (rand rng).2).2).2).1 % HEIGHT)) :
    (placeStairs 1 d rng).isSome = true := by
  unfold stairGround at hu hd
  have hd1 : (d.base_map.set ((rand (rand rng).2).1 % HEIGHT) ((rand rng).1 % WIDTH) '<')
      ((rand (rand (rand (rand rng).2).2).2).1 % HEIGHT)
      ((rand (rand (rand rng).2).2).1 % WIDTH) =
      d.base_map ((rand (rand (rand (rand rng).2).2).2).1 % HEIGHT)
        ((rand (rand (rand rng).2).2).1 % WIDTH) := by
    unfold Grid.set
    rw [if_neg (fun hc => hne ⟨hc.2.symm, hc.1.symm⟩)]
  unfold placeStairs
  rw [placeStairsLoop]
  simp only [Bool.not_false, Bool.or_self, if_true, hu, hd1, hd, hne, not_false_eq_true,
    and_self, placeStairsLoop, Bool.not_true, Bool.false_eq_true, if_false, Option.isSome_some]

theorem firstRoom_floor (d0 : Dungeon) (rng0 rng1 : Rng) (x y : Int)
    (hcov : (firstRoom rng1).covers x y) :
    (connectRoomsViaCorridor
      (generateRooms (initializeDungeon d0 rng0).1 rng1).1).base_map y x = '.' := by
  have hR := generateRooms_inv (initializeDungeon d0 rng0).1 rng1
  have hmem := generateRooms_first (initializeDungeon d0 rng0).1 rng1
    (initializeDungeon_unmodified d0 rng0)
  have hC := (connectRooms_spec _
    (generateRooms_floorZero _ rng1 (initializeDungeon_floorZero d0 rng0)) hR).1
  rw [hC.dots]
  exact hR.floor _ hmem x y hcov

theorem generated_classification_witness :
    ∃ d4 rng4,
      placeStairs 1 (connectRoomsViaCorridor
        (generateRooms (initializeDungeon Dungeon.new zeroRng).1 zeroRng).1) stairRng =
        some (d4, rng4) ∧
      ∀ x y, inBounds x y = true →
        (load_dungeon Dungeon.new (FileIn.open (save_dungeon d4) fun _ => 0)).base_map y x =
          d4.base_map y x := by
  have hs : (placeStairs 1 (connectRoomsViaCorridor
      (generateRooms (initializeDungeon Dungeon.new zeroRng).1 zeroRng).1) stairRng).isSome =
      true := by
    have e1 : (rand stairRng).1 % WIDTH = 1 := by decide
    have e2 : (rand (rand stairRng).2).1 % HEIGHT = 1 := by decide
    have e3 : (rand (rand (rand stairRng).2).2).1 % WIDTH = 2 := by decide
    have e4 : (rand (rand (rand (rand stairRng).2).2).2).1 % HEIGHT = 1 := by decide
    apply placeStairs_first
    · rw [e1, e2]
      exact Or.inl (firstRoom_floor Dungeon.new zeroRng zeroRng 1 1 (by decide))
    · rw [e3, e4]
      exact Or.inl (firstRoom_floor Dungeon.new zeroRng zeroRng 2 1 (by decide))
    · rw [e1, e2, e3, e4]
      decide
  obtain ⟨⟨d4, rng4⟩, h⟩ := Option.isSome_iff_exists.mp hs
  exact ⟨d4, rng4, h, generated_classification 1 Dungeon.new zeroRng zeroRng stairRng d4 rng4 d4
    Dungeon.new (fun _ => 0) h (sameTerrain_refl d4)⟩

/-! ### The size field -/

theorem roomBytes_length : ∀ rs : List Room, (roomBytes rs).length = 4 * rs.length := by
  intro rs
  induction rs with
  | nil => rfl
  | cons r rs ih => simp only [roomBytes, List.length_cons, ih]; omega

theorem monsterBytes_length : ∀ cs : List Character, (monsterBytes cs).length = 5 * cs.length := by
  intro cs
  induction cs with
  | nil => rfl
  | cons c cs ih => simp only [monsterBytes, List.length_cons, ih]; omega

theorem stairBytes_length (count x y : Int) :
    (stairBytes count x y).length = 2 + if count > 0 then 2 else 0 := by
  unfold stairBytes
  split_ifs <;> rfl

theorem writeLevel_length (d : Dungeon) (file_size : Nat) :
    (writeLevel d file_size).length = 1708 + 4 * d.rooms.length +
      (if d.upCount > 0 then 2 else 0) + (if d.downCount > 0 then 2 else 0) := by
  rw [writeLevel_eq]
  simp only [List.length_append, List.length_cons, hardnessBytes_length, roomBytes_length,
    stairBytes_length, FILE_MARKER_eq, htobe32, htobe16, List.length_nil]
  omega

theorem save_dungeon_length (d : Dungeon) :
    (save_dungeon d).length = 1710 + 4 * d.rooms.length +
      (if d.upCount > 0 then 2 else 0) + (if d.downCount > 0 then 2 else 0) +
      5 * (liveNPCs d.characters).length := by
  rw [save_dungeon_eq]
  simp only [List.length_append, List.length_cons, hardnessBytes_length, roomBytes_length,
    monsterBytes_length, stairBytes_length, FILE_MARKER_eq, htobe32, htobe16, List.length_nil]
  omega

theorem wrap_wrap (x y : Nat) :
    ((((((x : Int) % 4294967296).toNat : Nat) : Int) + (y : Int)) % 4294967296).toNat =
      (x + y) % 4294967296 := by
  have h1 : ((((x : Int) % 4294967296).toNat : Nat) : Int) = (x : Int) % 4294967296 :=
    Int.toNat_of_nonneg (Int.emod_nonneg _ (by norm_num))
  rw [h1, Int.emod_add_emod]
  have h2 : ((x : Int) + y) % 4294967296 = (((x + y) % 4294967296 : Nat) : Int) := by
    push_cast; rfl
  rw [h2, Int.toNat_natCast]

theorem wrap_once (x : Nat) : ((x : Int) % 4294967296).toNat = x % 4294967296 := by
  have h2 : (x : Int) % 4294967296 = ((x % 4294967296 : Nat) : Int) := by
    push_cast; rfl
  rw [h2, Int.toNat_natCast]

theorem size_arith (r a u v : Nat) :
    ((((((1702 + (r : Int) * 4 + 2 + (u : Int) * 2 + 2 + (v : Int) * 2) % 4294967296).toNat :
      Nat) : Int) + (2 + (a : Int) * 5)) % 4294967296).toNat =
    (1708 + 4 * r + 2 * u + 2 * v + 5 * a) % 4294967296 := by
  have e1 : (1702 + (r : Int) * 4 + 2 + (u : Int) * 2 + 2 + (v : Int) * 2) =
      ((1706 + 4 * r + 2 * u + 2 * v : Nat) : Int) := by push_cast; ring
  have e2 : (2 + (a : Int) * 5) = ((2 + 5 * a : Nat) : Int) := by push_cast; ring
  rw [e1, e2, wrap_wrap]
  congr 1
  omega

theorem size_arith_proc (r u v : Nat) :
    ((1702 + (r : Int) * 4 + 2 + (u : Int) * 2 + 2 + (v : Int) * 2) % 4294967296).toNat =
    (1706 + 4 * r + 2 * u + 2 * v) % 4294967296 := by
  have e1 : (1702 + (r : Int) * 4 + 2 + (u : Int) * 2 + 2 + (v : Int) * 2) =
      ((1706 + 4 * r + 2 * u + 2 * v : Nat) : Int) := by push_cast; ring
  rw [e1, wrap_once]

theorem saveFileSize_eq (d : Dungeon) :
    saveFileSize d = (1708 + 4 * d.rooms.length + (if d.upCount > 0 then 2 else 0) +
      (if d.downCount > 0 then 2 else 0) + 5 * countAlive d.characters) % 4294967296 := by
  unfold saveFileSize toUInt32 Dungeon.room_count
  by_cases hu : d.upCount > 0 <;> by_cases hd : d.downCount > 0 <;>
    simp only [hu, hd, if_true, if_false]
  · exact size_arith _ _ 1 1
  · exact size_arith _ _ 1 0
  · exact size_arith _ _ 0 1
  · exact size_arith _ _ 0 0

theorem procSaveFileSize_eq (d : Dungeon) :
    Proc.saveFileSize d = (1706 + 4 * d.rooms.length + (if d.upCount > 0 then 2 else 0) +
      (if d.downCount > 0 then 2 else 0)) % 4294967296 := by
  unfold Proc.saveFileSize toUInt32 Dungeon.room_count
  by_cases hu : d.upCount > 0 <;> by_cases hd : d.downCount > 0 <;>
    simp only [hu, hd, if_true, if_false]
  · exact size_arith_proc _ 1 1
  · exact size_arith_proc _ 1 0
  · exact size_arith_proc _ 0 1
  · exact size_arith_proc _ 0 0

theorem writeLevel_sizeField (d : Dungeon) (file_size : Nat) :
    ((writeLevel d file_size).drop 16).take 4 = htobe32 file_size := by
  rw [writeLevel_eq, FILE_MARKER_eq]
  rfl

theorem save_dungeon_sizeField (d : Dungeon) :
    ((save_dungeon d).drop 16).take 4 = htobe32 (saveFileSize d) := by
  rw [save_dungeon_eq, FILE_MARKER_eq]
  rfl

/-- C16, evaluated on the code: the size field of the file holds the value `file_size`
that `save_dungeon` computes, in both variants, and this value is the length of the file
less 2 (whenever it does not wrap): for the empty level `Dungeon ()` the field holds 1708
in a file of 1710 bytes (1706 in a file of 1708 bytes in the procedural variant), for a
level with a PC and two live monsters 1718 in a file of 1720 bytes. -/
theorem save_dungeon_size_field :
    (∀ d : Dungeon, ((save_dungeon d).drop 16).take 4 = htobe32 (saveFileSize d)) ∧
    (∀ d : Dungeon, ((Proc.save_dungeon d).drop 16).take 4 = htobe32 (Proc.saveFileSize d)) ∧
    (∀ d : Dungeon, (save_dungeon d).length = 1710 + 4 * d.rooms.length +
      (if d.upCount > 0 then 2 else 0) + (if d.downCount > 0 then 2 else 0) +
      5 * (liveNPCs d.characters).length) ∧
    (∀ d : Dungeon, saveFileSize d = (1708 + 4 * d.rooms.length +
      (if d.upCount > 0 then 2 else 0) + (if d.downCount > 0 then 2 else 0) +
      5 * countAlive d.characters) % 4294967296) ∧
    (∀ d : Dungeon, (Proc.save_dungeon d).length = 1708 + 4 * d.rooms.length +
      (if d.upCount > 0 then 2 else 0) + (if d.downCount > 0 then 2 else 0)) ∧
    (∀ d : Dungeon, Proc.saveFileSize d = (1706 + 4 * d.rooms.length +
      (if d.upCount > 0 then 2 else 0) + (if d.downCount > 0 then 2 else 0)) % 4294967296) ∧
    (saveFileSize Dungeon.new = 1708 ∧ (save_dungeon Dungeon.new).length = 1710) ∧
    (Proc.saveFileSize Dungeon.new = 1706 ∧ (Proc.save_dungeon Dungeon.new).length = 1708) ∧
    (saveFileSize sampleDungeon = 1718 ∧ (save_dungeon sampleDungeon).length = 1720) := by
  refine ⟨save_dungeon_sizeField, fun d => writeLevel_sizeField d _, save_dungeon_length,
    saveFileSize_eq, fun d => writeLevel_length d _, procSaveFileSize_eq, ⟨?_, ?_⟩, ⟨?_, ?_⟩,
    ⟨?_, ?_⟩⟩
  · decide
  · rw [save_dungeon_length]; decide
  · decide
  · show (writeLevel Dungeon.new _).length = 1708
    rw [writeLevel_length]; decide
  · decide
  · rw [save_dungeon_length]; decide

/-! ### Rejected files -/

theorem strcmpEq_marker_iff (m : List Nat) (hm : m.length = 12)
    (h : strcmpEq (m ++ [0]) (FILE_MARKER ++ [0]) = true) : m = FILE_MARKER := by
  unfold strcmpEq at h
  have hF : (FILE_MARKER ++ [0]).takeWhile (· != 0) = FILE_MARKER := by decide
  rw [hF] at h
  have h1 : (m ++ [0]).takeWhile (· != 0) = FILE_MARKER := by simpa using h
  have hp : FILE_MARKER <+: m ++ [0] := by
    rw [← h1]
    exact List.takeWhile_prefix _
  have hp2 : m <+: m ++ [0] := List.prefix_append _ _
  have hl : FILE_MARKER.length = 12 := by decide
  have hp3 : FILE_MARKER <+: m := List.prefix_of_prefix_length_le hp hp2 (by omega)
  exact (hp3.eq_of_length (by omega)).symm

theorem freadMarker_full (f : FileIn) (h : 12 ≤ f.data.length) :
    (freadMarker f).1 = (f.data.take 12).map (· % 256) ∧
    (freadMarker f).2.data = f.data.drop 12 := by
  unfold freadMarker
  have hl : ((f.data.take 12).map (· % 256)).length = 12 := by
    simp only [List.length_map, List.length_take]
    omega
  simp only [MARKER_LEN, hl, Nat.sub_self, List.range_zero, List.map_nil, List.append_nil,
    and_self]

theorem load_dungeon_bad_marker (d : Dungeon) (f : FileIn)
    (h : strcmpEq ((freadMarker f).1 ++ [0]) (FILE_MARKER ++ [0]) = false) :
    load_dungeon d f = d ∧ Proc.load_dungeon d f = none := by
  unfold load_dungeon Proc.load_dungeon
  dsimp only
  rw [h]
  exact ⟨rfl, rfl⟩

theorem load_dungeon_bad_version (d : Dungeon) (f : FileIn)
    (h : (fread32 (freadMarker f).2).1 ≠ FILE_VERSION) :
    load_dungeon d f = d ∧ Proc.load_dungeon d f = none := by
  unfold load_dungeon Proc.load_dungeon
  dsimp only
  constructor
  · split_ifs <;> rfl
  · split_ifs <;> rfl

/-- C17: if the first 12 bytes of the input are not "RLG327-S2025", or the four bytes after
them are not the big-endian encoding of version 0, `load_dungeon` returns at that check
with the dungeon exactly as it was before the call; the procedural variant stops the
program there (`exit (1)`), so it produces no state either. -/
theorem load_dungeon_rejects (d : Dungeon) (bytes : List Nat) (stale : Nat → Nat)
    (h : (12 ≤ bytes.length ∧ (bytes.take 12).map (· % 256) ≠ FILE_MARKER) ∨
      (∃ b0 b1 b2 b3 rest, 12 ≤ bytes.length ∧ bytes.drop 12 = b0 :: b1 :: b2 :: b3 :: rest ∧
        b0 % 256 * 16777216 + b1 % 256 * 65536 + b2 % 256 * 256 + b3 % 256 ≠ 0)) :
    load_dungeon d (FileIn.open bytes stale) = d ∧
    Proc.load_dungeon d (FileIn.open bytes stale) = none := by
  rcases h with ⟨hl, hm⟩ | ⟨b0, b1, b2, b3, rest, hl, hd, hv⟩
  · apply load_dungeon_bad_marker
    obtain ⟨e1, -⟩ := freadMarker_full (FileIn.open bytes stale) hl
    cases hs : strcmpEq ((freadMarker (FileIn.open bytes stale)).1 ++ [0]) (FILE_MARKER ++ [0])
    · rfl
    · exfalso
      apply hm
      have := strcmpEq_marker_iff _ (by rw [e1]; simp [FileIn.open]; omega) hs
      rw [e1] at this
      exact this
  · apply load_dungeon_bad_version
    obtain ⟨-, e2⟩ := freadMarker_full (FileIn.open bytes stale) hl
    have e3 : (freadMarker (FileIn.open bytes stale)).2.data = b0 :: b1 :: b2 :: b3 :: rest := by
      rw [e2]; exact hd
    unfold fread32
    rw [e3]
    exact hv

theorem load_dungeon_rejects_witness :
    load_dungeon sampleDungeon (FileIn.open (List.replicate 16 0) fun _ => 0) = sampleDungeon ∧
    Proc.load_dungeon sampleDungeon (FileIn.open (List.replicate 16 0) fun _ => 0) = none :=
  load_dungeon_rejects sampleDungeon (List.replicate 16 0) (fun _ => 0)
    (Or.inl ⟨by decide, by decide⟩)

/-! ### The monster section -/

theorem open_data (bytes : List Nat) (stale : Nat → Nat) :
    (FileIn.open bytes stale).data = bytes := rfl

theorem loadRoster_length : ∀ (n : Nat) (f : FileIn), (loadRoster n f).1.length = n := by
  intro n
  induction n with
  | zero => intro f; rfl
  | succ n ih => intro f; simp only [loadRoster, List.length_cons, ih]

/-- Loading a file that is well formed up to the down-stair section: the terrain is the
stored one, and the roster is what the monster loop makes of the rest of the file. -/
theorem load_level_tail (d t : Dungeon) (sz : Nat) (f : FileIn) (tail : List Nat)
    (hr : d.rooms.length ≤ 10) (hf : f.data = writeLevel d sz ++ tail) :
    ∃ f3 : FileIn, f3.data = tail ∧
      (load_dungeon t f).characters =
        (loadRoster (if (fread16 f3).2.1 then (fread16 f3).1 else 0) (fread16 f3).2.2).1 ∧
      (∀ x y, inBounds x y = true →
        (load_dungeon t f).hardness y x = ((toUInt8 (d.hardness y x) : Nat) : Int)) ∧
      (load_dungeon t f).rooms = (d.rooms.map fun r =>
        ⟨(toUInt8 r.x : Nat), (toUInt8 r.y : Nat), (toUInt8 r.w : Nat),
          (toUInt8 r.h : Nat)⟩) ∧
      ((load_dungeon t f).upCount, (load_dungeon t f).up_xCoord,
          (load_dungeon t f).up_yCoord) =
        (if d.upCount > 0 then
          ((1 : Int), ((toUInt8 d.up_xCoord : Nat) : Int), ((toUInt8 d.up_yCoord : Nat) : Int))
        else (0, t.up_xCoord, t.up_yCoord)) ∧
      ((load_dungeon t f).downCount, (load_dungeon t f).down_xCoord,
          (load_dungeon t f).down_yCoord) =
        (if d.downCount > 0 then
          ((1 : Int), ((toUInt8 d.down_xCoord : Nat) : Int),
            ((toUInt8 d.down_yCoord : Nat) : Int))
        else (0, t.down_xCoord, t.down_yCoord)) := by
  rw [writeLevel_eq] at hf
  simp only [List.append_assoc, List.cons_append] at hf
  obtain ⟨f2, d2, e, -⟩ := load_dungeon_accept t f _ hf
  obtain ⟨h1, -, -, h4, -, h6, h7, h8, -, -, -⟩ := loadLevel_spec d t _ f2 _ hr d2
  refine ⟨(loadLevel t f2).2, h1, ?_⟩
  generalize loadLevel t f2 = lv at e h4 h6 h7 h8
  rw [e]
  exact ⟨rfl, h4, h6, h7, h8⟩

theorem fread16_short (f : FileIn) (h : f.data.length < 2) : (fread16 f).2.1 = false := by
  unfold fread16
  split
  · rename_i b0 b1 rest heq
    rw [heq] at h
    simp only [List.length_cons] at h
    omega
  · rfl

theorem fread16_pair (f : FileIn) (b0 b1 : Nat) (rest : List Nat)
    (h : f.data = b0 :: b1 :: rest) :
    (fread16 f).1 = b0 % 256 * 256 + b1 % 256 ∧ (fread16 f).2.1 = true := by
  unfold fread16
  rw [h]
  exact ⟨rfl, rfl⟩

/-- The number of monsters `load_dungeon` creates is the stored count, however many bytes
follow it; without a complete count it is 0. -/
theorem load_roster_count (d t : Dungeon) (sz : Nat) (f : FileIn) (tail : List Nat)
    (hr : d.rooms.length ≤ 10) (hf : f.data = writeLevel d sz ++ tail) :
    (∀ b0 b1 rest, tail = b0 :: b1 :: rest →
      (load_dungeon t f).characters.length = b0 % 256 * 256 + b1 % 256) ∧
    (tail.length < 2 → (load_dungeon t f).characters = []) := by
  obtain ⟨f3, d3, e, -⟩ := load_level_tail d t sz f tail hr hf
  constructor
  · intro b0 b1 rest ht
    obtain ⟨v1, v2⟩ := fread16_pair f3 b0 b1 rest (d3.trans ht)
    rw [e, loadRoster_length, v2, if_pos rfl, v1]
  · intro hl
    have v2 := fread16_short f3 (by rw [d3]; exact hl)
    rw [e, v2]
    rfl

/-- C18, evaluated on the code, for files that are well formed up to the down-stair
section (here the level of `sampleDungeon`) and whatever the variables of the unchecked
reads hold: when the count is missing or has one byte only, no monster is created; when
the count is 2 and no byte follows, two monsters are created; when the count is 1 and
three bytes follow, one monster is created. -/
theorem load_dungeon_truncated : ∀ stale : Nat → Nat,
    (load_dungeon Dungeon.new
      (FileIn.open (writeLevel sampleDungeon 0) stale)).characters = [] ∧
    (load_dungeon Dungeon.new
      (FileIn.open (writeLevel sampleDungeon 0 ++ [0]) stale)).characters = [] ∧
    (load_dungeon Dungeon.new
      (FileIn.open (writeLevel sampleDungeon 0 ++ [0, 2]) stale)).characters.length = 2 ∧
    (load_dungeon Dungeon.new
      (FileIn.open (writeLevel sampleDungeon 0 ++ [0, 1, 7, 8, 9]) stale)).characters.length =
        1 := by
  intro stale
  have hr : sampleDungeon.rooms.length ≤ 10 := by decide
  refine ⟨?_, ?_, ?_, ?_⟩
  · exact (load_roster_count sampleDungeon Dungeon.new 0 _ [] hr
      ((open_data _ _).trans (List.append_nil _).symm)).2 (by decide)
  · exact (load_roster_count sampleDungeon Dungeon.new 0 _ [0] hr (open_data _ _)).2
      (by decide)
  · exact (load_roster_count sampleDungeon Dungeon.new 0 _ [0, 2] hr (open_data _ _)).1
      0 2 [] rfl
  · exact (load_roster_count sampleDungeon Dungeon.new 0 _ [0, 1, 7, 8, 9] hr
      (open_data _ _)).1 0 1 [7, 8, 9] rfl

theorem save_dungeon_split (d : Dungeon) :
    save_dungeon d = writeLevel d (saveFileSize d) ++
      (htobe16 (countAlive d.characters) ++ monsterBytes (liveNPCs d.characters)) := by
  unfold save_dungeon
  simp only [foldl_writeMonster, fwrite, List.append_assoc]

theorem liveNPCs_spec (cs : List Character) (c : Character) :
    c ∈ liveNPCs cs ↔ c ∈ cs ∧ c.type = CharType.NPC_TYPE ∧ c.alive = true := by
  unfold liveNPCs
  simp [List.mem_filter]

theorem NPC_new_fields (flags : Nat) (x y spd hp : Int) :
    (NPC.new flags x y spd hp).type = CharType.NPC_TYPE ∧
    (NPC.new flags x y spd hp).alive = true ∧
    (NPC.new flags x y spd hp).x = x ∧ (NPC.new flags x y spd hp).y = y ∧
    (NPC.new flags x y spd hp).speed = spd ∧ (NPC.new flags x y spd hp).hp = hp ∧
    (NPC.new flags x y spd hp).btype = flags % 256 ∧
    (NPC.new flags x y spd hp).symbol = hex_map.getD (flags % 256 % 16) '?' := by
  refine ⟨rfl, rfl, rfl, rfl, rfl, rfl, rfl, ?_⟩
  show hex_map.getD ((flags % 256) &&& 0x0F) '?' = _
  rw [show (0x0F : Nat) = 2 ^ 4 - 1 from rfl, Nat.and_pow_two_sub_one_eq_mod]

/-- C19 as amended: for a roster with at most 65535 live NPCs (and the at most 10 rooms the
level has room for), `save_dungeon` writes the number of live NPCs as the count and one
5-byte record per live NPC in roster order, dead NPCs and the PC being left out; loading
these bytes yields a roster of exactly that many characters, in the same order, each an
NPC, alive, with symbol the hex digit of the low nibble of its flags, and with the same x,
y, speed, hp and flags wherever the value is in `0 .. 255`. -/
theorem monster_roundtrip (d t : Dungeon) (stale : Nat → Nat) (hr : d.rooms.length ≤ 10)
    (hm : (liveNPCs d.characters).length < 65536) :
    save_dungeon d = writeLevel d (saveFileSize d) ++
      (htobe16 (liveNPCs d.characters).length ++ monsterBytes (liveNPCs d.characters)) ∧
    (∀ c, c ∈ liveNPCs d.characters ↔
      c ∈ d.characters ∧ c.type = CharType.NPC_TYPE ∧ c.alive = true) ∧
    (load_dungeon t (FileIn.open (save_dungeon d) stale)).characters.length =
      (liveNPCs d.characters).length ∧
    (∀ (i : Nat) (c : Character), (liveNPCs d.characters)[i]? = some c →
      ∃ c1, (load_dungeon t (FileIn.open (save_dungeon d) stale)).characters[i]? = some c1 ∧
        c1.type = CharType.NPC_TYPE ∧ c1.alive = true ∧
        c1.symbol = hex_map.getD (c1.btype % 16) '?' ∧
        (0 ≤ c.x ∧ c.x ≤ 255 → c1.x = c.x) ∧ (0 ≤ c.y ∧ c.y ≤ 255 → c1.y = c.y) ∧
        (0 ≤ c.speed ∧ c.speed ≤ 255 → c1.speed = c.speed) ∧
        (0 ≤ c.hp ∧ c.hp ≤ 255 → c1.hp = c.hp) ∧
        (c.btype ≤ 255 → c1.btype = c.btype)) := by
  have hcount : countAlive d.characters = (liveNPCs d.characters).length := by
    rw [countAlive_eq]
    exact Nat.mod_eq_of_lt hm
  obtain ⟨-, -, -, -, -, -, -, hros⟩ :=
    load_save_fields d t (FileIn.open (save_dungeon d) stale) hr rfl
  have hL := hros hcount
  refine ⟨?_, liveNPCs_spec d.characters, ?_, ?_⟩
  · rw [save_dungeon_split, hcount]
  · rw [hL, List.length_map]
  · intro i c hc
    rw [hL, List.getElem?_map, hc]
    refine ⟨_, rfl, ?_⟩
    obtain ⟨n1, n2, n3, n4, n5, n6, n7, n8⟩ := NPC_new_fields (c.btype % 256)
      (toUInt8 c.x : Nat) (toUInt8 c.y : Nat) (toUInt8 c.speed : Nat) (toUInt8 c.hp : Nat)
    refine ⟨n1, n2, ?_, ?_, ?_, ?_, ?_, ?_⟩
    · rw [n8, n7]
    · intro h; rw [n3]; exact toUInt8_cast _ h.1 h.2
    · intro h; rw [n4]; exact toUInt8_cast _ h.1 h.2
    · intro h; rw [n5]; exact toUInt8_cast _ h.1 h.2
    · intro h; rw [n6]; exact toUInt8_cast _ h.1 h.2
    · intro h; rw [n7]; omega

theorem monster_roundtrip_witness :
    (load_dungeon Dungeon.new (FileIn.open (save_dungeon sampleDungeon) fun _ => 0)).characters.length =
      (liveNPCs sampleDungeon.characters).length :=
  (monster_roundtrip sampleDungeon Dungeon.new (fun _ => 0) (by decide) (by decide)).2.2.1

/-- C19, the claim as stated fails: with 65536 live NPCs in the roster the count wraps: the
count written is 0, not the number of live NPCs, and loading the file yields an empty
roster. -/
theorem monster_count_wraps :
    (liveNPCs crowdedDungeon.characters).length = 65536 ∧
    countAlive crowdedDungeon.characters = 0 ∧
    (∃ rest, save_dungeon crowdedDungeon =
      writeLevel crowdedDungeon (saveFileSize crowdedDungeon) ++ 0 :: 0 :: rest) ∧
    ∀ stale : Nat → Nat,
      (load_dungeon Dungeon.new
        (FileIn.open (save_dungeon crowdedDungeon) stale)).characters = [] := by
  have hlive : liveNPCs crowdedDungeon.characters = List.replicate 65536 (NPC.new 0 1 1 10 10) := by
    unfold liveNPCs crowdedDungeon
    show List.filter _ (List.replicate 65536 (NPC.new 0 1 1 10 10)) = _
    rw [List.filter_replicate, if_pos (by decide)]
  have hlen : (liveNPCs crowdedDungeon.characters).length = 65536 := by
    rw [hlive, List.length_replicate]
  have hcount : countAlive crowdedDungeon.characters = 0 := by
    rw [countAlive_eq, hlen]
  have hsplit : save_dungeon crowdedDungeon =
      writeLevel crowdedDungeon (saveFileSize crowdedDungeon) ++
        0 :: 0 :: monsterBytes (liveNPCs crowdedDungeon.characters) := by
    rw [save_dungeon_split, hcount]
    rfl
  refine ⟨hlen, hcount, ⟨_, hsplit⟩, ?_⟩
  intro stale
  have h0 := (load_roster_count crowdedDungeon Dungeon.new _ _ _ (by decide)
    ((open_data _ stale).trans hsplit)).1 0 0 _ rfl
  exact List.length_eq_zero.mp h0

/-! ## Tunneling -/

/-- C20: when the NPC in slot `i` is alive, has the tunneling bit, and the destination
`(bx, by)` it chooses has hardness `h` with `0 < h < 255`, `NPC::doTurn` sets the hardness
of that cell to `max (h - 85) 0`, makes the cell corridor when the new hardness is 0 and
leaves its floor kind alone otherwise, and changes nothing else: no other cell, no
character (so the NPC stays where it is) and not the PC's life. -/
theorem NPC_doTurn_erodes (i : Nat) (d : Dungeon) (rng : Rng) (me : Character)
    (hme : d.characters[i]? = some me) (halive : me.alive = true)
    (htun : (me.btype &&& 0x4 != 0) = true)
    (hh : 0 < d.hardness (NPC.chooseTarget me d rng).2.1 (NPC.chooseTarget me d rng).1 ∧
      d.hardness (NPC.chooseTarget me d rng).2.1 (NPC.chooseTarget me d rng).1 < 255) :
    (NPC.doTurn i d rng).1.hardness (NPC.chooseTarget me d rng).2.1
        (NPC.chooseTarget me d rng).1 =
      max (d.hardness (NPC.chooseTarget me d rng).2.1 (NPC.chooseTarget me d rng).1 - 85) 0 ∧
    (NPC.doTurn i d rng).1.base_map (NPC.chooseTarget me d rng).2.1
        (NPC.chooseTarget me d rng).1 =
      (if max (d.hardness (NPC.chooseTarget me d rng).2.1 (NPC.chooseTarget me d rng).1 - 85) 0
          = 0 then '#'
        else d.base_map (NPC.chooseTarget me d rng).2.1 (NPC.chooseTarget me d rng).1) ∧
    (∀ y x, ¬ (y = (NPC.chooseTarget me d rng).2.1 ∧ x = (NPC.chooseTarget me d rng).1) →
      (NPC.doTurn i d rng).1.hardness y x = d.hardness y x ∧
      (NPC.doTurn i d rng).1.base_map y x = d.base_map y x) ∧
    (NPC.doTurn i d rng).1.characters = d.characters ∧
    (NPC.doTurn i d rng).1.characters[i]? = some me ∧
    (NPC.doTurn i d rng).1.pc_is_alive = d.pc_is_alive ∧
    (NPC.doTurn i d rng).1.pc_x = d.pc_x ∧ (NPC.doTurn i d rng).1.pc_y = d.pc_y := by
  have hdo : (NPC.doTurn i d rng).1 =
      NPC.act i me d (NPC.chooseTarget me d rng).1 (NPC.chooseTarget me d rng).2.1 := by
    unfold NPC.doTurn
    rw [hme]
    simp only [halive, Bool.not_true, Bool.false_eq_true, if_false]
  rw [hdo]
  generalize (NPC.chooseTarget me d rng).1 = bx at hh ⊢
  generalize (NPC.chooseTarget me d rng).2.1 = by1 at hh ⊢
  have hact : NPC.act i me d bx by1 =
      { d with
        hardness := d.hardness.set by1 bx
          (if d.hardness by1 bx - 85 < 0 then 0 else d.hardness by1 bx - 85)
        base_map := if (if d.hardness by1 bx - 85 < 0 then 0 else d.hardness by1 bx - 85) = 0
          then d.base_map.set by1 bx '#' else d.base_map } := by
    unfold NPC.act
    simp only [htun, hh.1, hh.2, and_self, if_true, gt_iff_lt]
  rw [hact]
  have hmax : (if d.hardness by1 bx - 85 < 0 then 0 else d.hardness by1 bx - 85) =
      max (d.hardness by1 bx - 85) 0 := by
    split_ifs with hc
    · rw [max_eq_right (by omega)]
    · rw [max_eq_left (by omega)]
  rw [hmax]
  refine ⟨?_, ?_, ?_, rfl, hme, rfl, rfl, rfl⟩
  · simp [Grid.set]
  · show (if max (d.hardness by1 bx - 85) 0 = 0 then d.base_map.set by1 bx '#'
      else d.base_map) by1 bx = _
    split_ifs
    · simp [Grid.set]
    · rfl
  · intro y x hne
    constructor
    · show (d.hardness.set by1 bx _) y x = _
      unfold Grid.set
      rw [if_neg hne]
    · show (if max (d.hardness by1 bx - 85) 0 = 0 then d.base_map.set by1 bx '#'
        else d.base_map) y x = _
      split_ifs
      · unfold Grid.set
        rw [if_neg hne]
      · rfl

theorem NPC_doTurn_erodes_witness :
    (NPC.doTurn 1 softRockDungeon zeroRng).1.hardness 2 2 = 15 ∧
    (NPC.doTurn 1 softRockDungeon zeroRng).1.characters = softRockDungeon.characters :=
  ⟨(NPC_doTurn_erodes 1 softRockDungeon zeroRng (NPC.new 4 1 1 10 10) rfl rfl (by decide)
      ⟨by decide, by decide⟩).1,
    (NPC_doTurn_erodes 1 softRockDungeon zeroRng (NPC.new 4 1 1 10 10) rfl rfl (by decide)
      ⟨by decide, by decide⟩).2.2.2.1⟩


/-! ## Theorems: the speed of the characters -/

theorem loadRoster_speed : ∀ (n : Nat) (f : FileIn), ∀ m ∈ (loadRoster n f).1,
    0 ≤ m.speed ∧ m.speed ≤ 255 := by
  intro n
  induction n with
  | zero => intro f m hm; simp [loadRoster] at hm
  | succ n ih =>
    intro f m hm
    rw [loadRoster] at hm
    simp only at hm
    rcases List.mem_cons.mp hm with h | h
    · rw [h]
      have hs : (NPC.new (fread8 (fread8 (fread8 (fread8 (fread8 f).2).2).2).2).1
          (fread8 f).1 (fread8 (fread8 f).2).1 (fread8 (fread8 (fread8 f).2).2).1
          (fread8 (fread8 (fread8 (fread8 f).2).2).2).1).speed =
          ((fread8 (fread8 (fread8 f).2).2).1 : Int) := rfl
      rw [hs]
      have hlt : ∀ g : FileIn, (fread8 g).1 < 256 := by
        intro g
        unfold fread8
        cases g.data with
        | nil => exact Nat.mod_lt _ (by decide)
        | cons b rest => exact Nat.mod_lt _ (by decide)
      have := hlt (fread8 (fread8 f).2).2
      omega
    · exact ih _ m h

theorem loadRoster_head (n : Nat) (f : FileIn) (mx my mspeed mhp mbtype : Nat)
    (rest : List Nat) (hf : f.data = mx :: my :: mspeed :: mhp :: mbtype :: rest) :
    ∃ m ms, (loadRoster (n + 1) f).1 = m :: ms ∧ m.speed = ((mspeed % 256 : Nat) : Int) := by
  obtain ⟨f1, e1, d1⟩ := fread8_spec f _ _ hf
  obtain ⟨f2, e2, d2⟩ := fread8_spec f1 _ _ d1
  obtain ⟨f3, e3, d3⟩ := fread8_spec f2 _ _ d2
  refine ⟨_, _, by rw [loadRoster], ?_⟩
  show (((fread8 (fread8 (fread8 f).2).2).1 : Nat) : Int) = _
  rw [e1]
  simp only
  rw [e2]
  simp only
  rw [e3]

theorem load_dungeon_speed (t : Dungeon) (f : FileIn) :
    load_dungeon t f = t ∨
      ∀ m ∈ (load_dungeon t f).characters, 0 ≤ m.speed ∧ m.speed ≤ 255 := by
  cases h1 : strcmpEq ((freadMarker f).1 ++ [0]) (FILE_MARKER ++ [0]) with
  | false => exact Or.inl (load_dungeon_bad_marker t f h1).1
  | true =>
    by_cases h2 : (fread32 (freadMarker f).2).1 = FILE_VERSION
    · right
      intro m hm
      have e := (load_dungeon_checked t f h1 h2).1
      generalize loadLevel t (fread32 (freadMarker f).2).2.2 = lv at e
      rw [e] at hm
      exact loadRoster_speed _ _ m hm
    · exact Or.inl (load_dungeon_bad_version t f h2).1

theorem load_save_speeds (d t : Dungeon) (stale : Nat → Nat) (hr : d.rooms.length ≤ 10)
    (hm : (liveNPCs d.characters).length < 65536) :
    (load_dungeon t (FileIn.open (save_dungeon d) stale)).characters.map Character.speed =
      (liveNPCs d.characters).map fun c => ((toUInt8 c.speed : Nat) : Int) := by
  have hcount : countAlive d.characters = (liveNPCs d.characters).length := by
    rw [countAlive_eq]
    exact Nat.mod_eq_of_lt hm
  obtain ⟨-, -, -, -, -, -, -, hros⟩ :=
    load_save_fields d t (FileIn.open (save_dungeon d) stale) hr rfl
  rw [hros hcount, List.map_map]
  rfl

/-- C6, as the code has it: the `NPC` constructor rejects nothing and stores the speed it
is given.  The characters of a generated level have positive speed (`createPC` gives 10,
`createMonster` a value in `5 .. 20`).  A monster that `load_dungeon` reconstructs has the
value of the byte variable `mspeed` as its speed, a value in `0 .. 255`: every character
of the roster that `load_dungeon` builds has a speed in that range, the speed of the first
monster is the third byte of its record, and loading a saved level gives each live NPC the
byte stored for its speed. -/
theorem character_speeds :
    (∀ (flags : Nat) (x y spd hp : Int), (NPC.new flags x y spd hp).speed = spd) ∧
    (∀ (d : Dungeon) (px py : Int), SpeedsPos d → SpeedsPos (d.createPC px py)) ∧
    (∀ (fuel : Nat) (d : Dungeon) (rng : Rng) (d1 : Dungeon) (rng1 : Rng), SpeedsPos d →
      d.createMonster fuel rng = some (d1, rng1) →
      SpeedsPos d1 ∧ ∃ m, d1.characters = d.characters ++ [m] ∧ 5 ≤ m.speed ∧ m.speed ≤ 20) ∧
    (∀ (t : Dungeon) (f : FileIn), load_dungeon t f = t ∨
      ∀ m ∈ (load_dungeon t f).characters, 0 ≤ m.speed ∧ m.speed ≤ 255) ∧
    (∀ (n : Nat) (f : FileIn) (mx my mspeed mhp mbtype : Nat) (rest : List Nat),
      f.data = mx :: my :: mspeed :: mhp :: mbtype :: rest →
      ∃ m ms, (loadRoster (n + 1) f).1 = m :: ms ∧ m.speed = ((mspeed % 256 : Nat) : Int)) ∧
    (∀ (d t : Dungeon) (stale : Nat → Nat), d.rooms.length ≤ 10 →
      (liveNPCs d.characters).length < 65536 →
      (load_dungeon t (FileIn.open (save_dungeon d) stale)).characters.map Character.speed =
        (liveNPCs d.characters).map fun c => ((toUInt8 c.speed : Nat) : Int)) := by
  refine ⟨fun _ _ _ _ _ => rfl, createPC_speeds, ?_, load_dungeon_speed, loadRoster_head,
    load_save_speeds⟩
  intro fuel d rng d1 rng1 hsp h
  obtain ⟨m, hm, h5, h20⟩ := createMonster_speeds fuel d rng d1 rng1 h
  refine ⟨?_, m, hm, h5, h20⟩
  intro c hc
  rw [hm, List.mem_append, List.mem_singleton] at hc
  rcases hc with hc | hc
  · exact hsp c hc
  · rw [hc]; omega

theorem character_speeds_witness :
    (SpeedsPos chaseDungeon ∧ SpeedsPos (chaseDungeon.createPC 1 1)) ∧
    (sampleDungeon.rooms.length ≤ 10 ∧ (liveNPCs sampleDungeon.characters).length < 65536) ∧
    (load_dungeon Dungeon.new
      (FileIn.open (save_dungeon sampleDungeon) fun _ => 0)).characters.map Character.speed =
      (liveNPCs sampleDungeon.characters).map fun c => ((toUInt8 c.speed : Nat) : Int) :=
  ⟨⟨by unfold SpeedsPos; decide,
      character_speeds.2.1 chaseDungeon 1 1 (by unfold SpeedsPos; decide)⟩,
    ⟨by decide, by decide⟩,
    character_speeds.2.2.2.2.2 sampleDungeon Dungeon.new (fun _ => 0) (by decide) (by decide)⟩

/-- C6, counterexample: the `NPC` constructor accepts the speeds 0 and -3; the file that
`save_dungeon` writes for the roster of `sampleDungeon` holds the monster records
`(1, 1, 10, 10, 0)` and `(9, 9, 0, 10, 0)`, and `load_dungeon` builds from it two monsters
of speed 10 and 0; and when the scheduler processes a live monster of speed 0 it reaches
the division `1000 / 0`. -/
theorem speed_not_rejected :
    (NPC.new 0 1 1 0 10).speed = 0 ∧ (NPC.new 0 1 1 (-3) 10).speed = -3 ∧
    monsterBytes (liveNPCs sampleDungeon.characters) = [1, 1, 10, 10, 0, 9, 9, 0, 10, 0] ∧
    (load_dungeon Dungeon.new
      (FileIn.open (save_dungeon sampleDungeon) fun _ => 0)).characters.map Character.speed =
      [10, 0] ∧
    gameLoopBody 0 ⟨0, 2⟩ ⟨[], sampleDungeon, countingRng, [], 2, 0⟩ = none := by
  refine ⟨rfl, rfl, by decide, ?_, rfl⟩
  rw [load_save_speeds sampleDungeon Dungeon.new (fun _ => 0) (by decide) (by decide)]
  decide

/-! ## Theorems: what a turn does -/

theorem NPC_doTurn_alive (i : Nat) (d : Dungeon) (rng : Rng) (me : Character)
    (hme : d.characters[i]? = some me) (halive : me.alive = true) :
    NPC.doTurn i d rng =
      (NPC.act i me d (NPC.chooseTarget me d rng).1 (NPC.chooseTarget me d rng).2.1,
        (NPC.chooseTarget me d rng).2.2) := by
  unfold NPC.doTurn
  rw [hme]
  simp only [halive, Bool.not_true, Bool.false_eq_true, if_false]

theorem NPC_act_erode (i : Nat) (me : Character) (d : Dungeon) (bx by1 : Int)
    (htun : (me.btype &&& 0x4 != 0) = true)
    (hh : 0 < d.hardness by1 bx ∧ d.hardness by1 bx < 255) :
    NPC.act i me d bx by1 =
      { d with
        hardness := d.hardness.set by1 bx (max (d.hardness by1 bx - 85) 0)
        base_map := if max (d.hardness by1 bx - 85) 0 = 0
          then d.base_map.set by1 bx '#' else d.base_map } := by
  have hmax : (if d.hardness by1 bx - 85 < 0 then 0 else d.hardness by1 bx - 85) =
      max (d.hardness by1 bx - 85) 0 := by
    split_ifs with hc
    · rw [max_eq_right (by omega)]
    · rw [max_eq_left (by omega)]
  unfold NPC.act
  simp only [htun, hh.1, hh.2, and_self, if_true, gt_iff_lt, hmax]

theorem NPC_act_move (i : Nat) (me : Character) (d : Dungeon) (bx by1 : Int)
    (h : ¬ ((me.btype &&& 0x4 != 0) = true ∧ d.hardness by1 bx > 0 ∧ d.hardness by1 bx < 255)) :
    NPC.act i me d bx by1 =
      { d with
        pc_is_alive := if d.pc_x = bx ∧ d.pc_y = by1 then false else d.pc_is_alive
        characters := d.characters.set i { me with x := bx, y := by1 } } := by
  unfold NPC.act
  simp only [if_neg h]

/-! ### Repeated erosion -/

theorem tunnelVisit_spec (d : Dungeon) (x y : Int) (v : Nat × Rng)
    (h : tunnelVisit d x y v = true) :
    ∃ me, d.characters[v.1]? = some me ∧ me.alive = true ∧ (me.btype &&& 0x4 != 0) = true ∧
      (NPC.chooseTarget me d v.2).1 = x ∧ (NPC.chooseTarget me d v.2).2.1 = y := by
  unfold tunnelVisit at h
  cases hme : d.characters[v.1]? with
  | none => rw [hme] at h; exact absurd h (by simp)
  | some me =>
    rw [hme] at h
    simp only [Bool.and_eq_true, decide_eq_true_eq] at h
    exact ⟨me, rfl, h.1.1, h.1.2, h.2.1, h.2.2⟩

theorem tunnel_visits_run (x y : Int) : ∀ (vs : List (Nat × Rng)) (d : Dungeon),
    0 ≤ d.hardness y x → d.hardness y x < 255 → tunnelVisits x y d vs = true →
    (NPC.turns d vs).hardness y x = max (d.hardness y x - 85 * (vs.length : Int)) 0 ∧
    ((vs.length : Int) ≤ (d.hardness y x + 84) / 85 →
      (NPC.turns d vs).characters = d.characters) := by
  intro vs
  induction vs with
  | nil =>
    intro d h0 h1 _
    refine ⟨?_, fun _ => rfl⟩
    simp only [NPC.turns, List.length_nil, Nat.cast_zero, mul_zero, sub_zero]
    exact (max_eq_left h0).symm
  | cons v vs ih =>
    intro d h0 h1 hv
    simp only [tunnelVisits, Bool.and_eq_true] at hv
    obtain ⟨me, hme, halive, htun, hx, hy⟩ := tunnelVisit_spec d x y v hv.1
    have hdo := NPC_doTurn_alive v.1 d v.2 me hme halive
    rw [hx, hy] at hdo
    simp only [NPC.turns, List.length_cons, Nat.cast_add, Nat.cast_one]
    have hv2 := hv.2
    rw [hdo] at hv2 ⊢
    simp only at hv2 ⊢
    by_cases hz : d.hardness y x = 0
    · have hact := NPC_act_move v.1 me d x y (by rw [hz]; simp)
      rw [hact] at hv2 ⊢
      obtain ⟨i1, -⟩ := ih _ (by show 0 ≤ d.hardness y x; omega)
        (by show d.hardness y x < 255; omega) hv2
      rw [i1]
      show max (d.hardness y x - 85 * (vs.length : Int)) 0 = _ ∧ _
      rw [hz]
      refine ⟨?_, ?_⟩
      · rw [max_eq_right (by omega), max_eq_right (by omega)]
      · intro hc
        omega
    · have hact := NPC_act_erode v.1 me d x y htun ⟨by omega, h1⟩
      rw [hact] at hv2 ⊢
      have hcell : (d.hardness.set y x (max (d.hardness y x - 85) 0)) y x =
          max (d.hardness y x - 85) 0 := by simp [Grid.set]
      have hm : 0 ≤ max (d.hardness y x - 85) 0 ∧ max (d.hardness y x - 85) 0 < 255 := by
        rcases le_total (d.hardness y x - 85) 0 with hc | hc
        · rw [max_eq_right hc]; omega
        · rw [max_eq_left hc]; omega
      obtain ⟨i1, i2⟩ := ih _ (by show 0 ≤ (d.hardness.set y x _) y x; rw [hcell]; exact hm.1)
        (by show (d.hardness.set y x _) y x < 255; rw [hcell]; exact hm.2) hv2
      rw [i1]
      show max ((d.hardness.set y x (max (d.hardness y x - 85) 0)) y x -
        85 * (vs.length : Int)) 0 = _ ∧ _
      rw [hcell]
      refine ⟨?_, ?_⟩
      · simp only [max_def]
        split_ifs <;> omega
      · intro hc
        have hi := i2 (by
          show (vs.length : Int) ≤ ((d.hardness.set y x _) y x + 84) / 85
          rw [hcell]
          simp only [max_def]
          split_ifs <;> omega)
        rw [hi]

/-- C21: for a cell `(x, y)` of hardness `h` with `0 < h < 255` and any run of `k` turns
that are all tunneling visits of that cell (each by a live tunneling NPC whose chosen
destination is the cell), the hardness after the run is `max (h - 85 k) 0`; it is 0 iff
`k` is at least `ceil (h / 85)`, which is 1 for `h ≤ 85`, 2 for `86 .. 170` and 3 for
`171 .. 254`; and as long as `k` is at most `ceil (h / 85)` the roster is the one before
the run, so no visiting NPC has relocated. -/
theorem tunneling_visits (d : Dungeon) (x y : Int) (vs : List (Nat × Rng))
    (h1 : 0 < d.hardness y x) (h2 : d.hardness y x < 255)
    (hv : tunnelVisits x y d vs = true) :
    (NPC.turns d vs).hardness y x = max (d.hardness y x - 85 * (vs.length : Int)) 0 ∧
    ((NPC.turns d vs).hardness y x = 0 ↔ (d.hardness y x + 84) / 85 ≤ (vs.length : Int)) ∧
    (d.hardness y x + 84) / 85 =
      (if d.hardness y x ≤ 85 then 1 else if d.hardness y x ≤ 170 then 2 else 3) ∧
    ((vs.length : Int) ≤ (d.hardness y x + 84) / 85 →
      (NPC.turns d vs).characters = d.characters) := by
  obtain ⟨i1, i2⟩ := tunnel_visits_run x y vs d (by omega) h2 hv
  refine ⟨i1, ?_, ?_, i2⟩
  · rw [i1]
    simp only [max_def]
    split_ifs <;> omega
  · split_ifs <;> omega

theorem tunneling_visits_witness :
    (NPC.turns softRockDungeon [(1, zeroRng), (1, zeroRng)]).hardness 2 2 = 0 ∧
    (NPC.turns softRockDungeon [(1, zeroRng)]).hardness 2 2 = 15 ∧
    (NPC.turns softRockDungeon [(1, zeroRng), (1, zeroRng)]).characters =
      softRockDungeon.characters :=
  ⟨(tunneling_visits softRockDungeon 2 2 [(1, zeroRng), (1, zeroRng)] (by decide) (by decide)
      (by decide)).1,
    (tunneling_visits softRockDungeon 2 2 [(1, zeroRng)] (by decide) (by decide)
      (by decide)).1,
    (tunneling_visits softRockDungeon 2 2 [(1, zeroRng), (1, zeroRng)] (by decide) (by decide)
      (by decide)).2.2.2 (by decide)⟩

/-! ### The erosion of the procedural variant -/

theorem getElem?_set_self_of_some {α : Type} (l : List α) (i : Nat) (a b : α)
    (h : l[i]? = some a) : (l.set i b)[i]? = some b := by
  have hlt : i < l.length := by
    by_contra hc
    rw [List.getElem?_eq_none (by omega)] at h
    exact Option.noConfusion h
  simp [List.getElem?_set, hlt]

/-- C22 (as the code has it): in `do_monster_movement` of the procedural variant, when a
live tunneling monster chooses a destination of hardness `h` with `0 < h < 255`: if
`h > 85`, the cell's hardness becomes `h - 85` (which is `max (h - 85) 0`), no floor kind,
no display cell, no character and not the PC's life changes, so the monster stays where it
was; if `h ≤ 85`, the monster moves onto the destination in this same turn. -/
theorem proc_monster_erodes (i : Nat) (d : Dungeon) (rng : Rng) (m : Character)
    (hme : d.characters[i]? = some m) (halive : m.alive = true)
    (htun : (m.btype &&& 0x4 != 0) = true)
    (hh : 0 < d.hardness (NPC.chooseTarget m d rng).2.1 (NPC.chooseTarget m d rng).1 ∧
      d.hardness (NPC.chooseTarget m d rng).2.1 (NPC.chooseTarget m d rng).1 < 255) :
    (85 < d.hardness (NPC.chooseTarget m d rng).2.1 (NPC.chooseTarget m d rng).1 →
      (Proc.do_monster_movement i d rng).1.hardness (NPC.chooseTarget m d rng).2.1
          (NPC.chooseTarget m d rng).1 =
        max (d.hardness (NPC.chooseTarget m d rng).2.1 (NPC.chooseTarget m d rng).1 - 85) 0 ∧
      0 < (Proc.do_monster_movement i d rng).1.hardness (NPC.chooseTarget m d rng).2.1
          (NPC.chooseTarget m d rng).1 ∧
      (∀ y x, ¬ (y = (NPC.chooseTarget m d rng).2.1 ∧ x = (NPC.chooseTarget m d rng).1) →
        (Proc.do_monster_movement i d rng).1.hardness y x = d.hardness y x) ∧
      (Proc.do_monster_movement i d rng).1.base_map = d.base_map ∧
      (Proc.do_monster_movement i d rng).1.dungeon = d.dungeon ∧
      (Proc.do_monster_movement i d rng).1.characters = d.characters ∧
      (Proc.do_monster_movement i d rng).1.pc_is_alive = d.pc_is_alive) ∧
    (d.hardness (NPC.chooseTarget m d rng).2.1 (NPC.chooseTarget m d rng).1 ≤ 85 →
      (Proc.do_monster_movement i d rng).1.characters[i]? =
        some { m with x := (NPC.chooseTarget m d rng).1, y := (NPC.chooseTarget m d rng).2.1 } ∧
      (Proc.do_monster_movement i d rng).1.base_map = d.base_map) := by
  unfold Proc.do_monster_movement
  rw [hme]
  simp only [halive, Bool.not_true, Bool.false_eq_true, if_false, htun, hh.1, hh.2, and_self,
    if_true, gt_iff_lt]
  generalize (NPC.chooseTarget m d rng).1 = bx at hh ⊢
  generalize (NPC.chooseTarget m d rng).2.1 = by1 at hh ⊢
  generalize (NPC.chooseTarget m d rng).2.2 = rng1
  have hcell : (d.hardness.set by1 bx (d.hardness by1 bx - 85)) by1 bx =
      d.hardness by1 bx - 85 := by simp [Grid.set]
  rw [hcell]
  constructor
  · intro hbig
    rw [if_pos (by omega)]
    refine ⟨?_, ?_, ?_, rfl, rfl, rfl, rfl⟩
    · show (d.hardness.set by1 bx (d.hardness by1 bx - 85)) by1 bx = _
      rw [hcell, max_eq_left (by omega)]
    · show 0 < (d.hardness.set by1 bx (d.hardness by1 bx - 85)) by1 bx
      rw [hcell]; omega
    · intro y x hne
      show (d.hardness.set by1 bx (d.hardness by1 bx - 85)) y x = _
      unfold Grid.set
      rw [if_neg hne]
  · intro hsmall
    rw [if_neg (by omega)]
    refine ⟨?_, rfl⟩
    have h3 := getElem?_set_self_of_some d.characters i m { m with x := bx, y := by1 } hme
    show (d.characters.set i { m with x := bx, y := by1 })[i]? = _
    rw [h3, halive]

theorem proc_monster_erodes_witness :
    (Proc.do_monster_movement 1 softRockDungeon zeroRng).1.hardness 2 2 = max (100 - 85) 0 ∧
    (Proc.do_monster_movement 1 softRockDungeon zeroRng).1.characters =
      softRockDungeon.characters :=
  ⟨((proc_monster_erodes 1 softRockDungeon zeroRng (NPC.new 4 1 1 10 10) rfl rfl (by decide)
      ⟨by decide, by decide⟩).1 (by decide)).1,
    ((proc_monster_erodes 1 softRockDungeon zeroRng (NPC.new 4 1 1 10 10) rfl rfl (by decide)
      ⟨by decide, by decide⟩).1 (by decide)).2.2.2.2.2.1⟩

/-- C22, counterexample: on a level of hardness 50 a tunneling monster at `(1, 1)` chooses
the destination `(2, 2)`; after `do_monster_movement` the hardness of that cell is `-35`,
not `max (50 - 85) 0 = 0`, and the monster stands on `(2, 2)`. -/
theorem proc_erosion_breaks_through :
    ((NPC.new 4 1 1 10 10).btype &&& 0x4 != 0) = true ∧
    (NPC.chooseTarget (NPC.new 4 1 1 10 10) crumblyDungeon zeroRng).1 = 2 ∧
    (NPC.chooseTarget (NPC.new 4 1 1 10 10) crumblyDungeon zeroRng).2.1 = 2 ∧
    crumblyDungeon.hardness 2 2 = 50 ∧
    (crumblyDungeon.characters[1]?.map fun c => (c.x, c.y)) = some (1, 1) ∧
    (Proc.do_monster_movement 1 crumblyDungeon zeroRng).1.hardness 2 2 = -35 ∧
    ((Proc.do_monster_movement 1 crumblyDungeon zeroRng).1.characters[1]?.map
      fun c => (c.x, c.y)) = some (2, 2) := by
  refine ⟨by decide, by decide, by decide, by decide, by decide, by decide, by decide⟩

/-! ### The telepathic bit -/

theorem xor_two_and (b c : Nat) (hc : 2 &&& c = 0) : (b ^^^ 2) &&& c = b &&& c := by
  rw [Nat.and_xor_distrib_right, hc, Nat.xor_zero]

theorem chooseTarget_congr (me me2 : Character) (d : Dungeon) (rng : Rng)
    (hx : me2.x = me.x) (hy : me2.y = me.y)
    (h1 : me2.btype &&& 0x1 = me.btype &&& 0x1) (h4 : me2.btype &&& 0x4 = me.btype &&& 0x4)
    (h8 : me2.btype &&& 0x8 = me.btype &&& 0x8) :
    NPC.chooseTarget me2 d rng = NPC.chooseTarget me d rng := by
  unfold NPC.chooseTarget
  rw [hx, hy, h1, h4, h8]

theorem map_set_same {α β : Type} (f : α → β) (l : List α) (i : Nat) (a b : α)
    (h : l[i]? = some a) (hf : f b = f a) : (l.set i b).map f = l.map f := by
  apply List.ext_getElem?
  intro j
  simp only [List.getElem?_map, List.getElem?_set]
  by_cases hij : i = j
  · subst hij
    have hlt : i < l.length := by
      by_contra hc
      rw [List.getElem?_eq_none (by omega)] at h
      exact Option.noConfusion h
    simp [hlt, h, hf]
  · simp [hij]

/-- C30: the telepathic bit is inert.  Take any state, any slot `i` and any random
generator, and flip the bit `0x2` of the behaviour flags of the character in that slot
(the symbol, which is derived from the flags, may change with it).  Then `NPC::doTurn` for
that slot makes the same draws and ends with the same hardness grid, the same floor kinds,
the same PC life and the same position and life of every character as without the flip;
and so does `do_monster_movement` of the procedural variant. -/
theorem telepathic_inert (i : Nat) (d : Dungeon) (rng : Rng) (s : Char) :
    (NPC.doTurn i (d.modifyChar i fun c => { c with btype := c.btype ^^^ 0x2, symbol := s })
        rng).2 = (NPC.doTurn i d rng).2 ∧
    (NPC.doTurn i (d.modifyChar i fun c => { c with btype := c.btype ^^^ 0x2, symbol := s })
        rng).1.hardness = (NPC.doTurn i d rng).1.hardness ∧
    (NPC.doTurn i (d.modifyChar i fun c => { c with btype := c.btype ^^^ 0x2, symbol := s })
        rng).1.base_map = (NPC.doTurn i d rng).1.base_map ∧
    (NPC.doTurn i (d.modifyChar i fun c => { c with btype := c.btype ^^^ 0x2, symbol := s })
        rng).1.pc_is_alive = (NPC.doTurn i d rng).1.pc_is_alive ∧
    (NPC.doTurn i (d.modifyChar i fun c => { c with btype := c.btype ^^^ 0x2, symbol := s })
        rng).1.characters.map (fun c => (c.x, c.y, c.alive)) =
      (NPC.doTurn i d rng).1.characters.map (fun c => (c.x, c.y, c.alive)) ∧
    (Proc.do_monster_movement i
        (d.modifyChar i fun c => { c with btype := c.btype ^^^ 0x2, symbol := s }) rng).2 =
      (Proc.do_monster_movement i d rng).2 ∧
    (Proc.do_monster_movement i
        (d.modifyChar i fun c => { c with btype := c.btype ^^^ 0x2, symbol := s })
        rng).1.hardness = (Proc.do_monster_movement i d rng).1.hardness ∧
    (Proc.do_monster_movement i
        (d.modifyChar i fun c => { c with btype := c.btype ^^^ 0x2, symbol := s })
        rng).1.base_map = (Proc.do_monster_movement i d rng).1.base_map ∧
    (Proc.do_monster_movement i
        (d.modifyChar i fun c => { c with btype := c.btype ^^^ 0x2, symbol := s })
        rng).1.pc_is_alive = (Proc.do_monster_movement i d rng).1.pc_is_alive ∧
    (Proc.do_monster_movement i
        (d.modifyChar i fun c => { c with btype := c.btype ^^^ 0x2, symbol := s })
        rng).1.characters.map (fun c => (c.x, c.y, c.alive)) =
      (Proc.do_monster_movement i d rng).1.characters.map (fun c => (c.x, c.y, c.alive)) := by
  unfold Dungeon.modifyChar
  cases hme : d.characters[i]? with
  | none => exact ⟨rfl, rfl, rfl, rfl, rfl, rfl, rfl, rfl, rfl, rfl⟩
  | some me =>
    simp only
    have h1 : (me.btype ^^^ 0x2) &&& 0x1 = me.btype &&& 0x1 := xor_two_and _ _ (by decide)
    have h4 : (me.btype ^^^ 0x2) &&& 0x4 = me.btype &&& 0x4 := xor_two_and _ _ (by decide)
    have h8 : (me.btype ^^^ 0x2) &&& 0x8 = me.btype &&& 0x8 := xor_two_and _ _ (by decide)
    have hme2 : (d.characters.set i { me with btype := me.btype ^^^ 0x2, symbol := s })[i]? =
        some { me with btype := me.btype ^^^ 0x2, symbol := s } :=
      getElem?_set_self_of_some _ _ _ _ hme
    have ht : ∀ l : List Character,
        NPC.chooseTarget { me with btype := me.btype ^^^ 0x2, symbol := s }
          { d with characters := l } rng = NPC.chooseTarget me d rng :=
      fun l => chooseTarget_congr me _ { d with characters := l } rng rfl rfl h1 h4 h8
    have hmap : (d.characters.set i { me with btype := me.btype ^^^ 0x2, symbol := s }).map
        (fun c => (c.x, c.y, c.alive)) = d.characters.map (fun c => (c.x, c.y, c.alive)) :=
      map_set_same _ _ _ me _ hme rfl
    have hmove : ∀ bx by1 : Int,
        ((d.characters.set i { me with btype := me.btype ^^^ 0x2, symbol := s }).set i
          { me with btype := me.btype ^^^ 0x2, symbol := s, x := bx, y := by1 }).map
          (fun c => (c.x, c.y, c.alive)) =
        (d.characters.set i { me with x := bx, y := by1 }).map
          (fun c => (c.x, c.y, c.alive)) := by
      intro bx by1
      rw [List.set_set, List.map_set, List.map_set]
    refine ⟨?_, ?_, ?_, ?_, ?_, ?_, ?_, ?_, ?_, ?_⟩
    all_goals
      first
      | (unfold NPC.doTurn NPC.act
         simp only [hme, hme2, ht, h4]
         split_ifs <;> first | rfl | exact hmap | exact hmove _ _)
      | (unfold Proc.do_monster_movement Proc.moveMonster
         simp only [hme, hme2, ht, h4]
         split_ifs <;> first | rfl | exact hmap | exact hmove _ _)

/-! ### The commands of the PC -/

theorem landed_of_mem (d : Dungeon) (c : Character) (h : c ∈ d.characters) : Landed d c :=
  Or.inr (Or.inr ⟨c, h, rfl, rfl, rfl⟩)

theorem inputFrame_refl (d : Dungeon) : InputFrame d d :=
  ⟨rfl, rfl, rfl, rfl, rfl, rfl, fun c h => landed_of_mem d c h⟩

theorem inputFrame_trans {d1 d2 d3 : Dungeon} (h1 : InputFrame d1 d2) (h2 : InputFrame d2 d3) :
    InputFrame d1 d3 := by
  refine ⟨h2.hardness.trans h1.hardness, h2.base_map.trans h1.base_map,
    h2.pc_x.trans h1.pc_x, h2.pc_y.trans h1.pc_y, h2.disTunneling.trans h1.disTunneling,
    h2.disNonTunneling.trans h1.disNonTunneling, ?_⟩
  intro c3 hc3
  rcases h2.chars c3 hc3 with h | h | ⟨c2, hc2, ht, hx, hy⟩
  · rw [h1.hardness] at h
    exact Or.inl h
  · rw [h1.base_map] at h
    exact Or.inr (Or.inl h)
  · rcases h1.chars c2 hc2 with h | h | ⟨c1, hc1, ht1, hx1, hy1⟩
    · rw [hx, hy] at h
      exact Or.inl h
    · rw [hx, hy] at h
      exact Or.inr (Or.inl h)
    · exact Or.inr (Or.inr ⟨c1, hc1, ht1.trans ht, hx1.trans hx, hy1.trans hy⟩)

theorem mem_of_getElem?_some {α : Type} (l : List α) (i : Nat) (a : α) (h : l[i]? = some a) :
    a ∈ l := by
  obtain ⟨hlt, he⟩ := List.getElem?_eq_some.mp h
  rw [← he]
  exact List.getElem_mem hlt

theorem inputFrame_set (d : Dungeon) (i : Nat) (c : Character) (hc : Landed d c) :
    InputFrame d { d with characters := d.characters.set i c } := by
  refine ⟨rfl, rfl, rfl, rfl, rfl, rfl, ?_⟩
  intro c1 hc1
  rcases List.mem_or_eq_of_mem_set hc1 with h | h
  · exact landed_of_mem d c1 h
  · rw [h]; exact hc

theorem landed_same (d : Dungeon) (me c : Character) (hme : me ∈ d.characters)
    (ht : c.type = me.type) (hx : c.x = me.x) (hy : c.y = me.y) : Landed d c :=
  Or.inr (Or.inr ⟨me, hme, ht.symm, hx.symm, hy.symm⟩)

theorem modifyChar_inputFrame (d : Dungeon) (i : Nat) (f : Character → Character)
    (hf : ∀ c ∈ d.characters, Landed d (f c)) : InputFrame d (d.modifyChar i f) := by
  unfold Dungeon.modifyChar
  cases h : d.characters[i]? with
  | none => exact inputFrame_refl d
  | some me => exact inputFrame_set d i _ (hf me (mem_of_getElem?_some _ _ _ h))

theorem rebuildDisplay_inputFrame (d : Dungeon) : InputFrame d d.rebuildDisplay :=
  ⟨rfl, rfl, rfl, rfl, rfl, rfl, fun c h => landed_of_mem d c h⟩

theorem moveCursor_inputFrame (i : Nat) (d : Dungeon) (dx dy : Int) :
    InputFrame d (PC.moveCursor i d dx dy) := by
  unfold PC.moveCursor
  cases h : d.characters[i]? with
  | none => exact inputFrame_refl d
  | some me =>
    simp only
    split_ifs
    · exact inputFrame_set d i _ (landed_same d me _ (mem_of_getElem?_some _ _ _ h) rfl rfl rfl)
    · exact inputFrame_refl d

theorem attack_getElem? (i : Nat) (d : Dungeon) (nx ny : Int) (b : Bool) (j : Nat) :
    (PC.attack i d nx ny b).characters[j]? =
      (d.characters[j]?).map fun c =>
        if (c.alive && c.x == nx && c.y == ny && j != i) = true then { c with alive := false }
        else c := by
  unfold PC.attack
  simp only [List.getElem?_map, List.getElem?_enum, Option.map_map]
  rfl

theorem attack_inputFrame (i : Nat) (d : Dungeon) (nx ny : Int) (b : Bool) :
    InputFrame d (PC.attack i d nx ny b) := by
  refine ⟨rfl, rfl, rfl, rfl, rfl, rfl, ?_⟩
  intro c1 hc1
  obtain ⟨j, hj⟩ := List.getElem?_of_mem hc1
  rw [attack_getElem?] at hj
  cases hc : d.characters[j]? with
  | none => rw [hc] at hj; exact Option.noConfusion hj
  | some c =>
    rw [hc] at hj
    simp only [Option.map_some', Option.some.injEq] at hj
    have hmem := mem_of_getElem?_some _ _ _ hc
    rw [← hj]
    split_ifs
    · exact landed_same d c _ hmem rfl rfl rfl
    · exact landed_of_mem d c hmem

theorem step_eq (i : Nat) (d : Dungeon) (dx dy : Int) (b : Bool) (me : Character)
    (hme : d.characters[i]? = some me)
    (hok : inBounds (me.x + dx) (me.y + dy) = true ∧
      pcCanWalkOn (d.base_map (me.y + dy) (me.x + dx)) = true) :
    PC.step i d dx dy b =
      { PC.attack i d (me.x + dx) (me.y + dy) b with
        characters := (PC.attack i d (me.x + dx) (me.y + dy) b).characters.set i
          { me with x := me.x + dx, y := me.y + dy } } := by
  have h1 : (PC.attack i d (me.x + dx) (me.y + dy) b).characters[i]? = some me := by
    rw [attack_getElem?, hme]
    simp
  unfold PC.step
  rw [hme]
  simp only [hok, and_self, if_true, h1]

theorem step_blocked (i : Nat) (d : Dungeon) (dx dy : Int) (b : Bool) (me : Character)
    (hme : d.characters[i]? = some me)
    (hno : ¬ (inBounds (me.x + dx) (me.y + dy) = true ∧
      pcCanWalkOn (d.base_map (me.y + dy) (me.x + dx)) = true)) :
    PC.step i d dx dy b = d := by
  unfold PC.step
  rw [hme]
  simp only [if_neg hno]

theorem step_inputFrame (i : Nat) (d : Dungeon) (dx dy : Int) (b : Bool) :
    InputFrame d (PC.step i d dx dy b) := by
  cases hme : d.characters[i]? with
  | none =>
    unfold PC.step
    rw [hme]
    exact inputFrame_refl d
  | some me =>
    by_cases hok : inBounds (me.x + dx) (me.y + dy) = true ∧
        pcCanWalkOn (d.base_map (me.y + dy) (me.x + dx)) = true
    · rw [step_eq i d dx dy b me hme hok]
      have ha := attack_inputFrame i d (me.x + dx) (me.y + dy) b
      refine ⟨ha.hardness, ha.base_map, ha.pc_x, ha.pc_y, ha.disTunneling,
        ha.disNonTunneling, ?_⟩
      intro c1 hc1
      rcases List.mem_or_eq_of_mem_set hc1 with h | h
      · exact ha.chars c1 h
      · rw [h]
        exact Or.inr (Or.inl hok)
    · rw [step_blocked i d dx dy b me hme hok]
      exact inputFrame_refl d

theorem randomCell_spec : ∀ (fuel : Nat) (d : Dungeon) (rng : Rng) (rx ry : Int) (rng1 : Rng),
    PC.randomCell fuel d rng = some (rx, ry, rng1) → d.hardness ry rx ≠ 255 := by
  intro fuel
  induction fuel with
  | zero => intro d rng rx ry rng1 h; simp [PC.randomCell] at h
  | succ n ih =>
    intro d rng rx ry rng1 h
    rw [PC.randomCell] at h
    split_ifs at h with hc
    · simp only [Option.some.injEq, Prod.mk.injEq] at h
      rw [← h.1, ← h.2.1]
      simpa [Dungeon.isImmutableRock] using hc
    · exact ih _ _ _ _ _ h

theorem inputFrame_field {d d1 : Dungeon} (h : InputFrame d d1) (a c : Bool) :
    InputFrame d { d1 with pc_is_alive := a, changedFloor := c } :=
  ⟨h.hardness, h.base_map, h.pc_x, h.pc_y, h.disTunneling, h.disNonTunneling, h.chars⟩

theorem teleportKey_inFrame (fuel : Nat) (i : Nat) (me : Character) (ch : Int)
    (keys : List Int) (d : Dungeon) (rng : Rng) :
    (PC.teleportKey fuel i me ch keys d rng).InFrame d := by
  unfold PC.teleportKey
  cases teleportCase ch with
  | cursor dx dy =>
    exact inputFrame_trans (moveCursor_inputFrame i d dx dy) (rebuildDisplay_inputFrame _)
  | nothing => exact rebuildDisplay_inputFrame d
  | confirm =>
    simp only [KeyOutcome.InFrame]
    split_ifs with hc
    · refine inputFrame_trans (modifyChar_inputFrame d i _ ?_) (modifyChar_inputFrame _ i _ ?_)
      · intro c _
        exact Or.inl (by simpa [Dungeon.isImmutableRock] using hc)
      · intro c hmem
        exact landed_same _ c _ hmem rfl rfl rfl
    · refine modifyChar_inputFrame _ i _ ?_
      intro c hmem
      exact landed_same _ c _ hmem rfl rfl rfl
  | random =>
    simp only
    cases hr : PC.randomCell fuel d rng with
    | none => trivial
    | some p =>
      obtain ⟨rx, ry, rng1⟩ := p
      refine inputFrame_trans (modifyChar_inputFrame d i _ ?_) (modifyChar_inputFrame _ i _ ?_)
      · intro c _
        exact Or.inl (randomCell_spec fuel d rng rx ry rng1 hr)
      · intro c hmem
        exact landed_same _ c _ hmem rfl rfl rfl
  | fog =>
    refine inputFrame_trans (modifyChar_inputFrame d i _ ?_) (rebuildDisplay_inputFrame _)
    intro c hmem
    exact landed_same _ c _ hmem rfl rfl rfl
  | quit =>
    refine inputFrame_field (modifyChar_inputFrame d i _ ?_) false _
    intro c hmem
    exact landed_same _ c _ hmem rfl rfl rfl
  | other => exact rebuildDisplay_inputFrame d

theorem normalKey_inFrame (i : Nat) (me : Character) (ch : Int)
    (keys : List Int) (d : Dungeon) (rng : Rng) :
    (PC.normalKey i me ch keys d rng).InFrame d := by
  unfold PC.normalKey
  cases normalCase ch with
  | move dx dy b => exact step_inputFrame _ _ _ _ _
  | rest => exact inputFrame_refl d
  | stairsDown =>
    simp only [KeyOutcome.InFrame]
    split_ifs
    · exact inputFrame_field (inputFrame_refl d) _ true
    · exact inputFrame_refl d
  | stairsUp =>
    simp only [KeyOutcome.InFrame]
    split_ifs
    · exact inputFrame_field (inputFrame_refl d) _ true
    · exact inputFrame_refl d
  | monsterList =>
    simp only
    cases monsterListLoop keys with
    | none => trivial
    | some k => exact rebuildDisplay_inputFrame d
  | fog =>
    refine modifyChar_inputFrame d i _ ?_
    intro c hmem
    exact landed_same _ c _ hmem rfl rfl rfl
  | teleport =>
    refine modifyChar_inputFrame d i _ ?_
    intro c hmem
    exact landed_same _ c _ hmem rfl rfl rfl
  | quit =>
    refine inputFrame_field (modifyChar_inputFrame d i _ ?_) false _
    intro c hmem
    exact landed_same _ c _ hmem rfl rfl rfl
  | other => exact inputFrame_refl d

theorem inputLoop_inputFrame (fuel : Nat) (i : Nat) :
    ∀ (keys : List Int) (d : Dungeon) (rng : Rng)
    (d1 : Dungeon) (rng1 : Rng) (keys1 : List Int),
    PC.inputLoop fuel i keys d rng = some (d1, rng1, keys1) → InputFrame d d1 := by
  intro keys
  induction keys with
  | nil => intro d rng d1 rng1 keys1 h; simp [PC.inputLoop] at h
  | cons ch keys ih =>
    intro d rng d1 rng1 keys1 h
    rw [PC.inputLoop] at h
    cases hme : d.characters[i]? with
    | none => rw [hme] at h; exact Option.noConfusion h
    | some me =>
      rw [hme] at h
      simp only at h
      have hfr : (if me.teleporting = true then PC.teleportKey fuel i me ch keys d rng
          else PC.normalKey i me ch keys d rng).InFrame d := by
        split_ifs
        · exact teleportKey_inFrame _ _ _ _ _ _ _
        · exact normalKey_inFrame _ _ _ _ _ _
      cases hout : (if me.teleporting = true then PC.teleportKey fuel i me ch keys d rng
          else PC.normalKey i me ch keys d rng) with
      | again d2 =>
        rw [hout] at h hfr
        exact inputFrame_trans hfr (ih _ _ _ _ _ h)
      | done d2 rng2 keys2 =>
        rw [hout] at h hfr
        simp only [Option.some.injEq, Prod.mk.injEq] at h
        rw [← h.1]
        exact hfr
      | stuck =>
        rw [hout] at h
        exact Option.noConfusion h

theorem updateRemembered_inputFrame (i : Nat) (d : Dungeon) :
    InputFrame d (PC.updateRemembered i d) := by
  unfold PC.updateRemembered
  cases h : d.characters[i]? with
  | none => exact inputFrame_refl d
  | some me =>
    exact inputFrame_set d i _ (landed_same d me _ (mem_of_getElem?_some _ _ _ h) rfl rfl rfl)

theorem ite_eq_elim {α : Type} {P : Prop} [Decidable P] {a b t : α} {Q : Prop}
    (h : (if P then a else b) = t) (ha : a = t → Q) (hb : b = t → Q) : Q := by
  split_ifs at h
  · exact ha h
  · exact hb h

theorem normalCase_move_dir (ch dx dy : Int) (b : Bool)
    (h : normalCase ch = NormalCase.move dx dy b) : (dx, dy) ∈ scanOffsets := by
  unfold normalCase at h
  iterate 8
    refine ite_eq_elim h (fun h1 => ?_) (fun h => ?_)
    · simp only [NormalCase.move.injEq] at h1
      obtain ⟨h2, h3, -⟩ := h1
      subst h2 h3
      decide
  iterate 7
    refine ite_eq_elim h (fun h1 => NormalCase.noConfusion h1) (fun h => ?_)
  exact NormalCase.noConfusion h

theorem inputLoop_normal (fuel i : Nat) (ch : Int) (keys : List Int) (d : Dungeon) (rng : Rng)
    (me : Character) (hme : d.characters[i]? = some me) (hmode : me.teleporting = false) :
    PC.inputLoop fuel i (ch :: keys) d rng =
      match PC.normalKey i me ch keys d rng with
      | KeyOutcome.again d1 => PC.inputLoop fuel i keys d1 rng
      | KeyOutcome.done d1 rng1 keys1 => some (d1, rng1, keys1)
      | KeyOutcome.stuck => none := by
  rw [PC.inputLoop, hme]
  simp only [hmode, Bool.false_eq_true, if_false]

theorem inputLoop_teleport (fuel i : Nat) (ch : Int) (keys : List Int) (d : Dungeon) (rng : Rng)
    (me : Character) (hme : d.characters[i]? = some me) (hmode : me.teleporting = true) :
    PC.inputLoop fuel i (ch :: keys) d rng =
      match PC.teleportKey fuel i me ch keys d rng with
      | KeyOutcome.again d1 => PC.inputLoop fuel i keys d1 rng
      | KeyOutcome.done d1 rng1 keys1 => some (d1, rng1, keys1)
      | KeyOutcome.stuck => none := by
  rw [PC.inputLoop, hme]
  simp only [hmode, if_true]

/-- C26: in normal mode, for a key `ch` that selects one of the 8 move commands, towards
`(dx, dy)`: the command ends the turn; if the destination is outside the grid or its floor
kind is not room floor, corridor or stair, the whole state (PC position, every other
character, terrain) is unchanged; otherwise the PC stands exactly on the destination
`(x + dx, y + dy)`, one step away, and the terrain is unchanged. -/
theorem PC_move_command (fuel i : Nat) (d : Dungeon) (rng : Rng) (keys : List Int)
    (me : Character) (ch dx dy : Int) (b : Bool)
    (hme : d.characters[i]? = some me) (hmode : me.teleporting = false)
    (hc : normalCase ch = NormalCase.move dx dy b) :
    PC.inputLoop fuel i (ch :: keys) d rng = some (PC.step i d dx dy b, rng, keys) ∧
    (dx, dy) ∈ scanOffsets ∧
    (∀ c : Char, pcCanWalkOn c = true ↔ c = '.' ∨ c = '#' ∨ c = '<' ∨ c = '>') ∧
    (¬ (inBounds (me.x + dx) (me.y + dy) = true ∧
        pcCanWalkOn (d.base_map (me.y + dy) (me.x + dx)) = true) →
      PC.step i d dx dy b = d) ∧
    (inBounds (me.x + dx) (me.y + dy) = true ∧
        pcCanWalkOn (d.base_map (me.y + dy) (me.x + dx)) = true →
      (PC.step i d dx dy b).characters[i]? =
        some { me with x := me.x + dx, y := me.y + dy }) ∧
    (PC.step i d dx dy b).hardness = d.hardness ∧
    (PC.step i d dx dy b).base_map = d.base_map := by
  have hf := step_inputFrame i d dx dy b
  refine ⟨?_, normalCase_move_dir ch dx dy b hc, ?_, step_blocked i d dx dy b me hme, ?_,
    hf.hardness, hf.base_map⟩
  · rw [inputLoop_normal fuel i ch keys d rng me hme hmode]
    unfold PC.normalKey
    rw [hc]
  · intro c
    simp [pcCanWalkOn, or_assoc]
  · intro hok
    rw [step_eq i d dx dy b me hme hok]
    apply getElem?_set_self_of_some _ _ me
    rw [attack_getElem?, hme]
    simp

theorem PC_move_command_witness :
    PC.inputLoop 1 0 [key 'l'] chaseDungeon zeroRng =
      some (PC.step 0 chaseDungeon 1 0 true, zeroRng, []) ∧
    ((PC.step 0 chaseDungeon 1 0 true).characters[0]?.map fun c => (c.x, c.y)) = some (6, 5) :=
  ⟨(PC_move_command 1 0 chaseDungeon zeroRng [] { PC.new with x := 5, y := 5 } (key 'l') 1 0
      true rfl rfl rfl).1,
    by
      rw [(PC_move_command 1 0 chaseDungeon zeroRng [] { PC.new with x := 5, y := 5 } (key 'l')
        1 0 true rfl rfl rfl).2.2.2.2.1 (by decide)]
      rfl⟩

/-- C27: after a PC step that moves the PC (slot `i`) onto the cell `(nx, ny)`, whatever
the direction: the roster has the same length, the PC stands on `(nx, ny)` with its other
fields unchanged, and every other character keeps its position and type; it is dead if it
stood on `(nx, ny)`, and keeps its alive flag otherwise. -/
theorem PC_step_kills (i : Nat) (d : Dungeon) (dx dy : Int) (b : Bool) (me : Character)
    (hme : d.characters[i]? = some me)
    (hok : inBounds (me.x + dx) (me.y + dy) = true ∧
      pcCanWalkOn (d.base_map (me.y + dy) (me.x + dx)) = true) :
    (PC.step i d dx dy b).characters.length = d.characters.length ∧
    (PC.step i d dx dy b).characters[i]? = some { me with x := me.x + dx, y := me.y + dy } ∧
    ∀ (j : Nat) (c : Character), j ≠ i → d.characters[j]? = some c →
      ∃ c1, (PC.step i d dx dy b).characters[j]? = some c1 ∧
        c1.x = c.x ∧ c1.y = c.y ∧ c1.type = c.type ∧
        (c.x = me.x + dx ∧ c.y = me.y + dy → c1.alive = false) ∧
        (¬ (c.x = me.x + dx ∧ c.y = me.y + dy) → c1.alive = c.alive) := by
  rw [step_eq i d dx dy b me hme hok]
  refine ⟨?_, ?_, ?_⟩
  · simp [PC.attack, List.enum_length]
  · apply getElem?_set_self_of_some _ _ me
    rw [attack_getElem?, hme]
    simp
  · intro j c hji hc
    simp only [List.getElem?_set, if_neg (Ne.symm hji), attack_getElem?, hc, Option.map_some']
    by_cases hon : c.x = me.x + dx ∧ c.y = me.y + dy
    · by_cases ha : c.alive = true
      · refine ⟨{ c with alive := false }, ?_, rfl, rfl, rfl, fun _ => rfl,
          fun hn => absurd hon hn⟩
        simp [ha, hon.1, hon.2, hji]
      · refine ⟨c, ?_, rfl, rfl, rfl, fun _ => by simpa using ha, fun _ => rfl⟩
        simp [ha]
    · refine ⟨c, ?_, rfl, rfl, rfl, fun h => absurd h hon, fun _ => rfl⟩
      have : (c.alive && c.x == me.x + dx && c.y == me.y + dy && j != i) = false := by
        rw [Bool.eq_false_iff]
        intro hall
        simp only [Bool.and_eq_true, beq_iff_eq] at hall
        exact hon ⟨hall.1.1.2, hall.1.2⟩
      simp [this]

theorem PC_step_kills_witness :
    ((PC.step 0 chaseDungeon 1 0 true).characters[0]?.map fun c => (c.x, c.y)) = some (6, 5) ∧
    (PC.step 0 chaseDungeon 1 0 true).characters.length = 2 := by
  have h := PC_step_kills 0 chaseDungeon 1 0 true { PC.new with x := 5, y := 5 } rfl
    (by decide)
  exact ⟨by rw [h.2.1]; rfl, h.1⟩

/-- C28 (as the code has it): for the PC `me` in slot `i`, the key `f` flips the fog flag
and changes no terrain in both modes.  In teleport mode it does not end the turn: the loop
goes on to the next key; likewise every cursor key.  In normal mode it ends the turn, as
every recognised command of that mode does.  The confirm key `g` of the teleport mode ends
the turn, leaving the terrain unchanged. -/
theorem fog_toggle (fuel i : Nat) (d : Dungeon) (rng : Rng) (keys : List Int) (me : Character)
    (hme : d.characters[i]? = some me) :
    (d.modifyChar i fun c => { c with noFog := !c.noFog }).characters[i]? =
      some { me with noFog := !me.noFog } ∧
    (d.modifyChar i fun c => { c with noFog := !c.noFog }).hardness = d.hardness ∧
    (d.modifyChar i fun c => { c with noFog := !c.noFog }).base_map = d.base_map ∧
    (d.modifyChar i fun c => { c with noFog := !c.noFog }).rebuildDisplay.hardness =
      d.hardness ∧
    (d.modifyChar i fun c => { c with noFog := !c.noFog }).rebuildDisplay.base_map =
      d.base_map ∧
    (me.teleporting = true →
      PC.inputLoop fuel i (key 'f' :: keys) d rng =
        PC.inputLoop fuel i keys
          (d.modifyChar i fun c => { c with noFog := !c.noFog }).rebuildDisplay rng) ∧
    (me.teleporting = false →
      PC.inputLoop fuel i (key 'f' :: keys) d rng =
        some (d.modifyChar i fun c => { c with noFog := !c.noFog }, rng, keys)) ∧
    (me.teleporting = true → ∀ ch dx dy : Int, teleportCase ch = TeleportCase.cursor dx dy →
      PC.inputLoop fuel i (ch :: keys) d rng =
        PC.inputLoop fuel i keys (PC.moveCursor i d dx dy).rebuildDisplay rng) ∧
    (me.teleporting = true →
      ∃ d1, PC.inputLoop fuel i (key 'g' :: keys) d rng = some (d1, rng, keys) ∧
        d1.hardness = d.hardness ∧ d1.base_map = d.base_map) := by
  have hflip : (d.modifyChar i fun c => { c with noFog := !c.noFog }) =
      { d with characters := d.characters.set i { me with noFog := !me.noFog } } := by
    unfold Dungeon.modifyChar
    rw [hme]
  refine ⟨?_, ?_, ?_, ?_, ?_, ?_, ?_, ?_, ?_⟩
  · rw [hflip]
    exact getElem?_set_self_of_some _ _ me _ hme
  · rw [hflip]
  · rw [hflip]
  · rw [hflip]; rfl
  · rw [hflip]; rfl
  · intro hmode
    rw [inputLoop_teleport fuel i _ keys d rng me hme hmode]
    have hk : teleportCase (key 'f') = TeleportCase.fog := rfl
    unfold PC.teleportKey
    rw [hk]
  · intro hmode
    rw [inputLoop_normal fuel i _ keys d rng me hme hmode]
    have hk : normalCase (key 'f') = NormalCase.fog := rfl
    unfold PC.normalKey
    rw [hk]
  · intro hmode ch dx dy hk
    rw [inputLoop_teleport fuel i _ keys d rng me hme hmode]
    unfold PC.teleportKey
    rw [hk]
  · intro hmode
    have hfr := teleportKey_inFrame fuel i me (key 'g') keys d rng
    rw [inputLoop_teleport fuel i _ keys d rng me hme hmode]
    have hk : teleportCase (key 'g') = TeleportCase.confirm := rfl
    unfold PC.teleportKey at hfr ⊢
    rw [hk] at hfr ⊢
    exact ⟨_, rfl, hfr.hardness, hfr.base_map⟩

theorem fog_toggle_witness :
    PC.inputLoop 1 0 [key 'f', key 'l'] sampleDungeon zeroRng =
      some (sampleDungeon.modifyChar 0 fun c => { c with noFog := !c.noFog }, zeroRng,
        [key 'l']) :=
  (fog_toggle 1 0 sampleDungeon zeroRng [key 'l'] { PC.new with x := 5, y := 5 } rfl).2.2.2.2.2.2.1
    rfl

/-- C28, counterexample: in normal mode `PC::doTurn` returns on the key `f`: with the keys
`f`, `l` pending, the turn ends with `l` still unread, the PC where it was and its fog flag
flipped. -/
theorem fog_toggle_ends_turn :
    (sampleDungeon.characters[0]?.map fun c => (c.teleporting, c.noFog, c.x, c.y)) =
      some (false, false, 5, 5) ∧
    ((PC.doTurn 1 0 sampleDungeon zeroRng [key 'f', key 'l']).map fun r => r.2.2) =
      some [key 'l'] ∧
    ((PC.doTurn 1 0 sampleDungeon zeroRng [key 'f', key 'l']).bind fun r =>
      r.1.characters[0]?.map fun c => (c.noFog, c.x, c.y)) = some (true, 5, 5) := by
  refine ⟨by decide, by decide, by decide⟩

/-! ### The scan of the intelligent move -/

theorem scan_fold_eq (d : Dungeon) (tun : Bool) (x y : Int) (st : Int × Int × Int) :
    (intRange (-1) 2).foldl
      (fun st i => (intRange (-1) 2).foldl
        (fun st j => scanNeighbour d tun x y i j st) st) st =
    scanOffsets.foldl (fun st o => scanNeighbour d tun x y o.2 o.1 st) st := by
  have hr : intRange (-1) 2 = [-1, 0, 1] := by decide
  have h0 : ∀ s : Int × Int × Int, scanNeighbour d tun x y 0 0 s = s := by
    intro s
    simp [scanNeighbour]
  rw [hr]
  simp only [List.foldl, scanOffsets, h0]

theorem scanNeighbour_eq (d : Dungeon) (tun : Bool) (x y : Int) (o : Int × Int)
    (ho : o ≠ (0, 0)) (st : Int × Int × Int) :
    scanNeighbour d tun x y o.2 o.1 st =
      if inBounds (x + o.1) (y + o.2) = true ∧ NPC.fieldAt d tun (x + o.1, y + o.2) < st.1
      then (NPC.fieldAt d tun (x + o.1, y + o.2), x + o.1, y + o.2) else st := by
  have hne : ¬ (o.2 = 0 ∧ o.1 = 0) := by
    intro h
    exact ho (Prod.ext h.2 h.1)
  unfold scanNeighbour NPC.fieldAt
  simp only [hne, not_false_eq_true, if_true]
  by_cases hin : inBounds (x + o.1) (y + o.2) = true
  · simp only [hin, if_true, true_and]
  · simp only [hin, if_false, false_and]
    simp

theorem scan_fold_min (d : Dungeon) (tun : Bool) (x y : Int) :
    ∀ (os : List (Int × Int)) (st : Int × Int × Int), (∀ o ∈ os, o ≠ (0, 0)) →
    ((os.foldl (fun st o => scanNeighbour d tun x y o.2 o.1 st) st = st ∧
      ∀ n ∈ (os.map fun o => (x + o.1, y + o.2)).filter (fun c => inBounds c.1 c.2),
        st.1 ≤ NPC.fieldAt d tun n) ∨
     ((os.foldl (fun st o => scanNeighbour d tun x y o.2 o.1 st) st).1 < st.1 ∧
      ∃ pre post,
        (os.map fun o => (x + o.1, y + o.2)).filter (fun c => inBounds c.1 c.2) =
          pre ++ ((os.foldl (fun st o => scanNeighbour d tun x y o.2 o.1 st) st).2.1,
            (os.foldl (fun st o => scanNeighbour d tun x y o.2 o.1 st) st).2.2) :: post ∧
        NPC.fieldAt d tun ((os.foldl (fun st o => scanNeighbour d tun x y o.2 o.1 st) st).2.1,
            (os.foldl (fun st o => scanNeighbour d tun x y o.2 o.1 st) st).2.2) =
          (os.foldl (fun st o => scanNeighbour d tun x y o.2 o.1 st) st).1 ∧
        (∀ n ∈ pre, (os.foldl (fun st o => scanNeighbour d tun x y o.2 o.1 st) st).1 <
          NPC.fieldAt d tun n) ∧
        (∀ n ∈ post, (os.foldl (fun st o => scanNeighbour d tun x y o.2 o.1 st) st).1 ≤
          NPC.fieldAt d tun n))) := by
  intro os
  induction os with
  | nil =>
    intro st _
    left
    exact ⟨rfl, fun n hn => by simp at hn⟩
  | cons o os ih =>
    intro st hos
    have ho : o ≠ (0, 0) := hos o (List.mem_cons_self _ _)
    have hos1 : ∀ o1 ∈ os, o1 ≠ (0, 0) := fun o1 h => hos o1 (List.mem_cons_of_mem _ h)
    simp only [List.foldl_cons, List.map_cons, List.filter_cons]
    rw [scanNeighbour_eq d tun x y o ho st]
    by_cases hc : inBounds (x + o.1) (y + o.2) = true ∧
        NPC.fieldAt d tun (x + o.1, y + o.2) < st.1
    · rw [if_pos hc]
      simp only [hc.1, if_true]
      right
      rcases ih (NPC.fieldAt d tun (x + o.1, y + o.2), x + o.1, y + o.2) hos1 with
        ⟨he, hall⟩ | ⟨hlt, pre, post, hN, hF, hpre, hpost⟩
      · rw [he]
        exact ⟨hc.2, [], _, rfl, rfl, fun n hn => by simp at hn, hall⟩
      · refine ⟨lt_trans hlt hc.2, (x + o.1, y + o.2) :: pre, post, ?_, hF, ?_, hpost⟩
        · rw [hN]; rfl
        · intro n hn
          rcases List.mem_cons.mp hn with h | h
          · rw [h]; exact hlt
          · exact hpre n h
    · rw [if_neg hc]
      rcases ih st hos1 with ⟨he, hall⟩ | ⟨hlt, pre, post, hN, hF, hpre, hpost⟩
      · left
        refine ⟨he, ?_⟩
        intro n hn
        by_cases hin : inBounds (x + o.1) (y + o.2) = true
        · simp only [hin, if_true] at hn
          rcases List.mem_cons.mp hn with h | h
          · rw [h]
            by_contra hlt
            exact hc ⟨hin, by omega⟩
          · exact hall n h
        · simp only [hin, if_false] at hn
          exact hall n hn
      · right
        refine ⟨hlt, ?_⟩
        by_cases hin : inBounds (x + o.1) (y + o.2) = true
        · simp only [hin, if_true]
          refine ⟨(x + o.1, y + o.2) :: pre, post, ?_, hF, ?_, hpost⟩
          · rw [hN]; rfl
          · intro n hn
            rcases List.mem_cons.mp hn with h | h
            · rw [h]
              have : ¬ NPC.fieldAt d tun (x + o.1, y + o.2) < st.1 := fun hl => hc ⟨hin, hl⟩
              omega
            · exact hpre n h
        · simp only [hin, if_false]
          exact ⟨pre, post, hN, hF, hpre, hpost⟩

theorem chooseTarget_intelligent (me : Character) (d : Dungeon) (rng : Rng)
    (hint : (me.btype &&& 0x1 != 0) = true)
    (hnr : ¬ ((me.btype &&& 0x8 != 0) = true ∧ (rand rng).1 % 2 = 0)) :
    (NPC.chooseTarget me d rng).1 =
      (scanOffsets.foldl (fun st o => scanNeighbour d (me.btype &&& 0x4 != 0) me.x me.y o.2 o.1 st)
        (INT32_MAX, me.x, me.y)).2.1 ∧
    (NPC.chooseTarget me d rng).2.1 =
      (scanOffsets.foldl (fun st o => scanNeighbour d (me.btype &&& 0x4 != 0) me.x me.y o.2 o.1 st)
        (INT32_MAX, me.x, me.y)).2.2 := by
  have hs : (if (me.btype &&& 0x8 != 0) = true then ((rand rng).1 % 2 == 0, (rand rng).2)
      else (false, rng)).1 = false := by
    split_ifs with he
    · have : ¬ (rand rng).1 % 2 = 0 := fun h => hnr ⟨he, h⟩
      simpa using this
    · rfl
  constructor <;>
  · unfold NPC.chooseTarget
    simp only [hs, hint, Bool.false_eq_true, if_false, Bool.not_true, scan_fold_eq]

/-- C23: for an NPC `me` with the intelligence bit whose turn does not take the erratic
random branch, let `F` be the tunneling field if the tunneling bit is set and the
non-tunneling field otherwise (values at most the sentinel `INT32_MAX`, as `int`s are).
If every neighbour inside the grid holds the sentinel, the destination is the NPC's own
cell.  Otherwise the destination `t` is a neighbour inside the grid, and in the list of
these neighbours in scan order (rows `dy = -1 .. 1`, in each row `dx = -1 .. 1`) every
neighbour before `t` has a strictly larger value and every neighbour after `t` a value at
least as large: `t` is the first neighbour with the smallest value. -/
theorem intelligent_target (me : Character) (d : Dungeon) (rng : Rng)
    (hint : (me.btype &&& 0x1 != 0) = true)
    (hnr : ¬ ((me.btype &&& 0x8 != 0) = true ∧ (rand rng).1 % 2 = 0))
    (hF : ∀ n ∈ scanNeighbours me.x me.y,
      NPC.fieldAt d (me.btype &&& 0x4 != 0) n ≤ INT32_MAX) :
    ((∀ n ∈ scanNeighbours me.x me.y, NPC.fieldAt d (me.btype &&& 0x4 != 0) n = INT32_MAX) →
      (NPC.chooseTarget me d rng).1 = me.x ∧ (NPC.chooseTarget me d rng).2.1 = me.y) ∧
    ((∃ n ∈ scanNeighbours me.x me.y, NPC.fieldAt d (me.btype &&& 0x4 != 0) n ≠ INT32_MAX) →
      ∃ pre post,
        scanNeighbours me.x me.y =
          pre ++ ((NPC.chooseTarget me d rng).1, (NPC.chooseTarget me d rng).2.1) :: post ∧
        (∀ n ∈ pre,
          NPC.fieldAt d (me.btype &&& 0x4 != 0)
              ((NPC.chooseTarget me d rng).1, (NPC.chooseTarget me d rng).2.1) <
            NPC.fieldAt d (me.btype &&& 0x4 != 0) n) ∧
        (∀ n ∈ post,
          NPC.fieldAt d (me.btype &&& 0x4 != 0)
              ((NPC.chooseTarget me d rng).1, (NPC.chooseTarget me d rng).2.1) ≤
            NPC.fieldAt d (me.btype &&& 0x4 != 0) n)) := by
  obtain ⟨e1, e2⟩ := chooseTarget_intelligent me d rng hint hnr
  rw [e1, e2]
  have hmin := scan_fold_min d (me.btype &&& 0x4 != 0) me.x me.y scanOffsets
    (INT32_MAX, me.x, me.y) (by decide)
  unfold scanNeighbours at hF ⊢
  generalize List.foldl
    (fun st o => scanNeighbour d (me.btype &&& 0x4 != 0) me.x me.y o.2 o.1 st)
    (INT32_MAX, me.x, me.y) scanOffsets = r at hmin ⊢
  rcases hmin with ⟨he, hall⟩ | ⟨hlt, pre, post, hN, hFt, hpre, hpost⟩
  · rw [he]
    refine ⟨fun _ => ⟨rfl, rfl⟩, ?_⟩
    rintro ⟨n, hn, hne⟩
    exact absurd (le_antisymm (hF n hn) (hall n hn)) hne
  · refine ⟨?_, ?_⟩
    · intro hsent
      have ht := hsent (r.2.1, r.2.2)
        (by rw [hN]; exact List.mem_append_right _ (List.mem_cons_self _ _))
      rw [hFt] at ht
      rw [ht] at hlt
      exact absurd hlt (lt_irrefl _)
    · intro _
      refine ⟨pre, post, hN, ?_, ?_⟩
      · intro n hn
        rw [hFt]
        exact hpre n hn
      · intro n hn
        rw [hFt]
        exact hpost n hn

theorem intelligent_target_witness :
    ∃ pre post,
      scanNeighbours 1 1 =
        pre ++ ((NPC.chooseTarget (NPC.new 1 1 1 10 10) bowlDungeon zeroRng).1,
          (NPC.chooseTarget (NPC.new 1 1 1 10 10) bowlDungeon zeroRng).2.1) :: post ∧
      (∀ n ∈ pre,
        NPC.fieldAt bowlDungeon false
            ((NPC.chooseTarget (NPC.new 1 1 1 10 10) bowlDungeon zeroRng).1,
              (NPC.chooseTarget (NPC.new 1 1 1 10 10) bowlDungeon zeroRng).2.1) <
          NPC.fieldAt bowlDungeon false n) ∧
      (∀ n ∈ post,
        NPC.fieldAt bowlDungeon false
            ((NPC.chooseTarget (NPC.new 1 1 1 10 10) bowlDungeon zeroRng).1,
              (NPC.chooseTarget (NPC.new 1 1 1 10 10) bowlDungeon zeroRng).2.1) ≤
          NPC.fieldAt bowlDungeon false n) :=
  (intelligent_target (NPC.new 1 1 1 10 10) bowlDungeon zeroRng (by decide) (by decide)
    (by decide)).2 ⟨(2, 2), by decide, by decide⟩

/-! ### The recorded PC position and the fields after a PC move -/

/-- C24, the code on the failing input: on an open level the PC stands on `(5, 5)`, which
is also the recorded position `(pc_x, pc_y)`, and a monster without behaviour bits on
`(7, 5)`, both of speed 10.  With the keys `l` (step east) and `5` (rest) the scheduler
runs the turns PC, monster, PC, monster.  After the first two turns the monster stands on
`(6, 5)`, the cell the PC occupies, and the PC is alive.  After the four turns the monster
stands on `(5, 5)`, the PC still on `(6, 5)`, the recorded position is still `(5, 5)`, and
the PC is dead. -/
theorem NPC_kill_check_stale :
    ((gameLoop 1 4 chaseDungeon zeroRng [key 'l', key '5']).1.map fun e => (e.time, e.c)) =
      [(0, 0), (0, 1), (100, 0), (100, 1)] ∧
    ((runTurns 1 [0, 1] chaseDungeon zeroRng [key 'l', key '5']).map fun r =>
      (r.1.characters[0]?.map fun c => (c.x, c.y, c.alive),
        r.1.characters[1]?.map fun c => (c.x, c.y, c.alive),
        r.1.pc_is_alive, r.1.pc_x, r.1.pc_y)) =
      some (some (6, 5, true), some (6, 5, true), true, 5, 5) ∧
    ((gameLoop 1 4 chaseDungeon zeroRng [key 'l', key '5']).2.map fun s =>
      (s.d.characters[0]?.map fun c => (c.x, c.y, c.alive),
        s.d.characters[1]?.map fun c => (c.x, c.y, c.alive),
        s.d.pc_is_alive, s.d.pc_x, s.d.pc_y)) =
      some (some (6, 5, true), some (5, 5, true), false, 5, 5) := by
  refine ⟨by decide, by decide, by decide⟩

theorem field_off_source (pass : Int → Bool) (cost : Int → Int) (hardness old : Grid Int)
    (hc : ∀ h, 1 ≤ cost h ∧ cost h ≤ 3) (sx sy : Int) (hs : inBounds sx sy = true)
    (c : Cell) (hcin : inBounds c.1 c.2 = true) (hne : c ≠ (sx, sy)) :
    1 ≤ (runWith pass cost hardness old sx sy).1 c.2 c.1 := by
  by_cases hfin : (runWith pass cost hardness old sx sy).1 c.2 c.1 = INT32_MAX
  · rw [hfin]; decide
  · obtain ⟨-, n, -, hnin, heq, -⟩ :=
      (runWith_local pass cost hardness old hc sx sy hs c hcin hne).1 hfin
    obtain ⟨-, -, -, -, h5⟩ := runWith_correct pass cost hardness old hc sx sy hs
    have h0 := (h5 n hnin).1
    have hw := (hc (hardness c.2 c.1)).1
    rw [heq]
    unfold weightOf
    omega

theorem PC_doTurn_eq (fuel i : Nat) (d : Dungeon) (rng : Rng) (keys : List Int)
    (me : Character) (hme : d.characters[i]? = some me) :
    PC.doTurn fuel i d rng keys =
      PC.inputLoop fuel i keys
        (PC.updateRemembered i
          ({ d with
            disNonTunneling := djikstraForNonTunnel d.hardness d.disNonTunneling me.x me.y
            disTunneling := djikstraForTunnel d.hardness d.disTunneling me.x me.y
          }).rebuildDisplay) rng := by
  unfold PC.doTurn
  rw [hme]

/-- C25, what the code does: `PC::doTurn` computes both fields once, at its start, from
the position `(x, y)` the PC has before its command.  So after the turn the fields are
the ones of that position: 0 at `(x, y)`, and at least 1 on every other cell of the grid,
in particular on the cell the PC has moved to. -/
theorem PC_doTurn_fields_stale (fuel i : Nat) (d : Dungeon) (rng : Rng) (keys : List Int)
    (me : Character) (d1 : Dungeon) (rng1 : Rng) (keys1 : List Int)
    (hme : d.characters[i]? = some me) (hin : inBounds me.x me.y = true)
    (h : PC.doTurn fuel i d rng keys = some (d1, rng1, keys1)) :
    d1.disNonTunneling = djikstraForNonTunnel d.hardness d.disNonTunneling me.x me.y ∧
    d1.disTunneling = djikstraForTunnel d.hardness d.disTunneling me.x me.y ∧
    d1.hardness = d.hardness ∧
    d1.disNonTunneling me.y me.x = 0 ∧ d1.disTunneling me.y me.x = 0 ∧
    ∀ x y, inBounds x y = true → (x, y) ≠ (me.x, me.y) →
      1 ≤ d1.disNonTunneling y x ∧ 1 ≤ d1.disTunneling y x := by
  rw [PC_doTurn_eq fuel i d rng keys me hme] at h
  have hf := inputFrame_trans (updateRemembered_inputFrame i _)
    (inputLoop_inputFrame fuel i keys _ rng d1 rng1 keys1 h)
  have e1 : d1.disNonTunneling =
      djikstraForNonTunnel d.hardness d.disNonTunneling me.x me.y := hf.disNonTunneling
  have e2 : d1.disTunneling = djikstraForTunnel d.hardness d.disTunneling me.x me.y :=
    hf.disTunneling
  have e3 : d1.hardness = d.hardness := hf.hardness
  have hN := runWith_correct nonTunnelPass nonTunnelCost d.hardness d.disNonTunneling
    nonTunnelCost_range me.x me.y hin
  have hT := runWith_correct tunnelPass tunnelCost d.hardness d.disTunneling
    tunnelCost_range me.x me.y hin
  refine ⟨e1, e2, e3, ?_, ?_, ?_⟩
  · rw [e1]
    unfold djikstraForNonTunnel
    rw [djikstraForNonTunnelRun_eq]
    exact hN.2.1
  · rw [e2]
    unfold djikstraForTunnel
    rw [djikstraForTunnelRun_eq]
    exact hT.2.1
  · intro x y hxy hne
    rw [e1, e2]
    unfold djikstraForNonTunnel djikstraForTunnel
    rw [djikstraForNonTunnelRun_eq, djikstraForTunnelRun_eq]
    exact ⟨field_off_source nonTunnelPass nonTunnelCost d.hardness d.disNonTunneling
        nonTunnelCost_range me.x me.y hin (x, y) hxy hne,
      field_off_source tunnelPass tunnelCost d.hardness d.disTunneling
        tunnelCost_range me.x me.y hin (x, y) hxy hne⟩

theorem PC_doTurn_fields_stale_witness :
    ∃ d1 rng1 keys1, PC.doTurn 1 0 chaseDungeon zeroRng [key 'l'] = some (d1, rng1, keys1) ∧
      (d1.characters[0]?.map fun c => (c.x, c.y)) = some (6, 5) ∧
      1 ≤ d1.disNonTunneling 5 6 ∧ 1 ≤ d1.disTunneling 5 6 ∧
      d1.disNonTunneling 5 5 = 0 ∧ d1.disTunneling 5 5 = 0 := by
  have hs : (PC.doTurn 1 0 chaseDungeon zeroRng [key 'l']).isSome = true := by decide
  obtain ⟨⟨d1, rng1, keys1⟩, h⟩ := Option.isSome_iff_exists.mp hs
  have hpos : ((PC.doTurn 1 0 chaseDungeon zeroRng [key 'l']).bind fun r =>
      r.1.characters[0]?.map fun c => (c.x, c.y)) = some (6, 5) := by decide
  rw [h] at hpos
  have ht := PC_doTurn_fields_stale 1 0 chaseDungeon zeroRng [key 'l']
    { PC.new with x := 5, y := 5 } d1 rng1 keys1 rfl (by decide) h
  exact ⟨d1, rng1, keys1, h, hpos, (ht.2.2.2.2.2 6 5 (by decide) (by decide)).1,
    (ht.2.2.2.2.2 6 5 (by decide) (by decide)).2, ht.2.2.2.1, ht.2.2.2.2.1⟩

/-! ### Cells of hardness 255 -/

theorem NPC_act_soft (i : Nat) (me : Character) (d : Dungeon) (bx by1 : Int)
    (hW : WalkableSoft d) (hP : PcSafe d) (hnpc : me.type = CharType.NPC_TYPE) :
    WalkableSoft (NPC.act i me d bx by1) ∧ PcSafe (NPC.act i me d bx by1) ∧
    ∀ x y, (NPC.act i me d bx by1).hardness y x = 255 ↔ d.hardness y x = 255 := by
  by_cases hc : (me.btype &&& 0x4 != 0) = true ∧ d.hardness by1 bx > 0 ∧ d.hardness by1 bx < 255
  · rw [NPC_act_erode i me d bx by1 hc.1 ⟨hc.2.1, hc.2.2⟩]
    have hnew : max (d.hardness by1 bx - 85) 0 ≠ 255 := by
      simp only [max_def]
      split_ifs <;> omega
    have hh : ∀ x y, (d.hardness.set by1 bx (max (d.hardness by1 bx - 85) 0)) y x = 255 ↔
        d.hardness y x = 255 := by
      intro x y
      rw [grid_set_apply]
      by_cases he : y = by1 ∧ x = bx
      · rw [if_pos he, he.1, he.2]
        constructor
        · intro h; exact absurd h hnew
        · intro h; omega
      · rw [if_neg he]
    refine ⟨?_, ?_, hh⟩
    · intro x y hin hw
      show (d.hardness.set by1 bx (max (d.hardness by1 bx - 85) 0)) y x ≠ 255
      rw [Ne, hh]
      by_cases he : y = by1 ∧ x = bx
      · rw [he.1, he.2]; omega
      · apply hW x y hin
        have hb : (if max (d.hardness by1 bx - 85) 0 = 0 then d.base_map.set by1 bx '#'
            else d.base_map) y x = d.base_map y x := by
          split_ifs
          · rw [grid_set_apply, if_neg he]
          · rfl
        rw [← hb]
        exact hw
    · intro c hmem ht
      show (d.hardness.set by1 bx (max (d.hardness by1 bx - 85) 0)) c.y c.x ≠ 255
      rw [Ne, hh]
      exact hP c hmem ht
  · rw [NPC_act_move i me d bx by1 hc]
    refine ⟨hW, ?_, fun _ _ => Iff.rfl⟩
    intro c hmem ht
    rcases List.mem_or_eq_of_mem_set hmem with h | h
    · exact hP c h ht
    · rw [h] at ht
      rw [hnpc] at ht
      exact CharType.noConfusion ht

theorem NPC_doTurn_soft (i : Nat) (d : Dungeon) (rng : Rng) (chr : Character)
    (hchr : d.characters[i]? = some chr) (hnpc : chr.type = CharType.NPC_TYPE)
    (hW : WalkableSoft d) (hP : PcSafe d) :
    WalkableSoft (NPC.doTurn i d rng).1 ∧ PcSafe (NPC.doTurn i d rng).1 ∧
    ∀ x y, (NPC.doTurn i d rng).1.hardness y x = 255 ↔ d.hardness y x = 255 := by
  unfold NPC.doTurn
  rw [hchr]
  simp only
  split_ifs
  · exact ⟨hW, hP, fun _ _ => Iff.rfl⟩
  · exact NPC_act_soft i chr d _ _ hW hP hnpc

theorem PC_doTurn_soft (fuel i : Nat) (d : Dungeon) (rng : Rng) (keys : List Int)
    (d1 : Dungeon) (rng1 : Rng) (keys1 : List Int)
    (h : PC.doTurn fuel i d rng keys = some (d1, rng1, keys1))
    (hW : WalkableSoft d) (hP : PcSafe d) :
    WalkableSoft d1 ∧ PcSafe d1 ∧ ∀ x y, d1.hardness y x = 255 ↔ d.hardness y x = 255 := by
  cases hme : d.characters[i]? with
  | none =>
    unfold PC.doTurn at h
    rw [hme] at h
    exact Option.noConfusion h
  | some me =>
    rw [PC_doTurn_eq fuel i d rng keys me hme] at h
    have hf := inputFrame_trans (updateRemembered_inputFrame i _)
      (inputLoop_inputFrame fuel i keys _ rng d1 rng1 keys1 h)
    have e1 : d1.hardness = d.hardness := hf.hardness
    have e2 : d1.base_map = d.base_map := hf.base_map
    refine ⟨?_, ?_, ?_⟩
    · intro x y hin hw
      rw [e1]
      rw [e2] at hw
      exact hW x y hin hw
    · intro c1 hmem ht
      rw [e1]
      rcases hf.chars c1 hmem with hl | hl | ⟨c, hc, hct, hcx, hcy⟩
      · exact hl
      · exact hW _ _ hl.1 hl.2
      · rw [← hcx, ← hcy]
        exact hP c hc (hct.trans ht)
    · intro x y
      rw [e1]

theorem doTurn_soft (fuel i : Nat) (d : Dungeon) (rng : Rng) (keys : List Int)
    (d1 : Dungeon) (rng1 : Rng) (keys1 : List Int)
    (h : doTurn fuel i d rng keys = some (d1, rng1, keys1))
    (hW : WalkableSoft d) (hP : PcSafe d) :
    WalkableSoft d1 ∧ PcSafe d1 ∧ ∀ x y, d1.hardness y x = 255 ↔ d.hardness y x = 255 := by
  unfold doTurn at h
  cases hc : d.characters[i]? with
  | none => rw [hc] at h; exact Option.noConfusion h
  | some chr =>
    rw [hc] at h
    simp only at h
    cases ht : chr.type with
    | PC_TYPE =>
      rw [ht] at h
      exact PC_doTurn_soft fuel i d rng keys d1 rng1 keys1 h hW hP
    | NPC_TYPE =>
      rw [ht] at h
      simp only [Option.some.injEq, Prod.mk.injEq] at h
      rw [← h.1]
      exact NPC_doTurn_soft i d rng chr hc ht hW hP

theorem runTurns_soft (fuel : Nat) : ∀ (slots : List Nat) (d : Dungeon) (rng : Rng)
    (keys : List Int) (d1 : Dungeon) (rng1 : Rng) (keys1 : List Int),
    runTurns fuel slots d rng keys = some (d1, rng1, keys1) →
    WalkableSoft d → PcSafe d →
    WalkableSoft d1 ∧ PcSafe d1 ∧ ∀ x y, d1.hardness y x = 255 ↔ d.hardness y x = 255 := by
  intro slots
  induction slots with
  | nil =>
    intro d rng keys d1 rng1 keys1 h hW hP
    simp only [runTurns, Option.some.injEq, Prod.mk.injEq] at h
    rw [← h.1]
    exact ⟨hW, hP, fun _ _ => Iff.rfl⟩
  | cons i slots ih =>
    intro d rng keys d1 rng1 keys1 h hW hP
    rw [runTurns] at h
    cases ht : doTurn fuel i d rng keys with
    | none => rw [ht] at h; exact Option.noConfusion h
    | some r =>
      obtain ⟨d2, rng2, keys2⟩ := r
      rw [ht] at h
      simp only at h
      obtain ⟨a1, a2, a3⟩ := doTurn_soft fuel i d rng keys d2 rng2 keys2 ht hW hP
      obtain ⟨b1, b2, b3⟩ := ih d2 rng2 keys2 d1 rng1 keys1 h a1 a2
      exact ⟨b1, b2, fun x y => (b3 x y).trans (a3 x y)⟩

theorem walkableSoft_generated (fuel : Nat) (d0 : Dungeon) (rng0 rng1 rng2 : Rng)
    (d4 : Dungeon) (rng4 : Rng)
    (h : placeStairs fuel (connectRoomsViaCorridor
      (generateRooms (initializeDungeon d0 rng0).1 rng1).1) rng2 = some (d4, rng4)) :
    WalkableSoft d4 ∧ inBounds (startPosition d4).pc_x (startPosition d4).pc_y = true ∧
    pcCanWalkOn (d4.base_map (startPosition d4).pc_y (startPosition d4).pc_x) = true := by
  have hI := placeStairsLoop_inv _ fuel false false _ _ d4 rng4 (stairsInv_start _) h
  have hfresh : Fresh (initializeDungeon d0 rng0).1 :=
    fun x y hin => initializeDungeon_fresh d0 rng0 x y hin
  have hC2 : Classified (generateRooms (initializeDungeon d0 rng0).1 rng1).1 := by
    unfold generateRooms
    exact generateRoomsLoop_classified 2000 _ _ (classified_fresh _ hfresh)
  have hC := (connectRooms_classified _ hC2).1
  have hR := generateRooms_inv (initializeDungeon d0 rng0).1 rng1
  have hS := connectRooms_spec _
    (generateRooms_floorZero _ rng1 (initializeDungeon_floorZero d0 rng0)) hR
  have hJ := hS.2.1
  generalize connectRoomsViaCorridor (generateRooms (initializeDungeon d0 rng0).1 rng1).1 = d3
    at hI hC hS hJ
  have hsoft3 : ∀ x y, inBounds x y = true → pcCanWalkOn (d3.base_map y x) = true →
      d3.hardness y x ≠ 255 := by
    intro x y hin hw
    have hm := hC.map x y hin
    by_cases hcov : ∃ r ∈ d3.rooms, r.covers x y
    · rw [if_pos hcov] at hm
      rw [hJ x y hin hm]
      decide
    · rw [if_neg hcov] at hm
      unfold kindOfHardness at hm
      split_ifs at hm with h1 h2
      · rw [hm] at hw; exact absurd hw (by decide)
      · rw [hm] at hw; exact absurd hw (by decide)
      · exact h1
  have hground : ∀ c : Char, stairGround c → pcCanWalkOn c = true := by
    intro c hc
    rcases hc with hc | hc <;> rw [hc] <;> decide
  have hu := hI.up rfl
  have hd := hI.down rfl
  have hW : WalkableSoft d4 := by
    intro x y hin hw
    rw [hI.rest.1]
    rw [hI.map x y] at hw
    by_cases c1 : x = d4.up_xCoord ∧ y = d4.up_yCoord
    · rw [c1.1, c1.2]
      exact hsoft3 _ _ hu.1 (hground _ hu.2.1)
    · by_cases c2 : x = d4.down_xCoord ∧ y = d4.down_yCoord
      · rw [c2.1, c2.2]
        exact hsoft3 _ _ hd.1 (hground _ hd.2.1)
      · rw [if_neg (fun hc => c1 hc.2), if_neg (fun hc => c2 hc.2)] at hw
        exact hsoft3 x y hin hw
  have hhead : d4.rooms[0]? = some (firstRoom rng1) := by
    rw [hI.rest.2, hS.1.rooms]
    exact generateRooms_head _ _ (initializeDungeon_unmodified _ _)
  have hmem := generateRooms_first (initializeDungeon d0 rng0).1 rng1
    (initializeDungeon_unmodified d0 rng0)
  obtain ⟨px, py⟩ := startPosition_first d4 (firstRoom rng1) hhead
  have hin := hR.inside _ hmem
  have hsz := hR.size _ hmem
  unfold Room.interior at hin
  have hcov : (firstRoom rng1).covers (firstRoom rng1).x (firstRoom rng1).y := by
    unfold Room.covers
    omega
  have hdot : d3.base_map (firstRoom rng1).y (firstRoom rng1).x = '.' := by
    rw [hS.1.dots]
    exact hR.floor _ hmem _ _ hcov
  refine ⟨hW, ?_, ?_⟩
  · rw [px, py]
    unfold inBounds
    simp only [WIDTH, HEIGHT, Bool.and_eq_true, decide_eq_true_eq]
    omega
  · rw [px, py, hI.map]
    split_ifs
    · decide
    · decide
    · rw [hdot]; decide

theorem placeStairs_first_eq (d : Dungeon) (rng : Rng)
    (hu : stairGround
      (d.base_map ((rand (rand rng).2).1 % HEIGHT) ((rand rng).1 % WIDTH)))
    (hd : stairGround
      (d.base_map ((rand (rand (rand (rand rng).2).2).2).1 % HEIGHT)
        ((rand (rand (rand rng).2).2).1 % WIDTH)))
    (hne : ¬ ((rand rng).1 % WIDTH = (rand (rand (rand rng).2).2).1 % WIDTH ∧
      (rand (rand rng).2).1 % HEIGHT = (rand (rand (rand (rand rng).2).2).2).1 % HEIGHT)) :
    ∃ d4 rng4, placeStairs 1 d rng = some (d4, rng4) ∧
      d4.base_map = (d.base_map.set ((rand (rand rng).2).1 % HEIGHT) ((rand rng).1 % WIDTH)
        '<').set ((rand (rand (rand (rand rng).2).2).2).1 % HEIGHT)
          ((rand (rand (rand rng).2).2).1 % WIDTH) '>' ∧
      d4.hardness = d.hardness := by
  unfold stairGround at hu hd
  have hd1 : (d.base_map.set ((rand (rand rng).2).1 % HEIGHT) ((rand rng).1 % WIDTH) '<')
      ((rand (rand (rand (rand rng).2).2).2).1 % HEIGHT)
      ((rand (rand (rand rng).2).2).1 % WIDTH) =
      d.base_map ((rand (rand (rand (rand rng).2).2).2).1 % HEIGHT)
        ((rand (rand (rand rng).2).2).1 % WIDTH) := by
    unfold Grid.set
    rw [if_neg (fun hc => hne ⟨hc.2.symm, hc.1.symm⟩)]
  unfold placeStairs
  rw [placeStairsLoop]
  simp only [Bool.not_false, Bool.or_self, if_true, hu, hd1, hd, hne, not_false_eq_true,
    and_self, placeStairsLoop, Bool.not_true, Bool.false_eq_true, if_false]
  exact ⟨_, _, rfl, rfl, rfl⟩

theorem sampleLevel_stairs :
    ∃ d4 rng4,
      placeStairs 1 (connectRoomsViaCorridor
        (generateRooms (initializeDungeon Dungeon.new zeroRng).1 zeroRng).1) stairRng =
        some (d4, rng4) ∧
      d4.base_map = ((connectRoomsViaCorridor
        (generateRooms (initializeDungeon Dungeon.new zeroRng).1 zeroRng).1).base_map.set
          1 1 '<').set 1 2 '>' ∧
      d4.hardness = (connectRoomsViaCorridor
        (generateRooms (initializeDungeon Dungeon.new zeroRng).1 zeroRng).1).hardness := by
  have e1 : (rand stairRng).1 % WIDTH = 1 := by decide
  have e2 : (rand (rand stairRng).2).1 % HEIGHT = 1 := by decide
  have e3 : (rand (rand (rand stairRng).2).2).1 % WIDTH = 2 := by decide
  have e4 : (rand (rand (rand (rand stairRng).2).2).2).1 % HEIGHT = 1 := by decide
  have h := placeStairs_first_eq (connectRoomsViaCorridor
      (generateRooms (initializeDungeon Dungeon.new zeroRng).1 zeroRng).1) stairRng
    (by rw [e1, e2]; exact Or.inl (firstRoom_floor Dungeon.new zeroRng zeroRng 1 1 (by decide)))
    (by rw [e3, e4]; exact Or.inl (firstRoom_floor Dungeon.new zeroRng zeroRng 2 1 (by decide)))
    (by rw [e1, e2, e3, e4]; decide)
  rw [e1, e2, e3, e4] at h
  exact h

theorem NPC_doTurn_onto (i : Nat) (d : Dungeon) (rng : Rng) (me : Character)
    (hme : d.characters[i]? = some me) (halive : me.alive = true)
    (hrock : d.hardness (NPC.chooseTarget me d rng).2.1 (NPC.chooseTarget me d rng).1 = 255) :
    (NPC.doTurn i d rng).1.characters[i]? =
      some { me with x := (NPC.chooseTarget me d rng).1, y := (NPC.chooseTarget me d rng).2.1 } ∧
    (NPC.doTurn i d rng).1.hardness = d.hardness := by
  rw [NPC_doTurn_alive i d rng me hme halive]
  simp only
  rw [NPC_act_move i me d _ _ (by rw [hrock]; simp)]
  exact ⟨getElem?_set_self_of_some _ _ me _ hme, rfl⟩

/-- Take a generated level `d4` (grid initialisation, rooms, corridors, stairs, whatever
the random draws of each phase) and a game state `d` with that terrain whose PC stands on
the start position.  After any run of turns, of the PC and of NPCs in any order and with
any keys and draws: every character of type PC stands on a cell whose hardness is not 255,
and the cells of hardness 255 are exactly those of the generated level, so none was
eroded. -/
theorem pc_never_on_rock (fuel : Nat) (d0 : Dungeon) (rng0 rng1 rng2 : Rng)
    (d4 : Dungeon) (rng4 : Rng)
    (hgen : placeStairs fuel (connectRoomsViaCorridor
      (generateRooms (initializeDungeon d0 rng0).1 rng1).1) rng2 = some (d4, rng4))
    (d : Dungeon) (hT : d.hardness = d4.hardness ∧ d.base_map = d4.base_map)
    (hpc : ∀ c ∈ d.characters, c.type = CharType.PC_TYPE →
      c.x = (startPosition d4).pc_x ∧ c.y = (startPosition d4).pc_y)
    (fuel2 : Nat) (slots : List Nat) (rng : Rng) (keys : List Int)
    (d9 : Dungeon) (rng9 : Rng) (keys9 : List Int)
    (hrun : runTurns fuel2 slots d rng keys = some (d9, rng9, keys9)) :
    (∀ c ∈ d9.characters, c.type = CharType.PC_TYPE → d9.hardness c.y c.x ≠ 255) ∧
    (∀ x y, d9.hardness y x = 255 ↔ d4.hardness y x = 255) := by
  obtain ⟨hW4, hin, hwalk⟩ := walkableSoft_generated fuel d0 rng0 rng1 rng2 d4 rng4 hgen
  have hW : WalkableSoft d := by
    intro x y hxy hw
    rw [hT.1]
    rw [hT.2] at hw
    exact hW4 x y hxy hw
  have hP : PcSafe d := by
    intro c hc ht
    obtain ⟨cx, cy⟩ := hpc c hc ht
    rw [cx, cy, hT.1]
    exact hW4 _ _ hin hwalk
  obtain ⟨-, b2, b3⟩ := runTurns_soft fuel2 slots d rng keys d9 rng9 keys9 hrun hW hP
  refine ⟨b2, ?_⟩
  intro x y
  rw [b3 x y, hT.1]

theorem pc_never_on_rock_witness :
    ∃ d4 rng4,
      placeStairs 1 (connectRoomsViaCorridor
        (generateRooms (initializeDungeon Dungeon.new zeroRng).1 zeroRng).1) stairRng =
        some (d4, rng4) ∧
      ∀ c ∈ (NPC.doTurn 1
          { d4 with characters :=
            [{ PC.new with x := (startPosition d4).pc_x, y := (startPosition d4).pc_y },
              NPC.new 8 1 2 10 10] } countingRng).1.characters,
        c.type = CharType.PC_TYPE →
          (NPC.doTurn 1
            { d4 with characters :=
              [{ PC.new with x := (startPosition d4).pc_x, y := (startPosition d4).pc_y },
                NPC.new 8 1 2 10 10] } countingRng).1.hardness c.y c.x ≠ 255 := by
  obtain ⟨d4, rng4, h, -, -⟩ := sampleLevel_stairs
  refine ⟨d4, rng4, h, ?_⟩
  exact (pc_never_on_rock 1 Dungeon.new zeroRng zeroRng stairRng d4 rng4 h
    { d4 with characters :=
      [{ PC.new with x := (startPosition d4).pc_x, y := (startPosition d4).pc_y },
        NPC.new 8 1 2 10 10] }
    ⟨rfl, rfl⟩
    (by
      intro c hc ht
      rcases List.mem_cons.mp hc with h1 | h1
      · rw [h1]; exact ⟨rfl, rfl⟩
      · rw [List.mem_singleton.mp h1] at ht
        exact absurd ht (by decide))
    1 [1] countingRng [] _ _ [] rfl).1

/-- C29, the code on the failing input: in the level generated from the all-zero draws,
with the stairs drawn by `stairRng`, the cell `(1, 2)` is room floor and the border cell
`(0, 2)` has hardness 255.  An erratic monster (flags 8) on `(1, 2)`, whose draws are 0
(the random branch is taken) and 1 (the offset `(-1, 0)`), ends `NPC::doTurn` alive on
`(0, 2)`, and that cell still has hardness 255. -/
theorem npc_steps_on_rock :
    ∃ d4 rng4,
      placeStairs 1 (connectRoomsViaCorridor
        (generateRooms (initializeDungeon Dungeon.new zeroRng).1 zeroRng).1) stairRng =
        some (d4, rng4) ∧
      d4.base_map 2 1 = '.' ∧ d4.hardness 2 0 = 255 ∧
      ((NPC.doTurn 1
          { d4 with characters := [{ PC.new with x := 1, y := 1 }, NPC.new 8 1 2 10 10] }
          countingRng).1.characters[1]?.map fun c => (c.x, c.y, c.alive)) =
        some (0, 2, true) ∧
      (NPC.doTurn 1
          { d4 with characters := [{ PC.new with x := 1, y := 1 }, NPC.new 8 1 2 10 10] }
          countingRng).1.hardness 2 0 = 255 := by
  obtain ⟨d4, rng4, h, hb, hh⟩ := sampleLevel_stairs
  have hp := (generation_perimeter.2.2.1 (initializeDungeon Dungeon.new zeroRng).1 zeroRng
    (generation_perimeter.1 Dungeon.new zeroRng)) 0 2 (by decide) (Or.inl rfl)
  have hrock : d4.hardness 2 0 = 255 := by rw [hh]; exact hp
  have hfloor : d4.base_map 2 1 = '.' := by
    rw [hb]
    simp only [grid_set_apply]
    rw [if_neg (by decide), if_neg (by decide)]
    exact firstRoom_floor Dungeon.new zeroRng zeroRng 1 2 (by decide)
  have ht1 : ∀ d : Dungeon, (NPC.chooseTarget (NPC.new 8 1 2 10 10) d countingRng).1 = 0 :=
    fun d => by rfl
  have ht2 : ∀ d : Dungeon, (NPC.chooseTarget (NPC.new 8 1 2 10 10) d countingRng).2.1 = 2 :=
    fun d => by rfl
  have hmove := NPC_doTurn_onto 1
    { d4 with characters := [{ PC.new with x := 1, y := 1 }, NPC.new 8 1 2 10 10] }
    countingRng (NPC.new 8 1 2 10 10) rfl rfl (by rw [ht1, ht2]; exact hrock)
  rw [ht1, ht2] at hmove
  refine ⟨d4, rng4, h, hfloor, hrock, ?_, ?_⟩
  · rw [hmove.1]
    rfl
  · rw [hmove.2]
    exact hrock

/-! ## Theorems: the remembered map -/

theorem foldl_cond_row {α : Type} (P Q : Int → Int → Bool) (v : Int → Int → α) (r : Int) :
    ∀ (cs : List Int) (g : Grid α) (y x : Int),
    (cs.foldl (fun g c => if P c r = true then (if Q c r = true then g.set r c (v r c) else g)
      else g) g) y x =
      if y = r ∧ x ∈ cs ∧ P x y = true ∧ Q x y = true then v y x else g y x := by
  intro cs
  induction cs with
  | nil => intro g y x; simp
  | cons c cs ih =>
    intro g y x
    rw [List.foldl_cons, ih]
    by_cases h1 : y = r ∧ x ∈ cs ∧ P x y = true ∧ Q x y = true
    · rw [if_pos h1, if_pos ⟨h1.1, List.mem_cons_of_mem _ h1.2.1, h1.2.2⟩]
    · rw [if_neg h1]
      by_cases h2 : y = r ∧ x = c ∧ P x y = true ∧ Q x y = true
      · obtain ⟨e1, e2, e3, e4⟩ := h2
        subst e1 e2
        rw [if_pos e3, if_pos e4, grid_set_apply, if_pos ⟨rfl, rfl⟩,
          if_pos ⟨rfl, List.mem_cons_self _ _, e3, e4⟩]
      · have h3 : ¬ (y = r ∧ x ∈ c :: cs ∧ P x y = true ∧ Q x y = true) := by
          rintro ⟨e1, e2, e3⟩
          rcases List.mem_cons.mp e2 with e | e
          · exact h2 ⟨e1, e, e3⟩
          · exact h1 ⟨e1, e, e3⟩
        rw [if_neg h3]
        split_ifs with a b
        · rw [grid_set_apply, if_neg]
          rintro ⟨e1, e2⟩
          subst e1 e2
          exact h2 ⟨rfl, rfl, a, b⟩
        · rfl
        · rfl

theorem foldl_cond_rect {α : Type} (P Q : Int → Int → Bool) (v : Int → Int → α)
    (cs : List Int) : ∀ (rs : List Int) (g : Grid α) (y x : Int),
    (rs.foldl (fun g r => cs.foldl (fun g c =>
        if P c r = true then (if Q c r = true then g.set r c (v r c) else g) else g) g) g) y x =
      if y ∈ rs ∧ x ∈ cs ∧ P x y = true ∧ Q x y = true then v y x else g y x := by
  intro rs
  induction rs with
  | nil => intro g y x; simp
  | cons r rs ih =>
    intro g y x
    rw [List.foldl_cons, ih, foldl_cond_row]
    by_cases h1 : y ∈ rs ∧ x ∈ cs ∧ P x y = true ∧ Q x y = true
    · rw [if_pos h1, if_pos ⟨List.mem_cons_of_mem _ h1.1, h1.2⟩]
    · rw [if_neg h1]
      by_cases h2 : y = r ∧ x ∈ cs ∧ P x y = true ∧ Q x y = true
      · rw [if_pos h2, if_pos ⟨h2.1 ▸ List.mem_cons_self _ _, h2.2⟩]
      · rw [if_neg h2, if_neg]
        rintro ⟨e1, e2⟩
        rcases List.mem_cons.mp e1 with e | e
        · exact h2 ⟨e, e2⟩
        · exact h1 ⟨e, e2⟩

theorem near_of_sq (a b : Int) (h : a * a + b * b ≤ 9) : -3 ≤ a ∧ a ≤ 3 := by
  constructor <;> nlinarith [mul_self_nonneg b, mul_self_nonneg (a - 3), mul_self_nonneg (a + 3)]

/-- C31: `PC::updateRemembered` for the PC `me` in slot `i` changes nothing but the
remembered map of that PC.  In the new map every cell `(cx, cy)` of the grid with
`(cx - x)^2 + (cy - y)^2 ≤ 9`, for the PC's position `(x, y)`, holds the floor kind
`base_map[cy][cx]`, and every other cell holds what it held before. -/
theorem updateRemembered_spec (i : Nat) (d : Dungeon) (me : Character)
    (hme : d.characters[i]? = some me) :
    ∃ rem : Grid Char,
      PC.updateRemembered i d =
        { d with characters := d.characters.set i { me with remembered_map := rem } } ∧
      ∀ cx cy : Int, rem cy cx =
        if inBounds cx cy = true ∧ (cx - me.x) * (cx - me.x) + (cy - me.y) * (cy - me.y) ≤ 9
        then d.base_map cy cx else me.remembered_map cy cx := by
  unfold PC.updateRemembered
  rw [hme]
  refine ⟨_, rfl, ?_⟩
  intro cx cy
  rw [foldl_cond_rect (fun x y => inBounds x y) (fun x y => isVisible me.x me.y x y)
    (fun y x => d.base_map y x)]
  simp only [mem_intRange, isVisible, PC_LIGHT_RADIUS, decide_eq_true_eq]
  by_cases h : inBounds cx cy = true ∧
      (cx - me.x) * (cx - me.x) + (cy - me.y) * (cy - me.y) ≤ 9
  · have hx := near_of_sq _ _ h.2
    have hy := near_of_sq (cy - me.y) (cx - me.x) (by linarith [h.2])
    rw [if_pos h, if_pos]
    refine ⟨⟨by omega, by omega⟩, ⟨by omega, by omega⟩, h.1, ?_⟩
    have := h.2
    norm_num
    exact this
  · rw [if_neg h, if_neg]
    rintro ⟨-, -, e1, e2⟩
    apply h
    refine ⟨e1, ?_⟩
    norm_num at e2
    exact e2

theorem updateRemembered_spec_witness :
    ∃ rem : Grid Char,
      PC.updateRemembered 0 chaseDungeon =
        { chaseDungeon with characters :=
          chaseDungeon.characters.set 0 { { PC.new with x := 5, y := 5 } with
            remembered_map := rem } } ∧
      rem 5 8 = '.' ∧ rem 5 9 = PC.new.remembered_map 5 9 ∧ rem 7 7 = '.' ∧
      rem 8 8 = PC.new.remembered_map 8 8 := by
  obtain ⟨rem, h1, h2⟩ := updateRemembered_spec 0 chaseDungeon { PC.new with x := 5, y := 5 } rfl
  refine ⟨rem, h1, ?_, ?_, ?_, ?_⟩
  · rw [h2]; decide
  · rw [h2, if_neg (by decide)]
  · rw [h2]; decide
  · rw [h2, if_neg (by decide)]


/-! ## Theorems: the two routines as runs of the common loop -/

theorem djikstraForTunnel_run (hardness old : Grid Int) (x y : Int) :
    djikstraForTunnel hardness old x y =
      (runWith tunnelPass tunnelCost hardness old x y).1 := by
  unfold djikstraForTunnel
  rw [djikstraForTunnelRun_eq]

theorem djikstraForNonTunnel_run (hardness old : Grid Int) (x y : Int) :
    djikstraForNonTunnel hardness old x y =
      (runWith nonTunnelPass nonTunnelCost hardness old x y).1 := by
  unfold djikstraForNonTunnel
  rw [djikstraForNonTunnelRun_eq]

/-! ## Theorems: progress of the intelligent move -/

theorem field_beside_source (hardness old : Grid Int) (sx sy : Int)
    (hs : inBounds sx sy = true) (cx cy : Int) (hcin : inBounds cx cy = true)
    (hadj : adjacent8 (sx, sy) (cx, cy)) (hopen : hardness cy cx = 0) :
    0 < djikstraForNonTunnel hardness old sx sy cy cx ∧
      djikstraForNonTunnel hardness old sx sy cy cx < INT32_MAX := by
  rw [djikstraForNonTunnel_run]
  have h1 := field_off_source nonTunnelPass nonTunnelCost hardness old nonTunnelCost_range
    sx sy hs (cx, cy) hcin (fun h => hadj.1 h.symm)
  have h2 := ((runWith_correct nonTunnelPass nonTunnelCost hardness old nonTunnelCost_range
    sx sy hs).2.2.2.1 [(cx, cy)] ⟨⟨hadj, hcin, by simp [enterOf, nonTunnelPass, hopen]⟩,
      trivial⟩).2
  have h3 : walkEnd (sx, sy) [(cx, cy)] = (cx, cy) := rfl
  have h4 : walkCost (weightOf nonTunnelCost hardness) [(cx, cy)] = 1 := by
    simp [walkCost, weightOf, nonTunnelCost]
  rw [h3, h4] at h2
  simp only at h1 h2
  have h6 : (1 : Int) < INT32_MAX := by decide
  constructor <;> omega

theorem mem_scanOffsets (o : Int × Int) :
    o ∈ scanOffsets ↔ o ≠ (0, 0) ∧ o.1.natAbs ≤ 1 ∧ o.2.natAbs ≤ 1 := by
  obtain ⟨a, b⟩ := o
  constructor
  · intro h
    simp only [scanOffsets, List.mem_cons, Prod.mk.injEq, List.mem_singleton, List.mem_nil_iff,
      or_false] at h
    rcases h with h | h | h | h | h | h | h | h <;> obtain ⟨rfl, rfl⟩ := h <;> decide
  · rintro ⟨hne, h1, h2⟩
    simp only at h1 h2
    have ha : a = -1 ∨ a = 0 ∨ a = 1 := by omega
    have hb : b = -1 ∨ b = 0 ∨ b = 1 := by omega
    rcases ha with rfl | rfl | rfl <;> rcases hb with rfl | rfl | rfl <;>
      first
      | exact absurd rfl hne
      | decide

theorem mem_scanNeighbours (x y : Int) (n : Cell) :
    n ∈ scanNeighbours x y ↔ adjacent8 (x, y) n ∧ inBounds n.1 n.2 = true := by
  unfold scanNeighbours adjacent8
  simp only [List.mem_filter, List.mem_map]
  constructor
  · rintro ⟨⟨o, ho, rfl⟩, hin⟩
    obtain ⟨hne, h1, h2⟩ := (mem_scanOffsets o).mp ho
    refine ⟨⟨?_, ?_, ?_⟩, hin⟩
    · intro he
      apply hne
      simp only [Prod.mk.injEq] at he
      exact Prod.ext (by simp only; omega) (by simp only; omega)
    · simp only; rw [show x + o.1 - x = o.1 by ring]; exact h1
    · simp only; rw [show y + o.2 - y = o.2 by ring]; exact h2
  · rintro ⟨⟨hne, h1, h2⟩, hin⟩
    refine ⟨⟨(n.1 - x, n.2 - y), (mem_scanOffsets _).mpr ⟨?_, h1, h2⟩, ?_⟩, hin⟩
    · intro he
      apply hne
      simp only [Prod.mk.injEq] at he
      exact Prod.ext (by simp only; omega) (by simp only; omega)
    · exact Prod.ext (by simp only; omega) (by simp only; omega)

/-- C37: let the non-tunneling field be the output of `djikstraForNonTunnel` on the current
hardness grid, from a source inside the grid, and let the live NPC `me` in slot `i` be
intelligent, not tunneling and not erratic, on a cell of the grid whose field value `v`
satisfies `0 < v < INT32_MAX`.  After `NPC::doTurn` the NPC stands on an 8-neighbour of
its old cell, inside the grid, whose field value is exactly `v - 1`; the hardness grid and
the field are unchanged. -/
theorem intelligent_progress (i : Nat) (d : Dungeon) (rng : Rng) (me : Character)
    (old : Grid Int) (sx sy : Int) (hs : inBounds sx sy = true)
    (hfield : d.disNonTunneling = djikstraForNonTunnel d.hardness old sx sy)
    (hme : d.characters[i]? = some me) (halive : me.alive = true)
    (hint : (me.btype &&& 0x1 != 0) = true) (htun : (me.btype &&& 0x4 != 0) = false)
    (herr : (me.btype &&& 0x8 != 0) = false)
    (hin : inBounds me.x me.y = true)
    (hv : 0 < d.disNonTunneling me.y me.x ∧ d.disNonTunneling me.y me.x < INT32_MAX) :
    ∃ tx ty : Int,
      (NPC.doTurn i d rng).1.characters[i]? = some { me with x := tx, y := ty } ∧
      adjacent8 (me.x, me.y) (tx, ty) ∧ inBounds tx ty = true ∧
      d.disNonTunneling ty tx = d.disNonTunneling me.y me.x - 1 ∧
      (NPC.doTurn i d rng).1.hardness = d.hardness ∧
      (NPC.doTurn i d rng).1.disNonTunneling = d.disNonTunneling := by
  have hrun : d.disNonTunneling =
      (runWith nonTunnelPass nonTunnelCost d.hardness old sx sy).1 := by
    rw [hfield]
    unfold djikstraForNonTunnel
    rw [djikstraForNonTunnelRun_eq]
  obtain ⟨-, hsrc, -, -, hrange⟩ :=
    runWith_correct nonTunnelPass nonTunnelCost d.hardness old nonTunnelCost_range sx sy hs
  rw [← hrun] at hsrc hrange
  have hne : ((me.x, me.y) : Cell) ≠ (sx, sy) := by
    intro he
    simp only [Prod.mk.injEq] at he
    rw [he.1, he.2, hsrc] at hv
    omega
  have hloc := (runWith_local nonTunnelPass nonTunnelCost d.hardness old nonTunnelCost_range
    sx sy hs (me.x, me.y) hin hne).1
  rw [← hrun] at hloc
  obtain ⟨-, n, hadj, hnin, heq, hmin⟩ := hloc (by simp only; omega)
  simp only [weightOf, nonTunnelCost] at heq
  -- the scan finds a neighbour with the least value
  obtain ⟨e1, e2⟩ := chooseTarget_intelligent me d rng hint (by rw [herr]; simp)
  have hscan := scan_fold_min d (me.btype &&& 0x4 != 0) me.x me.y scanOffsets
    (INT32_MAX, me.x, me.y) (by decide)
  have hfa : ∀ c : Cell, NPC.fieldAt d (me.btype &&& 0x4 != 0) c = d.disNonTunneling c.2 c.1 := by
    intro c
    unfold NPC.fieldAt
    rw [htun]
    simp
  have hnmem : n ∈ scanNeighbours me.x me.y := (mem_scanNeighbours _ _ n).mpr ⟨hadj, hnin⟩
  have hdo := NPC_doTurn_alive i d rng me hme halive
  rw [e1, e2] at hdo
  generalize List.foldl
    (fun st o => scanNeighbour d (me.btype &&& 0x4 != 0) me.x me.y o.2 o.1 st)
    (INT32_MAX, me.x, me.y) scanOffsets = r at hscan hdo
  rcases hscan with ⟨-, hall⟩ | ⟨-, pre, post, hN, hFt, hpre, hpost⟩
  · have := hall n hnmem
    rw [hfa] at this
    omega
  · have htmem : (r.2.1, r.2.2) ∈ scanNeighbours me.x me.y := by
      unfold scanNeighbours
      rw [hN]
      exact List.mem_append_right _ (List.mem_cons_self _ _)
    obtain ⟨tadj, tin⟩ := (mem_scanNeighbours _ _ _).mp htmem
    have hle1 : d.disNonTunneling r.2.2 r.2.1 ≤ d.disNonTunneling n.2 n.1 := by
      have hn' := hnmem
      unfold scanNeighbours at hn'
      rw [hN] at hn'
      rw [← hfa (r.2.1, r.2.2), ← hfa n, hFt]
      rcases List.mem_append.mp hn' with h | h
      · exact le_of_lt (hpre n h)
      · rcases List.mem_cons.mp h with h | h
        · rw [h, hFt]
        · exact hpost n h
    have hle2 := hmin (r.2.1, r.2.2) tadj tin
    simp only at hle2
    rw [hdo]
    simp only
    rw [NPC_act_move i me d _ _ (by rw [htun]; simp)]
    refine ⟨r.2.1, r.2.2, getElem?_set_self_of_some _ _ me _ hme, tadj, tin, ?_, rfl, rfl⟩
    omega

theorem intelligent_progress_witness :
    ∃ tx ty : Int,
      (NPC.doTurn 1
          { chaseDungeon with
            disNonTunneling := djikstraForNonTunnel chaseDungeon.hardness
              chaseDungeon.disNonTunneling 5 5
            characters := [{ PC.new with x := 5, y := 5 }, NPC.new 1 6 6 10 10] }
          zeroRng).1.characters[1]? = some { NPC.new 1 6 6 10 10 with x := tx, y := ty } ∧
      adjacent8 (6, 6) (tx, ty) ∧ inBounds tx ty = true := by
  have h1 := field_beside_source chaseDungeon.hardness chaseDungeon.disNonTunneling 5 5
    (by decide) 6 6 (by decide) (by decide) (by decide)
  have key : ∀ g : Grid Int,
      g = djikstraForNonTunnel chaseDungeon.hardness chaseDungeon.disNonTunneling 5 5 →
      ∃ tx ty : Int,
        (NPC.doTurn 1
            { chaseDungeon with
              disNonTunneling := g
              characters := [{ PC.new with x := 5, y := 5 }, NPC.new 1 6 6 10 10] }
            zeroRng).1.characters[1]? = some { NPC.new 1 6 6 10 10 with x := tx, y := ty } ∧
        adjacent8 (6, 6) (tx, ty) ∧ inBounds tx ty = true := by
    intro g hg
    obtain ⟨tx, ty, a, b, c, -⟩ := intelligent_progress 1
      { chaseDungeon with
        disNonTunneling := g
        characters := [{ PC.new with x := 5, y := 5 }, NPC.new 1 6 6 10 10] }
      zeroRng (NPC.new 1 6 6 10 10) chaseDungeon.disNonTunneling 5 5 (by decide) hg rfl rfl
      (by decide) (by decide) (by decide) (by decide)
      (by
        show 0 < g 6 6 ∧ g 6 6 < INT32_MAX
        rw [hg]
        exact h1)
    exact ⟨tx, ty, a, b, c⟩
  exact key _ rfl

/-! ## Theorems: indexes outside the grid -/

theorem NPC_doTurn_walk (i : Nat) (d : Dungeon) (rng : Rng) (me : Character)
    (hme : d.characters[i]? = some me) (halive : me.alive = true)
    (htun : (me.btype &&& 0x4 != 0) = false) :
    (NPC.doTurn i d rng).1 =
      { d with
        pc_is_alive := if d.pc_x = (NPC.chooseTarget me d rng).1 ∧
          d.pc_y = (NPC.chooseTarget me d rng).2.1 then false else d.pc_is_alive
        characters := d.characters.set i
          { me with x := (NPC.chooseTarget me d rng).1, y := (NPC.chooseTarget me d rng).2.1 } } := by
  rw [NPC_doTurn_alive i d rng me hme halive]
  simp only
  rw [NPC_act_move i me d _ _ (by rw [htun]; simp)]

/-- C34, the code on the failing input: in the level generated from the all-zero draws
(stairs drawn by `stairRng`) an erratic monster (flags 8) stands on the room-floor cell
`(1, 2)`, the PC on `(1, 1)`.  With the draws 0, 1 its first turn leaves it on the border
cell `(0, 2)`: every character is still inside the grid.  With the draws 0, 1 again, the
destination of its second turn is `(-1, 2)`, which is outside the grid; `NPC::doTurn`
uses it as an index and leaves the monster on it. -/
theorem npc_leaves_grid :
    ∃ d4 rng4,
      placeStairs 1 (connectRoomsViaCorridor
        (generateRooms (initializeDungeon Dungeon.new zeroRng).1 zeroRng).1) stairRng =
        some (d4, rng4) ∧
      d4.base_map 2 1 = '.' ∧
      (NPC.turns
          { d4 with characters := [{ PC.new with x := 1, y := 1 }, NPC.new 8 1 2 10 10] }
          [(1, countingRng)]).characters.map (fun c => (c.x, c.y, inBounds c.x c.y)) =
        [(1, 1, true), (0, 2, true)] ∧
      (NPC.chooseTarget { NPC.new 8 1 2 10 10 with x := 0, y := 2 }
        (NPC.turns
          { d4 with characters := [{ PC.new with x := 1, y := 1 }, NPC.new 8 1 2 10 10] }
          [(1, countingRng)]) countingRng).1 = -1 ∧
      (NPC.chooseTarget { NPC.new 8 1 2 10 10 with x := 0, y := 2 }
        (NPC.turns
          { d4 with characters := [{ PC.new with x := 1, y := 1 }, NPC.new 8 1 2 10 10] }
          [(1, countingRng)]) countingRng).2.1 = 2 ∧
      inBounds (-1) 2 = false ∧
      (NPC.turns
          { d4 with characters := [{ PC.new with x := 1, y := 1 }, NPC.new 8 1 2 10 10] }
          [(1, countingRng), (1, countingRng)]).characters.map
            (fun c => (c.x, c.y, inBounds c.x c.y)) =
        [(1, 1, true), (-1, 2, false)] := by
  obtain ⟨d4, rng4, h, hb, -⟩ := sampleLevel_stairs
  have hfloor : d4.base_map 2 1 = '.' := by
    rw [hb]
    simp only [grid_set_apply]
    rw [if_neg (by decide), if_neg (by decide)]
    exact firstRoom_floor Dungeon.new zeroRng zeroRng 1 2 (by decide)
  have ht1 : ∀ d : Dungeon, (NPC.chooseTarget (NPC.new 8 1 2 10 10) d countingRng).1 = 0 :=
    fun d => by rfl
  have ht2 : ∀ d : Dungeon, (NPC.chooseTarget (NPC.new 8 1 2 10 10) d countingRng).2.1 = 2 :=
    fun d => by rfl
  have hu1 : ∀ d : Dungeon,
      (NPC.chooseTarget { NPC.new 8 1 2 10 10 with x := 0, y := 2 } d countingRng).1 = -1 :=
    fun d => by rfl
  have hu2 : ∀ d : Dungeon,
      (NPC.chooseTarget { NPC.new 8 1 2 10 10 with x := 0, y := 2 } d countingRng).2.1 = 2 :=
    fun d => by rfl
  have s1 := NPC_doTurn_walk 1
    { d4 with characters := [{ PC.new with x := 1, y := 1 }, NPC.new 8 1 2 10 10] }
    countingRng (NPC.new 8 1 2 10 10) rfl rfl (by decide)
  rw [ht1, ht2] at s1
  have e1 : NPC.turns
      { d4 with characters := [{ PC.new with x := 1, y := 1 }, NPC.new 8 1 2 10 10] }
      [(1, countingRng)] = (NPC.doTurn 1
      { d4 with characters := [{ PC.new with x := 1, y := 1 }, NPC.new 8 1 2 10 10] }
      countingRng).1 := rfl
  have e2 : NPC.turns
      { d4 with characters := [{ PC.new with x := 1, y := 1 }, NPC.new 8 1 2 10 10] }
      [(1, countingRng), (1, countingRng)] = (NPC.doTurn 1 (NPC.doTurn 1
      { d4 with characters := [{ PC.new with x := 1, y := 1 }, NPC.new 8 1 2 10 10] }
      countingRng).1 countingRng).1 := rfl
  have s2 := NPC_doTurn_walk 1
    { d4 with
      pc_is_alive := if d4.pc_x = 0 ∧ d4.pc_y = 2 then false else d4.pc_is_alive
      characters := [{ PC.new with x := 1, y := 1 },
        { NPC.new 8 1 2 10 10 with x := 0, y := 2 }] }
    countingRng { NPC.new 8 1 2 10 10 with x := 0, y := 2 } rfl rfl (by decide)
  rw [hu1, hu2] at s2
  have e3 : ({ d4 with
      pc_is_alive := if d4.pc_x = 0 ∧ d4.pc_y = 2 then false else d4.pc_is_alive
      characters := ([{ PC.new with x := 1, y := 1 }, NPC.new 8 1 2 10 10] :
        List Character).set 1 { NPC.new 8 1 2 10 10 with x := 0, y := 2 } } : Dungeon) =
      { d4 with
        pc_is_alive := if d4.pc_x = 0 ∧ d4.pc_y = 2 then false else d4.pc_is_alive
        characters := [{ PC.new with x := 1, y := 1 },
          { NPC.new 8 1 2 10 10 with x := 0, y := 2 }] } := rfl
  refine ⟨d4, rng4, h, hfloor, ?_, hu1 _, hu2 _, by decide, ?_⟩
  · rw [e1, s1]
    rfl
  · rw [e2, s1, e3, s2]
    rfl

theorem deriveMap_any (d : Dungeon) (g : Grid Char) (x y : Int) :
    deriveMap d g y x =
      if d.downCount > 0 ∧ y = d.down_yCoord ∧ x = d.down_xCoord then '>'
      else if d.upCount > 0 ∧ y = d.up_yCoord ∧ x = d.up_xCoord then '<'
      else if ∃ r ∈ d.rooms, r.covers x y then '.'
      else if (x, y) ∈ allCells then kindOfHardness (d.hardness y x) else g y x := by
  have base : (d.rooms.foldl markRoom (allCells.foldl (classifyCell d.hardness) g)) y x =
      if ∃ r ∈ d.rooms, r.covers x y then '.'
      else if (x, y) ∈ allCells then kindOfHardness (d.hardness y x) else g y x := by
    rw [markRooms_apply, classify_fold]
  unfold deriveMap
  by_cases hd : d.downCount > 0 <;> by_cases hu : d.upCount > 0 <;>
    simp only [hd, hu, if_true, if_false, true_and, false_and, Grid.set, base]

theorem load_save_map (d t : Dungeon) (f : FileIn)
    (hf : f.data = save_dungeon d) :
    (∃ g : Grid Char, ∀ x y : Int, (load_dungeon t f).base_map y x =
      if (load_dungeon t f).downCount > 0 ∧ y = (load_dungeon t f).down_yCoord ∧
          x = (load_dungeon t f).down_xCoord then '>'
      else if (load_dungeon t f).upCount > 0 ∧ y = (load_dungeon t f).up_yCoord ∧
          x = (load_dungeon t f).up_xCoord then '<'
      else if ∃ r ∈ (load_dungeon t f).rooms, r.covers x y then '.'
      else if (x, y) ∈ allCells then kindOfHardness ((load_dungeon t f).hardness y x)
      else g y x) ∧
    (∃ (p : Dungeon) (g : Grid Char), Proc.load_dungeon t f = some p ∧
      p.rooms = (load_dungeon t f).rooms ∧ p.upCount = (load_dungeon t f).upCount ∧
      p.up_xCoord = (load_dungeon t f).up_xCoord ∧
      p.up_yCoord = (load_dungeon t f).up_yCoord ∧
      p.downCount = (load_dungeon t f).downCount ∧
      p.down_xCoord = (load_dungeon t f).down_xCoord ∧
      p.down_yCoord = (load_dungeon t f).down_yCoord ∧
      ∀ x y : Int, p.dungeon y x =
        if p.downCount > 0 ∧ y = p.down_yCoord ∧ x = p.down_xCoord then '>'
        else if p.upCount > 0 ∧ y = p.up_yCoord ∧ x = p.up_xCoord then '<'
        else if ∃ r ∈ p.rooms, r.covers x y then '.'
        else if (x, y) ∈ allCells then kindOfHardness (p.hardness y x)
        else g y x) := by
  rw [save_dungeon_eq] at hf
  obtain ⟨f2, -, e, eP⟩ := load_dungeon_accept t f _ hf
  have hmap := fun g x y => deriveMap_any (loadLevel t f2).1 g x y
  generalize loadLevel t f2 = lv at e eP hmap
  rw [e, eP]
  refine ⟨⟨lv.1.base_map, fun x y => hmap _ x y⟩,
    ⟨_, lv.1.dungeon, rfl, rfl, rfl, rfl, rfl, rfl, rfl, rfl, fun x y => hmap _ x y⟩⟩

/-- C35, the code on the failing input: the file `save_dungeon strayDungeon` starts with
the valid marker and version and stores the room `(0, 200, 1, 1)` and the up stair
`(100, 5)`.  `load_dungeon` reads both and uses them as indexes without any test: it
writes `'.'` to `base_map[200][0]` and `'<'` to `base_map[5][100]`, two cells outside the
grid; the procedural `load_dungeon` writes the same to its grid `dungeon`. -/
theorem load_writes_off_grid : ∀ stale : Nat → Nat,
    inBounds 0 200 = false ∧ inBounds 100 5 = false ∧
    (load_dungeon Dungeon.new (FileIn.open (save_dungeon strayDungeon) stale)).rooms =
      [⟨0, 200, 1, 1⟩] ∧
    Dungeon.new.base_map 200 0 = ' ' ∧
    (load_dungeon Dungeon.new (FileIn.open (save_dungeon strayDungeon) stale)).base_map 200 0 =
      '.' ∧
    (load_dungeon Dungeon.new (FileIn.open (save_dungeon strayDungeon) stale)).base_map 5 100 =
      '<' ∧
    ∃ p, Proc.load_dungeon Dungeon.new (FileIn.open (save_dungeon strayDungeon) stale) =
        some p ∧
      p.dungeon 200 0 = '.' ∧ p.dungeon 5 100 = '<' := by
  intro stale
  have hr : strayDungeon.rooms.length ≤ 10 := by decide
  obtain ⟨-, -, -, h4, h5, h6, -, -⟩ := load_save_fields strayDungeon Dungeon.new
    (FileIn.open (save_dungeon strayDungeon) stale) hr (open_data _ _)
  obtain ⟨⟨g, hg⟩, p, g1, hp, p1, p2, p3, p4, p5, p6, p7, hpg⟩ :=
    load_save_map strayDungeon Dungeon.new
      (FileIn.open (save_dungeon strayDungeon) stale) (open_data _ _)
  have hrooms : (load_dungeon Dungeon.new
      (FileIn.open (save_dungeon strayDungeon) stale)).rooms = [⟨0, 200, 1, 1⟩] := by
    rw [h4]; rfl
  have hup : strayDungeon.upCount > 0 := by decide
  have hdown : ¬ strayDungeon.downCount > 0 := by decide
  rw [if_pos hup] at h5
  rw [if_neg hdown] at h6
  simp only [Prod.mk.injEq] at h5 h6
  obtain ⟨u1, u2, u3⟩ := h5
  obtain ⟨w1, -, -⟩ := h6
  have u2' : (load_dungeon Dungeon.new
      (FileIn.open (save_dungeon strayDungeon) stale)).up_xCoord = 100 := by rw [u2]; rfl
  have u3' : (load_dungeon Dungeon.new
      (FileIn.open (save_dungeon strayDungeon) stale)).up_yCoord = 5 := by rw [u3]; rfl
  have hcov : ∃ r ∈ ([⟨0, 200, 1, 1⟩] : List Room), r.covers 0 200 :=
    ⟨⟨0, 200, 1, 1⟩, List.mem_singleton.mpr rfl, by decide⟩
  refine ⟨by decide, by decide, hrooms, rfl, ?_, ?_, p, hp, ?_, ?_⟩
  · rw [hg, w1, u1, u2', u3', hrooms]
    rw [if_neg (fun h => absurd h.1 (by decide)), if_neg (by decide), if_pos hcov]
  · rw [hg, w1, u1, u2', u3']
    rw [if_neg (fun h => absurd h.1 (by decide)), if_pos (by decide)]
  · rw [hpg, p5, p2, p3, p4, p1, w1, u1, u2', u3', hrooms]
    rw [if_neg (fun h => absurd h.1 (by decide)), if_neg (by decide), if_pos hcov]
  · rw [hpg, p5, p2, p3, p4, w1, u1, u2', u3']
    rw [if_neg (fun h => absurd h.1 (by decide)), if_pos (by decide)]

/-! ## Theorems: the PC step of the procedural variant -/

theorem glyph_blocks : ∀ c ∈ hex_map, pcCanWalkOn c = false := by decide

/-- C38: in `handle_pc_input` of the procedural variant, for a key that selects one of the
8 move cases, towards `(dx, dy)`: the walkability test reads `dungeon[ny][nx]`, the display
grid.  When that cell shows a monster glyph (a hex digit), the command ends the turn with
the whole state unchanged: the PC stays where it is and no character dies. -/
theorem proc_move_blocked (new_level : Dungeon → Rng → Option (Dungeon × Rng))
    (fuel i : Nat) (d : Dungeon) (rng : Rng) (keys : List Int) (pc : Character)
    (ch dx dy : Int)
    (hpc : d.characters[i]? = some pc)
    (hc : Proc.keyCase ch = Proc.KeyCase.move dx dy)
    (hglyph : d.dungeon (pc.y + dy) (pc.x + dx) ∈ hex_map) :
    Proc.step i d dx dy = d ∧
    Proc.handle_pc_input new_level i (fuel + 1) (ch :: keys) d rng = some (d, rng, keys) := by
  have hs : Proc.step i d dx dy = d := by
    unfold Proc.step
    rw [hpc]
    simp only [glyph_blocks _ hglyph, Bool.false_eq_true, and_false, if_false]
  refine ⟨hs, ?_⟩
  rw [Proc.handle_pc_input, hc]
  simp only [hs]

theorem proc_move_blocked_witness :
    Proc.handle_pc_input (fun _ _ => none) 0 1 [key 'l'] blockedDungeon zeroRng =
      some (blockedDungeon, zeroRng, []) :=
  (proc_move_blocked (fun _ _ => none) 0 0 blockedDungeon zeroRng []
    { PC.new with x := 5, y := 5 } (key 'l') 1 0 rfl rfl (by decide)).2

/-! ## Theorems: the node heap during a path-field computation -/

theorem relaxLog_fst (pass : Int → Bool) (cost : Int → Int) (hardness : Grid Int)
    (u : Node) (sl : (Grid Int × List Node) × HeapLog) (dir : Int × Int) :
    (relaxLog pass cost hardness u sl dir).1 = relaxWith pass cost hardness u sl.1 dir := by
  unfold relaxLog relaxWith
  simp only
  split_ifs <;> rfl

theorem foldl_relaxLog_fst (pass : Int → Bool) (cost : Int → Int) (hardness : Grid Int)
    (u : Node) : ∀ (ds : List (Int × Int)) (sl : (Grid Int × List Node) × HeapLog),
    (ds.foldl (relaxLog pass cost hardness u) sl).1 =
      ds.foldl (relaxWith pass cost hardness u) sl.1 := by
  intro ds
  induction ds with
  | nil => intro sl; rfl
  | cons d ds ih =>
    intro sl
    simp only [List.foldl_cons]
    rw [ih, relaxLog_fst]

theorem loopLog_fst (pass : Int → Bool) (cost : Int → Int) (hardness : Grid Int) :
    ∀ (fuel : Nat) (sl : (Grid Int × List Node) × HeapLog),
    (loopLog pass cost hardness fuel sl).1 = loopWith pass cost hardness fuel sl.1 := by
  intro fuel
  induction fuel with
  | zero => intro sl; rfl
  | succ n ih =>
    intro sl
    rw [loopLog, loopWith]
    split_ifs with h1
    · rfl
    · cases hpop : NodeHeap.pop sl.1.2 with
      | none => rfl
      | some p =>
        obtain ⟨u, h⟩ := p
        simp only
        split_ifs with h2
        · rw [ih]
        · rw [ih, foldl_relaxLog_fst]

theorem heapCells_insert (heap : List Node) (n : Node) :
    (heapCells (NodeHeap.insert heap n)).Perm ((n.x, n.y) :: heapCells heap) := by
  unfold heapCells
  exact (nodeInsert_perm heap n).map _

theorem heap_capacity : Proc.HEAP_CAPACITY = 1680 := by decide

theorem heap_length_lt {pass : Int → Bool} {cost : Int → Int} {hardness : Grid Int}
    {s : Cell} {L : List Cell} {dist : Grid Int} {heap : List Node} (u : Cell)
    (hcore : DCore pass cost hardness s L dist heap) (hcells : (heapCells heap).Nodup)
    (hu : u ∉ heapCells heap) (huin : inBounds u.1 u.2 = true) : heap.length < 1680 := by
  have hnd : (u :: heapCells heap).Nodup := List.nodup_cons.mpr ⟨hu, hcells⟩
  have hsub : ∀ c ∈ u :: heapCells heap, c ∈ allCells := by
    intro c hc
    rcases List.mem_cons.mp hc with e | e
    · rw [e]; exact mem_allCells u huin
    · obtain ⟨n, hn, hnc⟩ := List.mem_map.mp e
      rw [← hnc]
      exact mem_allCells (n.x, n.y) (hcore.heapOK n hn).1
  have := (List.subperm_of_subset hnd hsub).length_le
  rw [length_allCells] at this
  simp only [List.length_cons, heapCells, List.length_map] at this
  omega

theorem relaxLog_order (pass : Int → Bool) (cost : Int → Int) (hardness : Grid Int)
    (s : Cell) (hc : ∀ h, 1 ≤ cost h ∧ cost h ≤ 3)
    (L : List Cell) (dist : Grid Int) (heap : List Node) (log : HeapLog) (u : Node)
    (done : List (Int × Int)) (dir : Int × Int)
    (hP : DPart pass cost hardness s L dist heap u done)
    (hO : DOrder cost hardness s u.dist dist heap)
    (hu : (u.x, u.y) ∉ heapCells heap) (hL : LogOK dist log) :
    DOrder cost hardness s u.dist
      (relaxLog pass cost hardness u ((dist, heap), log) dir).1.1
      (relaxLog pass cost hardness u ((dist, heap), log) dir).1.2 ∧
    (u.x, u.y) ∉ heapCells (relaxLog pass cost hardness u ((dist, heap), log) dir).1.2 ∧
    LogOK (relaxLog pass cost hardness u ((dist, heap), log) dir).1.1
      (relaxLog pass cost hardness u ((dist, heap), log) dir).2 ∧
    Proc.relaxWith pass cost hardness u (some (dist, heap)) dir =
      some (relaxLog pass cost hardness u ((dist, heap), log) dir).1 := by
  have hlen := dcore_length_le hP.core
  have hub := hP.core.bound _ hP.uin
  simp only [hP.udist] at hub
  have huin := hP.core.inb _ hP.uin
  have hcap := heap_length_lt (u.x, u.y) hP.core hO.cells hu huin
  unfold relaxLog Proc.relaxWith
  simp only
  by_cases hin : inBounds (u.x + dir.1) (u.y + dir.2) = true
  swap
  · rw [Bool.not_eq_true] at hin
    simp only [hin, Bool.not_false, if_true]
    exact ⟨hO, hu, hL, trivial⟩
  by_cases hp : pass (hardness (u.y + dir.2) (u.x + dir.1)) = true
  swap
  · simp only [hin, hp, Bool.not_true, Bool.false_eq_true, if_false]
    exact ⟨hO, hu, hL, trivial⟩
  have hcost := hc (hardness (u.y + dir.2) (u.x + dir.1))
  have halt : wrapInt32 (u.dist + cost (hardness (u.y + dir.2) (u.x + dir.1))) =
      u.dist + cost (hardness (u.y + dir.2) (u.x + dir.1)) :=
    wrapInt32_id _ (by omega) (by omega)
  by_cases hlt : wrapInt32 (u.dist + cost (hardness (u.y + dir.2) (u.x + dir.1))) <
      dist (u.y + dir.2) (u.x + dir.1)
  swap
  · simp only [hin, hp, hlt, Bool.not_true, Bool.false_eq_true, if_false, if_true]
    exact ⟨hO, hu, hL, trivial⟩
  simp only [hin, hp, hlt, Bool.not_true, Bool.false_eq_true, if_false, if_true]
  rw [halt] at hlt ⊢
  generalize hnx : u.x + dir.1 = nx at *
  generalize hny : u.y + dir.2 = ny at *
  generalize halt' : u.dist + cost (hardness ny nx) = alt at *
  -- the target has no field value yet
  have hvmax : dist ny nx = INT32_MAX := by
    by_contra hne
    by_cases hvs : ((nx, ny) : Cell) = s
    · have h0 := hP.core.src0
      rw [← hvs] at h0
      simp only at h0
      omega
    · have := hO.near (nx, ny) hin hne hvs
      simp only at this
      omega
  have hvcell : ((nx, ny) : Cell) ∉ heapCells heap := by
    intro hmem
    obtain ⟨n, hn, hnc⟩ := List.mem_map.mp hmem
    simp only [Prod.mk.injEq] at hnc
    have h1 := (hO.fresh n hn).1
    have h2 := (hP.core.heapOK n hn).2.2
    rw [hnc.1, hnc.2, hvmax] at h1
    simp only [INT32_MAX] at h1
    omega
  have hvu : ((nx, ny) : Cell) ≠ (u.x, u.y) := by
    intro he
    simp only [Prod.mk.injEq] at he
    have h1 := hP.udist
    rw [← he.1, ← he.2, hvmax] at h1
    simp only [INT32_MAX] at h1
    omega
  have hperm := nodeInsert_perm heap ⟨nx, ny, alt⟩
  have hins : Proc.insertNode heap ⟨nx, ny, alt⟩ =
      some (NodeHeap.insert heap ⟨nx, ny, alt⟩) := by
    unfold Proc.insertNode
    rw [heap_capacity, if_pos hcap]
  rw [hins]
  refine ⟨⟨?_, ?_, ?_, ?_⟩, ?_, ⟨?_, ?_, ?_, ?_⟩, rfl⟩
  · exact (heapPush_spec Node.dist heap _ hO.isHeap).1
  · exact (heapCells_insert heap _).nodup_iff.mpr (List.nodup_cons.mpr ⟨hvcell, hO.cells⟩)
  · intro n hn
    rcases List.mem_cons.mp (hperm.subset hn) with e | e
    · rw [e]
      simp only [grid_set_apply, and_self, if_true]
      exact ⟨trivial, by omega⟩
    · have hne : ¬ (n.y = ny ∧ n.x = nx) := by
        intro h
        apply hvcell
        rw [← h.1, ← h.2]
        exact List.mem_map.mpr ⟨n, e, rfl⟩
      simp only [grid_set_apply, if_neg hne]
      exact hO.fresh n e
  · intro c hcin hne hcs
    simp only [grid_set_apply] at hne ⊢
    by_cases hcv : c.2 = ny ∧ c.1 = nx
    · rw [if_pos hcv, hcv.1, hcv.2]
      omega
    · rw [if_neg hcv] at hne ⊢
      exact hO.near c hcin hne hcs
  · intro hmem
    rcases List.mem_cons.mp ((heapCells_insert heap _).subset hmem) with e | e
    · exact hvu e.symm
    · exact hu e
  · simp only
    rw [List.nodup_append]
    refine ⟨hL.nodup, List.nodup_singleton _, ?_⟩
    intro a ha hb
    rw [List.mem_singleton.mp hb] at ha
    exact hL.fin _ ha hvmax
  · intro c hcm
    simp only [grid_set_apply]
    by_cases hcv : c.2 = ny ∧ c.1 = nx
    · rw [if_pos hcv]
      simp only [INT32_MAX]
      omega
    · rw [if_neg hcv]
      rcases List.mem_append.mp hcm with e | e
      · exact hL.fin c e
      · exfalso
        apply hcv
        rw [List.mem_singleton.mp e]
        exact ⟨rfl, rfl⟩
  · exact hL.stale
  · simp only
    have := hperm.length_eq
    simp only [List.length_cons] at this
    have := hL.peak
    omega

theorem foldl_relaxLog_order (pass : Int → Bool) (cost : Int → Int) (hardness : Grid Int)
    (s : Cell) (hc : ∀ h, 1 ≤ cost h ∧ cost h ≤ 3) (u : Node) :
    ∀ (ds : List (Int × Int)) (L : List Cell) (st : Grid Int × List Node) (log : HeapLog)
      (done : List (Int × Int)), (∀ d ∈ ds, d ∈ dirs) →
      DPart pass cost hardness s L st.1 st.2 u done →
      DOrder cost hardness s u.dist st.1 st.2 →
      (u.x, u.y) ∉ heapCells st.2 → LogOK st.1 log →
      DOrder cost hardness s u.dist
        (ds.foldl (relaxLog pass cost hardness u) (st, log)).1.1
        (ds.foldl (relaxLog pass cost hardness u) (st, log)).1.2 ∧
      LogOK (ds.foldl (relaxLog pass cost hardness u) (st, log)).1.1
        (ds.foldl (relaxLog pass cost hardness u) (st, log)).2 ∧
      ds.foldl (Proc.relaxWith pass cost hardness u) (some st) =
        some (ds.foldl (relaxLog pass cost hardness u) (st, log)).1 := by
  intro ds
  induction ds with
  | nil => intro L st log done _ _ hO _ hL; exact ⟨hO, hL, rfl⟩
  | cons d ds ih =>
    intro L st log done hds hP hO hu hL
    obtain ⟨o1, u1, l1, e1⟩ := relaxLog_order pass cost hardness s hc L st.1 st.2 log u done d
      hP hO hu hL
    obtain ⟨L1, p1⟩ := relaxWith_part pass cost hardness s hc L st.1 st.2 u done d hP
      (hds d (List.mem_cons_self _ _))
    have hfst := relaxLog_fst pass cost hardness u ((st.1, st.2), log) d
    simp only at hfst
    rw [← hfst] at p1
    have := ih L1 (relaxLog pass cost hardness u ((st.1, st.2), log) d).1
      (relaxLog pass cost hardness u ((st.1, st.2), log) d).2 (d :: done)
      (fun x hx => hds x (List.mem_cons_of_mem _ hx)) p1 o1 u1 l1
    simp only [List.foldl_cons]
    rw [show (some st : Option (Grid Int × List Node)) = some (st.1, st.2) from rfl, e1]
    exact this

theorem popNode_order (pass : Int → Bool) (cost : Int → Int) (hardness : Grid Int)
    (s : Cell) (L : List Cell) (st : Grid Int × List Node) (m : Int) (u : Node)
    (h' : List Node) (hF : DFull pass cost hardness s L st.1 st.2)
    (hO : DOrder cost hardness s m st.1 st.2) (hpop : NodeHeap.pop st.2 = some (u, h')) :
    ¬ (u.dist > st.1 u.y u.x) ∧ DPart pass cost hardness s L st.1 h' u [] ∧
      DOrder cost hardness s u.dist st.1 h' ∧ (u.x, u.y) ∉ heapCells h' := by
  obtain ⟨hheap, hperm, hmin⟩ := heapPop_spec Node.dist st.2 u h' hO.isHeap hpop
  have hsub : ∀ n ∈ h', n ∈ st.2 := fun n hn => hperm.subset (List.mem_cons_of_mem _ hn)
  have humem : u ∈ st.2 := hperm.subset (List.mem_cons_self _ _)
  have hfu := hO.fresh u humem
  have hu := hF.core.heapOK u humem
  have hcells : ((u.x, u.y) :: heapCells h').Nodup := by
    have := (hperm.map fun n : Node => (n.x, n.y)).nodup_iff.mpr hO.cells
    exact this
  have hcore : DCore pass cost hardness s L st.1 h' :=
    ⟨hF.core.src0, hF.core.nodup, hF.core.inb, hF.core.fin, hF.core.bound, hF.core.path,
      fun n hn => hF.core.heapOK n (hsub n hn)⟩
  have hlen := dcore_length_le hF.core
  have huL : (u.x, u.y) ∈ L := by
    apply (hF.core.fin (u.x, u.y) hu.1).mp
    simp only [INT32_MAX]
    omega
  refine ⟨by omega, ⟨hcore, huL, hfu.1, ?_, by simp⟩, ⟨hheap, ?_, ?_, ?_⟩, ?_⟩
  · intro c hcL hcu
    rcases hF.settled c hcL with hq | hq
    · left
      rcases List.mem_cons.mp (hperm.symm.subset hq) with e | e
      · exfalso
        apply hcu
        rw [← e]
      · exact e
    · right; exact hq
  · exact (List.nodup_cons.mp hcells).2
  · intro n hn
    exact ⟨(hO.fresh n (hsub n hn)).1, hmin n (hsub n hn)⟩
  · intro c hcin hne hcs
    have := hO.near c hcin hne hcs
    omega
  · exact (List.nodup_cons.mp hcells).1

theorem part_full (pass : Int → Bool) (cost : Int → Int) (hardness : Grid Int)
    (s : Cell) (L : List Cell) (dist : Grid Int) (heap : List Node) (u : Node)
    (done : List (Int × Int)) (hP : DPart pass cost hardness s L dist heap u done)
    (hall : ∀ d ∈ dirs, d ∈ done) : DFull pass cost hardness s L dist heap := by
  refine ⟨hP.core, ?_⟩
  intro c hcL
  by_cases hcu : c = (u.x, u.y)
  · right
    intro d hd
    rw [hcu]
    exact hP.doneOK d (hall d hd)
  · exact hP.settled c hcL hcu

theorem loopLog_done (pass : Int → Bool) (cost : Int → Int) (hardness : Grid Int)
    (fuel : Nat) (sl : (Grid Int × List Node) × HeapLog) (h : sl.1.2 = []) :
    loopLog pass cost hardness fuel sl = sl := by
  cases fuel with
  | zero => rfl
  | succ n =>
    rw [loopLog]
    simp [NodeHeap.empty, h]

theorem loopLog_fresh (pass : Int → Bool) (cost : Int → Int) (hardness : Grid Int)
    (fuel : Nat) (sl : (Grid Int × List Node) × HeapLog) (u : Node) (h' : List Node)
    (hpop : NodeHeap.pop sl.1.2 = some (u, h')) (hs : ¬ u.dist > sl.1.1 u.y u.x) :
    loopLog pass cost hardness (fuel + 1) sl =
      loopLog pass cost hardness fuel
        (dirs.foldl (relaxLog pass cost hardness u) ((sl.1.1, h'), sl.2)) := by
  have hne : NodeHeap.empty sl.1.2 = false := by
    cases hh : sl.1.2 with
    | nil => rw [hh] at hpop; simp [NodeHeap.pop, heapPop] at hpop
    | cons a t => rfl
  rw [loopLog]
  simp only [hne, Bool.false_eq_true, if_false, hpop, if_neg hs]

theorem procLoop_done (pass : Int → Bool) (cost : Int → Int) (hardness : Grid Int)
    (fuel : Nat) (st : Grid Int × List Node) (h : st.2 = []) :
    Proc.loopWith pass cost hardness (fuel + 1) st = some st := by
  rw [Proc.loopWith]
  simp [h]

theorem procLoop_fresh (pass : Int → Bool) (cost : Int → Int) (hardness : Grid Int)
    (fuel : Nat) (st : Grid Int × List Node) (u : Node) (h' : List Node)
    (hpop : NodeHeap.pop st.2 = some (u, h')) (hs : ¬ u.dist > st.1 u.y u.x)
    (st1 : Grid Int × List Node)
    (hfold : dirs.foldl (Proc.relaxWith pass cost hardness u) (some (st.1, h')) = some st1) :
    Proc.loopWith pass cost hardness (fuel + 1) st =
      Proc.loopWith pass cost hardness fuel st1 := by
  have hne : st.2.length > 0 := by
    cases hh : st.2 with
    | nil => rw [hh] at hpop; simp [NodeHeap.pop, heapPop] at hpop
    | cons a t => simp
  rw [Proc.loopWith]
  simp only [hne, if_true, Proc.deleteFromHeap, hpop, if_neg hs, hfold]

theorem loopLog_order (pass : Int → Bool) (cost : Int → Int) (hardness : Grid Int)
    (s : Cell) (hc : ∀ h, 1 ≤ cost h ∧ cost h ≤ 3) :
    ∀ (fuel : Nat) (st : Grid Int × List Node) (log : HeapLog) (L : List Cell) (m : Int),
      DFull pass cost hardness s L st.1 st.2 → DOrder cost hardness s m st.1 st.2 →
      LogOK st.1 log →
      LogOK (loopLog pass cost hardness fuel (st, log)).1.1
        (loopLog pass cost hardness fuel (st, log)).2 ∧
      (dijkstraMeasure st < fuel →
        Proc.loopWith pass cost hardness fuel st =
          some (loopLog pass cost hardness fuel (st, log)).1) := by
  intro fuel
  induction fuel with
  | zero =>
    intro st log L m _ _ hL
    exact ⟨hL, fun h => absurd h (Nat.not_lt_zero _)⟩
  | succ fuel ih =>
    intro st log L m hF hO hL
    cases hpop : NodeHeap.pop st.2 with
    | none =>
      have he := (heapPop_none _ _).mp hpop
      rw [loopLog_done _ _ _ _ _ he]
      exact ⟨hL, fun _ => procLoop_done _ _ _ _ _ he⟩
    | some p =>
      obtain ⟨u, h'⟩ := p
      obtain ⟨hs, hP, hO1, hu1⟩ := popNode_order pass cost hardness s L st m u h' hF hO hpop
      rw [loopLog_fresh pass cost hardness fuel (st, log) u h' hpop hs]
      obtain ⟨o2, l2, e2⟩ := foldl_relaxLog_order pass cost hardness s hc u dirs L (st.1, h')
        log [] (fun d hd => hd) hP hO1 hu1 hL
      obtain ⟨L1, p1⟩ := foldl_relaxWith_part pass cost hardness s hc u dirs L (st.1, h') []
        (fun d hd => hd) hP
      have hfst := foldl_relaxLog_fst pass cost hardness u dirs ((st.1, h'), log)
      simp only at hfst
      rw [← hfst] at p1
      have hF2 := part_full pass cost hardness s L1 _ _ u _ p1 (by simp)
      obtain ⟨r1, r2⟩ := ih (dirs.foldl (relaxLog pass cost hardness u) ((st.1, h'), log)).1
        (dirs.foldl (relaxLog pass cost hardness u) ((st.1, h'), log)).2 L1 u.dist hF2 o2 l2
      refine ⟨r1, fun hm => ?_⟩
      rw [procLoop_fresh pass cost hardness fuel st u h' hpop hs _ e2]
      apply r2
      have hl := (nodePop_perm _ _ _ hpop).length_eq
      simp only [List.length_cons] at hl
      have h1 : dijkstraMeasure (st.1, h') + 1 = dijkstraMeasure st := by
        simp only [dijkstraMeasure]; omega
      have h2 := foldl_relaxWith_measure pass cost hardness u dirs (st.1, h')
      rw [hfst]
      omega

theorem init_order (cost : Int → Int) (hardness old : Grid Int) (sx sy : Int) :
    DOrder cost hardness (sx, sy) 0 ((old.fill INT32_MAX).set sy sx 0)
      (NodeHeap.insert [] ⟨sx, sy, 0⟩) := by
  have h0 : ((old.fill INT32_MAX).set sy sx 0) sy sx = 0 := by
    rw [grid_set_apply, if_pos ⟨rfl, rfl⟩]
  refine ⟨(heapPush_spec Node.dist [] _ (isHeap_nil _)).1, ?_, ?_, ?_⟩
  · rw [nodeInsert_nil]
    exact List.nodup_singleton _
  · intro n hn
    rw [nodeInsert_nil] at hn
    rw [List.mem_singleton.mp hn]
    exact ⟨h0, le_refl _⟩
  · intro c hcin hne hcs
    exfalso
    rw [init_fill_apply old sx sy c hcin] at hne
    split_ifs at hne with h1
    · apply hcs
      ext
      · exact h1.2
      · exact h1.1
    · exact hne rfl

theorem init_log (old : Grid Int) (sx sy : Int) :
    LogOK ((old.fill INT32_MAX).set sy sx 0)
      { inserted := [(sx, sy)], stale := 0, peak := (NodeHeap.insert [] ⟨sx, sy, 0⟩).length } := by
  refine ⟨List.nodup_singleton _, ?_, rfl, ?_⟩
  · intro c hcm
    rw [List.mem_singleton.mp hcm]
    simp only [grid_set_apply, and_self, if_true]
    decide
  · rw [nodeInsert_nil]
    simp

theorem init_measure_lt (old : Grid Int) (sx sy : Int) :
    dijkstraMeasure ((old.fill INT32_MAX).set sy sx 0, NodeHeap.insert [] ⟨sx, sy, 0⟩)
      < DIJKSTRA_FUEL := by
  rw [nodeInsert_nil]
  have : fieldSum ((old.fill INT32_MAX).set sy sx 0) ≤ 1680 * 4294967295 := by
    unfold fieldSum
    have := List.sum_le_card_nsmul
      (allCells.map fun c => (((old.fill INT32_MAX).set sy sx 0) c.2 c.1 + 2147483648).toNat)
      4294967295 ?_
    · simpa [length_allCells] using this
    · intro v hv
      obtain ⟨c, hc, rfl⟩ := List.mem_map.mp hv
      rw [init_fill_apply old sx sy c (inBounds_of_mem_allCells c hc)]
      split_ifs <;> simp [INT32_MAX]
  simp only [dijkstraMeasure, DIJKSTRA_FUEL, List.length_singleton]
  omega

theorem runLog_spec (pass : Int → Bool) (cost : Int → Int) (hardness old : Grid Int)
    (hc : ∀ h, 1 ≤ cost h ∧ cost h ≤ 3) (sx sy : Int) (hs : inBounds sx sy = true) :
    (runLog pass cost hardness old sx sy).1 = runWith pass cost hardness old sx sy ∧
    LogOK (runLog pass cost hardness old sx sy).1.1 (runLog pass cost hardness old sx sy).2 ∧
    Proc.loopWith pass cost hardness DIJKSTRA_FUEL
      ((old.fill INT32_MAX).set sy sx 0, NodeHeap.insert [] ⟨sx, sy, 0⟩) =
        some (runWith pass cost hardness old sx sy) := by
  have h1 := loopLog_fst pass cost hardness DIJKSTRA_FUEL
    (((old.fill INT32_MAX).set sy sx 0, NodeHeap.insert [] ⟨sx, sy, 0⟩),
      { inserted := [(sx, sy)], stale := 0, peak := (NodeHeap.insert [] ⟨sx, sy, 0⟩).length })
  obtain ⟨h2, h3⟩ := loopLog_order pass cost hardness (sx, sy) hc DIJKSTRA_FUEL
    ((old.fill INT32_MAX).set sy sx 0, NodeHeap.insert [] ⟨sx, sy, 0⟩)
    { inserted := [(sx, sy)], stale := 0, peak := (NodeHeap.insert [] ⟨sx, sy, 0⟩).length }
    [(sx, sy)] 0 (init_full pass cost hardness old sx sy hs)
    (init_order cost hardness old sx sy) (init_log old sx sy)
  have h4 := h3 (init_measure_lt old sx sy)
  refine ⟨h1, h2, ?_⟩
  rw [h4]
  exact congrArg some h1

theorem procRelaxTunnel_eq (hardness : Grid Int) :
    Proc.relaxTunnel hardness = Proc.relaxWith tunnelPass tunnelCost hardness := by
  funext u st dir
  cases st with
  | none => rfl
  | some st =>
    simp only [Proc.relaxTunnel, Proc.relaxWith, tunnelPass, tunnelCost, decide_eq_true_eq]

theorem procRelaxNonTunnel_eq (hardness : Grid Int) :
    Proc.relaxNonTunnel hardness = Proc.relaxWith nonTunnelPass nonTunnelCost hardness := by
  funext u st dir
  cases st with
  | none => rfl
  | some st =>
    simp only [Proc.relaxNonTunnel, Proc.relaxWith, nonTunnelPass, nonTunnelCost,
      decide_eq_true_eq]

theorem procTunnelLoop_eq (hardness : Grid Int) (fuel : Nat) (st : Grid Int × List Node) :
    Proc.tunnelLoop hardness fuel st = Proc.loopWith tunnelPass tunnelCost hardness fuel st := by
  induction fuel generalizing st with
  | zero => rfl
  | succ n ih =>
    simp only [Proc.tunnelLoop, Proc.loopWith, procRelaxTunnel_eq, ih]

theorem procNonTunnelLoop_eq (hardness : Grid Int) (fuel : Nat) (st : Grid Int × List Node) :
    Proc.nonTunnelLoop hardness fuel st =
      Proc.loopWith nonTunnelPass nonTunnelCost hardness fuel st := by
  induction fuel generalizing st with
  | zero => rfl
  | succ n ih =>
    simp only [Proc.nonTunnelLoop, Proc.loopWith, procRelaxNonTunnel_eq, ih]

theorem insertNode_nil (n : Node) : Proc.insertNode [] n = some (NodeHeap.insert [] n) := by
  unfold Proc.insertNode
  rw [heap_capacity]
  rfl

theorem runWith_indep (pass : Int → Bool) (cost : Int → Int) (hardness old1 old2 : Grid Int)
    (hc : ∀ h, 1 ≤ cost h ∧ cost h ≤ 3) (sx sy : Int) (hs : inBounds sx sy = true)
    (x y : Int) (hin : inBounds x y = true) :
    (runWith pass cost hardness old1 sx sy).1 y x =
      (runWith pass cost hardness old2 sx sy).1 y x := by
  obtain ⟨a1, b1⟩ := runWith_min pass cost hardness old1 hc sx sy hs (x, y) hin
  obtain ⟨a2, b2⟩ := runWith_min pass cost hardness old2 hc sx sy hs (x, y) hin
  by_cases hr : ∃ p, Walk (enterOf pass hardness) (sx, sy) p ∧ walkEnd (sx, sy) p = (x, y)
  · obtain ⟨⟨p1, w1, e1, c1⟩, m1⟩ := a1 hr
    obtain ⟨⟨p2, w2, e2, c2⟩, m2⟩ := a2 hr
    have := m1 p2 w2 e2
    have := m2 p1 w1 e1
    simp only at *
    omega
  · rw [b1 hr, b2 hr]

/-- C36: in both Dijkstra computations, for every hardness grid and every source inside
the grid, the run with its heap log is the run itself, it ends with an empty heap, no cell
is inserted twice, no popped node is stale, and the heap never holds more than
`WIDTH*HEIGHT = 1680` nodes, the number the procedural variant allocates. -/
theorem heap_insert_once (hardness old : Grid Int) (sx sy : Int)
    (hs : inBounds sx sy = true) :
    ((runLog tunnelPass tunnelCost hardness old sx sy).1 =
        djikstraForTunnelRun hardness old sx sy ∧
      (djikstraForTunnelRun hardness old sx sy).2 = [] ∧
      (runLog tunnelPass tunnelCost hardness old sx sy).2.inserted.Nodup ∧
      (runLog tunnelPass tunnelCost hardness old sx sy).2.stale = 0 ∧
      (runLog tunnelPass tunnelCost hardness old sx sy).2.peak ≤ Proc.HEAP_CAPACITY) ∧
    ((runLog nonTunnelPass nonTunnelCost hardness old sx sy).1 =
        djikstraForNonTunnelRun hardness old sx sy ∧
      (djikstraForNonTunnelRun hardness old sx sy).2 = [] ∧
      (runLog nonTunnelPass nonTunnelCost hardness old sx sy).2.inserted.Nodup ∧
      (runLog nonTunnelPass nonTunnelCost hardness old sx sy).2.stale = 0 ∧
      (runLog nonTunnelPass nonTunnelCost hardness old sx sy).2.peak ≤ Proc.HEAP_CAPACITY) ∧
    Proc.HEAP_CAPACITY = 1680 := by
  obtain ⟨a1, a2, -⟩ := runLog_spec tunnelPass tunnelCost hardness old tunnelCost_range sx sy hs
  obtain ⟨b1, b2, -⟩ := runLog_spec nonTunnelPass nonTunnelCost hardness old
    nonTunnelCost_range sx sy hs
  have a3 := (runWith_correct tunnelPass tunnelCost hardness old tunnelCost_range sx sy hs).1
  have b3 := (runWith_correct nonTunnelPass nonTunnelCost hardness old nonTunnelCost_range
    sx sy hs).1
  rw [djikstraForTunnelRun_eq, djikstraForNonTunnelRun_eq, heap_capacity]
  exact ⟨⟨a1, a3, a2.nodup, a2.stale, a2.peak⟩, ⟨b1, b3, b2.nodup, b2.stale, b2.peak⟩, rfl⟩

theorem heap_insert_once_witness :
    inBounds 5 5 = true ∧
    (runLog tunnelPass tunnelCost (fun _ _ => 0) (fun _ _ => 0) 5 5).2.inserted.Nodup ∧
    (runLog tunnelPass tunnelCost (fun _ _ => 0) (fun _ _ => 0) 5 5).2.stale = 0 ∧
    (runLog tunnelPass tunnelCost (fun _ _ => 0) (fun _ _ => 0) 5 5).2.peak ≤
      Proc.HEAP_CAPACITY :=
  ⟨by decide, (heap_insert_once (fun _ _ => 0) (fun _ _ => 0) 5 5 (by decide)).1.2.2⟩

/-- C39: for every hardness grid and every source inside the grid, the procedural
`djikstraForTunnel` and `djikstraForNonTunnel` return a field (no insertion leaves the
allocated heap, the loop ends), and the field equals, in every cell of the grid, the one
`Dungeon::djikstraForTunnel`, `Dungeon::djikstraForNonTunnel` produce, whatever the two
arrays held before; started on the same array, the fields are equal. -/
theorem proc_dijkstra_agrees (hardness old1 old2 : Grid Int) (sx sy : Int)
    (hs : inBounds sx sy = true) :
    (Proc.djikstraForTunnel hardness old1 sx sy =
        some (djikstraForTunnel hardness old1 sx sy) ∧
      ∃ f, Proc.djikstraForTunnel hardness old1 sx sy = some f ∧
        ∀ x y, inBounds x y = true → f y x = djikstraForTunnel hardness old2 sx sy y x) ∧
    (Proc.djikstraForNonTunnel hardness old1 sx sy =
        some (djikstraForNonTunnel hardness old1 sx sy) ∧
      ∃ f, Proc.djikstraForNonTunnel hardness old1 sx sy = some f ∧
        ∀ x y, inBounds x y = true → f y x = djikstraForNonTunnel hardness old2 sx sy y x) := by
  obtain ⟨-, -, a⟩ := runLog_spec tunnelPass tunnelCost hardness old1 tunnelCost_range sx sy hs
  obtain ⟨-, -, b⟩ := runLog_spec nonTunnelPass nonTunnelCost hardness old1
    nonTunnelCost_range sx sy hs
  have ea : Proc.djikstraForTunnel hardness old1 sx sy =
      some (djikstraForTunnel hardness old1 sx sy) := by
    unfold Proc.djikstraForTunnel
    simp only [insertNode_nil, procTunnelLoop_eq, a, Option.map_some', djikstraForTunnel_run]
  have eb : Proc.djikstraForNonTunnel hardness old1 sx sy =
      some (djikstraForNonTunnel hardness old1 sx sy) := by
    unfold Proc.djikstraForNonTunnel
    simp only [insertNode_nil, procNonTunnelLoop_eq, b, Option.map_some',
      djikstraForNonTunnel_run]
  refine ⟨⟨ea, _, ea, ?_⟩, ⟨eb, _, eb, ?_⟩⟩
  · intro x y hin
    rw [djikstraForTunnel_run, djikstraForTunnel_run]
    exact runWith_indep tunnelPass tunnelCost hardness old1 old2 tunnelCost_range sx sy hs
      x y hin
  · intro x y hin
    rw [djikstraForNonTunnel_run, djikstraForNonTunnel_run]
    exact runWith_indep nonTunnelPass nonTunnelCost hardness old1 old2 nonTunnelCost_range
      sx sy hs x y hin

theorem proc_dijkstra_agrees_witness :
    inBounds 5 5 = true ∧
    Proc.djikstraForTunnel (fun _ _ => 0) (fun _ _ => 0) 5 5 =
      some (djikstraForTunnel (fun _ _ => 0) (fun _ _ => 0) 5 5) ∧
    Proc.djikstraForNonTunnel (fun _ _ => 0) (fun _ _ => 0) 5 5 =
      some (djikstraForNonTunnel (fun _ _ => 0) (fun _ _ => 0) 5 5) :=
  ⟨by decide,
    (proc_dijkstra_agrees (fun _ _ => 0) (fun _ _ => 0) (fun _ _ => 0) 5 5 (by decide)).1.1,
    (proc_dijkstra_agrees (fun _ _ => 0) (fun _ _ => 0) (fun _ _ => 0) 5 5 (by decide)).2.1⟩

/-! ## Theorems: the event queue and the roster -/

theorem heapPush_perm {α : Type} [Inhabited α] (key : α → Int) (l : List α) (e : α) :
    (heapPush key l e).Perm (e :: l) := by
  unfold heapPush heapifyUp
  have hlen : (l ++ [e]).length - 1 = l.length := by simp
  rw [hlen]
  have gen : ∀ (fuel : Nat) (l : List α) (i : Nat), i < l.length →
      (heapifyUpLoop key fuel l i).Perm l := by
    intro fuel
    induction fuel with
    | zero => intro l i _; exact List.Perm.refl _
    | succ fuel ih =>
      intro l i hi
      simp only [heapifyUpLoop]
      split_ifs with h1 h2
      · have hp : parentIdx i < l.length := by unfold parentIdx; omega
        exact (ih _ _ (by rw [length_swapAt]; exact hp)).trans (swapAt_perm l i _ hi hp)
      · exact List.Perm.refl _
      · exact List.Perm.refl _
  exact (gen _ _ _ (by simp)).trans (List.perm_append_singleton e l)

theorem heapPop_perm {α : Type} [Inhabited α] (key : α → Int) (l : List α) (top : α)
    (rest : List α) (h : heapPop key l = some (top, rest)) : (top :: rest).Perm l := by
  have gen : ∀ (fuel : Nat) (l : List α) (i : Nat),
      (heapifyDownLoop key fuel l i).Perm l := by
    intro fuel
    induction fuel with
    | zero => intro l i; exact List.Perm.refl _
    | succ fuel ih =>
      intro l i
      rw [heapifyDownLoop_succ]
      rcases minChild_spec key l i with ⟨hm, _⟩ | ⟨hne, hml, hpar, hmpos, _, _⟩
      · rw [if_pos hm]
      · rw [if_neg hne]
        have him : i < minChild key l i := by unfold parentIdx at hpar; omega
        exact (ih _ _).trans (swapAt_perm l i _ (by omega) hml)
  cases l with
  | nil => simp [heapPop] at h
  | cons a tl =>
    simp only [heapPop, Option.some.injEq, Prod.mk.injEq] at h
    obtain ⟨h1, h2⟩ := h
    subst h1
    rw [← h2]
    unfold heapifyDown
    refine ((gen _ _ 0).cons a).trans (List.Perm.cons a ?_)
    cases tl using List.reverseRecOn with
    | nil => simp
    | append_singleton tl' b =>
      have : (a :: (tl' ++ [b])).getD ((a :: (tl' ++ [b])).length - 1) default = b := by
        simp [List.getD_eq_getElem?_getD]
      rw [this]
      simp only [List.set_cons_zero]
      rw [show b :: (tl' ++ [b]) = (b :: tl') ++ [b] from rfl, List.dropLast_concat]
      exact (List.perm_append_singleton b tl').symm

theorem push_slots (q : List Event) (e : Event) :
    ((EventQueue.push q e).map Event.c).Perm (e.c :: q.map Event.c) :=
  (heapPush_perm Event.time q e).map Event.c

theorem pop_slots (q : List Event) (e : Event) (rest : List Event)
    (h : EventQueue.pop q = some (e, rest)) :
    (e.c :: rest.map Event.c).Perm (q.map Event.c) :=
  (heapPop_perm Event.time q e rest h).map Event.c

theorem nodup_lt_length (n : Nat) (l : List Nat) (hn : l.Nodup) (hl : ∀ x ∈ l, x < n) :
    l.length ≤ n := by
  have := (List.subperm_of_subset hn (fun x hx => List.mem_range.mpr (hl x hx))).length_le
  rw [List.length_range] at this
  exact this

theorem queueOK_length (s : LoopState) (h : QueueOK s) :
    s.eq.length ≤ s.d.characters.length := by
  have := nodup_lt_length s.d.characters.length (s.eq.map Event.c) h.1 (by
    intro x hx
    obtain ⟨e, he, rfl⟩ := List.mem_map.mp hx
    exact h.2 e he)
  rw [List.length_map] at this
  exact this

theorem procPushAll_spec (capacity : Nat) : ∀ (is : List Nat) (q : List Event),
    q.length + is.length ≤ capacity →
    ∃ q1, Proc.pushAll capacity is q = some q1 ∧
      (q1.map Event.c).Perm (is ++ q.map Event.c) := by
  intro is
  induction is with
  | nil => intro q _; exact ⟨q, rfl, List.Perm.refl _⟩
  | cons i is ih =>
    intro q hq
    simp only [List.length_cons] at hq
    have hp : Proc.eq_push capacity q ⟨0, i⟩ = some (EventQueue.push q ⟨0, i⟩) := by
      unfold Proc.eq_push
      rw [if_pos (by omega)]
    have hlen : (EventQueue.push q ⟨0, i⟩).length = q.length + 1 := by
      have := (heapPush_perm Event.time q ⟨0, i⟩).length_eq
      simpa using this
    obtain ⟨q1, e1, p1⟩ := ih (EventQueue.push q ⟨0, i⟩) (by omega)
    refine ⟨q1, ?_, ?_⟩
    · rw [Proc.pushAll, hp]
      exact e1
    · refine p1.trans ?_
      refine ((push_slots q ⟨0, i⟩).append_left is).trans ?_
      exact List.perm_middle

theorem running_no_monsters (s : LoopState) (h : s.aliveMonsters = 0) :
    s.running = false := by
  unfold LoopState.running
  rw [h]
  simp

theorem procRunning_no_monsters (s : LoopState) (h : s.aliveMonsters = 0) :
    Proc.running s = false := by
  unfold Proc.running
  rw [h]
  simp

/-- C33: when `gameLoop` is entered with a roster without live NPC (`countMonsters() = 0`),
the loop condition fails at once: no event is popped, so no turn is invoked, and the
function returns the state it was entered with, `changedFloor` cleared: `pc_is_alive`, the
terrain and the roster are those of the entry.  The loop of the procedural `main`, entered
with `local_num_mon = 0`, likewise pops no event and leaves the state as it is. -/
theorem gameLoop_no_monsters (fuel steps : Nat) (d : Dungeon) (rng : Rng) (keys : List Int)
    (terrain : Dungeon → Rng → Option (Dungeon × Rng))
    (h : d.countMonsters = 0) (hl : d.characters.length ≤ Proc.queueCapacity 0) :
    gameLoop fuel (steps + 1) d rng keys = ([], some (gameLoopInit d rng keys)) ∧
    (gameLoopInit d rng keys).d = { d with changedFloor := false } ∧
    (gameLoopInit d rng keys).d.pc_is_alive = d.pc_is_alive ∧
    (gameLoopInit d rng keys).d.changedFloor = false ∧
    (gameLoopInit d rng keys).d.hardness = d.hardness ∧
    (gameLoopInit d rng keys).d.base_map = d.base_map ∧
    (gameLoopInit d rng keys).d.characters = d.characters ∧
    ∃ s0, Proc.mainInit 0 d rng keys = some s0 ∧ s0.d = d ∧
      Proc.mainLoopRun terrain fuel (Proc.queueCapacity 0) 0 (steps + 1) s0 =
        ([], some s0) := by
  have hrun : (gameLoopInit d rng keys).running = false :=
    running_no_monsters _ h
  refine ⟨?_, rfl, rfl, rfl, rfl, rfl, rfl, ?_⟩
  · unfold gameLoop
    rw [gameLoopRun, hrun]
    rfl
  · obtain ⟨q, hq, -⟩ := procPushAll_spec (Proc.queueCapacity 0) (List.range d.characters.length)
      [] (by simpa using hl)
    refine ⟨{ eq := q, d := d, rng := rng, keys := keys, aliveMonsters := 0,
              current_time := 0 }, ?_, rfl, ?_⟩
    · unfold Proc.mainInit
      rw [hq]
    · rw [Proc.mainLoopRun, procRunning_no_monsters _ rfl]
      rfl

theorem gameLoop_no_monsters_witness :
    (loneDungeon.countMonsters = 0 ∧ loneDungeon.characters.length ≤ Proc.queueCapacity 0) ∧
    loneDungeon.characters.map (fun c => (c.type, c.alive)) = [(CharType.PC_TYPE, true)] ∧
    loneDungeon.pc_is_alive = true ∧
    (gameLoopInit loneDungeon zeroRng [key '5']).eq = [⟨0, 0⟩] ∧
    gameLoop 1 1 loneDungeon zeroRng [key '5'] =
      ([], some (gameLoopInit loneDungeon zeroRng [key '5'])) ∧
    ∃ s0, Proc.mainInit 0 loneDungeon zeroRng [key '5'] = some s0 ∧ s0.eq = [⟨0, 0⟩] ∧
      Proc.mainLoopRun (fun _ _ => none) 1 (Proc.queueCapacity 0) 0 1 s0 = ([], some s0) :=
  ⟨⟨by decide, by decide⟩, by decide, by decide, by decide,
    (gameLoop_no_monsters 1 0 loneDungeon zeroRng [key '5'] (fun _ _ => none) (by decide)
      (by decide)).1,
    by
      obtain ⟨s0, h0, -, h2⟩ := (gameLoop_no_monsters 1 0 loneDungeon zeroRng [key '5']
        (fun _ _ => none) (by decide) (by decide)).2.2.2.2.2.2.2
      refine ⟨s0, h0, ?_, h2⟩
      have e : Proc.mainInit 0 loneDungeon zeroRng [key '5'] =
          some ⟨[⟨0, 0⟩], loneDungeon, zeroRng, [key '5'], 0, 0⟩ := rfl
      rw [e] at h0
      simp only [Option.some.injEq] at h0
      rw [← h0]⟩

theorem gameLoopBody_shape (fuel : Nat) (e : Event) (s s1 : LoopState) (fl : LoopFlow)
    (hb : gameLoopBody fuel e s = some (s1, fl)) :
    ∃ chr, s.d.characters[e.c]? = some chr ∧
      ((chr.alive = false ∧ s1 = { s with current_time := e.time } ∧ fl = LoopFlow.next) ∨
       (chr.alive = true ∧ ∃ d1 rng1 keys1,
          doTurn fuel e.c s.d s.rng s.keys = some (d1, rng1, keys1) ∧ s1.d = d1 ∧
          (s1.eq = s.eq ∨ ∃ t chr1, s1.eq = EventQueue.push s.eq ⟨t, e.c⟩ ∧
            d1.characters[e.c]? = some chr1 ∧ chr1.alive = true))) := by
  unfold gameLoopBody at hb
  simp only at hb
  cases hchr : s.d.characters[e.c]? with
  | none => rw [hchr] at hb; exact Option.noConfusion hb
  | some chr =>
    rw [hchr] at hb
    simp only at hb
    refine ⟨chr, rfl, ?_⟩
    by_cases hal : chr.alive = true
    · right
      refine ⟨hal, ?_⟩
      simp only [hal, Bool.not_true, Bool.false_eq_true, if_false] at hb
      cases hturn : doTurn fuel e.c s.d s.rng s.keys with
      | none => rw [hturn] at hb; exact Option.noConfusion hb
      | some r =>
        obtain ⟨d1, rng1, keys1⟩ := r
        rw [hturn] at hb
        simp only at hb
        refine ⟨d1, rng1, keys1, rfl, ?_⟩
        by_cases hpc : d1.pc_is_alive = true
        · simp only [hpc, Bool.not_true, Bool.false_eq_true, if_false] at hb
          cases hc1 : d1.characters[e.c]? with
          | none => rw [hc1] at hb; exact Option.noConfusion hb
          | some chr1 =>
            rw [hc1] at hb
            simp only at hb
            split_ifs at hb with h1 h2 h3
            · simp only [Option.some.injEq, Prod.mk.injEq] at hb
              rw [← hb.1]
              exact ⟨rfl, Or.inr ⟨_, chr1, rfl, rfl, h1.1⟩⟩
            · simp only [Option.some.injEq, Prod.mk.injEq] at hb
              rw [← hb.1]
              exact ⟨rfl, Or.inl rfl⟩
        · simp only [hpc, Bool.not_false, if_true, Option.some.injEq, Prod.mk.injEq] at hb
          rw [← hb.1]
          exact ⟨rfl, Or.inl rfl⟩
    · left
      rw [Bool.not_eq_true] at hal
      simp only [hal, Bool.not_false, if_true, Option.some.injEq, Prod.mk.injEq] at hb
      exact ⟨hal, hb.1.symm, hb.2.symm⟩

theorem doTurn_length (fuel : Nat) (i : Nat) (d : Dungeon) (rng : Rng) (keys : List Int)
    (d1 : Dungeon) (rng1 : Rng) (keys1 : List Int)
    (h : doTurn fuel i d rng keys = some (d1, rng1, keys1)) :
    d1.characters.length = d.characters.length := by
  have := congrArg List.length (doTurn_speeds fuel i d rng keys d1 rng1 keys1 h)
  simpa using this

theorem gameLoopBody_slots (fuel : Nat) (e : Event) (s s1 : LoopState) (fl : LoopFlow)
    (hb : gameLoopBody fuel e s = some (s1, fl))
    (hq : (e.c :: s.eq.map Event.c).Nodup)
    (hlt : ∀ x ∈ s.eq, x.c < s.d.characters.length) : QueueOK s1 := by
  obtain ⟨chr, hchr, h⟩ := gameLoopBody_shape fuel e s s1 fl hb
  rcases h with ⟨-, h1, -⟩ | ⟨-, d1, rng1, keys1, hturn, hd, h2⟩
  · rw [h1]
    exact ⟨(List.nodup_cons.mp hq).2, hlt⟩
  · have hlen := doTurn_length fuel e.c s.d s.rng s.keys d1 rng1 keys1 hturn
    rw [← hd] at hlen
    rcases h2 with h2 | ⟨t, chr1, h2, hc1, -⟩
    · unfold QueueOK
      rw [h2, hlen]
      exact ⟨(List.nodup_cons.mp hq).2, hlt⟩
    · unfold QueueOK
      rw [h2, hlen]
      have hp := push_slots s.eq ⟨t, e.c⟩
      have helt : e.c < s.d.characters.length := by
        by_contra hc
        rw [List.getElem?_eq_none (by omega)] at hchr
        exact Option.noConfusion hchr
      refine ⟨hp.nodup_iff.mpr hq, ?_⟩
      intro x hx
      have : x.c ∈ (EventQueue.push s.eq ⟨t, e.c⟩).map Event.c := List.mem_map_of_mem _ hx
      rcases List.mem_cons.mp (hp.subset this) with h | h
      · rw [h]; exact helt
      · obtain ⟨y, hy, e1⟩ := List.mem_map.mp h
        rw [← e1]
        exact hlt y hy

theorem gameLoopHeads_queue (fuel : Nat) : ∀ (n : Nat) (s : LoopState), QueueOK s →
    ∀ s1 ∈ gameLoopHeads fuel n s, QueueOK s1 := by
  intro n
  induction n with
  | zero =>
    intro s hs s1 h1
    rw [gameLoopHeads, List.mem_singleton] at h1
    rw [h1]; exact hs
  | succ n ih =>
    intro s hs s1 h1
    rw [gameLoopHeads] at h1
    split_ifs at h1 with hr
    · cases hpop : EventQueue.pop s.eq with
      | none =>
        rw [hpop, List.mem_singleton] at h1
        rw [h1]; exact hs
      | some p =>
        obtain ⟨e, rest⟩ := p
        rw [hpop] at h1
        simp only at h1
        have hperm := pop_slots s.eq e rest hpop
        have hsub : ∀ x ∈ rest, x ∈ s.eq := fun x hx =>
          (heapPop_perm Event.time s.eq e rest hpop).subset (List.mem_cons_of_mem _ hx)
        cases hb : gameLoopBody fuel e { s with eq := rest } with
        | none =>
          rw [hb, List.mem_singleton] at h1
          rw [h1]; exact hs
        | some r =>
          obtain ⟨s2, fl⟩ := r
          rw [hb] at h1
          cases fl with
          | stop =>
            simp only [List.mem_singleton] at h1
            rw [h1]; exact hs
          | next =>
            simp only [List.mem_cons] at h1
            rcases h1 with h1 | h1
            · rw [h1]; exact hs
            · refine ih s2 ?_ s1 h1
              exact gameLoopBody_slots fuel e _ s2 _ hb (hperm.nodup_iff.mpr hs.1)
                (fun x hx => hs.2 x (hsub x hx))
    · rw [List.mem_singleton] at h1
      rw [h1]; exact hs

theorem initQueue_slots (n : Nat) : ∀ (l : List (Nat × Character)) (q : List Event),
    (l.map Prod.fst ++ q.map Event.c).Nodup →
    (∀ x ∈ l.map Prod.fst ++ q.map Event.c, x < n) →
    ((l.foldl (fun q p => if p.2.alive then EventQueue.push q ⟨0, p.1⟩ else q) q).map
        Event.c).Nodup ∧
    ∀ x ∈ (l.foldl (fun q p => if p.2.alive then EventQueue.push q ⟨0, p.1⟩ else q) q).map
      Event.c, x < n := by
  intro l
  induction l with
  | nil => intro q h1 h2; exact ⟨by simpa using h1, by simpa using h2⟩
  | cons p l ih =>
    intro q h1 h2
    rw [List.foldl_cons]
    simp only [List.map_cons, List.cons_append] at h1 h2
    by_cases hp : p.2.alive = true
    · rw [if_pos hp]
      have hperm := push_slots q ⟨0, p.1⟩
      have hp2 : (List.map Prod.fst l ++ (EventQueue.push q ⟨0, p.1⟩).map Event.c).Perm
          (p.1 :: (List.map Prod.fst l ++ q.map Event.c)) :=
        (hperm.append_left _).trans List.perm_middle
      exact ih _ (hp2.nodup_iff.mpr h1) (fun x hx => h2 x (hp2.subset hx))
    · rw [if_neg hp]
      exact ih _ (List.nodup_cons.mp h1).2 (fun x hx => h2 x (List.mem_cons_of_mem _ hx))

theorem gameLoopInit_queue (d : Dungeon) (rng : Rng) (keys : List Int) :
    QueueOK (gameLoopInit d rng keys) := by
  have := initQueue_slots d.characters.length d.characters.enum []
    (by
      rw [List.map_nil, List.append_nil, List.enum_map_fst]
      exact List.nodup_range _)
    (by
      intro x hx
      rw [List.map_nil, List.append_nil, List.enum_map_fst] at hx
      exact List.mem_range.mp hx)
  refine ⟨this.1, ?_⟩
  intro e he
  exact this.2 e.c (List.mem_map_of_mem _ he)

theorem create_pc_length (d d1 : Dungeon) (h : Proc.create_pc d = some d1) :
    d1.characters.length = d.characters.length + 1 := by
  unfold Proc.create_pc at h
  split_ifs at h
  simp only [Option.some.injEq] at h
  rw [← h]
  simp

theorem create_monster_length (fuel : Nat) (d : Dungeon) (rng : Rng) (d1 : Dungeon)
    (rng1 : Rng) (h : Proc.create_monster fuel d rng = some (d1, rng1)) :
    d1.characters.length = d.characters.length + 1 := by
  unfold Proc.create_monster at h
  cases hp : Proc.pickMonsterCell fuel d rng with
  | none => rw [hp] at h; exact Option.noConfusion h
  | some p =>
    obtain ⟨rx, ry, rng2⟩ := p
    rw [hp] at h
    simp only at h
    split_ifs at h
    simp only [Option.some.injEq, Prod.mk.injEq] at h
    rw [← h.1]
    simp

theorem create_monsters_length (fuel : Nat) : ∀ (n : Nat) (d : Dungeon) (rng : Rng)
    (d1 : Dungeon) (rng1 : Rng), Proc.create_monsters fuel n d rng = some (d1, rng1) →
    d1.characters.length = d.characters.length + n := by
  intro n
  induction n with
  | zero =>
    intro d rng d1 rng1 h
    simp only [Proc.create_monsters, Option.some.injEq, Prod.mk.injEq] at h
    rw [← h.1]; rfl
  | succ n ih =>
    intro d rng d1 rng1 h
    rw [Proc.create_monsters] at h
    cases hm : Proc.create_monster fuel d rng with
    | none => rw [hm] at h; exact Option.noConfusion h
    | some p =>
      obtain ⟨d2, rng2⟩ := p
      rw [hm] at h
      simp only at h
      rw [ih d2 rng2 d1 rng1 h, create_monster_length fuel d rng d2 rng2 hm]
      omega

theorem new_level_length (terrain : Dungeon → Rng → Option (Dungeon × Rng)) (fuel : Nat)
    (nummon : Int) (d : Dungeon) (rng : Rng) (d1 : Dungeon) (rng1 : Rng)
    (h : Proc.new_level terrain fuel nummon d rng = some (d1, rng1)) :
    d1.characters.length = nummon.toNat + 1 := by
  unfold Proc.new_level at h
  cases ht : terrain { d with characters := [] } rng with
  | none => rw [ht] at h; exact Option.noConfusion h
  | some p =>
    obtain ⟨d2, rng2⟩ := p
    rw [ht] at h
    simp only at h
    cases hpc : Proc.create_pc { d2 with characters := [] } with
    | none => rw [hpc] at h; exact Option.noConfusion h
    | some d3 =>
      rw [hpc] at h
      simp only at h
      rw [create_monsters_length fuel _ d3 rng2 d1 rng1 h, create_pc_length _ d3 hpc]
      simp only [List.length_nil]
      omega

theorem attack_length (i : Nat) (d : Dungeon) (nx ny : Int) (b : Bool) :
    (PC.attack i d nx ny b).characters.length = d.characters.length := by
  unfold PC.attack
  simp

theorem procStep_length (i : Nat) (d : Dungeon) (dx dy : Int) :
    (Proc.step i d dx dy).characters.length = d.characters.length := by
  unfold Proc.step
  cases h : d.characters[i]? with
  | none => rfl
  | some pc =>
    simp only
    split_ifs
    · simp only [List.length_set]
      exact attack_length _ _ _ _ _
    · rfl

theorem handle_pc_input_length (new_level : Dungeon → Rng → Option (Dungeon × Rng))
    (N : Nat) (hnl : ∀ d rng d1 rng1, new_level d rng = some (d1, rng1) →
      d1.characters.length = N) (i : Nat) :
    ∀ (fuel : Nat) (keys : List Int) (d : Dungeon) (rng : Rng) (d1 : Dungeon) (rng1 : Rng)
      (keys1 : List Int), d.characters.length = N →
      Proc.handle_pc_input new_level i fuel keys d rng = some (d1, rng1, keys1) →
      d1.characters.length = N := by
  intro fuel
  induction fuel with
  | zero => intro keys d rng d1 rng1 keys1 _ h; simp [Proc.handle_pc_input] at h
  | succ fuel ih =>
    intro keys d rng d1 rng1 keys1 hN h
    cases keys with
    | nil => simp [Proc.handle_pc_input] at h
    | cons ch keys =>
      rw [Proc.handle_pc_input] at h
      cases hk : Proc.keyCase ch with
      | move dx dy =>
        rw [hk] at h
        simp only [Option.some.injEq, Prod.mk.injEq] at h
        rw [← h.1, procStep_length]
        exact hN
      | stairsDown =>
        rw [hk] at h
        simp only at h
        cases hpc : d.characters[i]? with
        | none => rw [hpc] at h; exact Option.noConfusion h
        | some pc =>
          rw [hpc] at h
          simp only at h
          split_ifs at h
          · cases hl : new_level d rng with
            | none => rw [hl] at h; exact Option.noConfusion h
            | some p =>
              obtain ⟨d2, rng2⟩ := p
              rw [hl] at h
              simp only [Option.some.injEq, Prod.mk.injEq] at h
              rw [← h.1]
              exact hnl d rng d2 rng2 hl
          · simp only [Option.some.injEq, Prod.mk.injEq] at h
            rw [← h.1]; exact hN
      | stairsUp =>
        rw [hk] at h
        simp only at h
        cases hpc : d.characters[i]? with
        | none => rw [hpc] at h; exact Option.noConfusion h
        | some pc =>
          rw [hpc] at h
          simp only at h
          split_ifs at h
          · cases hl : new_level d rng with
            | none => rw [hl] at h; exact Option.noConfusion h
            | some p =>
              obtain ⟨d2, rng2⟩ := p
              rw [hl] at h
              simp only [Option.some.injEq, Prod.mk.injEq] at h
              rw [← h.1]
              exact hnl d rng d2 rng2 hl
          · simp only [Option.some.injEq, Prod.mk.injEq] at h
            rw [← h.1]; exact hN
      | rest =>
        rw [hk] at h
        simp only [Option.some.injEq, Prod.mk.injEq] at h
        rw [← h.1]; exact hN
      | monsterList =>
        rw [hk] at h
        simp only at h
        cases hm : monsterListLoop keys with
        | none => rw [hm] at h; exact Option.noConfusion h
        | some keys2 =>
          rw [hm] at h
          exact ih keys2 d rng d1 rng1 keys1 hN h
      | quit =>
        rw [hk] at h
        simp only [Option.some.injEq, Prod.mk.injEq] at h
        rw [← h.1]; exact hN
      | other =>
        rw [hk] at h
        exact ih keys d rng d1 rng1 keys1 hN h

theorem moveMonster_length (i : Nat) (m : Character) (d : Dungeon) (bx by1 : Int) :
    (Proc.moveMonster i m d bx by1).characters.length = d.characters.length := by
  unfold Proc.moveMonster
  simp

theorem do_monster_movement_length (i : Nat) (d : Dungeon) (rng : Rng) :
    (Proc.do_monster_movement i d rng).1.characters.length = d.characters.length := by
  unfold Proc.do_monster_movement
  cases h : d.characters[i]? with
  | none => rfl
  | some m =>
    simp only
    split_ifs <;> first | rfl | (simp only [moveMonster_length])

theorem mainLoopTurn_frame (terrain : Dungeon → Rng → Option (Dungeon × Rng)) (fuel : Nat)
    (nummon : Int) (i : Nat) (c : Character) (s s1 : LoopState) (b : Bool)
    (hN : s.d.characters.length = nummon.toNat + 1)
    (h : Proc.mainLoopTurn terrain fuel nummon i c s = some (s1, b)) :
    s1.eq = s.eq ∧ s1.current_time = s.current_time ∧
      s1.d.characters.length = nummon.toNat + 1 := by
  unfold Proc.mainLoopTurn at h
  cases hty : c.type with
  | PC_TYPE =>
    rw [hty] at h
    simp only at h
    cases hin : Proc.handle_pc_input (Proc.new_level terrain fuel nummon) i fuel s.keys s.d
        s.rng with
    | none => rw [hin] at h; exact Option.noConfusion h
    | some r =>
      obtain ⟨d1, rng1, keys1⟩ := r
      rw [hin] at h
      simp only at h
      have hl := handle_pc_input_length (Proc.new_level terrain fuel nummon)
        (nummon.toNat + 1) (new_level_length terrain fuel nummon) i fuel s.keys s.d s.rng
        d1 rng1 keys1 hN hin
      split_ifs at h with hpc
      · cases hc1 : d1.characters[i]? with
        | none => rw [hc1] at h; exact Option.noConfusion h
        | some c1 =>
          rw [hc1] at h
          simp only at h
          cases hf1 : Proc.djikstraForNonTunnel d1.hardness d1.disNonTunneling c1.x c1.y with
          | none => rw [hf1] at h; exact Option.noConfusion h
          | some f1 =>
            rw [hf1] at h
            simp only at h
            cases hf2 : Proc.djikstraForTunnel d1.hardness d1.disTunneling c1.x c1.y with
            | none => rw [hf2] at h; exact Option.noConfusion h
            | some f2 =>
              rw [hf2] at h
              simp only [Option.some.injEq, Prod.mk.injEq] at h
              rw [← h.1]
              exact ⟨rfl, rfl, hl⟩
      · simp only [Option.some.injEq, Prod.mk.injEq] at h
        rw [← h.1]
        exact ⟨rfl, rfl, hl⟩
  | NPC_TYPE =>
    rw [hty] at h
    simp only at h
    have hl := do_monster_movement_length i s.d s.rng
    rw [hN] at hl
    by_cases h1 : (Proc.do_monster_movement i s.d s.rng).1.pc_is_alive = true
    · simp only [h1, Bool.not_true, Bool.false_eq_true, if_false] at h
      cases hc1 : (Proc.do_monster_movement i s.d s.rng).1.characters[i]? with
      | none => rw [hc1] at h; exact Option.noConfusion h
      | some c1 =>
        rw [hc1] at h
        simp only at h
        split_ifs at h <;>
          (simp only [Option.some.injEq, Prod.mk.injEq] at h
           rw [← h.1]
           exact ⟨rfl, rfl, hl⟩)
    · rw [Bool.not_eq_true] at h1
      simp only [h1, Bool.not_false, if_true, Option.some.injEq, Prod.mk.injEq] at h
      rw [← h.1]
      exact ⟨rfl, rfl, hl⟩

theorem mainLoopBody_slots (terrain : Dungeon → Rng → Option (Dungeon × Rng)) (fuel : Nat)
    (capacity : Nat) (nummon : Int) (e : Event) (s s1 : LoopState) (fl : LoopFlow)
    (hb : Proc.mainLoopBody terrain fuel capacity nummon e s = some (s1, fl))
    (hN : s.d.characters.length = nummon.toNat + 1)
    (hq : (e.c :: s.eq.map Event.c).Nodup)
    (hlt : ∀ x ∈ s.eq, x.c < s.d.characters.length) :
    QueueOK s1 ∧ s1.d.characters.length = nummon.toNat + 1 := by
  unfold Proc.mainLoopBody at hb
  simp only at hb
  cases hchr : s.d.characters[e.c]? with
  | none => rw [hchr] at hb; exact Option.noConfusion hb
  | some chr =>
    rw [hchr] at hb
    simp only at hb
    have helt : e.c < nummon.toNat + 1 := by
      rw [← hN]
      by_contra hc
      rw [List.getElem?_eq_none (by omega)] at hchr
      exact Option.noConfusion hchr
    have hlt1 : ∀ x ∈ s.eq, x.c < nummon.toNat + 1 := by
      intro x hx
      rw [← hN]
      exact hlt x hx
    by_cases hal : chr.alive = true
    · simp only [hal, Bool.not_true, Bool.false_eq_true, if_false] at hb
      cases hturn : Proc.mainLoopTurn terrain fuel nummon e.c chr
          { s with current_time := e.time } with
      | none => rw [hturn] at hb; exact Option.noConfusion hb
      | some r =>
        obtain ⟨s2, b⟩ := r
        rw [hturn] at hb
        obtain ⟨f1, -, f3⟩ := mainLoopTurn_frame terrain fuel nummon e.c chr
          { s with current_time := e.time } s2 b hN hturn
        simp only at f1
        have hs2 : QueueOK s2 := by
          unfold QueueOK
          rw [f1, f3]
          exact ⟨(List.nodup_cons.mp hq).2, hlt1⟩
        cases b with
        | true =>
          simp only [Option.some.injEq, Prod.mk.injEq] at hb
          rw [← hb.1]
          exact ⟨hs2, f3⟩
        | false =>
          simp only at hb
          cases hc1 : s2.d.characters[e.c]? with
          | none => rw [hc1] at hb; exact Option.noConfusion hb
          | some c1 =>
            rw [hc1] at hb
            simp only at hb
            by_cases ha1 : c1.alive = true
            · simp only [ha1, if_true] at hb
              split_ifs at hb with h2 h3
              cases hp : Proc.eq_push capacity s2.eq
                  ⟨s2.current_time + Int.tdiv 1000 c1.speed, e.c⟩ with
              | none => rw [hp] at hb; exact Option.noConfusion hb
              | some q =>
                rw [hp] at hb
                simp only [Option.some.injEq, Prod.mk.injEq] at hb
                rw [← hb.1]
                unfold Proc.eq_push at hp
                split_ifs at hp
                simp only [Option.some.injEq] at hp
                have hperm := push_slots s2.eq ⟨s2.current_time + Int.tdiv 1000 c1.speed, e.c⟩
                rw [hp, f1] at hperm
                refine ⟨⟨hperm.nodup_iff.mpr hq, ?_⟩, f3⟩
                intro x hx
                simp only [f3]
                have : x.c ∈ q.map Event.c := List.mem_map_of_mem _ hx
                rcases List.mem_cons.mp (hperm.subset this) with h | h
                · rw [h]; exact helt
                · obtain ⟨y, hy, e1⟩ := List.mem_map.mp h
                  rw [← e1]
                  exact hlt1 y hy
            · rw [Bool.not_eq_true] at ha1
              simp only [ha1, Bool.false_eq_true, if_false, Option.some.injEq,
                Prod.mk.injEq] at hb
              rw [← hb.1]
              exact ⟨hs2, f3⟩
    · rw [Bool.not_eq_true] at hal
      simp only [hal, Bool.not_false, if_true, Option.some.injEq, Prod.mk.injEq] at hb
      rw [← hb.1]
      exact ⟨⟨(List.nodup_cons.mp hq).2, hlt⟩, hN⟩

theorem mainLoopHeads_queue (terrain : Dungeon → Rng → Option (Dungeon × Rng)) (fuel : Nat)
    (capacity : Nat) (nummon : Int) : ∀ (n : Nat) (s : LoopState), QueueOK s →
    s.d.characters.length = nummon.toNat + 1 →
    ∀ s1 ∈ Proc.mainLoopHeads terrain fuel capacity nummon n s,
      QueueOK s1 ∧ s1.d.characters.length = nummon.toNat + 1 := by
  intro n
  induction n with
  | zero =>
    intro s hs hN s1 h1
    rw [Proc.mainLoopHeads, List.mem_singleton] at h1
    rw [h1]; exact ⟨hs, hN⟩
  | succ n ih =>
    intro s hs hN s1 h1
    rw [Proc.mainLoopHeads] at h1
    split_ifs at h1 with hr
    · cases hpop : EventQueue.pop s.eq with
      | none =>
        rw [hpop, List.mem_singleton] at h1
        rw [h1]; exact ⟨hs, hN⟩
      | some p =>
        obtain ⟨e, rest⟩ := p
        rw [hpop] at h1
        simp only at h1
        have hperm := pop_slots s.eq e rest hpop
        have hsub : ∀ x ∈ rest, x ∈ s.eq := fun x hx =>
          (heapPop_perm Event.time s.eq e rest hpop).subset (List.mem_cons_of_mem _ hx)
        cases hb : Proc.mainLoopBody terrain fuel capacity nummon e { s with eq := rest } with
        | none =>
          rw [hb, List.mem_singleton] at h1
          rw [h1]; exact ⟨hs, hN⟩
        | some r =>
          obtain ⟨s2, fl⟩ := r
          rw [hb] at h1
          cases fl with
          | stop =>
            simp only [List.mem_singleton] at h1
            rw [h1]; exact ⟨hs, hN⟩
          | next =>
            simp only [List.mem_cons] at h1
            rcases h1 with h1 | h1
            · rw [h1]; exact ⟨hs, hN⟩
            · obtain ⟨a, b⟩ := mainLoopBody_slots terrain fuel capacity nummon e _ s2 _ hb hN
                (hperm.nodup_iff.mpr hs.1) (fun x hx => hs.2 x (hsub x hx))
              exact ih s2 a b s1 h1
    · rw [List.mem_singleton] at h1
      rw [h1]; exact ⟨hs, hN⟩

theorem queueCapacity_ge (nummon : Nat) : nummon + 1 ≤ Proc.queueCapacity (nummon : Int) := by
  unfold Proc.queueCapacity
  omega

theorem procNonTunnel_some (hardness old : Grid Int) (sx sy : Int)
    (hs : inBounds sx sy = true) :
    Proc.djikstraForNonTunnel hardness old sx sy =
      some (djikstraForNonTunnel hardness old sx sy) := by
  obtain ⟨-, -, b⟩ := runLog_spec nonTunnelPass nonTunnelCost hardness old
    nonTunnelCost_range sx sy hs
  unfold Proc.djikstraForNonTunnel
  simp only [insertNode_nil, procNonTunnelLoop_eq, b, Option.map_some',
    djikstraForNonTunnel_run]

theorem procTunnel_some (hardness old : Grid Int) (sx sy : Int)
    (hs : inBounds sx sy = true) :
    Proc.djikstraForTunnel hardness old sx sy = some (djikstraForTunnel hardness old sx sy) := by
  obtain ⟨-, -, a⟩ := runLog_spec tunnelPass tunnelCost hardness old tunnelCost_range sx sy hs
  unfold Proc.djikstraForTunnel
  simp only [insertNode_nil, procTunnelLoop_eq, a, Option.map_some', djikstraForTunnel_run]

theorem mainLoopTurn_rest (terrain : Dungeon → Rng → Option (Dungeon × Rng)) (fuel : Nat)
    (nummon : Int) (i : Nat) (c c1 : Character) (s : LoopState) (ks : List Int)
    (hty : c.type = CharType.PC_TYPE) (hk : s.keys = key '5' :: ks)
    (halive : s.d.pc_is_alive = true) (hc1 : s.d.characters[i]? = some c1)
    (hin : inBounds c1.x c1.y = true) :
    Proc.mainLoopTurn terrain (fuel + 1) nummon i c s = some (restState s c1 ks, false) := by
  have hh : Proc.handle_pc_input (Proc.new_level terrain (fuel + 1) nummon) i (fuel + 1)
      s.keys s.d s.rng = some (s.d, s.rng, ks) := by
    rw [hk]
    rfl
  unfold Proc.mainLoopTurn
  rw [hty]
  simp only [hh, halive, if_true, hc1, procNonTunnel_some _ _ _ _ hin,
    procTunnel_some _ _ _ _ hin, restState]

theorem mainLoopBody_rest (terrain : Dungeon → Rng → Option (Dungeon × Rng)) (fuel : Nat)
    (capacity : Nat) (nummon : Int) (e : Event) (s : LoopState) (ks : List Int)
    (c : Character) (hc : s.d.characters[e.c]? = some c) (hal : c.alive = true)
    (hty : c.type = CharType.PC_TYPE) (hk : s.keys = key '5' :: ks)
    (hpc : s.d.pc_is_alive = true) (hin : inBounds c.x c.y = true) (hsp : c.speed ≠ 0)
    (hov : ¬ (e.time + Int.tdiv 1000 c.speed > INT32_MAX ∨
      e.time + Int.tdiv 1000 c.speed < -INT32_MAX - 1))
    (hcap : s.eq.length < capacity) :
    Proc.mainLoopBody terrain (fuel + 1) capacity nummon e s =
      some ({ restState { s with current_time := e.time } c ks with
              eq := EventQueue.push s.eq ⟨e.time + Int.tdiv 1000 c.speed, e.c⟩ },
            LoopFlow.next) := by
  unfold Proc.mainLoopBody
  simp only [hc, hal, Bool.not_true, Bool.false_eq_true, if_false]
  rw [mainLoopTurn_rest terrain fuel nummon e.c c c { s with current_time := e.time } ks hty
    hk hpc hc hin]
  simp only [restState, hc, hal, if_true, if_neg hsp, if_neg hov, Proc.eq_push, if_pos hcap]

theorem mainLoopHeads_step (terrain : Dungeon → Rng → Option (Dungeon × Rng)) (fuel : Nat)
    (capacity : Nat) (nummon : Int) (n : Nat) (s s1 : LoopState) (e : Event)
    (rest : List Event) (hr : Proc.running s = true)
    (hpop : EventQueue.pop s.eq = some (e, rest))
    (hb : Proc.mainLoopBody terrain fuel capacity nummon e { s with eq := rest } =
      some (s1, LoopFlow.next)) :
    Proc.mainLoopHeads terrain fuel capacity nummon (n + 1) s =
      s :: Proc.mainLoopHeads terrain fuel capacity nummon n s1 := by
  rw [Proc.mainLoopHeads, if_pos hr, hpop]
  simp only [hb]

/-- The loop of the procedural `main` on `chaseDungeon` with the key `5`: the PC rests
and is queued again at time 100, the monster moves and is queued again at time 100, and
the PC's second turn finds no key. -/
theorem chase_heads :
    (Proc.mainLoopHeads (fun _ _ => none) 1 (Proc.queueCapacity 1) 1 3
        ⟨[⟨0, 0⟩, ⟨0, 1⟩], chaseDungeon, zeroRng, [key '5'], 1, 0⟩).map
      (fun s => s.eq.map fun e => (e.time, e.c)) =
      [[(0, 0), (0, 1)], [(0, 1), (100, 0)], [(100, 0), (100, 1)]] := by
  have hb := mainLoopBody_rest (fun _ _ => none) 0 (Proc.queueCapacity 1) 1 ⟨0, 0⟩
    ⟨[⟨0, 1⟩], chaseDungeon, zeroRng, [key '5'], 1, 0⟩ [] { PC.new with x := 5, y := 5 }
    rfl rfl rfl rfl rfl (by decide) (by decide) (by decide) (by decide)
  have hr : Proc.running ⟨[⟨0, 0⟩, ⟨0, 1⟩], chaseDungeon, zeroRng, [key '5'], 1, 0⟩ = true :=
    rfl
  have hp : EventQueue.pop
      (LoopState.mk [⟨0, 0⟩, ⟨0, 1⟩] chaseDungeon zeroRng [key '5'] 1 0).eq =
      some (⟨0, 0⟩, [⟨0, 1⟩]) := rfl
  rw [mainLoopHeads_step (fun _ _ => none) 1 (Proc.queueCapacity 1) 1 2 _ _ ⟨0, 0⟩ [⟨0, 1⟩]
    hr hp hb]
  decide

/-- C40: at every evaluation of the condition of the scheduler loop of `gameLoop`, no two
queued events refer to the same character and every event refers to a slot of the roster,
so the queue holds at most as many events as the roster has characters.  The same holds
in the loop of the procedural `main`, entered with a roster of `nummon + 1` characters:
the roster keeps that size, the queue never holds more than `nummon + 1` events, which is
at most its capacity `(nummon + 1) * 10`, and the push that may follow a pop stays inside
the allocated slots. -/
theorem queue_one_event_each (fuel steps : Nat) (d : Dungeon) (rng : Rng) (keys : List Int)
    (terrain : Dungeon → Rng → Option (Dungeon × Rng)) (nummon : Nat) :
    (∀ s ∈ gameLoopHeads fuel steps (gameLoopInit d rng keys),
      (s.eq.map Event.c).Nodup ∧ (∀ e ∈ s.eq, e.c < s.d.characters.length) ∧
      s.eq.length ≤ s.d.characters.length) ∧
    (d.characters.length = nummon + 1 →
      ∃ s0, Proc.mainInit nummon d rng keys = some s0 ∧
        ∀ s ∈ Proc.mainLoopHeads terrain fuel (Proc.queueCapacity nummon) nummon steps s0,
          (s.eq.map Event.c).Nodup ∧ (∀ e ∈ s.eq, e.c < s.d.characters.length) ∧
          s.eq.length ≤ s.d.characters.length ∧ s.d.characters.length = nummon + 1 ∧
          s.eq.length ≤ Proc.queueCapacity nummon ∧
          ∀ e rest ev, EventQueue.pop s.eq = some (e, rest) →
            Proc.eq_push (Proc.queueCapacity nummon) rest ev =
              some (EventQueue.push rest ev)) := by
  constructor
  · intro s hs
    have := gameLoopHeads_queue fuel steps _ (gameLoopInit_queue d rng keys) s hs
    exact ⟨this.1, this.2, queueOK_length s this⟩
  · intro hN
    have hcap := queueCapacity_ge nummon
    obtain ⟨q, hq, hperm⟩ := procPushAll_spec (Proc.queueCapacity nummon)
      (List.range d.characters.length) [] (by simp only [List.length_nil, List.length_range]; omega)
    simp only [List.map_nil, List.append_nil] at hperm
    refine ⟨{ eq := q, d := d, rng := rng, keys := keys, aliveMonsters := nummon,
              current_time := 0 }, ?_, ?_⟩
    · unfold Proc.mainInit
      rw [hq]
    · intro s hs
      have h0 : QueueOK ⟨q, d, rng, keys, nummon, 0⟩ := by
        refine ⟨hperm.nodup_iff.mpr (List.nodup_range _), ?_⟩
        intro e he
        exact List.mem_range.mp (hperm.subset (List.mem_map_of_mem _ he))
      obtain ⟨a, b⟩ := mainLoopHeads_queue terrain fuel (Proc.queueCapacity nummon) nummon
        steps _ h0 (by simpa using hN) s hs
      have hlen := queueOK_length s a
      simp only [Int.toNat_ofNat] at b
      refine ⟨a.1, a.2, hlen, b, by omega, ?_⟩
      intro e rest ev hpop
      have hl := (heapPop_perm Event.time s.eq e rest hpop).length_eq
      simp only [List.length_cons] at hl
      unfold Proc.eq_push
      rw [if_pos (by omega)]

theorem queue_one_event_each_witness :
    chaseDungeon.characters.length = 1 + 1 ∧
    ((gameLoopHeads 1 4 (gameLoopInit chaseDungeon zeroRng [key 'l', key '5'])).map
        (fun s => s.eq.map fun e => (e.time, e.c)) =
        [[(0, 0), (0, 1)], [(0, 1), (100, 0)], [(100, 0), (100, 1)], [(100, 1), (200, 0)]] ∧
      ∀ s ∈ gameLoopHeads 1 4 (gameLoopInit chaseDungeon zeroRng [key 'l', key '5']),
        (s.eq.map Event.c).Nodup ∧ s.eq.length ≤ s.d.characters.length) ∧
    ∃ s0, Proc.mainInit 1 chaseDungeon zeroRng [key '5'] = some s0 ∧
      (Proc.mainLoopHeads (fun _ _ => none) 1 (Proc.queueCapacity 1) 1 3 s0).map
        (fun s => s.eq.map fun e => (e.time, e.c)) =
        [[(0, 0), (0, 1)], [(0, 1), (100, 0)], [(100, 0), (100, 1)]] ∧
      ∀ s ∈ Proc.mainLoopHeads (fun _ _ => none) 1 (Proc.queueCapacity 1) 1 3 s0,
        (s.eq.map Event.c).Nodup ∧ s.eq.length ≤ s.d.characters.length ∧
        s.d.characters.length = 1 + 1 ∧ s.eq.length ≤ Proc.queueCapacity 1 :=
  ⟨by decide,
    ⟨by decide, fun s hs =>
      ⟨((queue_one_event_each 1 4 chaseDungeon zeroRng [key 'l', key '5'] (fun _ _ => none)
          1).1 s hs).1,
        ((queue_one_event_each 1 4 chaseDungeon zeroRng [key 'l', key '5'] (fun _ _ => none)
          1).1 s hs).2.2⟩⟩,
    by
      obtain ⟨s0, h0, h1⟩ := (queue_one_event_each 1 3 chaseDungeon zeroRng [key '5']
        (fun _ _ => none) 1).2 (by decide)
      refine ⟨s0, h0, ?_, fun s hs => ⟨(h1 s hs).1, (h1 s hs).2.2.1, (h1 s hs).2.2.2.1,
        (h1 s hs).2.2.2.2.1⟩⟩
      have e : some (LoopState.mk [⟨0, 0⟩, ⟨0, 1⟩] chaseDungeon zeroRng [key '5'] 1 0) =
          some s0 := h0
      simp only [Option.some.injEq] at e
      rw [← e]
      exact chase_heads⟩

/-! ## Theorems: death is terminal -/

theorem fate_refl (i : Nat) (l : List Character) : Fate i l l := by
  refine ⟨rfl, ?_⟩
  intro j c c1 h h1
  rw [h] at h1
  simp only [Option.some.injEq] at h1
  rw [← h1]
  exact ⟨fun a => a, fun _ => ⟨rfl, rfl⟩⟩

theorem fate_trans {i : Nat} {l1 l2 l3 : List Character} (h1 : Fate i l1 l2)
    (h2 : Fate i l2 l3) : Fate i l1 l3 := by
  refine ⟨h2.1.trans h1.1, ?_⟩
  intro j c c3 hc hc3
  have hj : j < l2.length := by
    rw [h1.1]
    exact (List.getElem?_eq_some.mp hc).1
  obtain ⟨a1, b1⟩ := h1.2 j c l2[j] hc (List.getElem?_eq_getElem hj)
  obtain ⟨a2, b2⟩ := h2.2 j l2[j] c3 (List.getElem?_eq_getElem hj) hc3
  refine ⟨fun a => a2 (a1 a), fun hne => ?_⟩
  obtain ⟨x1, y1⟩ := b1 hne
  obtain ⟨x2, y2⟩ := b2 hne
  exact ⟨x2.trans x1, y2.trans y1⟩

theorem fate_set (i : Nat) (l : List Character) (me c1 : Character) (h : l[i]? = some me)
    (ha : me.alive = false → c1.alive = false) : Fate i l (l.set i c1) := by
  refine ⟨List.length_set _ _ _, ?_⟩
  intro j c c2 hc hc2
  rw [List.getElem?_set] at hc2
  by_cases hij : i = j
  · subst hij
    rw [if_pos rfl] at hc2
    split_ifs at hc2
    simp only [Option.some.injEq] at hc2
    rw [h] at hc
    simp only [Option.some.injEq] at hc
    rw [← hc2, ← hc]
    exact ⟨ha, fun hne => absurd rfl hne⟩
  · rw [if_neg hij, hc] at hc2
    simp only [Option.some.injEq] at hc2
    rw [← hc2]
    exact ⟨fun a => a, fun _ => ⟨rfl, rfl⟩⟩

theorem modifyChar_fate (d : Dungeon) (i : Nat) (f : Character → Character)
    (hf : ∀ c, c.alive = false → (f c).alive = false) :
    Fate i d.characters (d.modifyChar i f).characters := by
  unfold Dungeon.modifyChar
  cases h : d.characters[i]? with
  | none => exact fate_refl i _
  | some me => exact fate_set i _ me _ h (hf me)

theorem moveCursor_fate (i : Nat) (d : Dungeon) (dx dy : Int) :
    Fate i d.characters (PC.moveCursor i d dx dy).characters := by
  unfold PC.moveCursor
  cases h : d.characters[i]? with
  | none => exact fate_refl i _
  | some me =>
    simp only
    split_ifs
    · exact fate_set i _ me _ h (fun a => a)
    · exact fate_refl i _

theorem attack_fate (i : Nat) (d : Dungeon) (nx ny : Int) (b : Bool) :
    Fate i d.characters (PC.attack i d nx ny b).characters := by
  unfold PC.attack
  refine ⟨by simp, ?_⟩
  intro j c c1 hc hc1
  simp only [List.getElem?_map, List.getElem?_enum, hc, Option.map_some',
    Option.some.injEq] at hc1
  rw [← hc1]
  split_ifs
  · exact ⟨fun _ => rfl, fun _ => ⟨rfl, rfl⟩⟩
  · exact ⟨fun a => a, fun _ => ⟨rfl, rfl⟩⟩

theorem step_fate (i : Nat) (d : Dungeon) (dx dy : Int) (b : Bool) :
    Fate i d.characters (PC.step i d dx dy b).characters := by
  unfold PC.step
  cases h : d.characters[i]? with
  | none => exact fate_refl i _
  | some me =>
    simp only
    split_ifs
    · have ha := attack_fate i d (me.x + dx) (me.y + dy) b
      cases h1 : (PC.attack i d (me.x + dx) (me.y + dy) b).characters[i]? with
      | none => exact ha
      | some me1 => exact fate_trans ha (fate_set i _ me1 _ h1 (fun a => a))
    · exact fate_refl i _

theorem updateRemembered_fate (i : Nat) (d : Dungeon) :
    Fate i d.characters (PC.updateRemembered i d).characters := by
  unfold PC.updateRemembered
  cases h : d.characters[i]? with
  | none => exact fate_refl i _
  | some me => exact fate_set i _ me _ h (fun a => a)

theorem teleportKey_fate (fuel : Nat) (i : Nat) (me : Character) (ch : Int)
    (keys : List Int) (d : Dungeon) (rng : Rng) :
    (PC.teleportKey fuel i me ch keys d rng).Fated i d := by
  unfold PC.teleportKey
  cases teleportCase ch with
  | cursor dx dy => exact moveCursor_fate i d dx dy
  | nothing => exact fate_refl i _
  | confirm =>
    simp only [KeyOutcome.Fated]
    split_ifs
    · refine fate_trans (modifyChar_fate d i _ ?_) (modifyChar_fate _ i _ ?_) <;>
        intro c a <;> exact a
    · refine modifyChar_fate _ i _ ?_
      intro c a; exact a
  | random =>
    simp only
    cases PC.randomCell fuel d rng with
    | none => trivial
    | some p =>
      refine fate_trans (modifyChar_fate d i _ ?_) (modifyChar_fate _ i _ ?_) <;>
        intro c a <;> exact a
  | fog =>
    refine modifyChar_fate d i _ ?_
    intro c a; exact a
  | quit =>
    refine modifyChar_fate d i _ ?_
    intro c _; rfl
  | other => exact fate_refl i _

theorem normalKey_fate (i : Nat) (me : Character) (ch : Int)
    (keys : List Int) (d : Dungeon) (rng : Rng) :
    (PC.normalKey i me ch keys d rng).Fated i d := by
  unfold PC.normalKey
  cases normalCase ch with
  | move dx dy b => exact step_fate _ _ _ _ _
  | rest => exact fate_refl i _
  | stairsDown =>
    simp only [KeyOutcome.Fated]
    split_ifs <;> exact fate_refl i _
  | stairsUp =>
    simp only [KeyOutcome.Fated]
    split_ifs <;> exact fate_refl i _
  | monsterList =>
    simp only
    cases monsterListLoop keys with
    | none => trivial
    | some k => exact fate_refl i _
  | fog =>
    refine modifyChar_fate d i _ ?_
    intro c a; exact a
  | teleport =>
    refine modifyChar_fate d i _ ?_
    intro c a; exact a
  | quit =>
    refine modifyChar_fate d i _ ?_
    intro c _; rfl
  | other => exact fate_refl i _

theorem inputLoop_fate (fuel : Nat) (i : Nat) : ∀ (keys : List Int) (d : Dungeon) (rng : Rng)
    (d1 : Dungeon) (rng1 : Rng) (keys1 : List Int),
    PC.inputLoop fuel i keys d rng = some (d1, rng1, keys1) →
    Fate i d.characters d1.characters := by
  intro keys
  induction keys with
  | nil => intro d rng d1 rng1 keys1 h; simp [PC.inputLoop] at h
  | cons ch keys ih =>
    intro d rng d1 rng1 keys1 h
    rw [PC.inputLoop] at h
    cases hme : d.characters[i]? with
    | none => rw [hme] at h; exact Option.noConfusion h
    | some me =>
      rw [hme] at h
      simp only at h
      have hfr : (if me.teleporting = true then PC.teleportKey fuel i me ch keys d rng
          else PC.normalKey i me ch keys d rng).Fated i d := by
        split_ifs
        · exact teleportKey_fate _ _ _ _ _ _ _
        · exact normalKey_fate _ _ _ _ _ _
      cases hout : (if me.teleporting = true then PC.teleportKey fuel i me ch keys d rng
          else PC.normalKey i me ch keys d rng) with
      | again d2 =>
        rw [hout] at h hfr
        exact fate_trans hfr (ih _ _ _ _ _ h)
      | done d2 rng2 keys2 =>
        rw [hout] at h hfr
        simp only [Option.some.injEq, Prod.mk.injEq] at h
        rw [← h.1]
        exact hfr
      | stuck =>
        rw [hout] at h
        exact Option.noConfusion h

theorem PC_doTurn_fate (fuel : Nat) (i : Nat) (d : Dungeon) (rng : Rng) (keys : List Int)
    (d1 : Dungeon) (rng1 : Rng) (keys1 : List Int)
    (h : PC.doTurn fuel i d rng keys = some (d1, rng1, keys1)) :
    Fate i d.characters d1.characters := by
  unfold PC.doTurn at h
  cases hme : d.characters[i]? with
  | none => rw [hme] at h; exact Option.noConfusion h
  | some me =>
    rw [hme] at h
    simp only at h
    have h1 := inputLoop_fate fuel i keys _ rng d1 rng1 keys1 h
    refine fate_trans ?_ h1
    exact updateRemembered_fate i _

theorem NPC_doTurn_fate (i : Nat) (d : Dungeon) (rng : Rng) :
    Fate i d.characters (NPC.doTurn i d rng).1.characters := by
  unfold NPC.doTurn
  cases h : d.characters[i]? with
  | none => exact fate_refl i _
  | some me =>
    simp only
    split_ifs
    · exact fate_refl i _
    · unfold NPC.act
      simp only
      split_ifs <;> first | exact fate_refl i _ | exact fate_set i _ me _ h (fun a => a)

theorem doTurn_fate (fuel : Nat) (i : Nat) (d : Dungeon) (rng : Rng) (keys : List Int)
    (d1 : Dungeon) (rng1 : Rng) (keys1 : List Int)
    (h : doTurn fuel i d rng keys = some (d1, rng1, keys1)) :
    Fate i d.characters d1.characters := by
  unfold doTurn at h
  cases hc : d.characters[i]? with
  | none => rw [hc] at h; exact Option.noConfusion h
  | some chr =>
    rw [hc] at h
    simp only at h
    cases hty : chr.type with
    | PC_TYPE =>
      rw [hty] at h
      exact PC_doTurn_fate fuel i d rng keys d1 rng1 keys1 h
    | NPC_TYPE =>
      rw [hty] at h
      simp only [Option.some.injEq, Prod.mk.injEq] at h
      rw [← h.1]
      exact NPC_doTurn_fate i d rng

theorem graves_refl (l : List Character) : Graves l l := by
  refine ⟨rfl, ?_⟩
  intro j c c1 h h1 ha
  rw [h] at h1
  simp only [Option.some.injEq] at h1
  rw [← h1]
  exact ⟨ha, rfl, rfl⟩

theorem graves_trans {l1 l2 l3 : List Character} (h1 : Graves l1 l2) (h2 : Graves l2 l3) :
    Graves l1 l3 := by
  refine ⟨h2.1.trans h1.1, ?_⟩
  intro j c c3 hc hc3 ha
  have hj : j < l2.length := by
    rw [h1.1]
    exact (List.getElem?_eq_some.mp hc).1
  obtain ⟨a1, x1, y1⟩ := h1.2 j c l2[j] hc (List.getElem?_eq_getElem hj) ha
  obtain ⟨a2, x2, y2⟩ := h2.2 j l2[j] c3 (List.getElem?_eq_getElem hj) hc3 a1
  exact ⟨a2, x2.trans x1, y2.trans y1⟩

theorem gameLoopBody_graves (fuel : Nat) (e : Event) (s s1 : LoopState) (fl : LoopFlow)
    (hb : gameLoopBody fuel e s = some (s1, fl)) : Graves s.d.characters s1.d.characters := by
  obtain ⟨chr, hchr, h⟩ := gameLoopBody_shape fuel e s s1 fl hb
  rcases h with ⟨-, h1, -⟩ | ⟨hal, d1, rng1, keys1, hturn, hd, -⟩
  · rw [h1]
    exact graves_refl _
  · have hf := doTurn_fate fuel e.c s.d s.rng s.keys d1 rng1 keys1 hturn
    rw [hd]
    refine ⟨hf.1, ?_⟩
    intro j c c1 hc hc1 ha
    obtain ⟨a, b⟩ := hf.2 j c c1 hc hc1
    have hne : j ≠ e.c := by
      intro he
      rw [he, hchr] at hc
      simp only [Option.some.injEq] at hc
      rw [hc, ha] at hal
      exact Bool.noConfusion hal
    exact ⟨a ha, b hne⟩

theorem gameLoopRun_graves (fuel : Nat) : ∀ (n : Nat) (s s1 : LoopState),
    (gameLoopRun fuel n s).2 = some s1 → Graves s.d.characters s1.d.characters := by
  intro n
  induction n with
  | zero => intro s s1 h; simp [gameLoopRun] at h
  | succ n ih =>
    intro s s1 h
    rw [gameLoopRun] at h
    split_ifs at h with hr
    · cases hpop : EventQueue.pop s.eq with
      | none => rw [hpop] at h; simp at h
      | some p =>
        obtain ⟨e, rest⟩ := p
        rw [hpop] at h
        simp only at h
        cases hb : gameLoopBody fuel e { s with eq := rest } with
        | none => rw [hb] at h; simp at h
        | some r =>
          obtain ⟨s2, fl⟩ := r
          rw [hb] at h
          have hg := gameLoopBody_graves fuel e _ s2 fl hb
          cases fl with
          | stop =>
            simp only [Option.some.injEq] at h
            rw [← h]
            exact hg
          | next =>
            simp only at h
            exact graves_trans hg (ih s2 s1 h)
    · simp only [Option.some.injEq] at h
      rw [← h]
      exact graves_refl _

/-- C32: death is terminal.  A turn of the character in slot `i`, `PC::doTurn` or
`NPC::doTurn`, keeps the roster's length, leaves every dead character dead and moves no
other slot than `i`.  One pass of the body of the `gameLoop` loop, and the loop as a
whole, keep the roster's length and leave every dead character dead on its cell; when the
popped character is dead the pass changes nothing but `current_time` (no turn is invoked,
nothing is queued); and an event is queued only for a character that is alive. -/
theorem death_is_terminal (fuel : Nat) :
    (∀ i d rng keys d1 rng1 keys1, PC.doTurn fuel i d rng keys = some (d1, rng1, keys1) →
      Fate i d.characters d1.characters) ∧
    (∀ i d rng, Fate i d.characters (NPC.doTurn i d rng).1.characters) ∧
    (∀ e s s1 fl, gameLoopBody fuel e s = some (s1, fl) →
      Graves s.d.characters s1.d.characters ∧
      (∀ c, s.d.characters[e.c]? = some c → c.alive = false →
        s1 = { s with current_time := e.time } ∧ fl = LoopFlow.next) ∧
      (s1.eq = s.eq ∨ ∃ t c1, s1.eq = EventQueue.push s.eq ⟨t, e.c⟩ ∧
        s1.d.characters[e.c]? = some c1 ∧ c1.alive = true)) ∧
    (∀ n s s1, (gameLoopRun fuel n s).2 = some s1 →
      Graves s.d.characters s1.d.characters) := by
  refine ⟨PC_doTurn_fate fuel, NPC_doTurn_fate, ?_, gameLoopRun_graves fuel⟩
  intro e s s1 fl hb
  refine ⟨gameLoopBody_graves fuel e s s1 fl hb, ?_, ?_⟩
  · intro c hc ha
    obtain ⟨chr, hchr, h⟩ := gameLoopBody_shape fuel e s s1 fl hb
    rw [hc] at hchr
    simp only [Option.some.injEq] at hchr
    rcases h with ⟨-, h1, h2⟩ | ⟨hal, -⟩
    · exact ⟨h1, h2⟩
    · rw [← hchr, ha] at hal
      exact Bool.noConfusion hal
  · obtain ⟨chr, hchr, h⟩ := gameLoopBody_shape fuel e s s1 fl hb
    rcases h with ⟨-, h1, -⟩ | ⟨-, d1, rng1, keys1, -, hd, h2⟩
    · left
      rw [h1]
    · rcases h2 with h2 | ⟨t, c1, h2, h3, h4⟩
      · exact Or.inl h2
      · right
        rw [hd]
        exact ⟨t, c1, h2, h3, h4⟩

theorem death_is_terminal_witness :
    gameLoopBody 1 ⟨0, 1⟩ graveState = some (graveState, LoopFlow.next) ∧
    Graves graveState.d.characters graveState.d.characters ∧
    graveState.eq = graveState.eq :=
  ⟨rfl,
    ((death_is_terminal 1).2.2.1 ⟨0, 1⟩ graveState graveState LoopFlow.next rfl).1,
    rfl⟩
